import Mathlib

/-!
Verification of the CPU-scheduling simulation engine (src/init.py).

The Python source is shallowly embedded: the mutable list of `Process`
objects becomes a `List Process` threaded through explicit state records;
Python object aliasing (list entries shared with ready queues) is modelled
by storing list indices in the queues and mutating through `setIdx`.
Python integers are `Nat` for clocks / bursts / durations (they are never
negative in the source) and `Int` for the metric fields that use the `-1`
sentinel. The unbounded `while completed < n` loops become fuel-indexed
loops (`simLoop`): `none` models the Python loop never terminating.
-/

/-- Process record, mirroring class `Process` of src/init.py (lines 11-23). -/
structure Process where
  pid : String
  arrival : Nat
  burst : Nat
  priority : Int
  remaining : Nat
  completion : Nat
  turnaround : Int
  waiting : Int
  response : Int
  start : Int
  queue_level : Nat
deriving Repr, DecidableEq

instance : Inhabited Process :=
  ⟨⟨"", 0, 0, 0, 0, 0, 0, 0, -1, -1, 0⟩⟩

/-- Constructor `Process.__init__`: `remaining = burst`, metric fields zeroed,
`response = start = -1`, `queue_level = 0`. -/
def mkProcess (pid : String) (arrival burst : Nat) (priority : Int) : Process :=
  { pid := pid, arrival := arrival, burst := burst, priority := priority
    remaining := burst, completion := 0, turnaround := 0, waiting := 0
    response := -1, start := -1, queue_level := 0 }

/-- Read a process from the shared list (Python `procs[i]`). -/
def getIdx (l : List Process) (i : Nat) : Process :=
  l.getD i default

/-- Write a process back to the shared list (Python in-place mutation of the
object aliased at index `i`). -/
def setIdx (l : List Process) (i : Nat) (p : Process) : List Process :=
  l.set i p

/-- Python `gantt[-1] = (label, gantt[-1][1] + d)`: extend the duration of the
last timeline entry.  On an empty list the Python code would raise; that
situation is unreachable (the merge branch runs only when `last_pid` matches
the previous entry), so we return the list unchanged. -/
def extendLast (g : List (String × Nat)) (d : Nat) : List (String × Nat) :=
  match g.getLast? with
  | some e => g.dropLast ++ [(e.1, e.2 + d)]
  | none => g

/-- Sum of all timeline durations. -/
def sumDur (g : List (String × Nat)) : Nat :=
  (g.map (·.2)).sum

/-- Sum of the non-idle timeline durations. -/
def busyDur (g : List (String × Nat)) : Nat :=
  ((g.filter (fun e => e.1 ≠ "IDLE")).map (·.2)).sum

/-- Sum of the idle timeline durations. -/
def idleDur (g : List (String × Nat)) : Nat :=
  ((g.filter (fun e => e.1 = "IDLE")).map (·.2)).sum

/-- Label of the last timeline entry. -/
def lastLabel (g : List (String × Nat)) : Option String :=
  g.getLast?.map (·.1)

/-- No two adjacent timeline entries carry the same occupant label. -/
def chainOk : List (String × Nat) → Prop
  | [] => True
  | [_] => True
  | a :: b :: rest => a.1 ≠ b.1 ∧ chainOk (b :: rest)

instance : DecidablePred chainOk := by
  intro g
  induction g with
  | nil => exact .isTrue trivial
  | cons a t ih =>
    cases t with
    | nil => exact .isTrue trivial
    | cons b r => exact @instDecidableAnd _ _ _ ih

/-- Total of the `remaining` fields. -/
def totalRemaining (l : List Process) : Nat :=
  (l.map (·.remaining)).sum

/-- Total of the `burst` fields. -/
def totalBurst (l : List Process) : Nat :=
  (l.map (·.burst)).sum

/-- Largest arrival time (0 for the empty list). -/
def maxArrival (l : List Process) : Nat :=
  (l.map (·.arrival)).foldr max 0

/-- Fuel large enough for every policy loop on valid input: one loop
iteration either consumes a unit of burst, scans past an arrival index, or
advances the clock towards the last arrival. -/
def simFuel (l : List Process) : Nat :=
  totalBurst l + l.length + maxArrival l + 1

/-- Generic fuel-indexed `while not done: body` loop.  Returning `none`
models the Python loop failing to terminate within the fuel bound. -/
def simLoop (done : σ → Bool) (body : σ → σ) : Nat → σ → Option σ
  | fuel, st =>
    if done st then some st
    else
      match fuel with
      | 0 => none
      | fuel + 1 => simLoop done body fuel (body st)

/-- Fresh working copies built by `sjf`, `srtf`, `round_robin` and `mlfq`
(the `Process(p.pid, p.arrival, p.burst, p.priority)` comprehensions). -/
def copyProcs (processes : List Process) : List Process :=
  processes.map (fun p => mkProcess p.pid p.arrival p.burst p.priority)

/-! ### FCFS (src/init.py lines 41-57) -/

/-- Sort key relation of `fcfs` / `simulate`: ascending `(arrival, pid)`. -/
def arrivalPidLe (a b : Process) : Prop :=
  toLex (a.arrival, a.pid) ≤ toLex (b.arrival, b.pid)

instance : DecidableRel arrivalPidLe := fun a b =>
  inferInstanceAs (Decidable (_ ≤ _))

instance : IsTotal Process arrivalPidLe :=
  ⟨fun a b => le_total _ _⟩

instance : IsTrans Process arrivalPidLe :=
  ⟨fun _ _ _ => le_trans⟩

/-- Loop body of `fcfs`: run each process of the sorted list to completion,
inserting an idle gap when the clock is behind the next arrival. -/
def fcfsRun : Nat → List Process → List Process × List (String × Nat)
  | _, [] => ([], [])
  | time, p :: rest =>
    let idleG : List (String × Nat) :=
      if time < p.arrival then [("IDLE", p.arrival - time)] else []
    let t1 : Nat := if time < p.arrival then p.arrival else time
    let completion := t1 + p.burst
    let turnaround : Int := (completion : Int) - (p.arrival : Int)
    let p1 : Process :=
      { p with start := (t1 : Int), response := (t1 : Int) - (p.arrival : Int)
               completion := completion, turnaround := turnaround
               waiting := turnaround - (p.burst : Int), remaining := 0 }
    let r := fcfsRun completion rest
    (p1 :: r.1, idleG ++ [(p.pid, p.burst)] ++ r.2)

/-- FCFS policy (src/init.py lines 41-57).  Note: `sorted(processes, ...)`
builds a new list but shares the caller's `Process` objects, so the records
it returns (and mutates) are the caller's own records. -/
def fcfs (processes : List Process) : List Process × List (String × Nat) :=
  fcfsRun 0 (List.insertionSort arrivalPidLe processes)

/-! ### SJF (src/init.py lines 59-92) -/

/-- Sort key relation of the initial `procs.sort` in `sjf`:
ascending `(arrival, burst, pid)`. -/
def sjfProcLe (a b : Process) : Prop :=
  toLex (a.arrival, toLex (a.burst, a.pid)) ≤ toLex (b.arrival, toLex (b.burst, b.pid))

instance : DecidableRel sjfProcLe := fun a b =>
  inferInstanceAs (Decidable (_ ≤ _))

instance : IsTotal Process sjfProcLe :=
  ⟨fun a b => le_total _ _⟩

instance : IsTrans Process sjfProcLe :=
  ⟨fun _ _ _ => le_trans⟩

/-- Ready-set selection key of `sjf`: ascending `(burst, arrival, pid)`
over indices into the process list. -/
def sjfReadyLe (procs : List Process) (i j : Nat) : Prop :=
  toLex ((getIdx procs i).burst, toLex ((getIdx procs i).arrival, (getIdx procs i).pid)) ≤
    toLex ((getIdx procs j).burst, toLex ((getIdx procs j).arrival, (getIdx procs j).pid))

instance (procs : List Process) : DecidableRel (sjfReadyLe procs) := fun i j =>
  inferInstanceAs (Decidable (_ ≤ _))

instance (procs : List Process) : IsTotal Nat (sjfReadyLe procs) :=
  ⟨fun a b => le_total _ _⟩

instance (procs : List Process) : IsTrans Nat (sjfReadyLe procs) :=
  ⟨fun _ _ _ => le_trans⟩

/-- State of the `sjf` while-loop. -/
structure SjfState where
  procs : List Process
  time : Nat
  completed : Nat
  idx : Nat
  ready : List Nat
  gantt : List (String × Nat)
deriving Repr

/-- Arrival scan `while idx < n and procs[idx].arrival <= time` of `sjf`:
append each arrived index to the ready list.  The structural counter `k`
bounds the number of steps; the wrapper passes `procs.length - idx`, which
never truncates the scan (the guard fails once `idx` reaches the length). -/
def sjfArriveA (procs : List Process) (time : Nat) :
    Nat → Nat → List Nat → Nat × List Nat
  | 0, idx, ready => (idx, ready)
  | k + 1, idx, ready =>
    if idx < procs.length ∧ (getIdx procs idx).arrival ≤ time then
      sjfArriveA procs time k (idx + 1) (ready ++ [idx])
    else
      (idx, ready)

/-- Arrival scan of `sjf` (src/init.py lines 69-71). -/
def sjfArrive (procs : List Process) (time : Nat) (idx : Nat) (ready : List Nat) :
    Nat × List Nat :=
  sjfArriveA procs time (procs.length - idx) idx ready

/-- Loop guard of all policy loops: `completed < n` has failed. -/
def simDone (completed n : Nat) : Bool :=
  decide (n ≤ completed)

/-- One iteration of the `sjf` while-loop (src/init.py lines 68-91). -/
def sjfBody (st : SjfState) : SjfState :=
  let a := sjfArrive st.procs st.time st.idx st.ready
  let idx := a.1
  match a.2 with
  | [] =>
    if idx < st.procs.length then
      let na := (getIdx st.procs idx).arrival
      { st with idx := idx, ready := []
                gantt := st.gantt ++ [("IDLE", na - st.time)], time := na }
    else
      { st with idx := idx, ready := [] }
  | i0 :: r0 =>
    let sorted := List.insertionSort (sjfReadyLe st.procs) (i0 :: r0)
    let i := sorted.headD 0
    let rest := sorted.tail
    let p := getIdx st.procs i
    let idleG : List (String × Nat) :=
      if st.time < p.arrival then [("IDLE", p.arrival - st.time)] else []
    let t1 : Nat := if st.time < p.arrival then p.arrival else st.time
    let completion := t1 + p.burst
    let turnaround : Int := (completion : Int) - (p.arrival : Int)
    let p1 : Process :=
      { p with start := (t1 : Int), response := (t1 : Int) - (p.arrival : Int)
               completion := completion, turnaround := turnaround
               waiting := turnaround - (p.burst : Int), remaining := 0 }
    { procs := setIdx st.procs i p1, time := completion
      completed := st.completed + 1, idx := idx, ready := rest
      gantt := st.gantt ++ idleG ++ [(p.pid, p.burst)] }

/-- Initial loop state of `sjf` on an already copied and sorted list. -/
def sjfInit (procs : List Process) : SjfState :=
  ⟨procs, 0, 0, 0, [], []⟩

/-- Loop guard of `sjf`. -/
def sjfDone (st : SjfState) : Bool :=
  simDone st.completed st.procs.length

/-- SJF policy (src/init.py lines 59-92): fresh copies, initial sort by
`(arrival, burst, pid)`, then the while-loop. -/
def sjf (processes : List Process) : Option (List Process × List (String × Nat)) :=
  let procs := List.insertionSort sjfProcLe (copyProcs processes)
  (simLoop sjfDone sjfBody (simFuel procs) (sjfInit procs)).map
    fun st => (st.procs, st.gantt)

/-! ### SRTF (src/init.py lines 94-133) -/

/-- Ready-set selection key of `srtf`: ascending `(remaining, arrival, pid)`
over indices into the process list. -/
def srtfLe (procs : List Process) (i j : Nat) : Prop :=
  toLex ((getIdx procs i).remaining, toLex ((getIdx procs i).arrival, (getIdx procs i).pid)) ≤
    toLex ((getIdx procs j).remaining, toLex ((getIdx procs j).arrival, (getIdx procs j).pid))

instance (procs : List Process) : DecidableRel (srtfLe procs) := fun i j =>
  inferInstanceAs (Decidable (_ ≤ _))

instance (procs : List Process) : IsTotal Nat (srtfLe procs) :=
  ⟨fun a b => le_total _ _⟩

instance (procs : List Process) : IsTrans Nat (srtfLe procs) :=
  ⟨fun _ _ _ => le_trans⟩

/-- State of the `srtf` while-loop. -/
structure SrtfState where
  procs : List Process
  time : Nat
  completed : Nat
  idx : Nat
  ready : List Nat
  gantt : List (String × Nat)
  lastPid : Option String
deriving Repr

/-- Arrival scan of `srtf` (lines 104-106): identical shape to `sjfArrive`. -/
def srtfArriveA (procs : List Process) (time : Nat) :
    Nat → Nat → List Nat → Nat × List Nat
  | 0, idx, ready => (idx, ready)
  | k + 1, idx, ready =>
    if idx < procs.length ∧ (getIdx procs idx).arrival ≤ time then
      srtfArriveA procs time k (idx + 1) (ready ++ [idx])
    else
      (idx, ready)

/-- Arrival scan of `srtf`, counter instantiated. -/
def srtfArrive (procs : List Process) (time : Nat) (idx : Nat) (ready : List Nat) :
    Nat × List Nat :=
  srtfArriveA procs time (procs.length - idx) idx ready

/-- One iteration of the `srtf` while-loop (src/init.py lines 103-132):
admit arrivals, filter the ready list, run the smallest-remaining process
for one unit (coalescing timeline entries), or idle-jump. -/
def srtfBody (st : SrtfState) : SrtfState :=
  let a := srtfArrive st.procs st.time st.idx st.ready
  let idx := a.1
  let ready := a.2.filter fun i =>
    decide (0 < (getIdx st.procs i).remaining ∧ (getIdx st.procs i).arrival ≤ st.time)
  match ready with
  | [] =>
    if idx < st.procs.length then
      let na := (getIdx st.procs idx).arrival
      { st with idx := idx, ready := []
                gantt := st.gantt ++ [("IDLE", na - st.time)], time := na
                lastPid := none }
    else
      { st with idx := idx, ready := [] }
  | i0 :: r0 =>
    let sorted := List.insertionSort (srtfLe st.procs) (i0 :: r0)
    let i := sorted.headD 0
    let p := getIdx st.procs i
    let p1 :=
      if p.start = -1 then
        { p with start := (st.time : Int), response := (st.time : Int) - (p.arrival : Int) }
      else p
    let gantt :=
      if st.lastPid ≠ some p1.pid then st.gantt ++ [(p1.pid, 1)]
      else extendLast st.gantt 1
    let p2 := { p1 with remaining := p1.remaining - 1 }
    let time := st.time + 1
    let p3 :=
      if p2.remaining = 0 then
        { p2 with completion := time
                  turnaround := (time : Int) - (p2.arrival : Int)
                  waiting := (time : Int) - (p2.arrival : Int) - (p2.burst : Int) }
      else p2
    { procs := setIdx st.procs i p3, time := time
      completed := if p2.remaining = 0 then st.completed + 1 else st.completed
      idx := idx, ready := sorted, gantt := gantt, lastPid := some p2.pid }

/-- Initial loop state of `srtf` on an already copied list. -/
def srtfInit (procs : List Process) : SrtfState :=
  ⟨procs, 0, 0, 0, [], [], none⟩

/-- Loop guard of `srtf`. -/
def srtfDone (st : SrtfState) : Bool :=
  simDone st.completed st.procs.length

/-- SRTF policy (src/init.py lines 94-133). -/
def srtf (processes : List Process) : Option (List Process × List (String × Nat)) :=
  let procs := copyProcs processes
  (simLoop srtfDone srtfBody (simFuel procs) (srtfInit procs)).map
    fun st => (st.procs, st.gantt)

/-! ### Round-Robin (src/init.py lines 135-189) -/

/-- Python `in_queue.add(pid)`: sets are modelled as duplicate-free lists
with membership-only semantics. -/
def addPid (s : List String) (pid : String) : List String :=
  if pid ∈ s then s else s ++ [pid]

/-- State of the `round_robin` while-loop. -/
structure RRState where
  procs : List Process
  time : Nat
  completed : Nat
  idx : Nat
  queue : List Nat
  inQueue : List String
  gantt : List (String × Nat)
  lastPid : Option String
deriving Repr

/-- Arrival scan of `round_robin` (lines 148-152): advance `idx` over every
arrived process, enqueuing those that are unfinished and not already queued. -/
def rrArriveA (procs : List Process) (time : Nat) :
    Nat → Nat → List Nat → List String → Nat × List Nat × List String
  | 0, idx, queue, inQueue => (idx, queue, inQueue)
  | k + 1, idx, queue, inQueue =>
    if idx < procs.length ∧ (getIdx procs idx).arrival ≤ time then
      if 0 < (getIdx procs idx).remaining ∧ (getIdx procs idx).pid ∉ inQueue then
        rrArriveA procs time k (idx + 1) (queue ++ [idx]) (addPid inQueue (getIdx procs idx).pid)
      else
        rrArriveA procs time k (idx + 1) queue inQueue
    else
      (idx, queue, inQueue)

/-- Arrival scan of `round_robin`, counter instantiated. -/
def rrArrive (procs : List Process) (time : Nat) (idx : Nat) (queue : List Nat)
    (inQueue : List String) : Nat × List Nat × List String :=
  rrArriveA procs time (procs.length - idx) idx queue inQueue

/-- Mid-slice arrival scan of `round_robin` (lines 167-170):
`for i in range(idx, n)`, admitting arrivals inside `(time - run, time]`.
Unlike the top scan this does not advance `idx`. -/
def rrSliceArriveA (procs : List Process) (time run : Nat) :
    Nat → Nat → List Nat → List String → List Nat × List String
  | 0, _, queue, inQueue => (queue, inQueue)
  | k + 1, i, queue, inQueue =>
    if i < procs.length then
      if time - run < (getIdx procs i).arrival ∧ (getIdx procs i).arrival ≤ time ∧
          0 < (getIdx procs i).remaining ∧ (getIdx procs i).pid ∉ inQueue then
        rrSliceArriveA procs time run k (i + 1) (queue ++ [i]) (addPid inQueue (getIdx procs i).pid)
      else
        rrSliceArriveA procs time run k (i + 1) queue inQueue
    else
      (queue, inQueue)

/-- Mid-slice arrival scan of `round_robin`, counter instantiated. -/
def rrSliceArrive (procs : List Process) (time run : Nat) (i : Nat) (queue : List Nat)
    (inQueue : List String) : List Nat × List String :=
  rrSliceArriveA procs time run (procs.length - i) i queue inQueue

/-- One iteration of the `round_robin` while-loop (src/init.py lines 146-188). -/
def rrBody (quantum : Nat) (st : RRState) : RRState :=
  let a := rrArrive st.procs st.time st.idx st.queue st.inQueue
  let idx := a.1
  match a.2.1 with
  | [] =>
    if idx < st.procs.length then
      let na := (getIdx st.procs idx).arrival
      { st with idx := idx, queue := [], inQueue := a.2.2
                gantt := st.gantt ++ [("IDLE", na - st.time)], time := na
                lastPid := none }
    else
      { st with idx := idx, queue := [], inQueue := a.2.2 }
  | i :: rest =>
    let inQ0 := a.2.2.erase (getIdx st.procs i).pid
    let p := getIdx st.procs i
    let p1 :=
      if p.start = -1 then
        { p with start := (st.time : Int), response := (st.time : Int) - (p.arrival : Int) }
      else p
    let run := min quantum p1.remaining
    let gantt :=
      if st.lastPid ≠ some p1.pid then st.gantt ++ [(p1.pid, run)]
      else extendLast st.gantt run
    let time := st.time + run
    let p2 := { p1 with remaining := p1.remaining - run }
    let procs1 := setIdx st.procs i p2
    let s := rrSliceArrive procs1 time run idx rest inQ0
    if 0 < p2.remaining then
      let queue :=
        if p2.pid ∉ s.2 then s.1 ++ [i] else s.1
      let inQ := addPid s.2 p2.pid
      { procs := procs1, time := time, completed := st.completed, idx := idx
        queue := queue, inQueue := inQ, gantt := gantt, lastPid := some p2.pid }
    else
      let p3 :=
        { p2 with completion := time
                  turnaround := (time : Int) - (p2.arrival : Int)
                  waiting := (time : Int) - (p2.arrival : Int) - (p2.burst : Int) }
      { procs := setIdx st.procs i p3, time := time, completed := st.completed + 1
        idx := idx, queue := s.1, inQueue := s.2, gantt := gantt
        lastPid := some p2.pid }

/-- Initial loop state of `round_robin` on an already copied list. -/
def rrInit (procs : List Process) : RRState :=
  ⟨procs, 0, 0, 0, [], [], [], none⟩

/-- Loop guard of `round_robin`. -/
def rrDone (st : RRState) : Bool :=
  simDone st.completed st.procs.length

/-- Round-Robin policy (src/init.py lines 135-189). -/
def round_robin (processes : List Process) (quantum : Nat) :
    Option (List Process × List (String × Nat)) :=
  let procs := copyProcs processes
  (simLoop rrDone (rrBody quantum) (simFuel procs) (rrInit procs)).map
    fun st => (st.procs, st.gantt)

/-! ### MLFQ (src/init.py lines 191-255) -/

/-- State of the `mlfq` while-loop.  `levelTime` models the Python dict
`level_time = {p.pid: [0,0,0,0] for p in procs}`. -/
structure MlfqState where
  procs : List Process
  time : Nat
  completed : Nat
  idx : Nat
  queues : List (List Nat)
  inQueue : List String
  levelTime : String → List Nat
  gantt : List (String × Nat)
  lastPid : Option (String × Nat)

/-- Arrival scan of `mlfq` (lines 203-207 and 225-229): every arrived
process enters queue 0 with `queue_level = 0`. -/
def mlfqArriveA (time : Nat) :
    Nat → List Process → Nat → List Nat → List String →
      List Process × Nat × List Nat × List String
  | 0, procs, idx, q0, inQueue => (procs, idx, q0, inQueue)
  | k + 1, procs, idx, q0, inQueue =>
    if idx < procs.length ∧ (getIdx procs idx).arrival ≤ time then
      mlfqArriveA time k (setIdx procs idx { getIdx procs idx with queue_level := 0 })
        (idx + 1) (q0 ++ [idx]) (addPid inQueue (getIdx procs idx).pid)
    else
      (procs, idx, q0, inQueue)

/-- Arrival scan of `mlfq`, counter instantiated. -/
def mlfqArrive (procs : List Process) (time : Nat) (idx : Nat) (q0 : List Nat)
    (inQueue : List String) : List Process × Nat × List Nat × List String :=
  mlfqArriveA time (procs.length - idx) procs idx q0 inQueue

/-- One iteration of the `mlfq` while-loop (src/init.py lines 202-254). -/
def mlfqBody (quanta allotments : List Nat) (st : MlfqState) : MlfqState :=
  let a := mlfqArrive st.procs st.time st.idx (st.queues.getD 0 []) st.inQueue
  let procs := a.1
  let idx := a.2.1
  let queues := st.queues.set 0 a.2.2.1
  let inQueue := a.2.2.2
  match queues.findIdx? (fun q => !q.isEmpty) with
  | none =>
    if idx < procs.length then
      let na := (getIdx procs idx).arrival
      { st with procs := procs, idx := idx, queues := queues, inQueue := inQueue
                gantt := st.gantt ++ [("IDLE", na - st.time)], time := na
                lastPid := none }
    else
      { st with procs := procs, idx := idx, queues := queues, inQueue := inQueue }
  | some qidx =>
    match queues.getD qidx [] with
    | [] => { st with procs := procs, idx := idx, queues := queues, inQueue := inQueue }
    | i :: restQ =>
      let queues1 := queues.set qidx restQ
      let p := getIdx procs i
      let inQ1 := inQueue.erase p.pid
      let quantum := quanta.getD qidx 0
      let allot := allotments.getD qidx 0
      let lt := (st.levelTime p.pid).getD qidx 0
      let run := min quantum (min p.remaining (allot - lt))
      let p1 :=
        if p.start = -1 then
          { p with start := (st.time : Int), response := (st.time : Int) - (p.arrival : Int) }
        else p
      let label := p1.pid ++ "(Q" ++ toString qidx ++ ")"
      let gantt :=
        if st.lastPid ≠ some (p1.pid, qidx) then st.gantt ++ [(label, run)]
        else extendLast st.gantt run
      let time := st.time + run
      let p2 := { p1 with remaining := p1.remaining - run }
      let lt1 := fun s =>
        if s = p2.pid then (st.levelTime p2.pid).set qidx (lt + run) else st.levelTime s
      let procs2 := setIdx procs i p2
      let b := mlfqArrive procs2 time idx (queues1.getD 0 []) inQ1
      let procs3 := b.1
      let idx2 := b.2.1
      let queues2 := queues1.set 0 b.2.2.1
      let inQ2 := b.2.2.2
      if p2.remaining = 0 then
        let p3 :=
          { p2 with completion := time
                    turnaround := (time : Int) - (p2.arrival : Int)
                    waiting := (time : Int) - (p2.arrival : Int) - (p2.burst : Int) }
        { procs := setIdx procs3 i p3, time := time, completed := st.completed + 1
          idx := idx2, queues := queues2, inQueue := inQ2, levelTime := lt1
          gantt := gantt, lastPid := some (p2.pid, qidx) }
      else if allot ≤ lt + run then
        let lt2 := fun s =>
          if s = p2.pid then ((st.levelTime p2.pid).set qidx (lt + run)).set qidx 0
          else st.levelTime s
        if qidx < 3 then
          { procs := setIdx procs3 i { p2 with queue_level := qidx + 1 }
            time := time, completed := st.completed, idx := idx2
            queues := queues2.set (qidx + 1) ((queues2.getD (qidx + 1) []) ++ [i])
            inQueue := addPid inQ2 p2.pid, levelTime := lt2
            gantt := gantt, lastPid := some (p2.pid, qidx) }
        else
          { procs := procs3, time := time, completed := st.completed, idx := idx2
            queues := queues2.set qidx ((queues2.getD qidx []) ++ [i])
            inQueue := addPid inQ2 p2.pid, levelTime := lt2
            gantt := gantt, lastPid := some (p2.pid, qidx) }
      else
        { procs := procs3, time := time, completed := st.completed, idx := idx2
          queues := queues2.set qidx ((queues2.getD qidx []) ++ [i])
          inQueue := addPid inQ2 p2.pid, levelTime := lt1
          gantt := gantt, lastPid := some (p2.pid, qidx) }

/-- Initial loop state of `mlfq` on an already copied list. -/
def mlfqInit (procs : List Process) : MlfqState :=
  ⟨procs, 0, 0, 0, [[], [], [], []], [], fun _ => [0, 0, 0, 0], [], none⟩

/-- Loop guard of `mlfq`. -/
def mlfqDone (st : MlfqState) : Bool :=
  simDone st.completed st.procs.length

/-- MLFQ policy (src/init.py lines 191-255). -/
def mlfq (processes : List Process) (quanta allotments : List Nat) :
    Option (List Process × List (String × Nat)) :=
  let procs := copyProcs processes
  (simLoop mlfqDone (mlfqBody quanta allotments) (simFuel procs) (mlfqInit procs)).map
    fun st => (st.procs, st.gantt)

/-! ### GUI boundary: metrics aggregation and input validation -/

/-- Metrics aggregator `CPUSchedulerGUI.update_metrics` (lines 611-628).
Python float arithmetic is modelled exactly over `ℚ` (all quantities are
small integers divided by a count, exactly representable).  The `n == 0`
early return (the GUI shows dashes) is modelled as `none`. -/
def update_metrics (procs : List Process) : Option (ℚ × ℚ × ℚ) :=
  let n := procs.length
  if n = 0 then none
  else
    let avgWait : ℚ := ((procs.map (·.waiting)).sum : Int) / (n : ℚ)
    let avgTurn : ℚ := ((procs.map (·.turnaround)).sum : Int) / (n : ℚ)
    let avgResp : ℚ :=
      (((procs.filter (fun p => p.response ≠ -1)).map (·.response)).sum : Int) / (n : ℚ)
    some (avgWait, avgTurn, avgResp)

/-- Boundary validation `CPUSchedulerGUI.add_process` (lines 402-421), after
integer parsing: the parsed `burst` may be any integer, and `burst ≤ 0` is
rejected before the process list changes (arrival is `≥ 0` per the input
contract of spec §6).  Returns the new process list and the action message. -/
def add_process (processes : List Process) (pid : String) (arrival : Nat) (burst : Int) :
    List Process × String :=
  if burst ≤ 0 then
    (processes, " Execution time must be greater than 0! ")
  else if processes.any (fun p => p.pid = pid) then
    (processes, " Duplicate PID detected! ")
  else
    (processes ++ [mkProcess pid arrival burst.toNat 0], "")

/-- The sort the GUI applies before every run (`simulate`, line 490). -/
def simulateSort (processes : List Process) : List Process :=
  List.insertionSort arrivalPidLe processes

/-! ### Caller aliasing model

Which records does each policy mutate?  `sjf`, `srtf`, `round_robin` and
`mlfq` first build fresh records (`Process(p.pid, p.arrival, p.burst,
p.priority)` comprehensions, lines 60/95/137/192), so the caller's own
records are untouched; the functions below record that fact.  `fcfs`
instead calls `sorted(processes, ...)` (line 42), which returns a new list
holding the caller's same `Process` objects and then mutates them in
place; the caller's list therefore holds mutated records afterwards.  With
unique pids the caller's view after `fcfs` is each original record
replaced by the like-pid record of the result. -/

/-- Contents of the caller's list after `fcfs` returns: each record object,
aliased into the sorted working list, has been mutated to its final state. -/
def fcfsCallerAfter (processes : List Process) : List Process :=
  processes.map fun q => ((fcfs processes).1.find? (fun r => r.pid = q.pid)).getD q

/-- Contents of the caller's list after `sjf` returns (line 60 copies). -/
def sjfCallerAfter (processes : List Process) : List Process := processes

/-- Contents of the caller's list after `srtf` returns (line 95 copies). -/
def srtfCallerAfter (processes : List Process) : List Process := processes

/-- Contents of the caller's list after `round_robin` returns (line 137 copies). -/
def rrCallerAfter (processes : List Process) (_quantum : Nat) : List Process := processes

/-- Contents of the caller's list after `mlfq` returns (line 192 copies). -/
def mlfqCallerAfter (processes : List Process) (_quanta _allotments : List Nat) :
    List Process := processes

/-! ### Spec-side quantities (for stating the claims) -/

/-- Smallest arrival time (0 for the empty list). -/
def minArrival (l : List Process) : Nat :=
  match l.map (·.arrival) with
  | [] => 0
  | a :: r => r.foldr min a

/-- Span between the first and the last arrival, as in spec §5. -/
def arrivalSpan (l : List Process) : Nat :=
  maxArrival l - minArrival l

/-- Completion time of the last-finishing process (0 for the empty list). -/
def maxCompletion (l : List Process) : Nat :=
  (l.map (·.completion)).foldr max 0

/-- Arithmetic mean of a list of integers, as a rational (spec §4.7). -/
def arithMean (xs : List Int) : ℚ :=
  ((xs.sum : Int) : ℚ) / (xs.length : ℚ)

/-- Validity of a workload at the engine boundary: positive bursts and
unique ids (spec §3 invariants, §6 input contract, §7 error taxonomy). -/
def ValidInput (l : List Process) : Prop :=
  (∀ p ∈ l, 0 < p.burst) ∧ (l.map (·.pid)).Nodup

instance : DecidablePred ValidInput := fun l =>
  inferInstanceAs (Decidable (_ ∧ _))

/-- The occupant labels of the timeline are unambiguous: no process is
named by the reserved idle marker, and no pid contains a parenthesis (so
the MLFQ labels `pid(Qk)` cannot collide across distinct `(pid, level)`
pairs).  Implicit in spec §3 Timeline: an occupant is *either* a process
id (optionally tagged with its level) *or* the reserved idle marker. -/
def LabelsOk (l : List Process) : Prop :=
  ∀ p ∈ l, p.pid ≠ "IDLE" ∧ ∀ c ∈ p.pid.data, c ≠ '('

instance : DecidablePred LabelsOk := fun l =>
  inferInstanceAs (Decidable (∀ _ ∈ _, _))

/-- Input sorted by non-decreasing arrival time, the implicit precondition
of the forward arrival scans (`simulate` sorts by `(arrival, pid)`). -/
def ArrivalSorted (l : List Process) : Prop :=
  l.Pairwise (fun a b => a.arrival ≤ b.arrival)

instance : DecidablePred ArrivalSorted := fun l =>
  inferInstanceAs (Decidable (List.Pairwise _ _))

/-! ### Round-Robin loop invariant -/

/-- Invariant of the `round_robin` while-loop, relative to the initial
(copied) process list `procs0`.  It packages the bookkeeping facts the
claims need: index/queue hygiene, the set-vs-queue coherence, metric
accounting, the clock bound, and the timeline chain discipline. -/
structure RRInv (procs0 : List Process) (st : RRState) : Prop where
  len : st.procs.length = procs0.length
  frame : ∀ i, i < procs0.length →
    (getIdx st.procs i).pid = (getIdx procs0 i).pid ∧
    (getIdx st.procs i).arrival = (getIdx procs0 i).arrival ∧
    (getIdx st.procs i).burst = (getIdx procs0 i).burst
  idx_le : st.idx ≤ procs0.length
  arrived : ∀ i, i < st.idx → (getIdx st.procs i).arrival ≤ st.time
  unarr : ∀ i, i < procs0.length → st.time < (getIdx procs0 i).arrival →
    getIdx st.procs i = getIdx procs0 i
  qlen : ∀ i ∈ st.queue, i < procs0.length
  qarr : ∀ i ∈ st.queue, (getIdx st.procs i).arrival ≤ st.time
  qrem : ∀ i ∈ st.queue, 0 < (getIdx st.procs i).remaining
  qnd : st.queue.Nodup
  coh : st.inQueue = st.queue.map (fun i => (getIdx st.procs i).pid)
  inqueue_all : ∀ i, i < st.idx → 0 < (getIdx st.procs i).remaining → i ∈ st.queue
  rem_le : ∀ i, i < procs0.length →
    (getIdx st.procs i).remaining ≤ (getIdx st.procs i).burst
  count : st.completed = st.procs.countP (fun p => decide (p.remaining = 0))
  clock : st.time + totalRemaining st.procs ≤ maxArrival procs0 + totalBurst procs0
  sumg : sumDur st.gantt = st.time
  lastg : ∀ s, st.lastPid = some s → lastLabel st.gantt = some s
  cmpl_le : ∀ i, i < procs0.length → (getIdx st.procs i).completion ≤ st.time
  cmpl_last : (∀ i, i < procs0.length → (getIdx st.procs i).remaining = 0) →
    0 < procs0.length →
    ∃ i, i < procs0.length ∧ (getIdx st.procs i).completion = st.time
  busy : LabelsOk procs0 →
    busyDur st.gantt + totalRemaining st.procs = totalBurst procs0
  chain : LabelsOk procs0 →
    chainOk st.gantt ∧
    (∀ s, st.lastPid = some s → s ≠ "IDLE") ∧
    (st.lastPid = none → st.gantt = [] ∨
      (lastLabel st.gantt = some "IDLE" ∧ st.queue = [] ∧ st.idx < procs0.length ∧
        (getIdx st.procs st.idx).arrival ≤ st.time ∧
        0 < (getIdx st.procs st.idx).remaining))

/-! ## Generic loop and list infrastructure -/

theorem simLoop_eq_iterate {σ : Type} (done : σ → Bool) (body : σ → σ) :
    ∀ (fuel : Nat) (st st' : σ), simLoop done body fuel st = some st' →
      ∃ k, st' = body^[k] st ∧ done st' = true := by
  intro fuel
  induction fuel with
  | zero =>
    intro st st' h
    rw [simLoop] at h
    by_cases hd : done st
    · rw [if_pos hd] at h
      exact ⟨0, by simpa using (Option.some_inj.mp h).symm, by simpa [← Option.some_inj.mp h] using hd⟩
    · rw [if_neg hd] at h
      exact absurd h (by simp)
  | succ fuel ih =>
    intro st st' h
    rw [simLoop] at h
    by_cases hd : done st
    · rw [if_pos hd] at h
      exact ⟨0, by simpa using (Option.some_inj.mp h).symm, by simpa [← Option.some_inj.mp h] using hd⟩
    · rw [if_neg hd] at h
      obtain ⟨k, hk, hdone⟩ := ih (body st) st' h
      exact ⟨k + 1, by simpa [Function.iterate_succ_apply] using hk, hdone⟩

theorem iterate_inv {σ : Type} {Inv : σ → Prop} {body : σ → σ}
    (hpres : ∀ s, Inv s → Inv (body s)) :
    ∀ (k : Nat) (st : σ), Inv st → Inv (body^[k] st) := by
  intro k
  induction k with
  | zero => intro st h; simpa using h
  | succ k ih =>
    intro st h
    rw [Function.iterate_succ_apply]
    exact ih (body st) (hpres st h)

theorem simLoop_terminates {σ : Type} {Inv : σ → Prop} (done : σ → Bool) (body : σ → σ)
    (μ : σ → Nat)
    (hpres : ∀ s, Inv s → Inv (body s))
    (hdec : ∀ s, Inv s → done s = false → μ (body s) < μ s) :
    ∀ (fuel : Nat) (st : σ), Inv st → μ st ≤ fuel →
      ∃ st', simLoop done body fuel st = some st' := by
  intro fuel
  induction fuel with
  | zero =>
    intro st hinv hμ
    by_cases hd : done st
    · exact ⟨st, by rw [simLoop, if_pos hd]⟩
    · exfalso
      have := hdec st hinv (Bool.not_eq_true _ ▸ eq_false_of_ne_true hd)
      omega
  | succ fuel ih =>
    intro st hinv hμ
    by_cases hd : done st
    · exact ⟨st, by rw [simLoop, if_pos hd]⟩
    · have hfalse : done st = false := eq_false_of_ne_true hd
      have hlt := hdec st hinv hfalse
      obtain ⟨st', h⟩ := ih (body st) (hpres st hinv) (by omega)
      exact ⟨st', by rw [simLoop, if_neg hd]; exact h⟩

theorem getIdx_setIdx_self :
    ∀ (l : List Process) (i : Nat) (p : Process), i < l.length →
      getIdx (setIdx l i p) i = p := by
  intro l
  induction l with
  | nil => intro i p h; simp at h
  | cons a t ih =>
    intro i p h
    cases i with
    | zero => rfl
    | succ i =>
      simp only [setIdx, List.set, getIdx, List.getD_cons_succ] at *
      exact ih i p (by simpa using h)

theorem getIdx_setIdx_ne :
    ∀ (l : List Process) (i j : Nat) (p : Process), i ≠ j →
      getIdx (setIdx l i p) j = getIdx l j := by
  intro l
  induction l with
  | nil => intro i j p _; cases i <;> rfl
  | cons a t ih =>
    intro i j p hij
    cases i with
    | zero =>
      cases j with
      | zero => exact absurd rfl hij
      | succ j => rfl
    | succ i =>
      cases j with
      | zero => rfl
      | succ j =>
        simp only [setIdx, List.set, getIdx, List.getD_cons_succ] at *
        exact ih i j p (fun h => hij (by omega))

theorem length_setIdx (l : List Process) (i : Nat) (p : Process) :
    (setIdx l i p).length = l.length :=
  List.length_set l i p

theorem getIdx_mem :
    ∀ (l : List Process) (i : Nat), i < l.length → getIdx l i ∈ l := by
  intro l
  induction l with
  | nil => intro i h; simp at h
  | cons a t ih =>
    intro i h
    cases i with
    | zero => exact List.mem_cons_self a t
    | succ i => exact List.mem_cons_of_mem a (ih i (by simpa using h))

theorem sum_map_setIdx (f : Process → Nat) :
    ∀ (l : List Process) (i : Nat) (p : Process), i < l.length →
      (List.map f (setIdx l i p)).sum + f (getIdx l i) = (List.map f l).sum + f p := by
  intro l
  induction l with
  | nil => intro i p h; simp at h
  | cons a t ih =>
    intro i p h
    cases i with
    | zero =>
      simp only [setIdx, List.set, List.map_cons, List.sum_cons, getIdx, List.getD_cons_zero]
      omega
    | succ i =>
      simp only [setIdx, List.set, List.map_cons, List.sum_cons, getIdx,
        List.getD_cons_succ] at *
      have := ih i p (by simpa using h)
      omega

theorem count_map_setIdx (f : Process → Bool) :
    ∀ (l : List Process) (i : Nat) (p : Process), i < l.length →
      (setIdx l i p).countP f + (if f (getIdx l i) then 1 else 0) =
        l.countP f + (if f p then 1 else 0) := by
  intro l
  induction l with
  | nil => intro i p h; simp at h
  | cons a t ih =>
    intro i p h
    cases i with
    | zero =>
      simp only [setIdx, List.set, List.countP_cons, getIdx, List.getD_cons_zero]
      by_cases hf : f p <;> by_cases ha : f a <;> simp [hf, ha] <;> omega
    | succ i =>
      simp only [setIdx, List.set, List.countP_cons, getIdx, List.getD_cons_succ] at *
      have := ih i p (by simpa using h)
      by_cases ha : f a <;> simp [ha] at * <;> omega

theorem arrival_le_maxArrival :
    ∀ (l : List Process) (i : Nat), i < l.length → (getIdx l i).arrival ≤ maxArrival l := by
  intro l
  induction l with
  | nil => intro i h; simp at h
  | cons a t ih =>
    intro i h
    cases i with
    | zero =>
      simp only [getIdx, List.getD_cons_zero, maxArrival, List.map_cons, List.foldr_cons]
      exact le_max_left _ _
    | succ i =>
      have := ih i (by simpa using h)
      simp only [getIdx, List.getD_cons_succ, maxArrival, List.map_cons, List.foldr_cons]
      calc (getIdx t i).arrival ≤ maxArrival t := this
      _ ≤ max a.arrival (maxArrival t) := le_max_right _ _

theorem getIdx_eq_get (l : List Process) (i : Nat) (h : i < l.length) :
    getIdx l i = l.get ⟨i, h⟩ := by
  simp [getIdx, List.getD_eq_getElem?_getD, List.getElem?_eq_getElem h]

theorem pid_inj (l : List Process) (hnd : (l.map (·.pid)).Nodup) (i j : Nat)
    (hi : i < l.length) (hj : j < l.length)
    (h : (getIdx l i).pid = (getIdx l j).pid) : i = j := by
  rw [getIdx_eq_get l i hi, getIdx_eq_get l j hj] at h
  have hmap : (l.map (·.pid)).get ⟨i, by simpa using hi⟩ =
      (l.map (·.pid)).get ⟨j, by simpa using hj⟩ := by
    simp only [List.get_map]
    exact h
  have := (List.Nodup.get_inj_iff hnd).mp hmap
  simpa using this

/-! ## Timeline lemmas -/

theorem sumDur_append (g h : List (String × Nat)) :
    sumDur (g ++ h) = sumDur g + sumDur h := by
  simp [sumDur]

theorem extendLast_concat (l : List (String × Nat)) (e : String × Nat) (d : Nat) :
    extendLast (l ++ [e]) d = l ++ [(e.1, e.2 + d)] := by
  simp [extendLast, List.getLast?_concat]

theorem lastLabel_concat (g : List (String × Nat)) (e : String × Nat) :
    lastLabel (g ++ [e]) = some e.1 := by
  simp [lastLabel, List.getLast?_concat]

theorem lastLabel_extendLast (g : List (String × Nat)) (d : Nat) :
    lastLabel (extendLast g d) = lastLabel g := by
  rcases List.eq_nil_or_concat g with rfl | ⟨l, e, rfl⟩
  · rfl
  · rw [List.concat_eq_append, extendLast_concat, lastLabel_concat, lastLabel_concat]

theorem sumDur_extendLast (g : List (String × Nat)) (d : Nat) (hg : g ≠ []) :
    sumDur (extendLast g d) = sumDur g + d := by
  rcases List.eq_nil_or_concat g with rfl | ⟨l, e, rfl⟩
  · exact absurd rfl hg
  · rw [List.concat_eq_append, extendLast_concat, sumDur_append, sumDur_append]
    simp [sumDur, Nat.add_assoc]

theorem busyDur_concat (g : List (String × Nat)) (lbl : String) (d : Nat) :
    busyDur (g ++ [(lbl, d)]) = busyDur g + (if lbl = "IDLE" then 0 else d) := by
  by_cases h : lbl = "IDLE" <;> simp [busyDur, List.filter_append, h]

theorem busyDur_extendLast (g : List (String × Nat)) (d : Nat) (s : String)
    (hs : lastLabel g = some s) (hI : s ≠ "IDLE") :
    busyDur (extendLast g d) = busyDur g + d := by
  rcases List.eq_nil_or_concat g with rfl | ⟨l, e, rfl⟩
  · simp [lastLabel] at hs
  · rw [List.concat_eq_append] at *
    rw [lastLabel_concat] at hs
    have he : e.1 = s := by simpa using hs
    rw [extendLast_concat, busyDur_concat, busyDur_concat, he, if_neg hI, if_neg hI]
    omega

theorem busyDur_add_idleDur (g : List (String × Nat)) :
    busyDur g + idleDur g = sumDur g := by
  induction g with
  | nil => rfl
  | cons e t ih =>
    by_cases h : e.1 = "IDLE" <;>
      simp [busyDur, idleDur, sumDur, List.filter_cons, h] at * <;> omega

theorem chainOk_concat_iff (g : List (String × Nat)) (lbl : String) (d : Nat) :
    chainOk (g ++ [(lbl, d)]) ↔
      chainOk g ∧ ∀ s, lastLabel g = some s → s ≠ lbl := by
  induction g with
  | nil => simp [chainOk, lastLabel]
  | cons a t ih =>
    cases t with
    | nil =>
      simp [chainOk, lastLabel, List.getLast?]
    | cons b r =>
      have hlast : lastLabel (a :: b :: r) = lastLabel (b :: r) := by
        simp [lastLabel, List.getLast?_cons_cons]
      constructor
      · intro h
        rw [List.cons_append, List.cons_append] at h
        obtain ⟨hab, h2⟩ := h
        rw [← List.cons_append] at h2
        obtain ⟨h3, h4⟩ := ih.mp h2
        exact ⟨⟨hab, h3⟩, by rw [hlast]; exact h4⟩
      · intro ⟨⟨hab, h3⟩, h4⟩
        rw [List.cons_append, List.cons_append]
        refine ⟨hab, ?_⟩
        rw [← List.cons_append]
        exact ih.mpr ⟨h3, by rw [hlast] at h4; exact h4⟩

theorem chainOk_extendLast (g : List (String × Nat)) (d : Nat) (h : chainOk g) :
    chainOk (extendLast g d) := by
  rcases List.eq_nil_or_concat g with rfl | ⟨l, e, rfl⟩
  · exact h
  · rw [List.concat_eq_append] at *
    rw [extendLast_concat]
    rcases e with ⟨s, n⟩
    rw [chainOk_concat_iff] at h ⊢
    exact h

/-! ## Sorted-selection lemma -/

theorem insertionSort_ne_nil {α : Type} (r : α → α → Prop) [DecidableRel r]
    (l : List α) (hl : l ≠ []) : List.insertionSort r l ≠ [] := by
  intro h
  have hp := List.perm_insertionSort r l
  rw [h] at hp
  exact hl hp.symm.eq_nil

theorem headD_insertionSort_min {α : Type} (r : α → α → Prop) [DecidableRel r]
    [IsTotal α r] [IsTrans α r] (l : List α) (d : α) (x : α) (hx : x ∈ l) :
    r ((List.insertionSort r l).headD d) x := by
  have hmem : x ∈ List.insertionSort r l := (List.mem_insertionSort r).mpr hx
  have hsorted := List.sorted_insertionSort r l
  cases hs : List.insertionSort r l with
  | nil => rw [hs] at hmem; simp at hmem
  | cons h t =>
    rw [hs] at hmem hsorted
    rw [List.headD_cons]
    rcases List.mem_cons.mp hmem with rfl | hxt
    · rcases IsTotal.total (r := r) x x with h' | h' <;> exact h'
    · exact (List.sorted_cons.mp hsorted).1 x hxt

/-! ## Pointwise list helpers -/

theorem map_eq_of_getIdx {α : Type} (f : Process → α) :
    ∀ (l1 l2 : List Process), l1.length = l2.length →
      (∀ i, i < l2.length → f (getIdx l1 i) = f (getIdx l2 i)) →
      l1.map f = l2.map f := by
  intro l1
  induction l1 with
  | nil =>
    intro l2 hlen _
    cases l2 with
    | nil => rfl
    | cons b t => simp at hlen
  | cons a t1 ih =>
    intro l2 hlen h
    cases l2 with
    | nil => simp at hlen
    | cons b t2 =>
      have h0 := h 0 (by simp)
      simp only [getIdx, List.getD_cons_zero] at h0
      have ht : t1.map f = t2.map f := by
        refine ih t2 (by simpa using hlen) ?_
        intro i hi
        have := h (i + 1) (by simpa using Nat.succ_lt_succ hi)
        simpa [getIdx, List.getD_cons_succ] using this
      simp [h0, ht]

theorem totalRemaining_le_totalBurst (l : List Process)
    (h : ∀ i, i < l.length → (getIdx l i).remaining ≤ (getIdx l i).burst) :
    totalRemaining l ≤ totalBurst l := by
  induction l with
  | nil => exact le_refl _
  | cons a t ih =>
    have h0 := h 0 (by simp)
    simp only [getIdx, List.getD_cons_zero] at h0
    have ht := ih (fun i hi => by
      have := h (i + 1) (by simpa using Nat.succ_lt_succ hi)
      simpa [getIdx, List.getD_cons_succ] using this)
    simp only [totalRemaining, totalBurst, List.map_cons, List.sum_cons] at *
    omega

theorem remaining_le_totalRemaining :
    ∀ (l : List Process) (i : Nat), i < l.length →
      (getIdx l i).remaining ≤ totalRemaining l := by
  intro l
  induction l with
  | nil => intro i h; simp at h
  | cons a t ih =>
    intro i h
    cases i with
    | zero =>
      simp only [getIdx, List.getD_cons_zero, totalRemaining, List.map_cons, List.sum_cons]
      omega
    | succ i =>
      have := ih i (by simpa using h)
      simp only [getIdx, List.getD_cons_succ, totalRemaining, List.map_cons,
        List.sum_cons] at *
      omega

theorem lastLabel_some_ne_nil (g : List (String × Nat)) (s : String)
    (h : lastLabel g = some s) : g ≠ [] := by
  intro hnil
  rw [hnil] at h
  simp [lastLabel] at h

/-! ## Round-Robin arrival-scan lemmas -/

theorem rrArriveA_spec (procs : List Process) (time : Nat)
    (hpids : (procs.map (·.pid)).Nodup) :
    ∀ (k idx : Nat) (q : List Nat) (inQ : List String)
      (idx' : Nat) (q' : List Nat) (inQ' : List String),
      rrArriveA procs time k idx q inQ = (idx', q', inQ') →
      procs.length ≤ idx + k → idx ≤ procs.length →
      inQ = q.map (fun i => (getIdx procs i).pid) →
      q.Nodup → (∀ j ∈ q, j < procs.length) →
      idx ≤ idx' ∧ idx' ≤ procs.length ∧
      inQ' = q'.map (fun i => (getIdx procs i).pid) ∧
      q'.Nodup ∧ (∀ j ∈ q', j < procs.length) ∧
      (∃ added, q' = q ++ added ∧ ∀ j ∈ added, idx ≤ j ∧ j < idx' ∧
        (getIdx procs j).arrival ≤ time ∧ 0 < (getIdx procs j).remaining) ∧
      (idx' = procs.length ∨ ¬ (getIdx procs idx').arrival ≤ time) ∧
      (∀ j, idx ≤ j → j < idx' → (getIdx procs j).arrival ≤ time) ∧
      (∀ j, idx ≤ j → j < idx' → 0 < (getIdx procs j).remaining → j ∈ q') := by
  intro k
  induction k with
  | zero =>
    intro idx q inQ idx' q' inQ' h hk hidx hcoh hnd hlen
    simp only [rrArriveA] at h
    obtain ⟨rfl, rfl, rfl⟩ : idx = idx' ∧ q = q' ∧ inQ = inQ' :=
      ⟨congrArg Prod.fst h, congrArg (fun x => x.2.1) h, congrArg (fun x => x.2.2) h⟩
    have heq : idx = procs.length := by omega
    refine ⟨le_refl _, hidx, hcoh, hnd, hlen, ⟨[], by simp⟩, Or.inl heq, ?_, ?_⟩
    · intro j h1 h2; exact absurd h2 (by omega)
    · intro j h1 h2 _; exact absurd h2 (by omega)
  | succ k ih =>
    intro idx q inQ idx' q' inQ' h hk hidx hcoh hnd hlen
    rw [rrArriveA] at h
    by_cases hc : idx < procs.length ∧ (getIdx procs idx).arrival ≤ time
    · rw [if_pos hc] at h
      by_cases hc2 : 0 < (getIdx procs idx).remaining ∧ (getIdx procs idx).pid ∉ inQ
      · rw [if_pos hc2] at h
        have hnotin : idx ∉ q := by
          intro hmem
          exact hc2.2 (hcoh ▸ List.mem_map.mpr ⟨idx, hmem, rfl⟩)
        have haddPid : addPid inQ (getIdx procs idx).pid = inQ ++ [(getIdx procs idx).pid] := by
          simp [addPid, hc2.2]
        have hcoh' : addPid inQ (getIdx procs idx).pid =
            (q ++ [idx]).map (fun i => (getIdx procs i).pid) := by
          rw [haddPid, hcoh]; simp
        obtain ⟨h1, h2, h3, h4, h5, ⟨added, hadd, haddc⟩, h7, h8, h9⟩ :=
          ih (idx + 1) (q ++ [idx]) _ idx' q' inQ' h (by omega) (by omega) hcoh'
            (by simp [List.nodup_append, hnd, hnotin])
            (by intro j hj
                rcases List.mem_append.mp hj with hj | hj
                · exact hlen j hj
                · simp at hj; omega)
        refine ⟨by omega, h2, h3, h4, h5, ⟨idx :: added, by simpa using hadd, ?_⟩, h7, ?_, ?_⟩
        · intro j hj
          rcases List.mem_cons.mp hj with rfl | hj
          · exact ⟨le_refl _, by omega, hc.2, hc2.1⟩
          · obtain ⟨a1, a2, a3, a4⟩ := haddc j hj
            exact ⟨by omega, a2, a3, a4⟩
        · intro j hj1 hj2
          rcases Nat.eq_or_lt_of_le hj1 with rfl | hj1
          · exact hc.2
          · exact h8 j hj1 hj2
        · intro j hj1 hj2 hj3
          rcases Nat.eq_or_lt_of_le hj1 with rfl | hj1
          · rw [hadd]
            exact List.mem_append_left _ (List.mem_append_right _ (by simp))
          · exact h9 j hj1 hj2 hj3
      · rw [if_neg hc2] at h
        obtain ⟨h1, h2, h3, h4, h5, ⟨added, hadd, haddc⟩, h7, h8, h9⟩ :=
          ih (idx + 1) q inQ idx' q' inQ' h (by omega) (by omega) hcoh hnd hlen
        refine ⟨by omega, h2, h3, h4, h5, ⟨added, hadd, ?_⟩, h7, ?_, ?_⟩
        · intro j hj
          obtain ⟨a1, a2, a3, a4⟩ := haddc j hj
          exact ⟨by omega, a2, a3, a4⟩
        · intro j hj1 hj2
          rcases Nat.eq_or_lt_of_le hj1 with rfl | hj1
          · exact hc.2
          · exact h8 j hj1 hj2
        · intro j hj1 hj2 hj3
          rcases Nat.eq_or_lt_of_le hj1 with rfl | hj1
          · -- the scanned process met the admission conditions except possibly
            -- the membership test, so it is already a queue member
            have hpid : (getIdx procs idx).pid ∈ inQ := by
              by_contra hni
              exact hc2 ⟨hj3, hni⟩
            rw [hcoh] at hpid
            obtain ⟨j', hj'q, hj'pid⟩ := List.mem_map.mp hpid
            have heq : j' = idx := pid_inj procs hpids j' idx (hlen j' hj'q) hc.1 hj'pid
            rw [hadd]
            exact List.mem_append_left _ (heq ▸ hj'q)
          · exact h9 j hj1 hj2 hj3
    · rw [if_neg hc] at h
      obtain ⟨rfl, rfl, rfl⟩ : idx = idx' ∧ q = q' ∧ inQ = inQ' :=
        ⟨congrArg Prod.fst h, congrArg (fun x => x.2.1) h, congrArg (fun x => x.2.2) h⟩
      refine ⟨le_refl _, hidx, hcoh, hnd, hlen, ⟨[], by simp⟩, ?_, ?_, ?_⟩
      · rcases Nat.eq_or_lt_of_le hidx with he | hlt2
        · exact Or.inl he
        · exact Or.inr (fun ha => hc ⟨hlt2, ha⟩)
      · intro j h1 h2; exact absurd h2 (by omega)
      · intro j h1 h2 _; exact absurd h2 (by omega)

theorem rrArrive_spec (procs : List Process) (time : Nat)
    (hpids : (procs.map (·.pid)).Nodup)
    (idx : Nat) (q : List Nat) (inQ : List String)
    (hidx : idx ≤ procs.length)
    (hcoh : inQ = q.map (fun i => (getIdx procs i).pid))
    (hnd : q.Nodup) (hlen : ∀ j ∈ q, j < procs.length) :
    ∀ (idx' : Nat) (q' : List Nat) (inQ' : List String),
      rrArrive procs time idx q inQ = (idx', q', inQ') →
      idx ≤ idx' ∧ idx' ≤ procs.length ∧
      inQ' = q'.map (fun i => (getIdx procs i).pid) ∧
      q'.Nodup ∧ (∀ j ∈ q', j < procs.length) ∧
      (∃ added, q' = q ++ added ∧ ∀ j ∈ added, idx ≤ j ∧ j < idx' ∧
        (getIdx procs j).arrival ≤ time ∧ 0 < (getIdx procs j).remaining) ∧
      (idx' = procs.length ∨ ¬ (getIdx procs idx').arrival ≤ time) ∧
      (∀ j, idx ≤ j → j < idx' → (getIdx procs j).arrival ≤ time) ∧
      (∀ j, idx ≤ j → j < idx' → 0 < (getIdx procs j).remaining → j ∈ q') := by
  intro idx' q' inQ' h
  exact rrArriveA_spec procs time hpids (procs.length - idx) idx q inQ idx' q' inQ' h
    (by omega) hidx hcoh hnd hlen

theorem rrSliceArriveA_spec (procs : List Process) (time run : Nat)
    (hpids : (procs.map (·.pid)).Nodup) :
    ∀ (k i : Nat) (q : List Nat) (inQ : List String) (q' : List Nat) (inQ' : List String),
      rrSliceArriveA procs time run k i q inQ = (q', inQ') →
      procs.length ≤ i + k →
      inQ = q.map (fun j => (getIdx procs j).pid) →
      q.Nodup → (∀ j ∈ q, j < procs.length) →
      inQ' = q'.map (fun j => (getIdx procs j).pid) ∧
      q'.Nodup ∧ (∀ j ∈ q', j < procs.length) ∧
      (∃ added, q' = q ++ added ∧ ∀ j ∈ added, i ≤ j ∧ j < procs.length ∧
        time - run < (getIdx procs j).arrival ∧ (getIdx procs j).arrival ≤ time ∧
        0 < (getIdx procs j).remaining) ∧
      (∀ j, i ≤ j → j < procs.length → time - run < (getIdx procs j).arrival →
        (getIdx procs j).arrival ≤ time → 0 < (getIdx procs j).remaining → j ∈ q') := by
  intro k
  induction k with
  | zero =>
    intro i q inQ q' inQ' h hk hcoh hnd hlt
    simp only [rrSliceArriveA] at h
    obtain ⟨rfl, rfl⟩ : q = q' ∧ inQ = inQ' :=
      ⟨congrArg Prod.fst h, congrArg Prod.snd h⟩
    exact ⟨hcoh, hnd, hlt, ⟨[], by simp⟩, fun j h1 h2 _ _ _ => absurd h2 (by omega)⟩
  | succ k ih =>
    intro i q inQ q' inQ' h hk hcoh hnd hlt
    rw [rrSliceArriveA] at h
    by_cases hc : i < procs.length
    · rw [if_pos hc] at h
      by_cases hc2 : time - run < (getIdx procs i).arrival ∧ (getIdx procs i).arrival ≤ time ∧
          0 < (getIdx procs i).remaining ∧ (getIdx procs i).pid ∉ inQ
      · rw [if_pos hc2] at h
        have hnotin : i ∉ q := by
          intro hmem
          exact hc2.2.2.2 (hcoh ▸ List.mem_map.mpr ⟨i, hmem, rfl⟩)
        have haddPid : addPid inQ (getIdx procs i).pid = inQ ++ [(getIdx procs i).pid] := by
          simp [addPid, hc2.2.2.2]
        have hcoh' : addPid inQ (getIdx procs i).pid =
            (q ++ [i]).map (fun j => (getIdx procs j).pid) := by
          rw [haddPid, hcoh]; simp
        obtain ⟨h1, h2, h3, ⟨added, hadd, haddc⟩, h5⟩ :=
          ih (i + 1) (q ++ [i]) _ q' inQ' h (by omega) hcoh'
            (by simp [List.nodup_append, hnd, hnotin])
            (by intro j hj
                rcases List.mem_append.mp hj with hj | hj
                · exact hlt j hj
                · simp at hj; omega)
        refine ⟨h1, h2, h3, ⟨i :: added, by simpa using hadd, ?_⟩, ?_⟩
        · intro j hj
          rcases List.mem_cons.mp hj with rfl | hj
          · exact ⟨le_refl _, hc, hc2.1, hc2.2.1, hc2.2.2.1⟩
          · obtain ⟨a1, a2, a3, a4, a5⟩ := haddc j hj
            exact ⟨by omega, a2, a3, a4, a5⟩
        · intro j hj1 hj2 hj3 hj4 hj5
          rcases Nat.eq_or_lt_of_le hj1 with rfl | hj1
          · rw [hadd]
            exact List.mem_append_left _ (List.mem_append_right _ (by simp))
          · exact h5 j hj1 hj2 hj3 hj4 hj5
      · rw [if_neg hc2] at h
        obtain ⟨h1, h2, h3, ⟨added, hadd, haddc⟩, h5⟩ :=
          ih (i + 1) q inQ q' inQ' h (by omega) hcoh hnd hlt
        refine ⟨h1, h2, h3, ⟨added, hadd, ?_⟩, ?_⟩
        · intro j hj
          obtain ⟨a1, a2, a3, a4, a5⟩ := haddc j hj
          exact ⟨by omega, a2, a3, a4, a5⟩
        · intro j hj1 hj2 hj3 hj4 hj5
          rcases Nat.eq_or_lt_of_le hj1 with rfl | hj1
          · -- the scanned process met every admission condition except the
            -- membership test, so it is already in the queue
            have hpid : (getIdx procs i).pid ∈ inQ := by
              by_contra hni
              exact hc2 ⟨hj3, hj4, hj5, hni⟩
            rw [hcoh] at hpid
            obtain ⟨j', hj'q, hj'pid⟩ := List.mem_map.mp hpid
            have heq : j' = i := pid_inj procs hpids j' i (hlt j' hj'q) hc hj'pid
            rw [hadd]
            exact List.mem_append_left _ (heq ▸ hj'q)
          · exact h5 j hj1 hj2 hj3 hj4 hj5
    · rw [if_neg hc] at h
      obtain ⟨rfl, rfl⟩ : q = q' ∧ inQ = inQ' :=
        ⟨congrArg Prod.fst h, congrArg Prod.snd h⟩
      exact ⟨hcoh, hnd, hlt, ⟨[], by simp⟩, fun j h1 h2 _ _ _ => absurd h2 (by omega)⟩

theorem rrSliceArrive_spec (procs : List Process) (time run : Nat)
    (hpids : (procs.map (·.pid)).Nodup)
    (i : Nat) (q : List Nat) (inQ : List String)
    (hcoh : inQ = q.map (fun j => (getIdx procs j).pid))
    (hnd : q.Nodup) (hlt : ∀ j ∈ q, j < procs.length) :
    ∀ (q' : List Nat) (inQ' : List String),
      rrSliceArrive procs time run i q inQ = (q', inQ') →
      inQ' = q'.map (fun j => (getIdx procs j).pid) ∧
      q'.Nodup ∧ (∀ j ∈ q', j < procs.length) ∧
      (∃ added, q' = q ++ added ∧ ∀ j ∈ added, i ≤ j ∧ j < procs.length ∧
        time - run < (getIdx procs j).arrival ∧ (getIdx procs j).arrival ≤ time ∧
        0 < (getIdx procs j).remaining) ∧
      (∀ j, i ≤ j → j < procs.length → time - run < (getIdx procs j).arrival →
        (getIdx procs j).arrival ≤ time → 0 < (getIdx procs j).remaining → j ∈ q') := by
  intro q' inQ' h
  exact rrSliceArriveA_spec procs time run hpids (procs.length - i) i q inQ q' inQ' h
    (by omega) hcoh hnd hlt

/-! ## Round-Robin invariant preservation -/

theorem rrDispatch_pres (procs0 : List Process) (quantum : Nat)
    (hb : ∀ p ∈ procs0, 0 < p.burst)
    (hnd0 : (procs0.map (·.pid)).Nodup)
    (st : RRState) (inv : RRInv procs0 st)
    (idx1 : Nat) (i : Nat) (rest : List Nat) (inQ1 : List String)
    (ha : rrArrive st.procs st.time st.idx st.queue st.inQueue = (idx1, i :: rest, inQ1))
    (run : Nat) (hrundef : run = min quantum (getIdx st.procs i).remaining)
    (p2 : Process)
    (hpid2 : p2.pid = (getIdx st.procs i).pid)
    (harr2 : p2.arrival = (getIdx st.procs i).arrival)
    (hbur2 : p2.burst = (getIdx st.procs i).burst)
    (hrem2 : p2.remaining = (getIdx st.procs i).remaining - run)
    (hcmp2 : p2.completion = (getIdx st.procs i).completion) :
    RRInv procs0 (
      if 0 < p2.remaining then
        { procs := setIdx st.procs i p2
          time := st.time + run
          completed := st.completed
          idx := idx1
          queue := if p2.pid ∉ (rrSliceArrive (setIdx st.procs i p2) (st.time + run) run
                idx1 rest (inQ1.erase (getIdx st.procs i).pid)).2 then
              (rrSliceArrive (setIdx st.procs i p2) (st.time + run) run idx1 rest
                (inQ1.erase (getIdx st.procs i).pid)).1 ++ [i]
            else
              (rrSliceArrive (setIdx st.procs i p2) (st.time + run) run idx1 rest
                (inQ1.erase (getIdx st.procs i).pid)).1
          inQueue := addPid (rrSliceArrive (setIdx st.procs i p2) (st.time + run) run
              idx1 rest (inQ1.erase (getIdx st.procs i).pid)).2 p2.pid
          gantt := if st.lastPid ≠ some p2.pid then st.gantt ++ [(p2.pid, run)]
            else extendLast st.gantt run
          lastPid := some p2.pid }
      else
        { procs := setIdx st.procs i
            { p2 with completion := st.time + run
                      turnaround := ((st.time + run : Nat) : Int) - (p2.arrival : Int)
                      waiting := ((st.time + run : Nat) : Int) - (p2.arrival : Int) -
                        (p2.burst : Int) }
          time := st.time + run
          completed := st.completed + 1
          idx := idx1
          queue := (rrSliceArrive (setIdx st.procs i p2) (st.time + run) run idx1 rest
            (inQ1.erase (getIdx st.procs i).pid)).1
          inQueue := (rrSliceArrive (setIdx st.procs i p2) (st.time + run) run idx1 rest
            (inQ1.erase (getIdx st.procs i).pid)).2
          gantt := if st.lastPid ≠ some p2.pid then st.gantt ++ [(p2.pid, run)]
            else extendLast st.gantt run
          lastPid := some p2.pid }) := by
  have hlen := inv.len
  have hpideq : st.procs.map (·.pid) = procs0.map (·.pid) :=
    map_eq_of_getIdx _ _ _ hlen (fun j hj => (inv.frame j hj).1)
  have hpids : (st.procs.map (·.pid)).Nodup := by rw [hpideq]; exact hnd0
  obtain ⟨s1, s2, s3, s4, s5, ⟨added, haddeq, haddc⟩, s7, s8, s9⟩ :=
    rrArrive_spec st.procs st.time hpids st.idx st.queue st.inQueue
      (by rw [hlen]; exact inv.idx_le) inv.coh inv.qnd
      (fun j hj => by rw [hlen]; exact inv.qlen j hj) idx1 (i :: rest) inQ1 ha
  have hiq1 : i ∈ i :: rest := List.mem_cons_self _ _
  have hilen : i < st.procs.length := s5 i hiq1
  have hilen0 : i < procs0.length := by omega
  have hmemqa : ∀ j ∈ i :: rest, (getIdx st.procs j).arrival ≤ st.time ∧
      0 < (getIdx st.procs j).remaining := by
    intro j hj
    rw [haddeq] at hj
    rcases List.mem_append.mp hj with hj | hj
    · exact ⟨inv.qarr j hj, inv.qrem j hj⟩
    · obtain ⟨-, -, a3, a4⟩ := haddc j hj
      exact ⟨a3, a4⟩
  have hiarr : (getIdx st.procs i).arrival ≤ st.time := (hmemqa i hiq1).1
  have hirem : 0 < (getIdx st.procs i).remaining := (hmemqa i hiq1).2
  have hrunle : run ≤ (getIdx st.procs i).remaining := by
    rw [hrundef]; exact min_le_right _ _
  have hinotrest : i ∉ rest := (List.nodup_cons.mp s4).1
  have hndrest : rest.Nodup := (List.nodup_cons.mp s4).2
  set procs1 := setIdx st.procs i p2 with hprocs1def
  have len1 : procs1.length = st.procs.length := length_setIdx _ _ _
  have hget1 : getIdx procs1 i = p2 := getIdx_setIdx_self _ _ _ hilen
  have hgetne : ∀ j, j ≠ i → getIdx procs1 j = getIdx st.procs j :=
    fun j hj => getIdx_setIdx_ne _ _ _ _ (fun h => hj h.symm)
  have hframe1 : ∀ j, j < procs0.length →
      (getIdx procs1 j).pid = (getIdx st.procs j).pid ∧
      (getIdx procs1 j).arrival = (getIdx st.procs j).arrival ∧
      (getIdx procs1 j).burst = (getIdx st.procs j).burst := by
    intro j hj
    by_cases hji : j = i
    · subst hji
      rw [hget1]
      exact ⟨hpid2, harr2, hbur2⟩
    · rw [hgetne j hji]
      exact ⟨rfl, rfl, rfl⟩
  have hpideq1 : procs1.map (·.pid) = st.procs.map (·.pid) :=
    map_eq_of_getIdx _ _ _ (by omega) (fun j hj => (hframe1 j (by omega)).1)
  have hpids1 : (procs1.map (·.pid)).Nodup := by rw [hpideq1]; exact hpids
  have hcohsl : inQ1.erase (getIdx st.procs i).pid =
      rest.map (fun j => (getIdx procs1 j).pid) := by
    rw [s3]
    simp only [List.map_cons]
    rw [List.erase_cons_head]
    exact List.map_congr_left
      (fun j hj => (congrArg (·.pid) (hgetne j (fun he => hinotrest (he ▸ hj)))).symm)
  rcases hs : rrSliceArrive procs1 (st.time + run) run idx1 rest
      (inQ1.erase (getIdx st.procs i).pid) with ⟨sq, sinQ⟩
  obtain ⟨t1, t2, t3, ⟨added2, hadd2, hadd2c⟩, t5⟩ :=
    rrSliceArrive_spec procs1 (st.time + run) run hpids1 idx1 rest
      (inQ1.erase (getIdx st.procs i).pid) hcohsl hndrest
      (fun j hj => by rw [len1]; exact s5 j (List.mem_cons_of_mem _ hj)) sq sinQ hs
  have hinotadd2 : i ∉ added2 := by
    intro hmem
    have hwin := (hadd2c i hmem).2.2.1
    rw [hget1, harr2] at hwin
    omega
  have hinotsq : i ∉ sq := by
    rw [hadd2]
    intro hmem
    rcases List.mem_append.mp hmem with h | h
    · exact hinotrest h
    · exact hinotadd2 h
  have hpidnotinsinQ : p2.pid ∉ sinQ := by
    rw [t1]
    intro hmem
    obtain ⟨j, hjq, hjpid⟩ := List.mem_map.mp hmem
    have hjpid' : (getIdx procs1 j).pid = (getIdx procs1 i).pid := by
      rw [hget1]; exact hjpid
    have : j = i := pid_inj procs1 hpids1 j i (t3 j hjq) (by omega) hjpid'
    exact hinotsq (this ▸ hjq)
  have hsqarr : ∀ j ∈ sq, (getIdx procs1 j).arrival ≤ st.time + run := by
    intro j hj
    rw [hadd2] at hj
    rcases List.mem_append.mp hj with hj | hj
    · have hji : j ≠ i := fun he => hinotrest (he ▸ hj)
      rw [hgetne j hji]
      exact le_trans (hmemqa j (List.mem_cons_of_mem _ hj)).1 (by omega)
    · exact (hadd2c j hj).2.2.2.1
  have hsqrem : ∀ j ∈ sq, 0 < (getIdx procs1 j).remaining := by
    intro j hj
    rw [hadd2] at hj
    rcases List.mem_append.mp hj with hj | hj
    · have hji : j ≠ i := fun he => hinotrest (he ▸ hj)
      rw [hgetne j hji]
      exact (hmemqa j (List.mem_cons_of_mem _ hj)).2
    · exact (hadd2c j hj).2.2.2.2
  have hsqlen : ∀ j ∈ sq, j < procs0.length := by
    intro j hj
    have := t3 j hj
    omega
  have hsqmem : ∀ j, j ≠ i → j < idx1 → 0 < (getIdx st.procs j).remaining → j ∈ sq := by
    intro j hji hjlt hjrem
    have hjq1 : j ∈ i :: rest := by
      by_cases hjidx : j < st.idx
      · have := inv.inqueue_all j hjidx hjrem
        rw [haddeq]
        exact List.mem_append_left _ this
      · exact s9 j (by omega) hjlt hjrem
    have hjrest : j ∈ rest := by
      rcases List.mem_cons.mp hjq1 with he | h
      · exact absurd he hji
      · exact h
    rw [hadd2]
    exact List.mem_append_left _ hjrest
  have hsumR : totalRemaining procs1 + (getIdx st.procs i).remaining =
      totalRemaining st.procs + p2.remaining := by
    have := sum_map_setIdx (·.remaining) st.procs i p2 hilen
    simpa [totalRemaining] using this
  have hremtot : (getIdx st.procs i).remaining ≤ totalRemaining st.procs :=
    remaining_le_totalRemaining st.procs i hilen
  have hpidIdle : LabelsOk procs0 → p2.pid ≠ "IDLE" := by
    intro hL
    rw [hpid2, (inv.frame i hilen0).1]
    exact (hL _ (getIdx_mem procs0 i hilen0)).1
  set G := if st.lastPid ≠ some p2.pid then st.gantt ++ [(p2.pid, run)]
    else extendLast st.gantt run with hGdef
  have hGsum : sumDur G = st.time + run := by
    rw [hGdef]
    by_cases hm : st.lastPid ≠ some p2.pid
    · rw [if_pos hm, sumDur_append, inv.sumg]
      simp [sumDur]
    · rw [if_neg hm]
      push_neg at hm
      rw [sumDur_extendLast _ _ (lastLabel_some_ne_nil _ _ (inv.lastg _ hm)), inv.sumg]
  have hGlast : lastLabel G = some p2.pid := by
    rw [hGdef]
    by_cases hm : st.lastPid ≠ some p2.pid
    · rw [if_pos hm]
      exact lastLabel_concat _ _
    · rw [if_neg hm]
      push_neg at hm
      rw [lastLabel_extendLast]
      exact inv.lastg _ hm
  have hGbusy : p2.pid ≠ "IDLE" → busyDur G = busyDur st.gantt + run := by
    intro hI
    rw [hGdef]
    by_cases hm : st.lastPid ≠ some p2.pid
    · rw [if_pos hm, busyDur_concat, if_neg hI]
    · rw [if_neg hm]
      push_neg at hm
      exact busyDur_extendLast _ _ _ (inv.lastg _ hm) hI
  have hGchain : LabelsOk procs0 → chainOk G := by
    intro hL
    obtain ⟨c1, c2, c3⟩ := inv.chain hL
    rw [hGdef]
    by_cases hm : st.lastPid ≠ some p2.pid
    · rw [if_pos hm, chainOk_concat_iff]
      refine ⟨c1, ?_⟩
      intro s hsl
      cases hlp : st.lastPid with
      | some s0 =>
        have := inv.lastg s0 hlp
        rw [this] at hsl
        have hs0 : s = s0 := (Option.some_inj.mp hsl).symm
        subst hs0
        intro he
        rw [hlp] at hm
        exact hm (by rw [he])
      | none =>
        rcases c3 hlp with hnil | hrest2
        · rw [hnil] at hsl; simp [lastLabel] at hsl
        · have hsI : s = "IDLE" := by
            rw [hrest2.1] at hsl
            exact (Option.some_inj.mp hsl).symm
          subst hsI
          exact fun he => (hpidIdle hL) he.symm
    · rw [if_neg hm]
      exact chainOk_extendLast _ _ c1
  by_cases hpos : 0 < p2.remaining
  · rw [if_pos hpos, if_pos hpidnotinsinQ]
    have haddp : addPid sinQ p2.pid = sinQ ++ [p2.pid] := by
      simp [addPid, hpidnotinsinQ]
    rw [haddp]
    refine
      { len := by dsimp only; omega
        frame := ?pframe
        idx_le := by dsimp only; omega
        arrived := ?parr
        unarr := ?punarr
        qlen := ?pqlen
        qarr := ?pqarr
        qrem := ?pqrem
        qnd := ?pqnd
        coh := ?pcoh
        inqueue_all := ?pinq
        rem_le := ?prem
        count := ?pcount
        clock := ?pclock
        sumg := ?psumg
        lastg := ?plast
        cmpl_le := ?pcle
        cmpl_last := ?pclast
        busy := ?pbusy
        chain := ?pchain }
    case pframe =>
      intro j hj
      dsimp only
      obtain ⟨f1, f2, f3⟩ := hframe1 j hj
      obtain ⟨g1, g2, g3⟩ := inv.frame j hj
      exact ⟨f1.trans g1, f2.trans g2, f3.trans g3⟩
    case parr =>
      intro j hj
      dsimp only at hj ⊢
      by_cases hji : j = i
      · subst hji
        rw [hget1, harr2]
        omega
      · rw [hgetne j hji]
        by_cases hjidx : j < st.idx
        · have := inv.arrived j hjidx; omega
        · have := s8 j (by omega) hj; omega
    case punarr =>
      intro j hj hlt
      dsimp only at hlt ⊢
      have hji : j ≠ i := by
        intro he
        subst he
        have := (inv.frame j hj).2.1
        omega
      rw [hgetne j hji]
      exact inv.unarr j hj (by omega)
    case pqlen =>
      intro j hj
      dsimp only at hj
      rcases List.mem_append.mp hj with hj | hj
      · exact hsqlen j hj
      · simp at hj; omega
    case pqarr =>
      intro j hj
      dsimp only at hj ⊢
      rcases List.mem_append.mp hj with hj | hj
      · exact hsqarr j hj
      · simp at hj
        subst hj
        rw [hget1, harr2]
        omega
    case pqrem =>
      intro j hj
      dsimp only at hj ⊢
      rcases List.mem_append.mp hj with hj | hj
      · exact hsqrem j hj
      · simp at hj
        subst hj
        rw [hget1]
        exact hpos
    case pqnd =>
      dsimp only
      rw [List.nodup_append]
      exact ⟨t2, List.nodup_singleton _, by simpa using hinotsq⟩
    case pcoh =>
      dsimp only
      rw [List.map_append, ← t1]
      simp [hget1]
    case pinq =>
      intro j hj hjrem
      dsimp only at hj hjrem ⊢
      by_cases hji : j = i
      · subst hji
        exact List.mem_append_right _ (by simp)
      · rw [hgetne j hji] at hjrem
        exact List.mem_append_left _ (hsqmem j hji hj hjrem)
    case prem =>
      intro j hj
      dsimp only
      by_cases hji : j = i
      · subst hji
        rw [hget1, hrem2, hbur2]
        have := inv.rem_le j hj
        omega
      · rw [hgetne j hji]
        exact inv.rem_le j hj
    case pcount =>
      dsimp only
      have hc := count_map_setIdx (fun p => decide (p.remaining = 0)) st.procs i p2 hilen
      have hcnd1 : ¬ (getIdx st.procs i).remaining = 0 := by omega
      have hcnd2 : ¬ p2.remaining = 0 := by omega
      simp only [decide_eq_true_eq, if_neg hcnd1, if_neg hcnd2] at hc
      rw [← hprocs1def] at hc
      rw [inv.count]
      omega
    case pclock =>
      dsimp only
      have := inv.clock
      omega
    case psumg => exact hGsum
    case plast =>
      intro s hsl
      dsimp only at hsl
      have : s = p2.pid := (Option.some_inj.mp hsl).symm
      subst this
      exact hGlast
    case pcle =>
      intro j hj
      dsimp only
      by_cases hji : j = i
      · subst hji
        rw [hget1, hcmp2]
        have := inv.cmpl_le j hj
        omega
      · rw [hgetne j hji]
        have := inv.cmpl_le j hj
        omega
    case pclast =>
      intro hall hpos0
      exfalso
      dsimp only at hall
      have := hall i hilen0
      rw [hget1] at this
      omega
    case pbusy =>
      intro hL
      dsimp only
      rw [hGbusy (hpidIdle hL)]
      have hB := inv.busy hL
      omega
    case pchain =>
      intro hL
      refine ⟨hGchain hL, ?_, by simp⟩
      intro s hsl
      dsimp only at hsl
      have : s = p2.pid := (Option.some_inj.mp hsl).symm
      subst this
      exact hpidIdle hL
  · rw [if_neg hpos]
    have hp2zero : p2.remaining = 0 := by omega
    have hrunall : run ≥ (getIdx st.procs i).remaining := by
      rw [hrem2] at hp2zero
      omega
    set p3 : Process :=
      { p2 with completion := st.time + run
                turnaround := ((st.time + run : Nat) : Int) - (p2.arrival : Int)
                waiting := ((st.time + run : Nat) : Int) - (p2.arrival : Int) -
                  (p2.burst : Int) } with hp3def
    have hp3rem : p3.remaining = p2.remaining := by rw [hp3def]
    have hp3pid : p3.pid = p2.pid := by rw [hp3def]
    have hp3arr : p3.arrival = p2.arrival := by rw [hp3def]
    have hp3bur : p3.burst = p2.burst := by rw [hp3def]
    have hp3cmp : p3.completion = st.time + run := by rw [hp3def]
    have hget3 : getIdx (setIdx st.procs i p3) i = p3 := getIdx_setIdx_self _ _ _ hilen
    refine
      { len := by dsimp only; simp only [setIdx, List.length_set]; omega
        frame := ?pframe
        idx_le := by dsimp only; omega
        arrived := ?parr
        unarr := ?punarr
        qlen := ?pqlen
        qarr := ?pqarr
        qrem := ?pqrem
        qnd := ?pqnd
        coh := ?pcoh
        inqueue_all := ?pinq
        rem_le := ?prem
        count := ?pcount
        clock := ?pclock
        sumg := ?psumg
        lastg := ?plast
        cmpl_le := ?pcle
        cmpl_last := ?pclast
        busy := ?pbusy
        chain := ?pchain }
    case pframe =>
      intro j hj
      dsimp only
      by_cases hji : j = i
      · subst hji
        rw [hget3]
        rw [hp3pid, hp3arr, hp3bur]
        obtain ⟨g1, g2, g3⟩ := inv.frame j hj
        exact ⟨hpid2.trans g1, harr2.trans g2, hbur2.trans g3⟩
      · rw [getIdx_setIdx_ne _ _ _ _ (fun h => hji h.symm)]
        exact inv.frame j hj
    case parr =>
      intro j hj
      dsimp only at hj ⊢
      by_cases hji : j = i
      · subst hji
        rw [hget3, hp3arr, harr2]
        omega
      · rw [getIdx_setIdx_ne _ _ _ _ (fun h => hji h.symm)]
        by_cases hjidx : j < st.idx
        · have := inv.arrived j hjidx; omega
        · have := s8 j (by omega) hj; omega
    case punarr =>
      intro j hj hlt
      dsimp only at hlt ⊢
      have hji : j ≠ i := by
        intro he
        subst he
        have := (inv.frame j hj).2.1
        omega
      rw [getIdx_setIdx_ne _ _ _ _ (fun h => hji h.symm)]
      exact inv.unarr j hj (by omega)
    case pqlen =>
      intro j hj
      dsimp only at hj
      exact hsqlen j hj
    case pqarr =>
      intro j hj
      dsimp only at hj ⊢
      have hji : j ≠ i := fun he => hinotsq (he ▸ hj)
      rw [getIdx_setIdx_ne _ _ _ _ (fun h => hji h.symm)]
      have := hsqarr j hj
      rw [hgetne j hji] at this
      exact this
    case pqrem =>
      intro j hj
      dsimp only at hj ⊢
      have hji : j ≠ i := fun he => hinotsq (he ▸ hj)
      rw [getIdx_setIdx_ne _ _ _ _ (fun h => hji h.symm)]
      have := hsqrem j hj
      rw [hgetne j hji] at this
      exact this
    case pqnd => exact t2
    case pcoh =>
      dsimp only
      rw [t1]
      refine List.map_congr_left ?_
      intro j hj
      have hji : j ≠ i := fun he => hinotsq (he ▸ hj)
      rw [hgetne j hji, getIdx_setIdx_ne _ _ _ _ (fun h => hji h.symm)]
    case pinq =>
      intro j hj hjrem
      dsimp only at hj hjrem ⊢
      by_cases hji : j = i
      · subst hji
        rw [hget3, hp3rem] at hjrem
        omega
      · rw [getIdx_setIdx_ne _ _ _ _ (fun h => hji h.symm)] at hjrem
        exact hsqmem j hji hj hjrem
    case prem =>
      intro j hj
      dsimp only
      by_cases hji : j = i
      · subst hji
        rw [hget3, hp3rem, hp3bur, hrem2, hbur2]
        have := inv.rem_le j hj
        omega
      · rw [getIdx_setIdx_ne _ _ _ _ (fun h => hji h.symm)]
        exact inv.rem_le j hj
    case pcount =>
      dsimp only
      have hc := count_map_setIdx (fun p => decide (p.remaining = 0)) st.procs i p3 hilen
      have hcnd1 : ¬ (getIdx st.procs i).remaining = 0 := by omega
      have hcnd2 : p3.remaining = 0 := by rw [hp3rem]; omega
      simp only [decide_eq_true_eq, if_neg hcnd1, if_pos hcnd2] at hc
      rw [inv.count]
      omega
    case pclock =>
      dsimp only
      have hc1 := sum_map_setIdx (·.remaining) st.procs i p3 hilen
      simp only at hc1
      rw [hp3rem] at hc1
      have hck := inv.clock
      simp only [totalRemaining] at hck ⊢
      omega
    case psumg => exact hGsum
    case plast =>
      intro s hsl
      dsimp only at hsl
      have : s = p2.pid := (Option.some_inj.mp hsl).symm
      subst this
      exact hGlast
    case pcle =>
      intro j hj
      dsimp only
      by_cases hji : j = i
      · subst hji
        rw [hget3, hp3cmp]
      · rw [getIdx_setIdx_ne _ _ _ _ (fun h => hji h.symm)]
        have := inv.cmpl_le j hj
        omega
    case pclast =>
      intro hall hpos0
      dsimp only
      exact ⟨i, hilen0, by rw [hget3, hp3cmp]⟩
    case pbusy =>
      intro hL
      dsimp only
      rw [hGbusy (hpidIdle hL)]
      have hB := inv.busy hL
      have hc1 := sum_map_setIdx (·.remaining) st.procs i p3 hilen
      simp only at hc1
      rw [hp3rem] at hc1
      simp only [totalRemaining] at hB hc1 ⊢
      omega
    case pchain =>
      intro hL
      refine ⟨hGchain hL, ?_, by simp⟩
      intro s hsl
      dsimp only at hsl
      have hsp : s = p2.pid := (Option.some_inj.mp hsl).symm
      subst hsp
      exact hpidIdle hL

theorem rrInv_pres (procs0 : List Process) (quantum : Nat)
    (hb : ∀ p ∈ procs0, 0 < p.burst)
    (hnd0 : (procs0.map (·.pid)).Nodup)
    (hinit : ∀ i, i < procs0.length →
      (getIdx procs0 i).remaining = (getIdx procs0 i).burst ∧
      (getIdx procs0 i).completion = 0)
    (st : RRState) (inv : RRInv procs0 st) : RRInv procs0 (rrBody quantum st) := by
  have hlen := inv.len
  have hpideq : st.procs.map (·.pid) = procs0.map (·.pid) :=
    map_eq_of_getIdx _ _ _ hlen (fun i hi => (inv.frame i hi).1)
  have hpids : (st.procs.map (·.pid)).Nodup := by rw [hpideq]; exact hnd0
  rcases ha : rrArrive st.procs st.time st.idx st.queue st.inQueue with ⟨idx1, rq⟩
  rcases rq with ⟨q1, inQ1⟩
  obtain ⟨s1, s2, s3, s4, s5, ⟨added, haddeq, haddc⟩, s7, s8, s9⟩ :=
    rrArrive_spec st.procs st.time hpids st.idx st.queue st.inQueue
      (by rw [hlen]; exact inv.idx_le) inv.coh inv.qnd
      (fun j hj => by rw [hlen]; exact inv.qlen j hj) idx1 q1 inQ1 ha
  have hfresh1 : ∀ j, j < procs0.length → st.time < (getIdx st.procs j).arrival →
      0 < (getIdx st.procs j).remaining := by
    intro j hj hlt
    rw [(inv.frame j hj).2.1] at hlt
    rw [inv.unarr j hj hlt, (hinit j hj).1]
    exact hb _ (getIdx_mem procs0 j hj)
  have hBeq : totalBurst st.procs = totalBurst procs0 := by
    unfold totalBurst
    rw [map_eq_of_getIdx (·.burst) st.procs procs0 hlen (fun i hi => (inv.frame i hi).2.2)]
  have hRle : totalRemaining st.procs ≤ totalBurst procs0 := by
    rw [← hBeq]
    exact totalRemaining_le_totalBurst st.procs
      (fun i hi => inv.rem_le i (by omega))
  cases q1 with
  | nil =>
    obtain ⟨hqnil, -⟩ := List.append_eq_nil.mp haddeq.symm
    have hnoneleft : ∀ j, j < idx1 → ¬ 0 < (getIdx st.procs j).remaining := by
      intro j hj hpos
      by_cases hji : j < st.idx
      · have := inv.inqueue_all j hji hpos
        rw [hqnil] at this
        simp at this
      · exact absurd (s9 j (by omega) hj hpos) (by simp)
    have hchain3 : st.lastPid = none →
        (lastLabel st.gantt = some "IDLE" ∧ st.queue = [] ∧ st.idx < procs0.length ∧
          (getIdx st.procs st.idx).arrival ≤ st.time ∧
          0 < (getIdx st.procs st.idx).remaining) → False := by
      intro _ ⟨_, _, hixn, harr, hpos⟩
      have hlt1 : st.idx < idx1 := by
        rcases s7 with h7 | h7
        · omega
        · rcases Nat.eq_or_lt_of_le s1 with he | hlt
          · rw [← he] at h7; exact absurd harr h7
          · exact hlt
      exact absurd (s9 st.idx (le_refl _) hlt1 hpos) (by simp)
    by_cases hidl : idx1 < st.procs.length
    · -- idle jump to the next arrival
      have hna : st.time < (getIdx st.procs idx1).arrival := by
        rcases s7 with h7 | h7
        · omega
        · omega
      have hnaA : (getIdx st.procs idx1).arrival ≤ maxArrival procs0 := by
        rw [(inv.frame idx1 (by omega)).2.1]
        exact arrival_le_maxArrival procs0 idx1 (by omega)
      have hpos1 : 0 < (getIdx st.procs idx1).remaining :=
        hfresh1 idx1 (by omega) hna
      simp only [rrBody, ha, hidl, if_true]
      refine
        { len := hlen
          frame := inv.frame
          idx_le := ?ple
          arrived := ?parr
          unarr := ?pfr
          qlen := ?pqlen
          qarr := ?pqarr
          qrem := ?pqrem
          qnd := ?pqnd
          coh := ?pcoh
          inqueue_all := ?pinq
          rem_le := ?prem
          count := ?pcount
          clock := ?pclock
          sumg := ?psumg
          lastg := ?plast
          cmpl_le := ?pcle
          cmpl_last := ?pclast
          busy := ?pbusy
          chain := ?pchain }
      case ple => dsimp only; omega
      case parr =>
        intro i hi
        dsimp only at hi ⊢
        by_cases hii : i < st.idx
        · exact le_trans (inv.arrived i hii) (by omega)
        · exact le_trans (s8 i (by omega) hi) (by omega)
      case pfr =>
        intro i hi1 hi2
        dsimp only at hi2 ⊢
        exact inv.unarr i hi1 (by omega)
      case pqlen => intro i hi; simp at hi
      case pqarr => intro i hi; simp at hi
      case pqrem => intro i hi; simp at hi
      case pqnd => exact List.nodup_nil
      case pcoh => simpa using s3
      case pinq =>
        intro i hi hpos
        exact absurd hpos (hnoneleft i (by dsimp only at hi; omega))
      case prem => exact inv.rem_le
      case pcount => exact inv.count
      case pclock => dsimp only; omega
      case psumg =>
        dsimp only
        rw [sumDur_append, inv.sumg]
        simp [sumDur]
        omega
      case plast => intro s hs; simp at hs
      case pcle =>
        intro i hi
        exact le_trans (inv.cmpl_le i hi) (by dsimp only; omega)
      case pclast =>
        intro hall hpos0
        dsimp only at hall
        exact absurd (hall idx1 (by omega)) (by omega)
      case pbusy =>
        intro hL
        dsimp only
        rw [busyDur_concat, if_pos rfl, Nat.add_zero]
        exact inv.busy hL
      case pchain =>
        intro hL
        obtain ⟨c1, c2, c3⟩ := inv.chain hL
        refine ⟨?_, by simp, ?_⟩
        · rw [chainOk_concat_iff]
          refine ⟨c1, ?_⟩
          intro s hs
          cases hlp : st.lastPid with
          | some s0 =>
            have := inv.lastg s0 hlp
            rw [this] at hs
            exact (Option.some_inj.mp hs) ▸ c2 s0 hlp
          | none =>
            rcases c3 hlp with hnil | hrest
            · rw [hnil] at hs; simp [lastLabel] at hs
            · exact absurd hrest (by intro hr; exact hchain3 hlp hr)
        · intro _
          refine Or.inr ⟨lastLabel_concat _ _, rfl, ?_, le_refl _, hpos1⟩
          dsimp only
          omega
    · -- no ready process and no further arrival: the Python loop spins
      simp only [rrBody, ha, hidl, if_false]
      refine
        { len := hlen
          frame := inv.frame
          idx_le := ?ple
          arrived := ?parr
          unarr := ?pfr
          qlen := ?pqlen
          qarr := ?pqarr
          qrem := ?pqrem
          qnd := ?pqnd
          coh := ?pcoh
          inqueue_all := ?pinq
          rem_le := ?prem
          count := ?pcount
          clock := ?pclock
          sumg := ?psumg
          lastg := ?plast
          cmpl_le := ?pcle
          cmpl_last := ?pclast
          busy := ?pbusy
          chain := ?pchain }
      case ple => dsimp only; omega
      case parr =>
        intro i hi
        dsimp only at hi
        by_cases hii : i < st.idx
        · exact inv.arrived i hii
        · exact s8 i (by omega) hi
      case pfr => exact inv.unarr
      case pqlen => intro i hi; simp at hi
      case pqarr => intro i hi; simp at hi
      case pqrem => intro i hi; simp at hi
      case pqnd => exact List.nodup_nil
      case pcoh => simpa using s3
      case pinq =>
        intro i hi hpos
        exact absurd hpos (hnoneleft i (by dsimp only at hi; omega))
      case prem => exact inv.rem_le
      case pcount => exact inv.count
      case pclock => exact inv.clock
      case psumg => exact inv.sumg
      case plast => exact inv.lastg
      case pcle => exact inv.cmpl_le
      case pclast => exact inv.cmpl_last
      case pbusy => exact inv.busy
      case pchain =>
        intro hL
        obtain ⟨c1, c2, c3⟩ := inv.chain hL
        refine ⟨c1, c2, ?_⟩
        intro hlp
        rcases c3 hlp with hnil | hrest
        · exact Or.inl hnil
        · exact absurd hrest (by intro hr; exact hchain3 hlp hr)
  | cons i rest =>
    have hiq1 : i ∈ i :: rest := List.mem_cons_self _ _
    have hilen : i < st.procs.length := s5 i hiq1
    have hmemqa : ∀ j ∈ i :: rest, (getIdx st.procs j).arrival ≤ st.time ∧
        0 < (getIdx st.procs j).remaining := by
      intro j hj
      rw [haddeq] at hj
      rcases List.mem_append.mp hj with hj | hj
      · exact ⟨inv.qarr j hj, inv.qrem j hj⟩
      · obtain ⟨-, -, a3, a4⟩ := haddc j hj
        exact ⟨a3, a4⟩
    simp only [rrBody, ha]
    by_cases hstart : (getIdx st.procs i).start = -1
    · simp only [if_pos hstart]
      exact rrDispatch_pres procs0 quantum hb hnd0 st inv idx1 i rest inQ1 ha
        (min quantum (getIdx st.procs i).remaining) rfl
        { getIdx st.procs i with
            remaining :=
              (getIdx st.procs i).remaining - min quantum (getIdx st.procs i).remaining
            response := (st.time : Int) - ((getIdx st.procs i).arrival : Int)
            start := (st.time : Int) }
        rfl rfl rfl rfl rfl
    · simp only [if_neg hstart]
      exact rrDispatch_pres procs0 quantum hb hnd0 st inv idx1 i rest inQ1 ha
        (min quantum (getIdx st.procs i).remaining) rfl
        { getIdx st.procs i with
            remaining :=
              (getIdx st.procs i).remaining - min quantum (getIdx st.procs i).remaining }
        rfl rfl rfl rfl rfl

theorem mem_getIdx :
    ∀ (l : List Process) (p : Process), p ∈ l → ∃ i, i < l.length ∧ getIdx l i = p := by
  intro l
  induction l with
  | nil => intro p h; simp at h
  | cons a t ih =>
    intro p h
    rcases List.mem_cons.mp h with rfl | h
    · exact ⟨0, by simp, rfl⟩
    · obtain ⟨i, hi, hgi⟩ := ih p h
      exact ⟨i + 1, by simpa using Nat.succ_lt_succ hi, hgi⟩

theorem getIdx_map (f : Process → Process) :
    ∀ (l : List Process) (i : Nat), i < l.length → getIdx (l.map f) i = f (getIdx l i) := by
  intro l
  induction l with
  | nil => intro i h; simp at h
  | cons a t ih =>
    intro i h
    cases i with
    | zero => rfl
    | succ i =>
      simp only [List.map_cons, getIdx, List.getD_cons_succ]
      exact ih i (by simpa using h)

theorem copyProcs_getIdx (l : List Process) (i : Nat) (hi : i < l.length) :
    getIdx (copyProcs l) i =
      mkProcess (getIdx l i).pid (getIdx l i).arrival (getIdx l i).burst
        (getIdx l i).priority :=
  getIdx_map _ l i hi

theorem copyProcs_length (l : List Process) : (copyProcs l).length = l.length :=
  List.length_map _ _

theorem copyProcs_pids (l : List Process) :
    (copyProcs l).map (·.pid) = l.map (·.pid) := by
  simp [copyProcs, mkProcess, List.map_map]

theorem copyProcs_bursts (l : List Process) (hb : ∀ p ∈ l, 0 < p.burst) :
    ∀ p ∈ copyProcs l, 0 < p.burst := by
  intro p hp
  obtain ⟨q, hq, rfl⟩ := List.mem_map.mp hp
  exact hb q hq

theorem copyProcs_init (l : List Process) :
    ∀ i, i < (copyProcs l).length →
      (getIdx (copyProcs l) i).remaining = (getIdx (copyProcs l) i).burst ∧
      (getIdx (copyProcs l) i).completion = 0 := by
  intro i hi
  rw [copyProcs_length] at hi
  rw [copyProcs_getIdx l i hi]
  exact ⟨rfl, rfl⟩

theorem copyProcs_totalBurst (l : List Process) :
    totalBurst (copyProcs l) = totalBurst l := by
  unfold totalBurst copyProcs
  rw [List.map_map]
  exact congrArg List.sum (List.map_congr_left (fun p _ => rfl))

theorem copyProcs_maxArrival (l : List Process) :
    maxArrival (copyProcs l) = maxArrival l := by
  unfold maxArrival copyProcs
  rw [List.map_map]
  exact congrArg (List.foldr max 0) (List.map_congr_left (fun p _ => rfl))

theorem copyProcs_totalRemaining (l : List Process) :
    totalRemaining (copyProcs l) = totalBurst l := by
  unfold totalRemaining totalBurst copyProcs
  rw [List.map_map]
  exact congrArg List.sum (List.map_congr_left (fun p _ => rfl))

theorem countP_lt_exists (l : List Process) (f : Process → Bool)
    (h : l.countP f < l.length) : ∃ p ∈ l, ¬ f p := by
  by_contra hall
  push_neg at hall
  have : l.countP f = l.length := List.countP_eq_length.mpr (by
    intro a ha
    have := hall a ha
    simpa using this)
  omega

theorem rrInv_init (procs0 : List Process)
    (hb : ∀ p ∈ procs0, 0 < p.burst)
    (hinit : ∀ i, i < procs0.length →
      (getIdx procs0 i).remaining = (getIdx procs0 i).burst ∧
      (getIdx procs0 i).completion = 0) :
    RRInv procs0 (rrInit procs0) := by
  have hRB : totalRemaining procs0 = totalBurst procs0 := by
    unfold totalRemaining totalBurst
    refine congrArg List.sum (List.map_congr_left ?_)
    intro p hp
    obtain ⟨i, hi, rfl⟩ := mem_getIdx procs0 p hp
    exact (hinit i hi).1
  refine
    { len := rfl
      frame := fun i _ => ⟨rfl, rfl, rfl⟩
      idx_le := Nat.zero_le _
      arrived := fun i hi => absurd hi (by simp [rrInit])
      unarr := fun i _ _ => rfl
      qlen := fun i hi => absurd hi (by simp [rrInit])
      qarr := fun i hi => absurd hi (by simp [rrInit])
      qrem := fun i hi => absurd hi (by simp [rrInit])
      qnd := List.nodup_nil
      coh := rfl
      inqueue_all := fun i hi _ => absurd hi (by simp [rrInit])
      rem_le := fun i hi => le_of_eq (hinit i hi).1
      count := ?_
      clock := by simp [rrInit]; omega
      sumg := rfl
      lastg := fun s hs => by simp [rrInit] at hs
      cmpl_le := fun i hi => le_of_eq (hinit i hi).2
      cmpl_last := fun _ hpos => ⟨0, hpos, (hinit 0 hpos).2⟩
      busy := fun _ => by simp [rrInit, busyDur]; omega
      chain := fun _ => ⟨trivial, fun s hs => by simp [rrInit] at hs, fun _ => Or.inl rfl⟩ }
  show (0 : Nat) = procs0.countP (fun p => decide (p.remaining = 0))
  symm
  rw [List.countP_eq_zero]
  intro p hp
  obtain ⟨i, hi, rfl⟩ := mem_getIdx procs0 p hp
  have h1 := (hinit i hi).1
  have h2 := hb _ (getIdx_mem procs0 i hi)
  simp only [decide_eq_true_eq]
  omega


theorem rrDispatch_measure (procs0 : List Process) (quantum : Nat) (hq : 0 < quantum)
    (hnd0 : (procs0.map (·.pid)).Nodup)
    (st : RRState) (inv : RRInv procs0 st)
    (idx1 : Nat) (i : Nat) (rest : List Nat) (inQ1 : List String)
    (ha : rrArrive st.procs st.time st.idx st.queue st.inQueue = (idx1, i :: rest, inQ1))
    (run : Nat) (hrundef : run = min quantum (getIdx st.procs i).remaining)
    (p2 : Process)
    (hrem2 : p2.remaining = (getIdx st.procs i).remaining - run)
    (st' : RRState)
    (hst' : st' = if 0 < p2.remaining then
        { procs := setIdx st.procs i p2
          time := st.time + run
          completed := st.completed
          idx := idx1
          queue := if p2.pid ∉ (rrSliceArrive (setIdx st.procs i p2) (st.time + run) run
                idx1 rest (inQ1.erase (getIdx st.procs i).pid)).2 then
              (rrSliceArrive (setIdx st.procs i p2) (st.time + run) run idx1 rest
                (inQ1.erase (getIdx st.procs i).pid)).1 ++ [i]
            else
              (rrSliceArrive (setIdx st.procs i p2) (st.time + run) run idx1 rest
                (inQ1.erase (getIdx st.procs i).pid)).1
          inQueue := addPid (rrSliceArrive (setIdx st.procs i p2) (st.time + run) run
              idx1 rest (inQ1.erase (getIdx st.procs i).pid)).2 p2.pid
          gantt := if st.lastPid ≠ some p2.pid then st.gantt ++ [(p2.pid, run)]
            else extendLast st.gantt run
          lastPid := some p2.pid }
      else
        { procs := setIdx st.procs i
            { p2 with completion := st.time + run
                      turnaround := ((st.time + run : Nat) : Int) - (p2.arrival : Int)
                      waiting := ((st.time + run : Nat) : Int) - (p2.arrival : Int) -
                        (p2.burst : Int) }
          time := st.time + run
          completed := st.completed + 1
          idx := idx1
          queue := (rrSliceArrive (setIdx st.procs i p2) (st.time + run) run idx1 rest
            (inQ1.erase (getIdx st.procs i).pid)).1
          inQueue := (rrSliceArrive (setIdx st.procs i p2) (st.time + run) run idx1 rest
            (inQ1.erase (getIdx st.procs i).pid)).2
          gantt := if st.lastPid ≠ some p2.pid then st.gantt ++ [(p2.pid, run)]
            else extendLast st.gantt run
          lastPid := some p2.pid }) :
    totalRemaining st'.procs + (procs0.length - st'.idx) +
      (maxArrival procs0 - st'.time) <
    totalRemaining st.procs + (procs0.length - st.idx) +
      (maxArrival procs0 - st.time) := by
  subst hst' 
  have hlen := inv.len
  have hpideq : st.procs.map (·.pid) = procs0.map (·.pid) :=
    map_eq_of_getIdx _ _ _ hlen (fun j hj => (inv.frame j hj).1)
  have hpids : (st.procs.map (·.pid)).Nodup := by rw [hpideq]; exact hnd0
  obtain ⟨s1, s2, s3, s4, s5, ⟨added, haddeq, haddc⟩, s7, s8, s9⟩ :=
    rrArrive_spec st.procs st.time hpids st.idx st.queue st.inQueue
      (by rw [hlen]; exact inv.idx_le) inv.coh inv.qnd
      (fun j hj => by rw [hlen]; exact inv.qlen j hj) idx1 (i :: rest) inQ1 ha
  have hiq1 : i ∈ i :: rest := List.mem_cons_self _ _
  have hilen : i < st.procs.length := s5 i hiq1
  have hirem : 0 < (getIdx st.procs i).remaining := by
    rw [haddeq] at hiq1
    rcases List.mem_append.mp hiq1 with hj | hj
    · exact inv.qrem i hj
    · exact (haddc i hj).2.2.2
  have hremtot : (getIdx st.procs i).remaining ≤ totalRemaining st.procs :=
    remaining_le_totalRemaining st.procs i hilen
  have hrunpos : 0 < run := by
    rw [hrundef]
    simp [hq, hirem]
  by_cases hpos : 0 < p2.remaining
  · rw [if_pos hpos]
    have hc1 := sum_map_setIdx (·.remaining) st.procs i p2 hilen
    simp only at hc1
    simp only [totalRemaining] at *
    omega
  · rw [if_neg hpos]
    have hc1 := sum_map_setIdx (·.remaining) st.procs i
      { p2 with completion := st.time + run
                turnaround := ((st.time + run : Nat) : Int) - (p2.arrival : Int)
                waiting := ((st.time + run : Nat) : Int) - (p2.arrival : Int) -
                  (p2.burst : Int) } hilen
    simp only at hc1
    dsimp only
    simp only [totalRemaining] at *
    omega

theorem rrMeasure (procs0 : List Process) (quantum : Nat) (hq : 0 < quantum)
    (hb : ∀ p ∈ procs0, 0 < p.burst)
    (hnd0 : (procs0.map (·.pid)).Nodup)
    (hinit : ∀ i, i < procs0.length →
      (getIdx procs0 i).remaining = (getIdx procs0 i).burst ∧
      (getIdx procs0 i).completion = 0)
    (st : RRState) (inv : RRInv procs0 st) (hndone : rrDone st = false) :
    totalRemaining (rrBody quantum st).procs +
      (procs0.length - (rrBody quantum st).idx) +
      (maxArrival procs0 - (rrBody quantum st).time) <
    totalRemaining st.procs + (procs0.length - st.idx) +
      (maxArrival procs0 - st.time) := by
  have hlen := inv.len
  have hpideq : st.procs.map (·.pid) = procs0.map (·.pid) :=
    map_eq_of_getIdx _ _ _ hlen (fun j hj => (inv.frame j hj).1)
  have hpids : (st.procs.map (·.pid)).Nodup := by rw [hpideq]; exact hnd0
  have hcompl : st.completed < procs0.length := by
    simp only [rrDone, simDone, decide_eq_false_iff_not, not_le] at hndone
    omega
  rcases ha : rrArrive st.procs st.time st.idx st.queue st.inQueue with ⟨idx1, rq⟩
  rcases rq with ⟨q1, inQ1⟩
  obtain ⟨s1, s2, s3, s4, s5, ⟨added, haddeq, haddc⟩, s7, s8, s9⟩ :=
    rrArrive_spec st.procs st.time hpids st.idx st.queue st.inQueue
      (by rw [hlen]; exact inv.idx_le) inv.coh inv.qnd
      (fun j hj => by rw [hlen]; exact inv.qlen j hj) idx1 q1 inQ1 ha
  cases q1 with
  | nil =>
    obtain ⟨hqnil, -⟩ := List.append_eq_nil.mp haddeq.symm
    have hcount := inv.count
    have hex : ∃ p ∈ st.procs, ¬ (fun p => decide (p.remaining = 0)) p := by
      refine countP_lt_exists st.procs _ ?_
      omega
    obtain ⟨p, hp, hpf⟩ := hex
    obtain ⟨j, hj, rfl⟩ := mem_getIdx st.procs p hp
    simp only [decide_eq_true_eq] at hpf
    have hjrem : 0 < (getIdx st.procs j).remaining := by omega
    have hjnot : ¬ j < idx1 := by
      intro hjlt
      by_cases hji : j < st.idx
      · have := inv.inqueue_all j hji hjrem
        rw [hqnil] at this
        simp at this
      · exact absurd (s9 j (by omega) hjlt hjrem) (by simp)
    have hidl : idx1 < st.procs.length := by omega
    have hna : st.time < (getIdx st.procs idx1).arrival := by
      rcases s7 with h7 | h7
      · omega
      · omega
    have hnaA : (getIdx st.procs idx1).arrival ≤ maxArrival procs0 := by
      rw [(inv.frame idx1 (by omega)).2.1]
      exact arrival_le_maxArrival procs0 idx1 (by omega)
    simp only [rrBody, ha, hidl, if_true]
    omega
  | cons i rest =>
    simp only [rrBody, ha]
    by_cases hstart : (getIdx st.procs i).start = -1
    · simp only [if_pos hstart]
      exact rrDispatch_measure procs0 quantum hq hnd0 st inv idx1 i rest inQ1 ha
        (min quantum (getIdx st.procs i).remaining) rfl
        { getIdx st.procs i with
            remaining :=
              (getIdx st.procs i).remaining - min quantum (getIdx st.procs i).remaining
            response := (st.time : Int) - ((getIdx st.procs i).arrival : Int)
            start := (st.time : Int) }
        rfl _ rfl
    · simp only [if_neg hstart]
      exact rrDispatch_measure procs0 quantum hq hnd0 st inv idx1 i rest inQ1 ha
        (min quantum (getIdx st.procs i).remaining) rfl
        { getIdx st.procs i with
            remaining :=
              (getIdx st.procs i).remaining - min quantum (getIdx st.procs i).remaining }
        rfl _ rfl

theorem foldr_min_le_init : ∀ (xs : List Nat) (a : Nat), xs.foldr min a ≤ a := by
  intro xs
  induction xs with
  | nil => intro a; exact le_refl a
  | cons x t ih =>
    intro a
    simp only [List.foldr_cons]
    exact le_trans (min_le_right _ _) (ih a)

theorem minArrival_le_maxArrival (l : List Process) : minArrival l ≤ maxArrival l := by
  unfold minArrival maxArrival
  cases hm : l.map (·.arrival) with
  | nil => simp
  | cons a r =>
    rw [List.foldr_cons]
    exact le_trans (foldr_min_le_init r a) (le_max_left _ _)

theorem maxCompletion_le (l : List Process) (T : Nat)
    (h : ∀ i, i < l.length → (getIdx l i).completion ≤ T) : maxCompletion l ≤ T := by
  induction l with
  | nil => exact Nat.zero_le T
  | cons a t ih =>
    have h0 := h 0 (by simp)
    simp only [getIdx, List.getD_cons_zero] at h0
    have ht := ih (fun i hi => by
      have := h (i + 1) (by simpa using Nat.succ_lt_succ hi)
      simpa [getIdx, List.getD_cons_succ] using this)
    simp only [maxCompletion, List.map_cons, List.foldr_cons] at *
    omega

theorem le_maxCompletion (l : List Process) (i : Nat) (hi : i < l.length) :
    (getIdx l i).completion ≤ maxCompletion l := by
  induction l generalizing i with
  | nil => simp at hi
  | cons a t ih =>
    cases i with
    | zero =>
      simp only [getIdx, List.getD_cons_zero, maxCompletion, List.map_cons, List.foldr_cons]
      exact le_max_left _ _
    | succ i =>
      have := ih i (by simpa using hi)
      simp only [getIdx, List.getD_cons_succ, maxCompletion, List.map_cons,
        List.foldr_cons] at *
      omega

theorem copyProcs_labels (l : List Process) (hL : LabelsOk l) : LabelsOk (copyProcs l) := by
  intro p hp
  obtain ⟨q, hq, rfl⟩ := List.mem_map.mp hp
  exact hL q hq

theorem rr_loop_spec (l : List Process) (q : Nat)
    (hb : ∀ p ∈ l, 0 < p.burst) (hnd : (l.map (·.pid)).Nodup) (hq : 0 < q) :
    ∃ st, simLoop rrDone (rrBody q) (simFuel (copyProcs l)) (rrInit (copyProcs l)) =
        some st ∧ RRInv (copyProcs l) st ∧ rrDone st = true := by
  have hb0 := copyProcs_bursts l hb
  have hnd0 : ((copyProcs l).map (·.pid)).Nodup := by rw [copyProcs_pids]; exact hnd
  have hinit := copyProcs_init l
  obtain ⟨st, hst⟩ := simLoop_terminates rrDone (rrBody q)
    (fun s => totalRemaining s.procs + ((copyProcs l).length - s.idx) +
      (maxArrival (copyProcs l) - s.time))
    (fun s hs => rrInv_pres (copyProcs l) q hb0 hnd0 hinit s hs)
    (fun s hs hf => rrMeasure (copyProcs l) q hq hb0 hnd0 hinit s hs hf)
    (simFuel (copyProcs l)) (rrInit (copyProcs l)) (rrInv_init (copyProcs l) hb0 hinit)
    (by
      simp only [rrInit, simFuel]
      have h1 := copyProcs_totalRemaining l
      have h2 := copyProcs_totalBurst l
      omega)
  obtain ⟨k, hk, hdone⟩ := simLoop_eq_iterate _ _ _ _ _ hst
  have hinv : RRInv (copyProcs l) st := by
    rw [hk]
    exact iterate_inv (fun s hs => rrInv_pres (copyProcs l) q hb0 hnd0 hinit s hs) k _
      (rrInv_init (copyProcs l) hb0 hinit)
  exact ⟨st, hst, hinv, hdone⟩

theorem rrInv_done_facts (procs0 : List Process) (st : RRState)
    (hinv : RRInv procs0 st) (hdone : rrDone st = true) :
    totalRemaining st.procs = 0 ∧ (∀ p ∈ st.procs, p.remaining = 0) := by
  have hcmp : st.procs.length ≤ st.completed := by
    simpa [rrDone, simDone] using hdone
  have hcount := hinv.count
  have hle := List.countP_le_length (fun p => decide (p.remaining = 0)) (l := st.procs)
  have hall : ∀ p ∈ st.procs, p.remaining = 0 := by
    have heq : st.procs.countP (fun p => decide (p.remaining = 0)) = st.procs.length := by
      omega
    have := List.countP_eq_length.mp heq
    intro p hp
    simpa using this p hp
  refine ⟨?_, hall⟩
  unfold totalRemaining
  apply List.sum_eq_zero
  intro x hx
  obtain ⟨p, hp, rfl⟩ := List.mem_map.mp hx
  exact hall p hp

theorem rr_final (l : List Process) (q : Nat)
    (hb : ∀ p ∈ l, 0 < p.burst) (hnd : (l.map (·.pid)).Nodup) (hq : 0 < q) :
    ∃ r, round_robin l q = some r ∧
      sumDur r.2 = maxCompletion r.1 ∧
      sumDur r.2 ≤ minArrival l + totalBurst l + arrivalSpan l ∧
      (LabelsOk l → chainOk r.2 ∧ sumDur r.2 = totalBurst l + idleDur r.2) := by
  obtain ⟨st, hst, hinv, hdone⟩ := rr_loop_spec l q hb hnd hq
  obtain ⟨hR0, hall⟩ := rrInv_done_facts _ _ hinv hdone
  refine ⟨(st.procs, st.gantt), ?_, ?_, ?_, ?_⟩
  · rw [round_robin, hst]; rfl
  · -- the final clock is the completion time of the last-finishing process
    dsimp only
    rw [hinv.sumg]
    have hup : ∀ i, i < st.procs.length → (getIdx st.procs i).completion ≤ st.time :=
      fun i hi => hinv.cmpl_le i (by have := hinv.len; omega)
    by_cases hn : 0 < (copyProcs l).length
    · obtain ⟨i, hi, hieq⟩ := hinv.cmpl_last
        (by
          intro i hi
          have hm := getIdx_mem st.procs i (by have := hinv.len; omega)
          exact hall _ hm) hn
      have h1 : maxCompletion st.procs ≤ st.time := maxCompletion_le _ _ hup
      have h2 : st.time ≤ maxCompletion st.procs := by
        rw [← hieq]
        exact le_maxCompletion st.procs i (by have := hinv.len; omega)
      omega
    · have hlen0 : st.procs.length = 0 := by have := hinv.len; omega
      have hB0 : totalBurst (copyProcs l) = 0 := by
        rcases List.length_eq_zero.mp (by omega : (copyProcs l).length = 0) with h
        rw [h]; rfl
      have hA0 : maxArrival (copyProcs l) = 0 := by
        rcases List.length_eq_zero.mp (by omega : (copyProcs l).length = 0) with h
        rw [h]; rfl
      have ht0 : st.time = 0 := by
        have := hinv.clock
        omega
      rcases List.length_eq_zero.mp hlen0 with h
      rw [h, ht0]
      rfl
  · dsimp only
    rw [hinv.sumg]
    have hclock := hinv.clock
    have h2 := copyProcs_totalBurst l
    have h3 := copyProcs_maxArrival l
    have h4 := minArrival_le_maxArrival l
    unfold arrivalSpan
    omega
  · dsimp only
    intro hL
    have hL0 := copyProcs_labels l hL
    obtain ⟨c1, -, -⟩ := hinv.chain hL0
    refine ⟨c1, ?_⟩
    have hbusy := hinv.busy hL0
    have hpart := busyDur_add_idleDur st.gantt
    have hsg := hinv.sumg
    have h2 := copyProcs_totalBurst l
    omega

theorem rrRequeue_core (procs0 : List Process) (st : RRState)
    (hnd0 : (procs0.map (·.pid)).Nodup)
    (inv : RRInv procs0 st)
    (idx' i : Nat) (rest : List Nat) (inQ' : List String)
    (ha : rrArrive st.procs st.time st.idx st.queue st.inQueue = (idx', i :: rest, inQ'))
    (run : Nat) (p2 : Process)
    (hpid2 : p2.pid = (getIdx st.procs i).pid)
    (harr2 : p2.arrival = (getIdx st.procs i).arrival)
    (s : List Nat × List String)
    (hs : rrSliceArrive (setIdx st.procs i p2) (st.time + run) run idx' rest
      (inQ'.erase (getIdx st.procs i).pid) = s) :
    p2.pid ∉ s.2 ∧ i ∉ s.1 ∧
    ∀ j, j < procs0.length → st.time < (getIdx st.procs j).arrival →
      (getIdx st.procs j).arrival ≤ st.time + run →
      0 < (getIdx st.procs j).remaining → j ∈ s.1 := by
  have hlen := inv.len
  have hpids : (st.procs.map (·.pid)).Nodup := by
    rw [map_eq_of_getIdx (·.pid) st.procs procs0 hlen (fun j hj => (inv.frame j hj).1)]
    exact hnd0
  obtain ⟨s1, s2, s3, s4, s5, ⟨added, haddeq, haddc⟩, s7, s8, s9⟩ :=
    rrArrive_spec st.procs st.time hpids st.idx st.queue st.inQueue
      (by rw [hlen]; exact inv.idx_le) inv.coh inv.qnd
      (fun j hj => by rw [hlen]; exact inv.qlen j hj)
      idx' (i :: rest) inQ' ha
  have hiq : i ∈ i :: rest := List.mem_cons_self _ _
  have hilen : i < st.procs.length := s5 i hiq
  have hiarr : (getIdx st.procs i).arrival ≤ st.time := by
    rcases List.mem_append.mp (haddeq ▸ hiq) with h | h
    · exact inv.qarr i h
    · exact (haddc i h).2.2.1
  have hndc : (i :: rest).Nodup := s4
  have hinotr : i ∉ rest := (List.nodup_cons.mp hndc).1
  have hndrest : rest.Nodup := (List.nodup_cons.mp hndc).2
  -- the patched list has the same pid column
  have hpids1 : (setIdx st.procs i p2).map (·.pid) = st.procs.map (·.pid) := by
    refine map_eq_of_getIdx (·.pid) _ _ (length_setIdx _ _ _) ?_
    intro j hj
    by_cases hji : j = i
    · subst hji
      simp only [getIdx_setIdx_self st.procs j p2 hj, hpid2]
    · rw [getIdx_setIdx_ne st.procs i j p2 (fun h => hji h.symm)]
  have hpids1nd : ((setIdx st.procs i p2).map (·.pid)).Nodup := by
    rw [hpids1]; exact hpids
  -- the erased in-queue set is coherent with `rest` over the patched list
  have hcoh0 : inQ'.erase (getIdx st.procs i).pid =
      rest.map (fun j => (getIdx (setIdx st.procs i p2) j).pid) := by
    rw [s3]
    simp only [List.map_cons]
    rw [List.erase_cons_head]
    refine List.map_congr_left ?_
    intro j hj
    rw [getIdx_setIdx_ne st.procs i j p2 (fun h => hinotr (h ▸ hj))]
  obtain ⟨t1, t2, t3, ⟨added2, haddeq2, haddc2⟩, t5⟩ :=
    rrSliceArrive_spec (setIdx st.procs i p2) (st.time + run) run hpids1nd
      idx' rest (inQ'.erase (getIdx st.procs i).pid) hcoh0 hndrest
      (fun j hj => by rw [length_setIdx]; exact s5 j (List.mem_cons_of_mem _ hj))
      s.1 s.2 (by rw [hs])
  have hinots1 : i ∉ s.1 := by
    rw [haddeq2]
    intro hmem
    rcases List.mem_append.mp hmem with h | h
    · exact hinotr h
    · obtain ⟨-, -, hw, -, -⟩ := haddc2 i h
      rw [getIdx_setIdx_self st.procs i p2 hilen, harr2] at hw
      omega
  refine ⟨?_, hinots1, ?_⟩
  · rw [t1]
    intro hmem
    obtain ⟨j, hjq, hjpid⟩ := List.mem_map.mp hmem
    have hji : j = i := by
      refine pid_inj (setIdx st.procs i p2) hpids1nd j i (t3 j hjq)
        (by rw [length_setIdx]; exact hilen) ?_
      rw [getIdx_setIdx_self st.procs i p2 hilen, hjpid]
    exact hinots1 (hji ▸ hjq)
  · intro j hj hj1 hj2 hj3
    have hjlen : j < st.procs.length := by rw [hlen]; exact hj
    have hjne : j ≠ i := by
      intro h
      rw [h] at hj1
      omega
    have hjidx : idx' ≤ j := by
      by_contra h
      rcases Nat.lt_or_ge j st.idx with hc | hc
      · have := inv.arrived j hc
        omega
      · have := s8 j hc (by omega)
        omega
    have hget : getIdx (setIdx st.procs i p2) j = getIdx st.procs j :=
      getIdx_setIdx_ne st.procs i j p2 (fun h => hjne h.symm)
    refine t5 j hjidx (by rw [length_setIdx]; exact hjlen) ?_ ?_ ?_
    · rw [hget]; omega
    · rw [hget]; exact hj2
    · rw [hget]; exact hj3

theorem rrRequeue_shape (procs0 : List Process) (st : RRState)
    (hnd0 : (procs0.map (·.pid)).Nodup)
    (inv : RRInv procs0 st)
    (idx' i : Nat) (rest : List Nat) (inQ' : List String)
    (ha : rrArrive st.procs st.time st.idx st.queue st.inQueue = (idx', i :: rest, inQ'))
    (run : Nat) (p2 p3 : Process)
    (hpid2 : p2.pid = (getIdx st.procs i).pid)
    (harr2 : p2.arrival = (getIdx st.procs i).arrival)
    (hpos : 0 < p2.remaining)
    (G : List (String × Nat)) (C : Nat) :
    ∃ qpre,
      (if 0 < p2.remaining then
        { procs := setIdx st.procs i p2, time := st.time + run, completed := C
          idx := idx'
          queue :=
            if p2.pid ∉ (rrSliceArrive (setIdx st.procs i p2) (st.time + run) run idx' rest
                (inQ'.erase (getIdx st.procs i).pid)).2 then
              (rrSliceArrive (setIdx st.procs i p2) (st.time + run) run idx' rest
                (inQ'.erase (getIdx st.procs i).pid)).1 ++ [i]
            else
              (rrSliceArrive (setIdx st.procs i p2) (st.time + run) run idx' rest
                (inQ'.erase (getIdx st.procs i).pid)).1
          inQueue := addPid (rrSliceArrive (setIdx st.procs i p2) (st.time + run) run idx' rest
            (inQ'.erase (getIdx st.procs i).pid)).2 p2.pid
          gantt := G, lastPid := some p2.pid }
      else
        { procs := setIdx st.procs i p3, time := st.time + run, completed := C + 1
          idx := idx'
          queue := (rrSliceArrive (setIdx st.procs i p2) (st.time + run) run idx' rest
            (inQ'.erase (getIdx st.procs i).pid)).1
          inQueue := (rrSliceArrive (setIdx st.procs i p2) (st.time + run) run idx' rest
            (inQ'.erase (getIdx st.procs i).pid)).2
          gantt := G, lastPid := some p2.pid } : RRState).queue = qpre ++ [i] ∧
      i ∉ qpre ∧
      ∀ j, j < procs0.length → st.time < (getIdx st.procs j).arrival →
        (getIdx st.procs j).arrival ≤ st.time + run →
        0 < (getIdx st.procs j).remaining → j ∈ qpre := by
  rw [if_pos hpos]
  obtain ⟨h1, h2, h3⟩ := rrRequeue_core procs0 st hnd0 inv idx' i rest inQ' ha run p2
    hpid2 harr2 _ rfl
  dsimp only
  refine ⟨_, ?_, h2, h3⟩
  rw [if_pos h1]

theorem srtfArriveA_spec (procs : List Process) (time : Nat) :
    ∀ (k idx : Nat) (ready : List Nat) (idx' : Nat) (ready' : List Nat),
      srtfArriveA procs time k idx ready = (idx', ready') →
      procs.length ≤ idx + k → idx ≤ procs.length →
      idx ≤ idx' ∧ idx' ≤ procs.length ∧
      (∃ added, ready' = ready ++ added ∧
        (∀ j, j ∈ added ↔ idx ≤ j ∧ j < idx') ∧ added.Nodup) ∧
      (idx' = procs.length ∨ ¬ (getIdx procs idx').arrival ≤ time) ∧
      (∀ j, idx ≤ j → j < idx' → (getIdx procs j).arrival ≤ time) := by
  intro k
  induction k with
  | zero =>
    intro idx ready idx' ready' h hk hidx
    simp only [srtfArriveA] at h
    obtain ⟨rfl, rfl⟩ : idx = idx' ∧ ready = ready' :=
      ⟨congrArg Prod.fst h, congrArg Prod.snd h⟩
    refine ⟨le_refl _, hidx, ⟨[], by simp, fun j => iff_of_false (by simp) (by omega), List.nodup_nil⟩,
      Or.inl (by omega), fun j h1 h2 => absurd h2 (by omega)⟩
  | succ k ih =>
    intro idx ready idx' ready' h hk hidx
    rw [srtfArriveA] at h
    by_cases hc : idx < procs.length ∧ (getIdx procs idx).arrival ≤ time
    · rw [if_pos hc] at h
      obtain ⟨h1, h2, ⟨added, hadd, hiff, hnd⟩, h4, h5⟩ :=
        ih (idx + 1) (ready ++ [idx]) idx' ready' h (by omega) (by omega)
      refine ⟨by omega, h2, ⟨idx :: added, ?_, ?_, ?_⟩, h4, ?_⟩
      · rw [hadd]; simp
      · intro j
        simp only [List.mem_cons, hiff]
        omega
      · refine List.nodup_cons.mpr ⟨?_, hnd⟩
        intro hmem
        have := (hiff idx).mp hmem
        omega
      · intro j hj1 hj2
        rcases Nat.eq_or_lt_of_le hj1 with rfl | hj1
        · exact hc.2
        · exact h5 j hj1 hj2
    · rw [if_neg hc] at h
      obtain ⟨rfl, rfl⟩ : idx = idx' ∧ ready = ready' :=
        ⟨congrArg Prod.fst h, congrArg Prod.snd h⟩
      refine ⟨le_refl _, hidx, ⟨[], by simp, fun j => iff_of_false (by simp) (by omega), List.nodup_nil⟩,
        ?_, fun j h1 h2 => absurd h2 (by omega)⟩
      by_cases hlt : idx < procs.length
      · exact Or.inr (fun harr => hc ⟨hlt, harr⟩)
      · exact Or.inl (by omega)

theorem srtfArrive_spec (procs : List Process) (time : Nat)
    (idx : Nat) (ready : List Nat) (hidx : idx ≤ procs.length)
    (idx' : Nat) (ready' : List Nat)
    (h : srtfArrive procs time idx ready = (idx', ready')) :
    idx ≤ idx' ∧ idx' ≤ procs.length ∧
    (∃ added, ready' = ready ++ added ∧
      (∀ j, j ∈ added ↔ idx ≤ j ∧ j < idx') ∧ added.Nodup) ∧
    (idx' = procs.length ∨ ¬ (getIdx procs idx').arrival ≤ time) ∧
    (∀ j, idx ≤ j → j < idx' → (getIdx procs j).arrival ≤ time) :=
  srtfArriveA_spec procs time (procs.length - idx) idx ready idx' ready' h
    (by omega) hidx

/-- Invariant of the `srtf` while-loop, relative to the initial (copied)
process list `procs0`: index/ready-list hygiene, metric accounting, the
clock bound, and the timeline chain discipline. -/
structure SrtfInv (procs0 : List Process) (st : SrtfState) : Prop where
  len : st.procs.length = procs0.length
  frame : ∀ i, i < procs0.length →
    (getIdx st.procs i).pid = (getIdx procs0 i).pid ∧
    (getIdx st.procs i).arrival = (getIdx procs0 i).arrival ∧
    (getIdx st.procs i).burst = (getIdx procs0 i).burst
  idx_le : st.idx ≤ procs0.length
  arrived : ∀ i, i < st.idx → (getIdx st.procs i).arrival ≤ st.time
  unarr : ∀ i, i < procs0.length → st.time < (getIdx procs0 i).arrival →
    getIdx st.procs i = getIdx procs0 i
  rdy_lt : ∀ i ∈ st.ready, i < st.idx
  rdy_nd : st.ready.Nodup
  rdy_all : ∀ i, i < st.idx → 0 < (getIdx st.procs i).remaining → i ∈ st.ready
  rem_le : ∀ i, i < procs0.length →
    (getIdx st.procs i).remaining ≤ (getIdx st.procs i).burst
  count : st.completed = st.procs.countP (fun p => decide (p.remaining = 0))
  clock : st.time + totalRemaining st.procs ≤ maxArrival procs0 + totalBurst procs0
  sumg : sumDur st.gantt = st.time
  lastg : ∀ s, st.lastPid = some s → lastLabel st.gantt = some s
  cmpl_le : ∀ i, i < procs0.length → (getIdx st.procs i).completion ≤ st.time
  cmpl_last : (∀ i, i < procs0.length → (getIdx st.procs i).remaining = 0) →
    0 < procs0.length →
    ∃ i, i < procs0.length ∧ (getIdx st.procs i).completion = st.time
  busy : LabelsOk procs0 →
    busyDur st.gantt + totalRemaining st.procs = totalBurst procs0
  chain : LabelsOk procs0 →
    chainOk st.gantt ∧
    (∀ s, st.lastPid = some s → s ≠ "IDLE") ∧
    (st.lastPid = none → st.gantt = [] ∨
      (lastLabel st.gantt = some "IDLE" ∧ st.idx < procs0.length ∧
        (getIdx st.procs st.idx).arrival ≤ st.time ∧
        0 < (getIdx st.procs st.idx).remaining))

theorem srtfInv_init (procs0 : List Process)
    (hb : ∀ p ∈ procs0, 0 < p.burst)
    (hinit : ∀ i, i < procs0.length →
      (getIdx procs0 i).remaining = (getIdx procs0 i).burst ∧
      (getIdx procs0 i).completion = 0) :
    SrtfInv procs0 (srtfInit procs0) := by
  have hRB : totalRemaining procs0 = totalBurst procs0 := by
    unfold totalRemaining totalBurst
    refine congrArg List.sum (List.map_congr_left ?_)
    intro p hp
    obtain ⟨i, hi, rfl⟩ := mem_getIdx procs0 p hp
    exact (hinit i hi).1
  refine
    { len := rfl
      frame := fun i _ => ⟨rfl, rfl, rfl⟩
      idx_le := Nat.zero_le _
      arrived := fun i hi => absurd hi (by simp [srtfInit])
      unarr := fun i _ _ => rfl
      rdy_lt := fun i hi => absurd hi (by simp [srtfInit])
      rdy_nd := List.nodup_nil
      rdy_all := fun i hi _ => absurd hi (by simp [srtfInit])
      rem_le := fun i hi => le_of_eq (hinit i hi).1
      count := ?_
      clock := by simp [srtfInit]; omega
      sumg := rfl
      lastg := fun s hs => by simp [srtfInit] at hs
      cmpl_le := fun i hi => le_of_eq (hinit i hi).2
      cmpl_last := fun _ hpos => ⟨0, hpos, (hinit 0 hpos).2⟩
      busy := fun _ => by simp [srtfInit, busyDur]; omega
      chain := fun _ => ⟨trivial, fun s hs => by simp [srtfInit] at hs, fun _ => Or.inl rfl⟩ }
  show (0 : Nat) = procs0.countP (fun p => decide (p.remaining = 0))
  symm
  rw [List.countP_eq_zero]
  intro p hp
  obtain ⟨i, hi, rfl⟩ := mem_getIdx procs0 p hp
  have h1 := (hinit i hi).1
  have h2 := hb _ (getIdx_mem procs0 i hi)
  simp only [decide_eq_true_eq]
  omega

theorem srtfDispatch_pres (procs0 : List Process)
    (hb : ∀ p ∈ procs0, 0 < p.burst)
    (hnd0 : (procs0.map (·.pid)).Nodup)
    (st : SrtfState) (inv : SrtfInv procs0 st)
    (idx1 : Nat) (ready1 : List Nat)
    (ha : srtfArrive st.procs st.time st.idx st.ready = (idx1, ready1))
    (i0 : Nat) (r0 : List Nat)
    (hf : ready1.filter (fun j => decide (0 < (getIdx st.procs j).remaining ∧
      (getIdx st.procs j).arrival ≤ st.time)) = i0 :: r0)
    (i : Nat)
    (hidef : i = (List.insertionSort (srtfLe st.procs) (i0 :: r0)).headD 0)
    (p2 : Process)
    (hpid2 : p2.pid = (getIdx st.procs i).pid)
    (harr2 : p2.arrival = (getIdx st.procs i).arrival)
    (hbur2 : p2.burst = (getIdx st.procs i).burst)
    (hrem2 : p2.remaining = (getIdx st.procs i).remaining - 1)
    (hcmp2 : p2.completion = (getIdx st.procs i).completion) :
    SrtfInv procs0
      { procs := setIdx st.procs i (if p2.remaining = 0 then
          { p2 with completion := st.time + 1
                    turnaround := ((st.time + 1 : Nat) : Int) - (p2.arrival : Int)
                    waiting := ((st.time + 1 : Nat) : Int) - (p2.arrival : Int) -
                      (p2.burst : Int) }
        else p2)
        time := st.time + 1
        completed := if p2.remaining = 0 then st.completed + 1 else st.completed
        idx := idx1
        ready := List.insertionSort (srtfLe st.procs) (i0 :: r0)
        gantt := if st.lastPid ≠ some p2.pid then st.gantt ++ [(p2.pid, 1)]
          else extendLast st.gantt 1
        lastPid := some p2.pid } := by
  have hlen := inv.len
  have hpideq : st.procs.map (·.pid) = procs0.map (·.pid) :=
    map_eq_of_getIdx _ _ _ hlen (fun j hj => (inv.frame j hj).1)
  have hpids : (st.procs.map (·.pid)).Nodup := by rw [hpideq]; exact hnd0
  obtain ⟨s1, s2, ⟨added, haddeq, hiff, handnd⟩, s7, s8⟩ :=
    srtfArrive_spec st.procs st.time st.idx st.ready
      (by rw [hlen]; exact inv.idx_le) idx1 ready1 ha
  have hr1lt : ∀ j ∈ ready1, j < idx1 := by
    intro j hj
    rw [haddeq] at hj
    rcases List.mem_append.mp hj with hj | hj
    · have := inv.rdy_lt j hj; omega
    · exact ((hiff j).mp hj).2
  have hr1arr : ∀ j ∈ ready1, (getIdx st.procs j).arrival ≤ st.time := by
    intro j hj
    rw [haddeq] at hj
    rcases List.mem_append.mp hj with hj | hj
    · exact inv.arrived j (inv.rdy_lt j hj)
    · obtain ⟨hj1, hj2⟩ := (hiff j).mp hj
      exact s8 j hj1 hj2
  have hr1nd : ready1.Nodup := by
    rw [haddeq]
    refine List.nodup_append.mpr ⟨inv.rdy_nd, handnd, ?_⟩
    intro j hj1 hj2
    have h1 := inv.rdy_lt j hj1
    have h2 := ((hiff j).mp hj2).1
    omega
  have hFmem : ∀ j ∈ i0 :: r0, j ∈ ready1 ∧ 0 < (getIdx st.procs j).remaining ∧
      (getIdx st.procs j).arrival ≤ st.time := by
    intro j hj
    rw [← hf] at hj
    have hm := List.mem_filter.mp hj
    refine ⟨hm.1, ?_⟩
    have := hm.2
    simpa using this
  have hFnd : (i0 :: r0).Nodup := by rw [← hf]; exact hr1nd.filter _
  have hFcompl : ∀ j, j < idx1 → 0 < (getIdx st.procs j).remaining →
      j ∈ i0 :: r0 := by
    intro j hj hjrem
    rw [← hf]
    refine List.mem_filter.mpr ⟨?_, ?_⟩
    · rw [haddeq]
      by_cases hjidx : j < st.idx
      · exact List.mem_append_left _ (inv.rdy_all j hjidx hjrem)
      · exact List.mem_append_right _ ((hiff j).mpr ⟨by omega, hj⟩)
    · simp only [decide_eq_true_eq]
      refine ⟨hjrem, ?_⟩
      by_cases hjidx : j < st.idx
      · exact inv.arrived j hjidx
      · exact s8 j (by omega) hj
  have hsne : List.insertionSort (srtfLe st.procs) (i0 :: r0) ≠ [] :=
    insertionSort_ne_nil _ _ (by simp)
  have hi_sorted : i ∈ List.insertionSort (srtfLe st.procs) (i0 :: r0) := by
    cases hsort : List.insertionSort (srtfLe st.procs) (i0 :: r0) with
    | nil => exact absurd hsort hsne
    | cons a t =>
      rw [hidef, hsort, List.headD_cons]
      exact List.mem_cons_self a t
  have hiF : i ∈ i0 :: r0 := (List.mem_insertionSort _).mp hi_sorted
  have hiidx : i < idx1 := hr1lt i (hFmem i hiF).1
  have hilen : i < st.procs.length := by omega
  have hilen0 : i < procs0.length := by omega
  have hiarr : (getIdx st.procs i).arrival ≤ st.time := (hFmem i hiF).2.2
  have hirem : 0 < (getIdx st.procs i).remaining := (hFmem i hiF).2.1
  have hremtot : (getIdx st.procs i).remaining ≤ totalRemaining st.procs :=
    remaining_le_totalRemaining st.procs i hilen
  have hpidIdle : LabelsOk procs0 → p2.pid ≠ "IDLE" := by
    intro hL
    rw [hpid2, (inv.frame i hilen0).1]
    exact (hL _ (getIdx_mem procs0 i hilen0)).1
  have hsortnd : (List.insertionSort (srtfLe st.procs) (i0 :: r0)).Nodup :=
    ((List.perm_insertionSort (srtfLe st.procs) (i0 :: r0)).nodup_iff).mpr hFnd
  have hsortlt : ∀ j ∈ List.insertionSort (srtfLe st.procs) (i0 :: r0), j < idx1 := by
    intro j hj
    exact hr1lt j (hFmem j ((List.mem_insertionSort _).mp hj)).1
  set G := if st.lastPid ≠ some p2.pid then st.gantt ++ [(p2.pid, 1)]
    else extendLast st.gantt 1 with hGdef
  have hGsum : sumDur G = st.time + 1 := by
    rw [hGdef]
    by_cases hm : st.lastPid ≠ some p2.pid
    · rw [if_pos hm, sumDur_append, inv.sumg]
      simp [sumDur]
    · rw [if_neg hm]
      push_neg at hm
      rw [sumDur_extendLast _ _ (lastLabel_some_ne_nil _ _ (inv.lastg _ hm)), inv.sumg]
  have hGlast : lastLabel G = some p2.pid := by
    rw [hGdef]
    by_cases hm : st.lastPid ≠ some p2.pid
    · rw [if_pos hm]
      exact lastLabel_concat _ _
    · rw [if_neg hm]
      push_neg at hm
      rw [lastLabel_extendLast]
      exact inv.lastg _ hm
  have hGbusy : p2.pid ≠ "IDLE" → busyDur G = busyDur st.gantt + 1 := by
    intro hI
    rw [hGdef]
    by_cases hm : st.lastPid ≠ some p2.pid
    · rw [if_pos hm, busyDur_concat, if_neg hI]
    · rw [if_neg hm]
      push_neg at hm
      exact busyDur_extendLast _ _ _ (inv.lastg _ hm) hI
  have hGchain : LabelsOk procs0 → chainOk G := by
    intro hL
    obtain ⟨c1, c2, c3⟩ := inv.chain hL
    rw [hGdef]
    by_cases hm : st.lastPid ≠ some p2.pid
    · rw [if_pos hm, chainOk_concat_iff]
      refine ⟨c1, ?_⟩
      intro s hsl
      cases hlp : st.lastPid with
      | some s0 =>
        have := inv.lastg s0 hlp
        rw [this] at hsl
        have hs0 : s = s0 := (Option.some_inj.mp hsl).symm
        subst hs0
        intro he
        rw [hlp] at hm
        exact hm (by rw [he])
      | none =>
        rcases c3 hlp with hnil | hrest2
        · rw [hnil] at hsl; simp [lastLabel] at hsl
        · have hsI : s = "IDLE" := by
            rw [hrest2.1] at hsl
            exact (Option.some_inj.mp hsl).symm
          subst hsI
          exact fun he => (hpidIdle hL) he.symm
    · rw [if_neg hm]
      exact chainOk_extendLast _ _ c1
  by_cases hz : p2.remaining = 0
  · simp only [if_pos hz]
    set p3 : Process :=
      { p2 with completion := st.time + 1
                turnaround := ((st.time + 1 : Nat) : Int) - (p2.arrival : Int)
                waiting := ((st.time + 1 : Nat) : Int) - (p2.arrival : Int) -
                  (p2.burst : Int) } with hp3def
    have hp3rem : p3.remaining = p2.remaining := by rw [hp3def]
    have hp3pid : p3.pid = p2.pid := by rw [hp3def]
    have hp3arr : p3.arrival = p2.arrival := by rw [hp3def]
    have hp3bur : p3.burst = p2.burst := by rw [hp3def]
    have hp3cmp : p3.completion = st.time + 1 := by rw [hp3def]
    have hget3 : getIdx (setIdx st.procs i p3) i = p3 := getIdx_setIdx_self _ _ _ hilen
    refine
      { len := by dsimp only; simp only [setIdx, List.length_set]; omega
        frame := ?pframe
        idx_le := by dsimp only; omega
        arrived := ?parr
        unarr := ?punarr
        rdy_lt := ?prlt
        rdy_nd := hsortnd
        rdy_all := ?prall
        rem_le := ?prem
        count := ?pcount
        clock := ?pclock
        sumg := hGsum
        lastg := ?plast
        cmpl_le := ?pcle
        cmpl_last := ?pclast
        busy := ?pbusy
        chain := ?pchain }
    case pframe =>
      intro j hj
      dsimp only
      by_cases hji : j = i
      · subst hji
        rw [hget3, hp3pid, hp3arr, hp3bur]
        obtain ⟨g1, g2, g3⟩ := inv.frame j hj
        exact ⟨hpid2.trans g1, harr2.trans g2, hbur2.trans g3⟩
      · rw [getIdx_setIdx_ne _ _ _ _ (fun h => hji h.symm)]
        exact inv.frame j hj
    case parr =>
      intro j hj
      dsimp only at hj ⊢
      by_cases hji : j = i
      · subst hji
        rw [hget3, hp3arr, harr2]
        omega
      · rw [getIdx_setIdx_ne _ _ _ _ (fun h => hji h.symm)]
        by_cases hjidx : j < st.idx
        · have := inv.arrived j hjidx; omega
        · have := s8 j (by omega) (by omega); omega
    case punarr =>
      intro j hj hlt
      dsimp only at hlt ⊢
      have hji : j ≠ i := by
        intro he
        subst he
        have := (inv.frame j hj).2.1
        omega
      rw [getIdx_setIdx_ne _ _ _ _ (fun h => hji h.symm)]
      exact inv.unarr j hj (by omega)
    case prlt =>
      intro j hj
      dsimp only at hj ⊢
      exact hsortlt j hj
    case prall =>
      intro j hj hjrem
      dsimp only at hj hjrem ⊢
      by_cases hji : j = i
      · subst hji
        exact hi_sorted
      · rw [getIdx_setIdx_ne _ _ _ _ (fun h => hji h.symm)] at hjrem
        exact (List.mem_insertionSort _).mpr (hFcompl j hj hjrem)
    case prem =>
      intro j hj
      dsimp only
      by_cases hji : j = i
      · subst hji
        rw [hget3, hp3rem, hp3bur, hrem2, hbur2]
        have := inv.rem_le j hj
        omega
      · rw [getIdx_setIdx_ne _ _ _ _ (fun h => hji h.symm)]
        exact inv.rem_le j hj
    case pcount =>
      dsimp only
      have hc := count_map_setIdx (fun p => decide (p.remaining = 0)) st.procs i p3 hilen
      have hcnd1 : ¬ (getIdx st.procs i).remaining = 0 := by omega
      have hcnd2 : p3.remaining = 0 := by rw [hp3rem]; omega
      simp only [decide_eq_true_eq, if_neg hcnd1, if_pos hcnd2] at hc
      rw [inv.count]
      omega
    case pclock =>
      dsimp only
      have hc1 := sum_map_setIdx (·.remaining) st.procs i p3 hilen
      simp only at hc1
      rw [hp3rem] at hc1
      have hck := inv.clock
      simp only [totalRemaining] at hck ⊢
      omega
    case plast =>
      intro s hsl
      dsimp only at hsl
      have : s = p2.pid := (Option.some_inj.mp hsl).symm
      subst this
      exact hGlast
    case pcle =>
      intro j hj
      dsimp only
      by_cases hji : j = i
      · subst hji
        rw [hget3, hp3cmp]
      · rw [getIdx_setIdx_ne _ _ _ _ (fun h => hji h.symm)]
        have := inv.cmpl_le j hj
        omega
    case pclast =>
      intro hall hpos0
      dsimp only
      exact ⟨i, hilen0, by rw [hget3, hp3cmp]⟩
    case pbusy =>
      intro hL
      dsimp only
      rw [hGbusy (hpidIdle hL)]
      have hB := inv.busy hL
      have hc1 := sum_map_setIdx (·.remaining) st.procs i p3 hilen
      simp only at hc1
      rw [hp3rem] at hc1
      simp only [totalRemaining] at hB hc1 ⊢
      omega
    case pchain =>
      intro hL
      refine ⟨hGchain hL, ?_, by simp⟩
      intro s hsl
      dsimp only at hsl
      have hsp : s = p2.pid := (Option.some_inj.mp hsl).symm
      subst hsp
      exact hpidIdle hL
  · simp only [if_neg hz]
    have hget1 : getIdx (setIdx st.procs i p2) i = p2 := getIdx_setIdx_self _ _ _ hilen
    refine
      { len := by dsimp only; simp only [setIdx, List.length_set]; omega
        frame := ?pframe
        idx_le := by dsimp only; omega
        arrived := ?parr
        unarr := ?punarr
        rdy_lt := ?prlt
        rdy_nd := hsortnd
        rdy_all := ?prall
        rem_le := ?prem
        count := ?pcount
        clock := ?pclock
        sumg := hGsum
        lastg := ?plast
        cmpl_le := ?pcle
        cmpl_last := ?pclast
        busy := ?pbusy
        chain := ?pchain }
    case pframe =>
      intro j hj
      dsimp only
      by_cases hji : j = i
      · subst hji
        rw [hget1]
        obtain ⟨g1, g2, g3⟩ := inv.frame j hj
        exact ⟨hpid2.trans g1, harr2.trans g2, hbur2.trans g3⟩
      · rw [getIdx_setIdx_ne _ _ _ _ (fun h => hji h.symm)]
        exact inv.frame j hj
    case parr =>
      intro j hj
      dsimp only at hj ⊢
      by_cases hji : j = i
      · subst hji
        rw [hget1, harr2]
        omega
      · rw [getIdx_setIdx_ne _ _ _ _ (fun h => hji h.symm)]
        by_cases hjidx : j < st.idx
        · have := inv.arrived j hjidx; omega
        · have := s8 j (by omega) (by omega); omega
    case punarr =>
      intro j hj hlt
      dsimp only at hlt ⊢
      have hji : j ≠ i := by
        intro he
        subst he
        have := (inv.frame j hj).2.1
        omega
      rw [getIdx_setIdx_ne _ _ _ _ (fun h => hji h.symm)]
      exact inv.unarr j hj (by omega)
    case prlt =>
      intro j hj
      dsimp only at hj ⊢
      exact hsortlt j hj
    case prall =>
      intro j hj hjrem
      dsimp only at hj hjrem ⊢
      by_cases hji : j = i
      · subst hji
        exact hi_sorted
      · rw [getIdx_setIdx_ne _ _ _ _ (fun h => hji h.symm)] at hjrem
        exact (List.mem_insertionSort _).mpr (hFcompl j hj hjrem)
    case prem =>
      intro j hj
      dsimp only
      by_cases hji : j = i
      · subst hji
        rw [hget1, hrem2, hbur2]
        have := inv.rem_le j hj
        omega
      · rw [getIdx_setIdx_ne _ _ _ _ (fun h => hji h.symm)]
        exact inv.rem_le j hj
    case pcount =>
      dsimp only
      have hc := count_map_setIdx (fun p => decide (p.remaining = 0)) st.procs i p2 hilen
      have hcnd1 : ¬ (getIdx st.procs i).remaining = 0 := by omega
      have hcnd2 : ¬ p2.remaining = 0 := hz
      simp only [decide_eq_true_eq, if_neg hcnd1, if_neg hcnd2] at hc
      rw [inv.count]
      omega
    case pclock =>
      dsimp only
      have hc1 := sum_map_setIdx (·.remaining) st.procs i p2 hilen
      simp only at hc1
      have hck := inv.clock
      simp only [totalRemaining] at hck ⊢
      omega
    case plast =>
      intro s hsl
      dsimp only at hsl
      have : s = p2.pid := (Option.some_inj.mp hsl).symm
      subst this
      exact hGlast
    case pcle =>
      intro j hj
      dsimp only
      by_cases hji : j = i
      · subst hji
        rw [hget1, hcmp2]
        have := inv.cmpl_le j hj
        omega
      · rw [getIdx_setIdx_ne _ _ _ _ (fun h => hji h.symm)]
        have := inv.cmpl_le j hj
        omega
    case pclast =>
      intro hall hpos0
      exfalso
      dsimp only at hall
      have := hall i hilen0
      rw [hget1] at this
      omega
    case pbusy =>
      intro hL
      dsimp only
      rw [hGbusy (hpidIdle hL)]
      have hB := inv.busy hL
      have hc1 := sum_map_setIdx (·.remaining) st.procs i p2 hilen
      simp only at hc1
      simp only [totalRemaining] at hB hc1 ⊢
      omega
    case pchain =>
      intro hL
      refine ⟨hGchain hL, ?_, by simp⟩
      intro s hsl
      dsimp only at hsl
      have hsp : s = p2.pid := (Option.some_inj.mp hsl).symm
      subst hsp
      exact hpidIdle hL

theorem srtfInv_pres (procs0 : List Process)
    (hb : ∀ p ∈ procs0, 0 < p.burst)
    (hnd0 : (procs0.map (·.pid)).Nodup)
    (hinit : ∀ i, i < procs0.length →
      (getIdx procs0 i).remaining = (getIdx procs0 i).burst ∧
      (getIdx procs0 i).completion = 0)
    (st : SrtfState) (inv : SrtfInv procs0 st) : SrtfInv procs0 (srtfBody st) := by
  have hlen := inv.len
  rcases ha : srtfArrive st.procs st.time st.idx st.ready with ⟨idx1, ready1⟩
  obtain ⟨s1, s2, ⟨added, haddeq, hiff, handnd⟩, s7, s8⟩ :=
    srtfArrive_spec st.procs st.time st.idx st.ready
      (by rw [hlen]; exact inv.idx_le) idx1 ready1 ha
  have hfresh1 : ∀ j, j < procs0.length → st.time < (getIdx st.procs j).arrival →
      0 < (getIdx st.procs j).remaining := by
    intro j hj hlt
    rw [(inv.frame j hj).2.1] at hlt
    rw [inv.unarr j hj hlt, (hinit j hj).1]
    exact hb _ (getIdx_mem procs0 j hj)
  have hBeq : totalBurst st.procs = totalBurst procs0 := by
    unfold totalBurst
    rw [map_eq_of_getIdx (·.burst) st.procs procs0 hlen (fun i hi => (inv.frame i hi).2.2)]
  have hRle : totalRemaining st.procs ≤ totalBurst procs0 := by
    rw [← hBeq]
    exact totalRemaining_le_totalBurst st.procs
      (fun i hi => inv.rem_le i (by omega))
  rcases hflt : ready1.filter (fun i => decide (0 < (getIdx st.procs i).remaining ∧
      (getIdx st.procs i).arrival ≤ st.time)) with _ | ⟨i0, r0⟩
  · -- the filtered ready list is empty
    have hnoneleft : ∀ j, j < idx1 → ¬ 0 < (getIdx st.procs j).remaining := by
      intro j hj hpos
      have harrj : (getIdx st.procs j).arrival ≤ st.time := by
        by_cases hjidx : j < st.idx
        · exact inv.arrived j hjidx
        · exact s8 j (by omega) hj
      have hmemr : j ∈ ready1 := by
        rw [haddeq]
        by_cases hjidx : j < st.idx
        · exact List.mem_append_left _ (inv.rdy_all j hjidx hpos)
        · exact List.mem_append_right _ ((hiff j).mpr ⟨by omega, hj⟩)
      have : j ∈ ready1.filter (fun i => decide (0 < (getIdx st.procs i).remaining ∧
          (getIdx st.procs i).arrival ≤ st.time)) :=
        List.mem_filter.mpr ⟨hmemr, by simp only [decide_eq_true_eq]; exact ⟨hpos, harrj⟩⟩
      rw [hflt] at this
      simp at this
    have hchain3 : st.lastPid = none →
        (lastLabel st.gantt = some "IDLE" ∧ st.idx < procs0.length ∧
          (getIdx st.procs st.idx).arrival ≤ st.time ∧
          0 < (getIdx st.procs st.idx).remaining) → False := by
      intro _ ⟨_, hixn, harr, hpos⟩
      have hlt1 : st.idx < idx1 := by
        rcases s7 with h7 | h7
        · omega
        · rcases Nat.eq_or_lt_of_le s1 with he | hlt
          · rw [← he] at h7; exact absurd harr h7
          · exact hlt
      exact hnoneleft st.idx hlt1 hpos
    by_cases hidl : idx1 < st.procs.length
    · have hna : st.time < (getIdx st.procs idx1).arrival := by
        rcases s7 with h7 | h7
        · omega
        · omega
      have hnaA : (getIdx st.procs idx1).arrival ≤ maxArrival procs0 := by
        rw [(inv.frame idx1 (by omega)).2.1]
        exact arrival_le_maxArrival procs0 idx1 (by omega)
      have hpos1 : 0 < (getIdx st.procs idx1).remaining :=
        hfresh1 idx1 (by omega) hna
      simp only [srtfBody, ha, hflt, hidl, if_true]
      refine
        { len := hlen
          frame := inv.frame
          idx_le := ?ple
          arrived := ?parr
          unarr := ?pfr
          rdy_lt := ?prlt
          rdy_nd := List.nodup_nil
          rdy_all := ?prall
          rem_le := inv.rem_le
          count := inv.count
          clock := ?pclock
          sumg := ?psumg
          lastg := ?plast
          cmpl_le := ?pcle
          cmpl_last := ?pclast
          busy := ?pbusy
          chain := ?pchain }
      case ple => dsimp only; omega
      case parr =>
        intro i hi
        dsimp only at hi ⊢
        by_cases hii : i < st.idx
        · exact le_trans (inv.arrived i hii) (by omega)
        · exact le_trans (s8 i (by omega) hi) (by omega)
      case pfr =>
        intro i hi1 hi2
        dsimp only at hi2 ⊢
        exact inv.unarr i hi1 (by omega)
      case prlt => intro i hi; simp at hi
      case prall =>
        intro i hi hpos
        exact absurd hpos (hnoneleft i (by dsimp only at hi; omega))
      case pclock => dsimp only; omega
      case psumg =>
        dsimp only
        rw [sumDur_append, inv.sumg]
        simp [sumDur]
        omega
      case plast => intro s hs; simp at hs
      case pcle =>
        intro i hi
        exact le_trans (inv.cmpl_le i hi) (by dsimp only; omega)
      case pclast =>
        intro hall hpos0
        dsimp only at hall
        exact absurd (hall idx1 (by omega)) (by omega)
      case pbusy =>
        intro hL
        dsimp only
        rw [busyDur_concat, if_pos rfl, Nat.add_zero]
        exact inv.busy hL
      case pchain =>
        intro hL
        obtain ⟨c1, c2, c3⟩ := inv.chain hL
        refine ⟨?_, by simp, ?_⟩
        · rw [chainOk_concat_iff]
          refine ⟨c1, ?_⟩
          intro s hs
          cases hlp : st.lastPid with
          | some s0 =>
            have := inv.lastg s0 hlp
            rw [this] at hs
            exact (Option.some_inj.mp hs) ▸ c2 s0 hlp
          | none =>
            rcases c3 hlp with hnil | hrest
            · rw [hnil] at hs; simp [lastLabel] at hs
            · exact absurd hrest (by intro hr; exact hchain3 hlp hr)
        · intro _
          refine Or.inr ⟨lastLabel_concat _ _, ?_, le_refl _, hpos1⟩
          dsimp only
          omega
    · simp only [srtfBody, ha, hflt, hidl, if_false]
      refine
        { len := hlen
          frame := inv.frame
          idx_le := ?ple
          arrived := ?parr
          unarr := inv.unarr
          rdy_lt := ?prlt
          rdy_nd := List.nodup_nil
          rdy_all := ?prall
          rem_le := inv.rem_le
          count := inv.count
          clock := inv.clock
          sumg := inv.sumg
          lastg := inv.lastg
          cmpl_le := inv.cmpl_le
          cmpl_last := inv.cmpl_last
          busy := inv.busy
          chain := ?pchain }
      case ple => dsimp only; omega
      case parr =>
        intro i hi
        dsimp only at hi
        by_cases hii : i < st.idx
        · exact inv.arrived i hii
        · exact s8 i (by omega) hi
      case prlt => intro i hi; simp at hi
      case prall =>
        intro i hi hpos
        exact absurd hpos (hnoneleft i (by dsimp only at hi; omega))
      case pchain =>
        intro hL
        obtain ⟨c1, c2, c3⟩ := inv.chain hL
        refine ⟨c1, c2, ?_⟩
        intro hlp
        rcases c3 hlp with hnil | hrest
        · exact Or.inl hnil
        · exact absurd hrest (by intro hr; exact hchain3 hlp hr)
  · -- dispatch the minimum-key ready process for one unit
    simp only [srtfBody, ha, hflt]
    by_cases hstart :
        (getIdx st.procs ((List.insertionSort (srtfLe st.procs) (i0 :: r0)).headD 0)).start = -1
    · simp only [if_pos hstart]
      exact srtfDispatch_pres procs0 hb hnd0 st inv idx1 ready1 ha i0 r0 hflt
        ((List.insertionSort (srtfLe st.procs) (i0 :: r0)).headD 0) rfl
        { getIdx st.procs ((List.insertionSort (srtfLe st.procs) (i0 :: r0)).headD 0) with
            remaining :=
              (getIdx st.procs
                ((List.insertionSort (srtfLe st.procs) (i0 :: r0)).headD 0)).remaining - 1
            response := (st.time : Int) -
              ((getIdx st.procs
                ((List.insertionSort (srtfLe st.procs) (i0 :: r0)).headD 0)).arrival : Int)
            start := (st.time : Int) }
        rfl rfl rfl rfl rfl
    · simp only [if_neg hstart]
      exact srtfDispatch_pres procs0 hb hnd0 st inv idx1 ready1 ha i0 r0 hflt
        ((List.insertionSort (srtfLe st.procs) (i0 :: r0)).headD 0) rfl
        { getIdx st.procs ((List.insertionSort (srtfLe st.procs) (i0 :: r0)).headD 0) with
            remaining :=
              (getIdx st.procs
                ((List.insertionSort (srtfLe st.procs) (i0 :: r0)).headD 0)).remaining - 1 }
        rfl rfl rfl rfl rfl

theorem srtfDispatch_measure (procs0 : List Process)
    (st : SrtfState) (inv : SrtfInv procs0 st)
    (idx1 : Nat) (ready1 : List Nat)
    (ha : srtfArrive st.procs st.time st.idx st.ready = (idx1, ready1))
    (i0 : Nat) (r0 : List Nat)
    (hf : ready1.filter (fun j => decide (0 < (getIdx st.procs j).remaining ∧
      (getIdx st.procs j).arrival ≤ st.time)) = i0 :: r0)
    (i : Nat)
    (hidef : i = (List.insertionSort (srtfLe st.procs) (i0 :: r0)).headD 0)
    (p2 : Process)
    (hrem2 : p2.remaining = (getIdx st.procs i).remaining - 1)
    (st' : SrtfState)
    (hst' : st' =
      { procs := setIdx st.procs i (if p2.remaining = 0 then
          { p2 with completion := st.time + 1
                    turnaround := ((st.time + 1 : Nat) : Int) - (p2.arrival : Int)
                    waiting := ((st.time + 1 : Nat) : Int) - (p2.arrival : Int) -
                      (p2.burst : Int) }
        else p2)
        time := st.time + 1
        completed := if p2.remaining = 0 then st.completed + 1 else st.completed
        idx := idx1
        ready := List.insertionSort (srtfLe st.procs) (i0 :: r0)
        gantt := if st.lastPid ≠ some p2.pid then st.gantt ++ [(p2.pid, 1)]
          else extendLast st.gantt 1
        lastPid := some p2.pid }) :
    totalRemaining st'.procs + (procs0.length - st'.idx) +
      (maxArrival procs0 - st'.time) <
    totalRemaining st.procs + (procs0.length - st.idx) +
      (maxArrival procs0 - st.time) := by
  subst hst'
  have hlen := inv.len
  obtain ⟨s1, s2, ⟨added, haddeq, hiff, handnd⟩, s7, s8⟩ :=
    srtfArrive_spec st.procs st.time st.idx st.ready
      (by rw [hlen]; exact inv.idx_le) idx1 ready1 ha
  have hsne : List.insertionSort (srtfLe st.procs) (i0 :: r0) ≠ [] :=
    insertionSort_ne_nil _ _ (by simp)
  have hi_sorted : i ∈ List.insertionSort (srtfLe st.procs) (i0 :: r0) := by
    cases hsort : List.insertionSort (srtfLe st.procs) (i0 :: r0) with
    | nil => exact absurd hsort hsne
    | cons a t =>
      rw [hidef, hsort, List.headD_cons]
      exact List.mem_cons_self a t
  have hiF : i ∈ i0 :: r0 := (List.mem_insertionSort _).mp hi_sorted
  have hiF' : i ∈ ready1 ∧ 0 < (getIdx st.procs i).remaining := by
    rw [← hf] at hiF
    have hm := List.mem_filter.mp hiF
    refine ⟨hm.1, ?_⟩
    have := hm.2
    simp only [decide_eq_true_eq] at this
    exact this.1
  have hirem : 0 < (getIdx st.procs i).remaining := hiF'.2
  have hiidx : i < idx1 := by
    have hj := hiF'.1
    rw [haddeq] at hj
    rcases List.mem_append.mp hj with hj | hj
    · have := inv.rdy_lt i hj; omega
    · exact ((hiff i).mp hj).2
  have hilen : i < st.procs.length := by omega
  have hremtot : (getIdx st.procs i).remaining ≤ totalRemaining st.procs :=
    remaining_le_totalRemaining st.procs i hilen
  dsimp only
  by_cases hz : p2.remaining = 0
  · rw [if_pos hz]
    have hc1 := sum_map_setIdx (·.remaining) st.procs i
      { p2 with completion := st.time + 1
                turnaround := ((st.time + 1 : Nat) : Int) - (p2.arrival : Int)
                waiting := ((st.time + 1 : Nat) : Int) - (p2.arrival : Int) -
                  (p2.burst : Int) } hilen
    simp only [totalRemaining] at hc1 ⊢
    omega
  · rw [if_neg hz]
    have hc1 := sum_map_setIdx (·.remaining) st.procs i p2 hilen
    simp only [totalRemaining] at hc1 ⊢
    omega

theorem srtfMeasure (procs0 : List Process)
    (hb : ∀ p ∈ procs0, 0 < p.burst)
    (hnd0 : (procs0.map (·.pid)).Nodup)
    (hinit : ∀ i, i < procs0.length →
      (getIdx procs0 i).remaining = (getIdx procs0 i).burst ∧
      (getIdx procs0 i).completion = 0)
    (st : SrtfState) (inv : SrtfInv procs0 st) (hndone : srtfDone st = false) :
    totalRemaining (srtfBody st).procs + (procs0.length - (srtfBody st).idx) +
      (maxArrival procs0 - (srtfBody st).time) <
    totalRemaining st.procs + (procs0.length - st.idx) +
      (maxArrival procs0 - st.time) := by
  have hlen := inv.len
  have hcompl : st.completed < procs0.length := by
    simp only [srtfDone, simDone, decide_eq_false_iff_not, not_le] at hndone
    omega
  rcases ha : srtfArrive st.procs st.time st.idx st.ready with ⟨idx1, ready1⟩
  obtain ⟨s1, s2, ⟨added, haddeq, hiff, handnd⟩, s7, s8⟩ :=
    srtfArrive_spec st.procs st.time st.idx st.ready
      (by rw [hlen]; exact inv.idx_le) idx1 ready1 ha
  rcases hflt : ready1.filter (fun i => decide (0 < (getIdx st.procs i).remaining ∧
      (getIdx st.procs i).arrival ≤ st.time)) with _ | ⟨i0, r0⟩
  · have hcount := inv.count
    have hex : ∃ p ∈ st.procs, ¬ (fun p => decide (p.remaining = 0)) p := by
      refine countP_lt_exists st.procs _ ?_
      omega
    obtain ⟨p, hp, hpf⟩ := hex
    obtain ⟨j, hj, rfl⟩ := mem_getIdx st.procs p hp
    simp only [decide_eq_true_eq] at hpf
    have hjrem : 0 < (getIdx st.procs j).remaining := by omega
    have hjnot : ¬ j < idx1 := by
      intro hjlt
      have harrj : (getIdx st.procs j).arrival ≤ st.time := by
        by_cases hjidx : j < st.idx
        · exact inv.arrived j hjidx
        · exact s8 j (by omega) hjlt
      have hmemr : j ∈ ready1 := by
        rw [haddeq]
        by_cases hjidx : j < st.idx
        · exact List.mem_append_left _ (inv.rdy_all j hjidx hjrem)
        · exact List.mem_append_right _ ((hiff j).mpr ⟨by omega, hjlt⟩)
      have : j ∈ ready1.filter (fun i => decide (0 < (getIdx st.procs i).remaining ∧
          (getIdx st.procs i).arrival ≤ st.time)) :=
        List.mem_filter.mpr ⟨hmemr, by simp only [decide_eq_true_eq]; exact ⟨hjrem, harrj⟩⟩
      rw [hflt] at this
      simp at this
    have hidl : idx1 < st.procs.length := by omega
    have hna : st.time < (getIdx st.procs idx1).arrival := by
      rcases s7 with h7 | h7
      · omega
      · omega
    have hnaA : (getIdx st.procs idx1).arrival ≤ maxArrival procs0 := by
      rw [(inv.frame idx1 (by omega)).2.1]
      exact arrival_le_maxArrival procs0 idx1 (by omega)
    simp only [srtfBody, ha, hflt, hidl, if_true]
    omega
  · simp only [srtfBody, ha, hflt]
    by_cases hstart :
        (getIdx st.procs ((List.insertionSort (srtfLe st.procs) (i0 :: r0)).headD 0)).start = -1
    · simp only [if_pos hstart]
      exact srtfDispatch_measure procs0 st inv idx1 ready1 ha i0 r0 hflt
        ((List.insertionSort (srtfLe st.procs) (i0 :: r0)).headD 0) rfl
        { getIdx st.procs ((List.insertionSort (srtfLe st.procs) (i0 :: r0)).headD 0) with
            remaining :=
              (getIdx st.procs
                ((List.insertionSort (srtfLe st.procs) (i0 :: r0)).headD 0)).remaining - 1
            response := (st.time : Int) -
              ((getIdx st.procs
                ((List.insertionSort (srtfLe st.procs) (i0 :: r0)).headD 0)).arrival : Int)
            start := (st.time : Int) }
        rfl _ rfl
    · simp only [if_neg hstart]
      exact srtfDispatch_measure procs0 st inv idx1 ready1 ha i0 r0 hflt
        ((List.insertionSort (srtfLe st.procs) (i0 :: r0)).headD 0) rfl
        { getIdx st.procs ((List.insertionSort (srtfLe st.procs) (i0 :: r0)).headD 0) with
            remaining :=
              (getIdx st.procs
                ((List.insertionSort (srtfLe st.procs) (i0 :: r0)).headD 0)).remaining - 1 }
        rfl _ rfl

theorem srtf_loop_spec (l : List Process)
    (hb : ∀ p ∈ l, 0 < p.burst) (hnd : (l.map (·.pid)).Nodup) :
    ∃ st, simLoop srtfDone srtfBody (simFuel (copyProcs l)) (srtfInit (copyProcs l)) =
        some st ∧ SrtfInv (copyProcs l) st ∧ srtfDone st = true := by
  have hb0 := copyProcs_bursts l hb
  have hnd0 : ((copyProcs l).map (·.pid)).Nodup := by rw [copyProcs_pids]; exact hnd
  have hinit := copyProcs_init l
  obtain ⟨st, hst⟩ := simLoop_terminates srtfDone srtfBody
    (fun s => totalRemaining s.procs + ((copyProcs l).length - s.idx) +
      (maxArrival (copyProcs l) - s.time))
    (fun s hs => srtfInv_pres (copyProcs l) hb0 hnd0 hinit s hs)
    (fun s hs hf => srtfMeasure (copyProcs l) hb0 hnd0 hinit s hs hf)
    (simFuel (copyProcs l)) (srtfInit (copyProcs l)) (srtfInv_init (copyProcs l) hb0 hinit)
    (by
      simp only [srtfInit, simFuel]
      have h1 := copyProcs_totalRemaining l
      have h2 := copyProcs_totalBurst l
      omega)
  obtain ⟨k, hk, hdone⟩ := simLoop_eq_iterate _ _ _ _ _ hst
  have hinv : SrtfInv (copyProcs l) st := by
    rw [hk]
    exact iterate_inv (fun s hs => srtfInv_pres (copyProcs l) hb0 hnd0 hinit s hs) k _
      (srtfInv_init (copyProcs l) hb0 hinit)
  exact ⟨st, hst, hinv, hdone⟩

theorem srtfInv_done_facts (procs0 : List Process) (st : SrtfState)
    (hinv : SrtfInv procs0 st) (hdone : srtfDone st = true) :
    totalRemaining st.procs = 0 ∧ (∀ p ∈ st.procs, p.remaining = 0) := by
  have hcmp : st.procs.length ≤ st.completed := by
    simpa [srtfDone, simDone] using hdone
  have hcount := hinv.count
  have hle := List.countP_le_length (fun p => decide (p.remaining = 0)) (l := st.procs)
  have hall : ∀ p ∈ st.procs, p.remaining = 0 := by
    have heq : st.procs.countP (fun p => decide (p.remaining = 0)) = st.procs.length := by
      omega
    have := List.countP_eq_length.mp heq
    intro p hp
    simpa using this p hp
  refine ⟨?_, hall⟩
  unfold totalRemaining
  apply List.sum_eq_zero
  intro x hx
  obtain ⟨p, hp, rfl⟩ := List.mem_map.mp hx
  exact hall p hp

theorem srtf_final (l : List Process)
    (hb : ∀ p ∈ l, 0 < p.burst) (hnd : (l.map (·.pid)).Nodup) :
    ∃ r, srtf l = some r ∧
      sumDur r.2 = maxCompletion r.1 ∧
      sumDur r.2 ≤ minArrival l + totalBurst l + arrivalSpan l ∧
      (LabelsOk l → chainOk r.2 ∧ sumDur r.2 = totalBurst l + idleDur r.2) := by
  obtain ⟨st, hst, hinv, hdone⟩ := srtf_loop_spec l hb hnd
  obtain ⟨hR0, hall⟩ := srtfInv_done_facts _ _ hinv hdone
  refine ⟨(st.procs, st.gantt), ?_, ?_, ?_, ?_⟩
  · rw [srtf, hst]; rfl
  · dsimp only
    rw [hinv.sumg]
    have hup : ∀ i, i < st.procs.length → (getIdx st.procs i).completion ≤ st.time :=
      fun i hi => hinv.cmpl_le i (by have := hinv.len; omega)
    by_cases hn : 0 < (copyProcs l).length
    · obtain ⟨i, hi, hieq⟩ := hinv.cmpl_last
        (by
          intro i hi
          have hm := getIdx_mem st.procs i (by have := hinv.len; omega)
          exact hall _ hm) hn
      have h1 : maxCompletion st.procs ≤ st.time := maxCompletion_le _ _ hup
      have h2 : st.time ≤ maxCompletion st.procs := by
        rw [← hieq]
        exact le_maxCompletion st.procs i (by have := hinv.len; omega)
      omega
    · have hlen0 : st.procs.length = 0 := by have := hinv.len; omega
      have hB0 : totalBurst (copyProcs l) = 0 := by
        rcases List.length_eq_zero.mp (by omega : (copyProcs l).length = 0) with h
        rw [h]; rfl
      have hA0 : maxArrival (copyProcs l) = 0 := by
        rcases List.length_eq_zero.mp (by omega : (copyProcs l).length = 0) with h
        rw [h]; rfl
      have ht0 : st.time = 0 := by
        have := hinv.clock
        omega
      rcases List.length_eq_zero.mp hlen0 with h
      rw [h, ht0]
      rfl
  · dsimp only
    rw [hinv.sumg]
    have hclock := hinv.clock
    have h2 := copyProcs_totalBurst l
    have h3 := copyProcs_maxArrival l
    have h4 := minArrival_le_maxArrival l
    unfold arrivalSpan
    omega
  · dsimp only
    intro hL
    have hL0 := copyProcs_labels l hL
    obtain ⟨c1, -, -⟩ := hinv.chain hL0
    refine ⟨c1, ?_⟩
    have hbusy := hinv.busy hL0
    have hpart := busyDur_add_idleDur st.gantt
    have hsg := hinv.sumg
    have h2 := copyProcs_totalBurst l
    omega

theorem arrivalSorted_getIdx (l : List Process) (h : ArrivalSorted l) :
    ∀ i j, i ≤ j → j < l.length → (getIdx l i).arrival ≤ (getIdx l j).arrival := by
  intro i j hij hj
  rcases Nat.eq_or_lt_of_le hij with rfl | hlt
  · exact le_refl _
  · have hp := List.pairwise_iff_get.mp h ⟨i, by omega⟩ ⟨j, hj⟩ hlt
    rw [getIdx_eq_get l i (by omega), getIdx_eq_get l j hj]
    exact hp

theorem copyProcs_arrivalSorted (l : List Process) (h : ArrivalSorted l) :
    ArrivalSorted (copyProcs l) := by
  unfold ArrivalSorted copyProcs
  rw [List.pairwise_map]
  exact h

theorem mlfqArriveA_spec (time : Nat) :
    ∀ (k : Nat) (procs : List Process) (idx : Nat) (q0 : List Nat) (inQ : List String)
      (procs' : List Process) (idx' : Nat) (q0' : List Nat) (inQ' : List String),
      mlfqArriveA time k procs idx q0 inQ = (procs', idx', q0', inQ') →
      procs.length ≤ idx + k → idx ≤ procs.length →
      procs'.length = procs.length ∧
      idx ≤ idx' ∧ idx' ≤ procs.length ∧
      (∀ j, j < idx ∨ idx' ≤ j → getIdx procs' j = getIdx procs j) ∧
      (∀ j, idx ≤ j → j < idx' →
        getIdx procs' j = { getIdx procs j with queue_level := 0 }) ∧
      (∃ added, q0' = q0 ++ added ∧ (∀ j, j ∈ added ↔ idx ≤ j ∧ j < idx') ∧
        added.Nodup) ∧
      (idx' = procs.length ∨ ¬ (getIdx procs idx').arrival ≤ time) ∧
      (∀ j, idx ≤ j → j < idx' → (getIdx procs j).arrival ≤ time) := by
  intro k
  induction k with
  | zero =>
    intro procs idx q0 inQ procs' idx' q0' inQ' h hk hidx
    simp only [mlfqArriveA] at h
    obtain ⟨rfl, rfl, rfl, rfl⟩ :
        procs = procs' ∧ idx = idx' ∧ q0 = q0' ∧ inQ = inQ' := by
      refine ⟨congrArg (·.1) h, congrArg (·.2.1) h, congrArg (·.2.2.1) h,
        congrArg (·.2.2.2) h⟩
    refine ⟨rfl, le_refl _, hidx, fun j _ => rfl,
      fun j h1 h2 => absurd h2 (by omega),
      ⟨[], by simp, fun j => iff_of_false (by simp) (by omega), List.nodup_nil⟩,
      Or.inl (by omega), fun j h1 h2 => absurd h2 (by omega)⟩
  | succ k ih =>
    intro procs idx q0 inQ procs' idx' q0' inQ' h hk hidx
    rw [mlfqArriveA] at h
    by_cases hc : idx < procs.length ∧ (getIdx procs idx).arrival ≤ time
    · rw [if_pos hc] at h
      have hlenpm : (setIdx procs idx
          { getIdx procs idx with queue_level := 0 }).length = procs.length :=
        length_setIdx _ _ _
      have hpmself : getIdx (setIdx procs idx
            { getIdx procs idx with queue_level := 0 }) idx =
          { getIdx procs idx with queue_level := 0 } :=
        getIdx_setIdx_self _ _ _ hc.1
      have hpmne : ∀ j, j ≠ idx → getIdx (setIdx procs idx
            { getIdx procs idx with queue_level := 0 }) j = getIdx procs j :=
        fun j hj => getIdx_setIdx_ne _ _ _ _ (fun he => hj he.symm)
      have hpmarr : ∀ j, (getIdx (setIdx procs idx
            { getIdx procs idx with queue_level := 0 }) j).arrival =
          (getIdx procs j).arrival := by
        intro j
        by_cases hj : j = idx
        · subst hj
          rw [hpmself]
        · rw [hpmne j hj]
      obtain ⟨h1, h2, h3, h4, h5, ⟨added, hadd, hiff, hnd⟩, h7, h8⟩ :=
        ih (setIdx procs idx { getIdx procs idx with queue_level := 0 })
          (idx + 1) (q0 ++ [idx]) (addPid inQ (getIdx procs idx).pid)
          procs' idx' q0' inQ' h (by omega) (by omega)
      rw [hlenpm] at h1 h3 h7
      refine ⟨h1, by omega, h3, ?_, ?_, ⟨idx :: added, ?_, ?_, ?_⟩, ?_, ?_⟩
      · intro j hj
        have hji : j ≠ idx := by omega
        rw [h4 j (by omega), hpmne j hji]
      · intro j hj1 hj2
        rcases Nat.eq_or_lt_of_le hj1 with rfl | hlt
        · rw [h4 idx (by omega), hpmself]
        · rw [h5 j (by omega) hj2, hpmne j (by omega)]
      · rw [hadd]; simp
      · intro j
        simp only [List.mem_cons, hiff]
        omega
      · refine List.nodup_cons.mpr ⟨?_, hnd⟩
        intro hmem
        have := (hiff idx).mp hmem
        omega
      · rcases h7 with h7 | h7
        · exact Or.inl h7
        · rw [hpmarr idx'] at h7
          exact Or.inr h7
      · intro j hj1 hj2
        rcases Nat.eq_or_lt_of_le hj1 with rfl | hlt
        · exact hc.2
        · have := h8 j (by omega) hj2
          rw [hpmarr j] at this
          exact this
    · rw [if_neg hc] at h
      obtain ⟨rfl, rfl, rfl, rfl⟩ :
          procs = procs' ∧ idx = idx' ∧ q0 = q0' ∧ inQ = inQ' := by
        refine ⟨congrArg (·.1) h, congrArg (·.2.1) h, congrArg (·.2.2.1) h,
          congrArg (·.2.2.2) h⟩
      refine ⟨rfl, le_refl _, hidx, fun j _ => rfl,
        fun j h1 h2 => absurd h2 (by omega),
        ⟨[], by simp, fun j => iff_of_false (by simp) (by omega), List.nodup_nil⟩,
        ?_, fun j h1 h2 => absurd h2 (by omega)⟩
      by_cases hlt : idx < procs.length
      · exact Or.inr (fun harr => hc ⟨hlt, harr⟩)
      · exact Or.inl (by omega)

theorem mlfqArrive_spec (procs : List Process) (time : Nat)
    (idx : Nat) (q0 : List Nat) (inQ : List String) (hidx : idx ≤ procs.length)
    (procs' : List Process) (idx' : Nat) (q0' : List Nat) (inQ' : List String)
    (h : mlfqArrive procs time idx q0 inQ = (procs', idx', q0', inQ')) :
    procs'.length = procs.length ∧
    idx ≤ idx' ∧ idx' ≤ procs.length ∧
    (∀ j, j < idx ∨ idx' ≤ j → getIdx procs' j = getIdx procs j) ∧
    (∀ j, idx ≤ j → j < idx' →
      getIdx procs' j = { getIdx procs j with queue_level := 0 }) ∧
    (∃ added, q0' = q0 ++ added ∧ (∀ j, j ∈ added ↔ idx ≤ j ∧ j < idx') ∧
      added.Nodup) ∧
    (idx' = procs.length ∨ ¬ (getIdx procs idx').arrival ≤ time) ∧
    (∀ j, idx ≤ j → j < idx' → (getIdx procs j).arrival ≤ time) :=
  mlfqArriveA_spec time (procs.length - idx) procs idx q0 inQ procs' idx' q0' inQ' h
    (by omega) hidx

theorem string_data_eq {a b : String} (h : a.data = b.data) : a = b := by
  cases a; cases b; exact congrArg String.mk h

theorem string_append_suffix_inj (p1 p2 s1 s2 : String)
    (hlen : s1.length = s2.length) (h : p1 ++ s1 = p2 ++ s2) :
    p1 = p2 ∧ s1 = s2 := by
  have hd := congrArg String.data h
  rw [String.data_append, String.data_append] at hd
  have hinj := List.append_inj' hd hlen
  exact ⟨string_data_eq hinj.1, string_data_eq hinj.2⟩

/-- The MLFQ timeline labels `pid(Qℓ)` are injective in `(pid, ℓ)` for the
four levels. -/
theorem mlfqLabel_inj (p1 p2 : String) (q1 q2 : Nat) (h1 : q1 < 4) (h2 : q2 < 4)
    (h : p1 ++ "(Q" ++ toString q1 ++ ")" = p2 ++ "(Q" ++ toString q2 ++ ")") :
    p1 = p2 ∧ q1 = q2 := by
  rw [String.append_assoc, String.append_assoc, String.append_assoc,
    String.append_assoc] at h
  have hlen : ("(Q" ++ (toString q1 ++ ")")).length =
      ("(Q" ++ (toString q2 ++ ")")).length := by
    interval_cases q1 <;> interval_cases q2 <;> rfl
  obtain ⟨hp, hs⟩ := string_append_suffix_inj p1 p2 _ _ hlen h
  refine ⟨hp, ?_⟩
  interval_cases q1 <;> interval_cases q2 <;> first | rfl | exact absurd hs (by decide)

/-- An MLFQ label is never the IDLE marker. -/
theorem mlfqLabel_ne_idle (p : String) (q : Nat) (hq : q < 4) :
    p ++ "(Q" ++ toString q ++ ")" ≠ "IDLE" := by
  intro h
  have hlen := congrArg String.length h
  rw [String.length_append, String.length_append, String.length_append] at hlen
  have hq4 : (toString q).length = 1 := by
    interval_cases q <;> rfl
  have hp0 : p.length = 0 := by
    simp only [hq4] at hlen
    have h1 : ("(Q" : String).length = 2 := rfl
    have h2 : (")" : String).length = 1 := rfl
    have h3 : ("IDLE" : String).length = 4 := rfl
    omega
  have hpe : p = "" := by
    cases p with
    | mk d =>
      have hd : d = [] := List.length_eq_zero.mp hp0
      subst hd
      rfl
  subst hpe
  interval_cases q <;> exact absurd h (by decide)

/-- Invariant of the `mlfq` while-loop, relative to the quanta, the
allotments and the initial (copied) process list. -/
structure MlfqInv (quanta allotments : List Nat) (procs0 : List Process)
    (st : MlfqState) : Prop where
  len : st.procs.length = procs0.length
  frame : ∀ i, i < procs0.length →
    (getIdx st.procs i).pid = (getIdx procs0 i).pid ∧
    (getIdx st.procs i).arrival = (getIdx procs0 i).arrival ∧
    (getIdx st.procs i).burst = (getIdx procs0 i).burst
  idx_le : st.idx ≤ procs0.length
  arrived : ∀ i, i < st.idx → (getIdx st.procs i).arrival ≤ st.time
  fresh : ∀ i, st.idx ≤ i → i < procs0.length → getIdx st.procs i = getIdx procs0 i
  qlen4 : st.queues.length = 4
  qmem : ∀ l, l < 4 → ∀ j ∈ st.queues.getD l [], j < st.idx
  qrem : ∀ l, l < 4 → ∀ j ∈ st.queues.getD l [], 0 < (getIdx st.procs j).remaining
  qlevel : ∀ l, l < 4 → ∀ j ∈ st.queues.getD l [],
    (getIdx st.procs j).queue_level = l
  qndl : ∀ l, l < 4 → (st.queues.getD l []).Nodup
  qall : ∀ j, j < st.idx → 0 < (getIdx st.procs j).remaining →
    ∃ l, l < 4 ∧ j ∈ st.queues.getD l []
  level_le3 : ∀ j, j < procs0.length → (getIdx st.procs j).queue_level ≤ 3
  ltlen : ∀ s, (st.levelTime s).length = 4
  lt_le : ∀ s l, l < 4 → (st.levelTime s).getD l 0 ≤ allotments.getD l 0
  lt_strict : ∀ l, l < 4 → ∀ j ∈ st.queues.getD l [],
    (st.levelTime (getIdx st.procs j).pid).getD l 0 < allotments.getD l 0
  lt_fresh : ∀ j, st.idx ≤ j → j < procs0.length →
    st.levelTime ((getIdx procs0 j).pid) = [0, 0, 0, 0]
  lt_above : ∀ l, l < 4 → ∀ j ∈ st.queues.getD l [], ∀ m, l < m → m < 4 →
    (st.levelTime (getIdx st.procs j).pid).getD m 0 = 0
  rem_le : ∀ i, i < procs0.length →
    (getIdx st.procs i).remaining ≤ (getIdx st.procs i).burst
  count : st.completed = st.procs.countP (fun p => decide (p.remaining = 0))
  clock : st.time + totalRemaining st.procs ≤ maxArrival procs0 + totalBurst procs0
  sumg : sumDur st.gantt = st.time
  lastg : ∀ s q, st.lastPid = some (s, q) →
    lastLabel st.gantt = some (s ++ "(Q" ++ toString q ++ ")") ∧ q < 4
  cmpl_le : ∀ i, i < procs0.length → (getIdx st.procs i).completion ≤ st.time
  cmpl_last : (∀ i, i < procs0.length → (getIdx st.procs i).remaining = 0) →
    0 < procs0.length →
    ∃ i, i < procs0.length ∧ (getIdx st.procs i).completion = st.time
  busy : LabelsOk procs0 →
    busyDur st.gantt + totalRemaining st.procs = totalBurst procs0
  chain : LabelsOk procs0 →
    chainOk st.gantt ∧
    (st.lastPid = none → st.gantt = [] ∨
      (lastLabel st.gantt = some "IDLE" ∧ st.idx < procs0.length ∧
        (getIdx st.procs st.idx).arrival ≤ st.time ∧
        0 < (getIdx st.procs st.idx).remaining))

theorem copyProcs_qlevel (l : List Process) :
    ∀ i, i < (copyProcs l).length → (getIdx (copyProcs l) i).queue_level = 0 := by
  intro i hi
  rw [copyProcs_getIdx l i (by simpa [copyProcs] using hi)]
  rfl

theorem mlfqInv_init (quanta allotments : List Nat) (procs0 : List Process)
    (hb : ∀ p ∈ procs0, 0 < p.burst)
    (hinit : ∀ i, i < procs0.length →
      (getIdx procs0 i).remaining = (getIdx procs0 i).burst ∧
      (getIdx procs0 i).completion = 0 ∧ (getIdx procs0 i).queue_level = 0) :
    MlfqInv quanta allotments procs0 (mlfqInit procs0) := by
  have hRB : totalRemaining procs0 = totalBurst procs0 := by
    unfold totalRemaining totalBurst
    refine congrArg List.sum (List.map_congr_left ?_)
    intro p hp
    obtain ⟨i, hi, rfl⟩ := mem_getIdx procs0 p hp
    exact (hinit i hi).1
  have hqe : ∀ l, l < 4 → (mlfqInit procs0).queues.getD l [] = [] := by
    intro l hl
    interval_cases l <;> rfl
  refine
    { len := rfl
      frame := fun i _ => ⟨rfl, rfl, rfl⟩
      idx_le := Nat.zero_le _
      arrived := fun i hi => absurd hi (by simp [mlfqInit])
      fresh := fun i _ _ => rfl
      qlen4 := rfl
      qmem := fun l hl j hj => absurd hj (by rw [hqe l hl] at hj ⊢; simp)
      qrem := fun l hl j hj => absurd hj (by rw [hqe l hl] at hj ⊢; simp)
      qlevel := fun l hl j hj => absurd hj (by rw [hqe l hl] at hj ⊢; simp)
      qndl := fun l hl => by rw [hqe l hl]; exact List.nodup_nil
      qall := fun j hj _ => absurd hj (by simp [mlfqInit])
      level_le3 := ?plvl
      ltlen := fun s => rfl
      lt_le := ?plt
      lt_strict := fun l hl j hj => absurd hj (by rw [hqe l hl] at hj ⊢; simp)
      lt_fresh := fun j _ _ => rfl
      lt_above := fun l hl j hj => absurd hj (by rw [hqe l hl] at hj ⊢; simp)
      rem_le := fun i hi => le_of_eq (hinit i hi).1
      count := ?pcount
      clock := by simp [mlfqInit]; omega
      sumg := rfl
      lastg := fun s q hs => by simp [mlfqInit] at hs
      cmpl_le := fun i hi => le_of_eq (hinit i hi).2.1
      cmpl_last := fun _ hpos => ⟨0, hpos, (hinit 0 hpos).2.1⟩
      busy := fun _ => by simp [mlfqInit, busyDur]; omega
      chain := fun _ => ⟨trivial, fun _ => Or.inl rfl⟩ }
  case plvl =>
    intro j hj
    show (getIdx procs0 j).queue_level ≤ 3
    rw [(hinit j hj).2.2]
    omega
  case plt =>
    intro s l hl
    simp only [mlfqInit]
    interval_cases l <;> simp
  case pcount =>
    show (0 : Nat) = procs0.countP (fun p => decide (p.remaining = 0))
    symm
    rw [List.countP_eq_zero]
    intro p hp
    obtain ⟨i, hi, rfl⟩ := mem_getIdx procs0 p hp
    have h1 := (hinit i hi).1
    have h2 := hb _ (getIdx_mem procs0 i hi)
    simp only [decide_eq_true_eq]
    omega

/-- Derived facts about one dispatch step of `mlfq`, shared by the
preservation and the termination lemmas.  `Q2` is the queue array after the
pop and both arrival scans, before the dispatched process is re-queued. -/
structure MlfqMid (allotments : List Nat) (procs0 : List Process) (st : MlfqState)
    (procs1 : List Process) (i idx1 idx2 : Nat) (run : Nat) (p2 : Process)
    (procs3 : List Process) (qidx : Nat) (Q2 : List (List Nat)) : Prop where
  len3 : procs3.length = procs0.length
  hidx1 : st.idx ≤ idx1
  hidx2 : idx1 ≤ idx2
  hidx2le : idx2 ≤ procs0.length
  hiidx : i < idx1
  hilen : i < procs0.length
  hqidx4 : qidx < 4
  hirem : 0 < (getIdx procs1 i).remaining
  hlvli : (getIdx procs1 i).queue_level = qidx
  hp3i : getIdx procs3 i = p2
  len1 : procs1.length = procs0.length
  hpid_st : (getIdx procs1 i).pid = (getIdx st.procs i).pid
  hrem_st : (getIdx procs1 i).remaining = (getIdx st.procs i).remaining
  hbur_st : (getIdx procs1 i).burst = (getIdx st.procs i).burst
  hcmp_st : (getIdx procs1 i).completion = (getIdx st.procs i).completion
  hfrm : ∀ j, j < procs0.length →
    (getIdx procs3 j).pid = (getIdx procs0 j).pid ∧
    (getIdx procs3 j).arrival = (getIdx procs0 j).arrival ∧
    (getIdx procs3 j).burst = (getIdx procs0 j).burst
  hrem3 : ∀ j, j < procs0.length → j ≠ i →
    (getIdx procs3 j).remaining = (getIdx st.procs j).remaining
  hcmp3 : ∀ j, j < procs0.length → j ≠ i →
    (getIdx procs3 j).completion = (getIdx st.procs j).completion
  hlvl3old : ∀ j, j < st.idx → j ≠ i →
    (getIdx procs3 j).queue_level = (getIdx st.procs j).queue_level
  hlvl3fresh : ∀ j, st.idx ≤ j → j < idx2 → j ≠ i →
    (getIdx procs3 j).queue_level = 0
  hfresh3 : ∀ j, idx2 ≤ j → j < procs0.length → getIdx procs3 j = getIdx procs0 j
  harrived2 : ∀ j, j < idx2 → (getIdx procs3 j).arrival ≤ st.time + run
  hfreshrem : ∀ j, st.idx ≤ j → j < idx2 → j ≠ i →
    0 < (getIdx procs3 j).remaining
  hrun_le : run ≤ (getIdx procs1 i).remaining
  hlt_lt : (st.levelTime (getIdx procs1 i).pid).getD qidx 0 < allotments.getD qidx 0
  hlt_above_i : ∀ m, qidx < m → m < 4 →
    (st.levelTime (getIdx procs1 i).pid).getD m 0 = 0
  hQ2len : Q2.length = 4
  qfacts : ∀ l, l < 4 → ∀ j ∈ Q2.getD l [],
    j < idx2 ∧ j ≠ i ∧ 0 < (getIdx procs3 j).remaining ∧
    (getIdx procs3 j).queue_level = l ∧ (getIdx procs3 j).pid ≠ p2.pid ∧
    (st.levelTime (getIdx procs3 j).pid).getD l 0 < allotments.getD l 0 ∧
    (∀ m, l < m → m < 4 → (st.levelTime (getIdx procs3 j).pid).getD m 0 = 0)
  qnd : ∀ l, l < 4 → (Q2.getD l []).Nodup
  qall2 : ∀ j, j < idx2 → j ≠ i → 0 < (getIdx procs3 j).remaining →
    ∃ l, l < 4 ∧ j ∈ Q2.getD l []

theorem getD_set_self {α : Type} (l : List α) (n : Nat) (x d : α) (h : n < l.length) :
    (l.set n x).getD n d = x := by
  rw [List.getD_eq_getElem?_getD, List.getElem?_set_self (by omega)]
  rfl

theorem getD_set_of_ne {α : Type} (l : List α) (n m : Nat) (x d : α) (h : n ≠ m) :
    (l.set n x).getD m d = l.getD m d := by
  rw [List.getD_eq_getElem?_getD, List.getElem?_set_ne h, ← List.getD_eq_getElem?_getD]

theorem mlfqMid_facts (quanta allotments : List Nat)
    (hallot : ∀ l, l < 4 → 0 < allotments.getD l 0)
    (procs0 : List Process)
    (hb : ∀ p ∈ procs0, 0 < p.burst)
    (hnd0 : (procs0.map (·.pid)).Nodup)
    (hinit : ∀ i, i < procs0.length →
      (getIdx procs0 i).remaining = (getIdx procs0 i).burst ∧
      (getIdx procs0 i).completion = 0 ∧ (getIdx procs0 i).queue_level = 0)
    (st : MlfqState) (inv : MlfqInv quanta allotments procs0 st)
    (procs1 : List Process) (idx1 : Nat) (q01 : List Nat) (inQ1 : List String)
    (ha : mlfqArrive st.procs st.time st.idx (st.queues.getD 0 []) st.inQueue =
      (procs1, idx1, q01, inQ1))
    (qidx : Nat)
    (hfind : (st.queues.set 0 q01).findIdx? (fun q => !q.isEmpty) = some qidx)
    (i : Nat) (restQ : List Nat)
    (hpop : (st.queues.set 0 q01).getD qidx [] = i :: restQ)
    (run : Nat)
    (hrundef : run = min (quanta.getD qidx 0)
      (min (getIdx procs1 i).remaining
        (allotments.getD qidx 0 - (st.levelTime (getIdx procs1 i).pid).getD qidx 0)))
    (p2 : Process)
    (hpid2 : p2.pid = (getIdx procs1 i).pid)
    (harr2 : p2.arrival = (getIdx procs1 i).arrival)
    (hbur2 : p2.burst = (getIdx procs1 i).burst)
    (hrem2 : p2.remaining = (getIdx procs1 i).remaining - run)
    (hcmp2 : p2.completion = (getIdx procs1 i).completion)
    (hlvl2 : p2.queue_level = (getIdx procs1 i).queue_level)
    (procs3 : List Process) (idx2 : Nat) (q02 : List Nat) (inQ2 : List String)
    (hbs : mlfqArrive (setIdx procs1 i p2) (st.time + run) idx1
      ((((st.queues.set 0 q01).set qidx restQ)).getD 0 [])
      (inQ1.erase (getIdx procs1 i).pid) = (procs3, idx2, q02, inQ2)) :
    MlfqMid allotments procs0 st procs1 i idx1 idx2 run p2 procs3 qidx
      (((st.queues.set 0 q01).set qidx restQ).set 0 q02) := by
  have hlen := inv.len
  have hq4 := inv.qlen4
  obtain ⟨a1, a2, a3, a4, a5, ⟨addedA, haddA, hiffA, hndA⟩, a7, a8⟩ :=
    mlfqArrive_spec st.procs st.time st.idx (st.queues.getD 0 []) st.inQueue
      (by rw [hlen]; exact inv.idx_le) procs1 idx1 q01 inQ1 ha
  have hA : ∀ j, (getIdx procs1 j).pid = (getIdx st.procs j).pid ∧
      (getIdx procs1 j).arrival = (getIdx st.procs j).arrival ∧
      (getIdx procs1 j).burst = (getIdx st.procs j).burst ∧
      (getIdx procs1 j).remaining = (getIdx st.procs j).remaining ∧
      (getIdx procs1 j).completion = (getIdx st.procs j).completion := by
    intro j
    by_cases hj : st.idx ≤ j ∧ j < idx1
    · rw [a5 j hj.1 hj.2]
      exact ⟨rfl, rfl, rfl, rfl, rfl⟩
    · rw [a4 j (by omega)]
      exact ⟨rfl, rfl, rfl, rfl, rfl⟩
  have hAlvl_un : ∀ j, j < st.idx ∨ idx1 ≤ j →
      (getIdx procs1 j).queue_level = (getIdx st.procs j).queue_level := by
    intro j hj
    rw [a4 j hj]
  have hAlvl0 : ∀ j, st.idx ≤ j → j < idx1 → (getIdx procs1 j).queue_level = 0 := by
    intro j h1 h2
    rw [a5 j h1 h2]
  have hQ0len : (st.queues.set 0 q01).length = 4 := by
    rw [List.length_set]; exact hq4
  have hqidx4 : qidx < 4 := by
    have h1 := (List.findIdx?_eq_some_iff_findIdx_eq.mp hfind).1
    omega
  have hpop0 : qidx = 0 → q01 = i :: restQ := by
    intro h0
    subst h0
    rw [getD_set_self (st.queues) 0 q01 [] (by omega)] at hpop
    exact hpop
  have hpopn : qidx ≠ 0 → st.queues.getD qidx [] = i :: restQ := by
    intro h0
    rw [getD_set_of_ne (st.queues) 0 qidx q01 [] (fun he => h0 he.symm)] at hpop
    exact hpop
  have hq01nd : q01.Nodup := by
    rw [haddA]
    refine List.nodup_append.mpr ⟨inv.qndl 0 (by omega), hndA, ?_⟩
    intro j hj1 hj2
    have e1 := inv.qmem 0 (by omega) j hj1
    have e2 := (hiffA j).mp hj2
    omega
  have hirQnd : (i :: restQ).Nodup := by
    by_cases h0 : qidx = 0
    · rw [← hpop0 h0]
      exact hq01nd
    · rw [← hpopn h0]
      exact inv.qndl qidx hqidx4
  have hinotrest : i ∉ restQ := (List.nodup_cons.mp hirQnd).1
  have hrestnd : restQ.Nodup := (List.nodup_cons.mp hirQnd).2
  have hQ0mem : ∀ j ∈ i :: restQ, (j < st.idx ∧ j ∈ st.queues.getD qidx []) ∨
      (st.idx ≤ j ∧ j < idx1 ∧ qidx = 0) := by
    intro j hj
    by_cases h0 : qidx = 0
    · subst h0
      rw [← hpop0 rfl, haddA] at hj
      rcases List.mem_append.mp hj with hj | hj
      · exact Or.inl ⟨inv.qmem 0 (by omega) j hj, hj⟩
      · have := (hiffA j).mp hj
        exact Or.inr ⟨this.1, this.2, rfl⟩
    · rw [← hpopn h0] at hj
      exact Or.inl ⟨inv.qmem qidx hqidx4 j hj, hj⟩
  have hiQ0 := hQ0mem i (List.mem_cons_self _ _)
  have hiidx : i < idx1 := by
    rcases hiQ0 with ⟨h1, _⟩ | ⟨_, h2, _⟩ <;> omega
  have hilen : i < procs0.length := by omega
  have hrem_pos_fresh : ∀ j, st.idx ≤ j → j < procs0.length →
      0 < (getIdx st.procs j).remaining := by
    intro j h1 h2
    rw [inv.fresh j h1 h2, (hinit j h2).1]
    exact hb _ (getIdx_mem procs0 j h2)
  have hirem : 0 < (getIdx procs1 i).remaining := by
    rw [(hA i).2.2.2.1]
    rcases hiQ0 with ⟨h1, hq⟩ | ⟨h1, h2, _⟩
    · exact inv.qrem qidx hqidx4 i hq
    · exact hrem_pos_fresh i h1 hilen
  have hlvli : (getIdx procs1 i).queue_level = qidx := by
    rcases hiQ0 with ⟨h1, hq⟩ | ⟨h1, h2, h0⟩
    · rw [hAlvl_un i (Or.inl h1)]
      exact inv.qlevel qidx hqidx4 i hq
    · rw [h0]
      exact hAlvl0 i h1 h2
  have hpidiQ : (getIdx procs1 i).pid = (getIdx st.procs i).pid := (hA i).1
  have hlt_lt : (st.levelTime (getIdx procs1 i).pid).getD qidx 0 <
      allotments.getD qidx 0 := by
    rw [hpidiQ]
    rcases hiQ0 with ⟨h1, hq⟩ | ⟨h1, h2, h0⟩
    · exact inv.lt_strict qidx hqidx4 i hq
    · rw [inv.fresh i h1 hilen, inv.lt_fresh i h1 hilen]
      subst h0
      simpa using hallot 0 (by omega)
  have hlt_above_i : ∀ m, qidx < m → m < 4 →
      (st.levelTime (getIdx procs1 i).pid).getD m 0 = 0 := by
    intro m hm1 hm2
    rw [hpidiQ]
    rcases hiQ0 with ⟨h1, hq⟩ | ⟨h1, h2, h0⟩
    · exact inv.lt_above qidx hqidx4 i hq m hm1 hm2
    · rw [inv.fresh i h1 hilen, inv.lt_fresh i h1 hilen]
      interval_cases m <;> rfl
  have hrun_le : run ≤ (getIdx procs1 i).remaining := by
    rw [hrundef]
    exact le_trans (min_le_right _ _) (min_le_left _ _)
  have harrived1 : ∀ j, j < idx1 → (getIdx st.procs j).arrival ≤ st.time := by
    intro j hj
    by_cases hjidx : j < st.idx
    · exact inv.arrived j hjidx
    · exact a8 j (by omega) hj
  have hQ1get0 : (((st.queues.set 0 q01).set qidx restQ)).getD 0 [] =
      if qidx = 0 then restQ else q01 := by
    by_cases h0 : qidx = 0
    · subst h0
      rw [if_pos rfl, getD_set_self _ _ _ _ (by omega)]
    · rw [if_neg h0, getD_set_of_ne _ _ _ _ _ h0,
        getD_set_self _ _ _ _ (by omega)]
  have hlen2 : (setIdx procs1 i p2).length = st.procs.length := by
    rw [length_setIdx]; exact a1
  obtain ⟨b1, b2, b3, b4, b5, ⟨addedB, haddB, hiffB, hndB⟩, b7, b8⟩ :=
    mlfqArrive_spec (setIdx procs1 i p2) (st.time + run) idx1
      ((((st.queues.set 0 q01).set qidx restQ)).getD 0 [])
      (inQ1.erase (getIdx procs1 i).pid)
      (by rw [hlen2]; omega) procs3 idx2 q02 inQ2 hbs
  have h2i : getIdx (setIdx procs1 i p2) i = p2 :=
    getIdx_setIdx_self _ _ _ (by omega)
  have h2ne : ∀ j, j ≠ i → getIdx (setIdx procs1 i p2) j = getIdx procs1 j :=
    fun j hj => getIdx_setIdx_ne _ _ _ _ (fun he => hj he.symm)
  have hB : ∀ j, (getIdx procs3 j).pid = (getIdx (setIdx procs1 i p2) j).pid ∧
      (getIdx procs3 j).arrival = (getIdx (setIdx procs1 i p2) j).arrival ∧
      (getIdx procs3 j).burst = (getIdx (setIdx procs1 i p2) j).burst ∧
      (getIdx procs3 j).remaining = (getIdx (setIdx procs1 i p2) j).remaining ∧
      (getIdx procs3 j).completion = (getIdx (setIdx procs1 i p2) j).completion := by
    intro j
    by_cases hj : idx1 ≤ j ∧ j < idx2
    · rw [b5 j hj.1 hj.2]
      exact ⟨rfl, rfl, rfl, rfl, rfl⟩
    · rw [b4 j (by omega)]
      exact ⟨rfl, rfl, rfl, rfl, rfl⟩
  have hBlvl_un : ∀ j, j < idx1 ∨ idx2 ≤ j →
      (getIdx procs3 j).queue_level = (getIdx (setIdx procs1 i p2) j).queue_level := by
    intro j hj
    rw [b4 j hj]
  have hBlvl0 : ∀ j, idx1 ≤ j → j < idx2 → (getIdx procs3 j).queue_level = 0 := by
    intro j h1 h2
    rw [b5 j h1 h2]
  have hp3i : getIdx procs3 i = p2 := by
    rw [b4 i (Or.inl hiidx), h2i]
  have hfields3 : ∀ j, j ≠ i →
      (getIdx procs3 j).pid = (getIdx st.procs j).pid ∧
      (getIdx procs3 j).arrival = (getIdx st.procs j).arrival ∧
      (getIdx procs3 j).burst = (getIdx st.procs j).burst ∧
      (getIdx procs3 j).remaining = (getIdx st.procs j).remaining ∧
      (getIdx procs3 j).completion = (getIdx st.procs j).completion := by
    intro j hj
    obtain ⟨c1, c2, c3, c4, c5⟩ := hB j
    rw [h2ne j hj] at c1 c2 c3 c4 c5
    obtain ⟨d1, d2, d3, d4, d5⟩ := hA j
    exact ⟨c1.trans d1, c2.trans d2, c3.trans d3, c4.trans d4, c5.trans d5⟩
  have hpidsst : (st.procs.map (·.pid)).Nodup := by
    rw [map_eq_of_getIdx (·.pid) st.procs procs0 hlen (fun j hj => (inv.frame j hj).1)]
    exact hnd0
  have hp2pid_st : p2.pid = (getIdx st.procs i).pid := hpid2.trans hpidiQ
  have hlvl3fresh : ∀ j, st.idx ≤ j → j < idx2 → j ≠ i →
      (getIdx procs3 j).queue_level = 0 := by
    intro j h1 h2 hj
    by_cases hj1 : j < idx1
    · rw [hBlvl_un j (Or.inl hj1), h2ne j hj, hAlvl0 j h1 hj1]
    · exact hBlvl0 j (by omega) h2
  have hfreshrem : ∀ j, st.idx ≤ j → j < idx2 → j ≠ i →
      0 < (getIdx procs3 j).remaining := by
    intro j h1 h2 hj
    rw [(hfields3 j hj).2.2.2.1]
    exact hrem_pos_fresh j h1 (by omega)
  have hQ2_0 : ((((st.queues.set 0 q01).set qidx restQ).set 0 q02)).getD 0 [] = q02 :=
    getD_set_self _ _ _ _ (by rw [List.length_set]; omega)
  have hQ2_ne0 : ∀ l, l ≠ 0 →
      ((((st.queues.set 0 q01).set qidx restQ).set 0 q02)).getD l [] =
        (if l = qidx then restQ else st.queues.getD l []) := by
    intro l hl
    rw [getD_set_of_ne _ _ _ _ _ (fun he => hl he.symm)]
    by_cases hq : l = qidx
    · subst hq
      rw [if_pos rfl, getD_set_self _ _ _ _ (by omega)]
    · rw [if_neg hq, getD_set_of_ne _ _ _ _ _ (fun he => hq he.symm),
        getD_set_of_ne _ _ _ _ _ (fun he => hl he.symm)]
  have hinotq : ∀ l, l < 4 → l ≠ qidx → i ∉ st.queues.getD l [] := by
    intro l hl hlq hmem
    rcases hiQ0 with ⟨h1, hq⟩ | ⟨h1, h2, h0⟩
    · have e1 := inv.qlevel l hl i hmem
      have e2 := inv.qlevel qidx hqidx4 i hq
      omega
    · have := inv.qmem l hl i hmem
      omega
  have hq1mem : ∀ j ∈ (((st.queues.set 0 q01).set qidx restQ)).getD 0 [],
      j < idx1 ∧ j ≠ i := by
    intro j hj
    rw [hQ1get0] at hj
    by_cases h0 : qidx = 0
    · rw [if_pos h0] at hj
      have hj' := hQ0mem j (List.mem_cons_of_mem _ hj)
      have hne : j ≠ i := fun he => hinotrest (he ▸ hj)
      rcases hj' with ⟨h1, _⟩ | ⟨_, h2, _⟩ <;> exact ⟨by omega, hne⟩
    · rw [if_neg h0] at hj
      rw [haddA] at hj
      rcases List.mem_append.mp hj with hj | hj
      · have h1 := inv.qmem 0 (by omega) j hj
        refine ⟨by omega, ?_⟩
        intro he
        subst he
        exact hinotq 0 (by omega) (fun he2 => h0 he2.symm) hj
      · have h1 := (hiffA j).mp hj
        refine ⟨h1.2, ?_⟩
        intro he
        subst he
        rcases hiQ0 with ⟨hc, _⟩ | ⟨_, _, h00⟩
        · omega
        · exact h0 h00
  have hsrc : ∀ l, l < 4 →
      ∀ j ∈ ((((st.queues.set 0 q01).set qidx restQ).set 0 q02)).getD l [],
      (j < st.idx ∧ j ∈ st.queues.getD l [] ∧ j ≠ i) ∨
      (st.idx ≤ j ∧ j < idx2 ∧ l = 0 ∧ j ≠ i) := by
    intro l hl j hj
    by_cases hl0 : l = 0
    · subst hl0
      rw [hQ2_0, haddB] at hj
      rcases List.mem_append.mp hj with hj | hj
      · obtain ⟨hjlt, hjne⟩ := hq1mem j hj
        rw [hQ1get0] at hj
        by_cases h0 : qidx = 0
        · rw [if_pos h0] at hj
          rcases hQ0mem j (List.mem_cons_of_mem _ hj) with ⟨h1, hq⟩ | ⟨h1, h2, _⟩
          · exact Or.inl ⟨h1, h0 ▸ hq, hjne⟩
          · exact Or.inr ⟨h1, by omega, rfl, hjne⟩
        · rw [if_neg h0, haddA] at hj
          rcases List.mem_append.mp hj with hj | hj
          · exact Or.inl ⟨inv.qmem 0 (by omega) j hj, hj, hjne⟩
          · have h1 := (hiffA j).mp hj
            exact Or.inr ⟨h1.1, by omega, rfl, hjne⟩
      · have h1 := (hiffB j).mp hj
        refine Or.inr ⟨by omega, h1.2, rfl, ?_⟩
        omega
    · rw [hQ2_ne0 l hl0] at hj
      by_cases hq : l = qidx
      · subst hq
        rw [if_pos rfl] at hj
        have hne : j ≠ i := fun he => hinotrest (he ▸ hj)
        rcases hQ0mem j (List.mem_cons_of_mem _ hj) with ⟨h1, hqm⟩ | ⟨h1, h2, h0⟩
        · exact Or.inl ⟨h1, hqm, hne⟩
        · exact absurd h0 hl0
      · rw [if_neg hq] at hj
        refine Or.inl ⟨inv.qmem l hl j hj, hj, ?_⟩
        intro he
        subst he
        exact hinotq l hl hq hj
  refine
    { len3 := ?_
      hidx1 := a2
      hidx2 := b2
      hidx2le := by omega
      hiidx := hiidx
      hilen := hilen
      hqidx4 := hqidx4
      hirem := hirem
      hlvli := hlvli
      hp3i := hp3i
      len1 := by rw [a1, hlen]
      hpid_st := hpidiQ
      hrem_st := (hA i).2.2.2.1
      hbur_st := (hA i).2.2.1
      hcmp_st := (hA i).2.2.2.2
      hfrm := ?_
      hrem3 := fun j hj hne => (hfields3 j hne).2.2.2.1
      hcmp3 := fun j hj hne => (hfields3 j hne).2.2.2.2
      hlvl3old := ?_
      hlvl3fresh := hlvl3fresh
      hfresh3 := ?_
      harrived2 := ?_
      hfreshrem := hfreshrem
      hrun_le := hrun_le
      hlt_lt := hlt_lt
      hlt_above_i := hlt_above_i
      hQ2len := by simp only [List.length_set]; exact hq4
      qfacts := ?_
      qnd := ?_
      qall2 := ?_ }
  · rw [b1, hlen2, hlen]
  · intro j hj
    by_cases hji : j = i
    · subst hji
      rw [hp3i, hpid2, harr2, hbur2]
      obtain ⟨d1, d2, d3, -, -⟩ := hA j
      obtain ⟨g1, g2, g3⟩ := inv.frame j hj
      exact ⟨d1.trans g1, d2.trans g2, d3.trans g3⟩
    · obtain ⟨c1, c2, c3, -, -⟩ := hfields3 j hji
      obtain ⟨g1, g2, g3⟩ := inv.frame j hj
      exact ⟨c1.trans g1, c2.trans g2, c3.trans g3⟩
  · intro j hj hne
    rw [hBlvl_un j (Or.inl (by omega)), h2ne j hne, hAlvl_un j (Or.inl hj)]
  · intro j h1 h2
    rw [b4 j (Or.inr h1), h2ne j (by omega), a4 j (Or.inr (by omega))]
    exact inv.fresh j (by omega) h2
  · intro j hj
    by_cases hji : j = i
    · subst hji
      rw [hp3i, harr2, (hA j).2.1]
      have := harrived1 j hiidx
      omega
    · by_cases hj1 : j < idx1
      · rw [(hfields3 j hji).2.1]
        have := harrived1 j hj1
        omega
      · have := b8 j (by omega) hj
        rw [← (hB j).2.1] at this
        exact this
  · intro l hl j hj
    rcases hsrc l hl j hj with ⟨h1, hq, hne⟩ | ⟨h1, h2, hl0, hne⟩
    · refine ⟨by omega, hne, ?_, ?_, ?_, ?_, ?_⟩
      · rw [(hfields3 j hne).2.2.2.1]
        exact inv.qrem l hl j hq
      · rw [hBlvl_un j (Or.inl (by omega)), h2ne j hne, hAlvl_un j (Or.inl h1)]
        exact inv.qlevel l hl j hq
      · rw [(hfields3 j hne).1, hp2pid_st]
        exact fun he => hne (pid_inj st.procs hpidsst j i (by omega) (by omega) he)
      · rw [(hfields3 j hne).1]
        exact inv.lt_strict l hl j hq
      · intro m hm1 hm2
        rw [(hfields3 j hne).1]
        exact inv.lt_above l hl j hq m hm1 hm2
    · subst hl0
      have hjlen : j < procs0.length := by omega
      have hltj : st.levelTime ((getIdx st.procs j).pid) = [0, 0, 0, 0] := by
        rw [inv.fresh j h1 hjlen]
        exact inv.lt_fresh j h1 hjlen
      refine ⟨h2, hne, hfreshrem j h1 h2 hne, hlvl3fresh j h1 h2 hne, ?_, ?_, ?_⟩
      · rw [(hfields3 j hne).1, hp2pid_st]
        exact fun he => hne (pid_inj st.procs hpidsst j i (by omega) (by omega) he)
      · rw [(hfields3 j hne).1, hltj]
        simpa using hallot 0 (by omega)
      · intro m hm1 hm2
        rw [(hfields3 j hne).1, hltj]
        interval_cases m <;> rfl
  · intro l hl
    by_cases hl0 : l = 0
    · subst hl0
      rw [hQ2_0, haddB]
      refine List.nodup_append.mpr ⟨?_, hndB, ?_⟩
      · rw [hQ1get0]
        by_cases h0 : qidx = 0
        · rw [if_pos h0]; exact hrestnd
        · rw [if_neg h0]; exact hq01nd
      · intro j hj1 hj2
        have e1 := (hq1mem j hj1).1
        have e2 := (hiffB j).mp hj2
        omega
    · rw [hQ2_ne0 l hl0]
      by_cases hq : l = qidx
      · rw [if_pos hq]; exact hrestnd
      · rw [if_neg hq]; exact inv.qndl l hl
  · intro j hj1 hne hjrem
    by_cases hjidx : j < st.idx
    · have hjrem' : 0 < (getIdx st.procs j).remaining := by
        rw [← (hfields3 j hne).2.2.2.1]; exact hjrem
      obtain ⟨l, hl, hmem⟩ := inv.qall j hjidx hjrem'
      by_cases hl0 : l = 0
      · subst hl0
        refine ⟨0, by omega, ?_⟩
        rw [hQ2_0, haddB]
        refine List.mem_append_left _ ?_
        rw [hQ1get0]
        by_cases h0 : qidx = 0
        · rw [if_pos h0]
          have hjq01 : j ∈ q01 := by
            rw [haddA]; exact List.mem_append_left _ hmem
          rw [hpop0 h0] at hjq01
          rcases List.mem_cons.mp hjq01 with he | h
          · exact absurd he hne
          · exact h
        · rw [if_neg h0, haddA]
          exact List.mem_append_left _ hmem
      · by_cases hq : l = qidx
        · subst hq
          refine ⟨l, hl, ?_⟩
          rw [hQ2_ne0 l hl0, if_pos rfl]
          have := hpopn hl0
          rw [this] at hmem
          rcases List.mem_cons.mp hmem with he | h
          · exact absurd he hne
          · exact h
        · refine ⟨l, hl, ?_⟩
          rw [hQ2_ne0 l hl0, if_neg hq]
          exact hmem
    · refine ⟨0, by omega, ?_⟩
      rw [hQ2_0, haddB]
      by_cases hj1' : j < idx1
      · refine List.mem_append_left _ ?_
        rw [hQ1get0]
        have hjA : j ∈ addedA := (hiffA j).mpr ⟨by omega, hj1'⟩
        have hjq01 : j ∈ q01 := by
          rw [haddA]; exact List.mem_append_right _ hjA
        by_cases h0 : qidx = 0
        · rw [if_pos h0]
          rw [hpop0 h0] at hjq01
          rcases List.mem_cons.mp hjq01 with he | h
          · exact absurd he hne
          · exact h
        · rw [if_neg h0]
          exact hjq01
      · exact List.mem_append_right _ ((hiffB j).mpr ⟨by omega, hj1⟩)

theorem countP_rem_eq_of_map (l1 l2 : List Process)
    (h : l1.map (fun p => decide (p.remaining = 0)) =
      l2.map (fun p => decide (p.remaining = 0))) :
    l1.countP (fun p => decide (p.remaining = 0)) =
      l2.countP (fun p => decide (p.remaining = 0)) := by
  have h2 := congrArg (List.countP (fun b => b)) h
  rwa [List.countP_map, List.countP_map] at h2

theorem mlfqRequeue_inv (quanta allotments : List Nat)
    (hallot : ∀ l, l < 4 → 0 < allotments.getD l 0)
    (procs0 : List Process) (hnd0 : (procs0.map (·.pid)).Nodup)
    (hinit : ∀ i, i < procs0.length →
      (getIdx procs0 i).remaining = (getIdx procs0 i).burst ∧
      (getIdx procs0 i).completion = 0 ∧ (getIdx procs0 i).queue_level = 0)
    (st : MlfqState) (inv : MlfqInv quanta allotments procs0 st)
    (procs1 : List Process) (i idx1 idx2 : Nat) (run : Nat) (p2 : Process)
    (procs3 : List Process) (qidx : Nat) (Q2 : List (List Nat))
    (M : MlfqMid allotments procs0 st procs1 i idx1 idx2 run p2 procs3 qidx Q2)
    (hpid2 : p2.pid = (getIdx procs1 i).pid)
    (harr2 : p2.arrival = (getIdx procs1 i).arrival)
    (hbur2 : p2.burst = (getIdx procs1 i).burst)
    (hrem2 : p2.remaining = (getIdx procs1 i).remaining - run)
    (hcmp2 : p2.completion = (getIdx procs1 i).completion)
    (hpos : 0 < p2.remaining)
    (lI : Nat) (hlI4 : lI < 4)
    (pF : Process)
    (hpFpid : pF.pid = p2.pid) (hpFarr : pF.arrival = p2.arrival)
    (hpFbur : pF.burst = p2.burst) (hpFrem : pF.remaining = p2.remaining)
    (hpFcmp : pF.completion = p2.completion) (hpFlvl : pF.queue_level = lI)
    (procsF : List Process) (hlenF : procsF.length = procs0.length)
    (hgetFi : getIdx procsF i = pF)
    (hgetFne : ∀ j, j ≠ i → getIdx procsF j = getIdx procs3 j)
    (ltF : String → List Nat)
    (hltF_ne : ∀ s, s ≠ p2.pid → ltF s = st.levelTime s)
    (hltF_len : ∀ s, (ltF s).length = 4)
    (hltF_le : ∀ l, l < 4 → (ltF p2.pid).getD l 0 ≤ allotments.getD l 0)
    (hltF_i : (ltF p2.pid).getD lI 0 < allotments.getD lI 0)
    (hltF_above : ∀ m, lI < m → m < 4 → (ltF p2.pid).getD m 0 = 0)
    (G : List (String × Nat))
    (hGsum : sumDur G = st.time + run)
    (hGlast : lastLabel G = some (p2.pid ++ "(Q" ++ toString qidx ++ ")"))
    (hGbusy : busyDur G = busyDur st.gantt + run)
    (hGchain : LabelsOk procs0 → chainOk G)
    (inQF : List String) :
    MlfqInv quanta allotments procs0
      { procs := procsF, time := st.time + run, completed := st.completed
        idx := idx2, queues := Q2.set lI (Q2.getD lI [] ++ [i])
        inQueue := inQF, levelTime := ltF, gantt := G
        lastPid := some (p2.pid, qidx) } := by
  have hlen := inv.len
  have hilen0 := M.hilen
  have hilenst : i < st.procs.length := by omega
  have hine2 : i < idx2 := by
    have := M.hiidx
    have := M.hidx2
    omega
  have hifrm : p2.pid = (getIdx procs0 i).pid ∧
      p2.arrival = (getIdx procs0 i).arrival ∧
      p2.burst = (getIdx procs0 i).burst := by
    have h := M.hfrm i hilen0
    rw [M.hp3i] at h
    exact h
  -- remaining / count bookkeeping through the pointwise view
  have hmapF : procsF.map (·.remaining) = (setIdx st.procs i p2).map (·.remaining) := by
    refine map_eq_of_getIdx _ _ _ (by rw [hlenF, length_setIdx, hlen]) ?_
    intro j hj
    rw [length_setIdx] at hj
    by_cases hji : j = i
    · subst hji
      rw [hgetFi, getIdx_setIdx_self _ _ _ hilenst]
      rw [hpFrem]
    · rw [hgetFne j hji, getIdx_setIdx_ne _ _ _ _ (fun h => hji h.symm)]
      rw [M.hrem3 j (by omega) hji]
  have hmapFc : procsF.map (fun p => decide (p.remaining = 0)) =
      (setIdx st.procs i p2).map (fun p => decide (p.remaining = 0)) := by
    refine map_eq_of_getIdx _ _ _ (by rw [hlenF, length_setIdx, hlen]) ?_
    intro j hj
    rw [length_setIdx] at hj
    by_cases hji : j = i
    · subst hji
      rw [hgetFi, getIdx_setIdx_self _ _ _ hilenst]
      rw [hpFrem]
    · rw [hgetFne j hji, getIdx_setIdx_ne _ _ _ _ (fun h => hji h.symm)]
      rw [M.hrem3 j (by omega) hji]
  have hsumF := sum_map_setIdx (·.remaining) st.procs i p2 hilenst
  have htotF : totalRemaining procsF + (getIdx st.procs i).remaining =
      totalRemaining st.procs + p2.remaining := by
    unfold totalRemaining
    rw [hmapF]
    exact hsumF
  have hcntF : procsF.countP (fun p => decide (p.remaining = 0)) =
      (setIdx st.procs i p2).countP (fun p => decide (p.remaining = 0)) :=
    countP_rem_eq_of_map _ _ hmapFc
  have hcnt_set := count_map_setIdx (fun p => decide (p.remaining = 0))
    st.procs i p2 hilenst
  have hrem_st_pos : 0 < (getIdx st.procs i).remaining := by
    have := M.hirem
    have := M.hrem_st
    omega
  have hremtot := remaining_le_totalRemaining st.procs i hilenst
  have hrA := M.hrem_st
  have hrB := M.hirem
  have hrC := M.hrun_le
  have hQF : ∀ l, l < 4 → (Q2.set lI (Q2.getD lI [] ++ [i])).getD l [] =
      if l = lI then Q2.getD lI [] ++ [i] else Q2.getD l [] := by
    intro l hl
    by_cases h : l = lI
    · subst h
      rw [if_pos rfl, getD_set_self _ _ _ _ (by rw [M.hQ2len]; omega)]
    · rw [if_neg h, getD_set_of_ne _ _ _ _ _ (fun he => h he.symm)]
  have hp2pid0 : p2.pid = (getIdx procs0 i).pid := hifrm.1
  refine
    { len := hlenF
      frame := ?_
      idx_le := M.hidx2le
      arrived := ?_
      fresh := ?_
      qlen4 := by simp only [List.length_set]; exact M.hQ2len
      qmem := ?_
      qrem := ?_
      qlevel := ?_
      qndl := ?_
      qall := ?_
      level_le3 := ?_
      ltlen := hltF_len
      lt_le := ?_
      lt_strict := ?_
      lt_fresh := ?_
      lt_above := ?_
      rem_le := ?_
      count := ?_
      clock := ?_
      sumg := hGsum
      lastg := ?_
      cmpl_le := ?_
      cmpl_last := ?_
      busy := ?_
      chain := ?_ }
  · intro j hj
    by_cases hji : j = i
    · subst hji
      rw [hgetFi, hpFpid, hpFarr, hpFbur]
      exact ⟨hifrm.1, hifrm.2.1, hifrm.2.2⟩
    · rw [hgetFne j hji]
      exact M.hfrm j hj
  · intro j hj
    dsimp only at hj ⊢
    by_cases hji : j = i
    · subst hji
      rw [hgetFi, hpFarr]
      have h := M.harrived2 j hine2
      rw [M.hp3i] at h
      exact h
    · rw [hgetFne j hji]
      exact M.harrived2 j hj
  · intro j h1 h2
    dsimp only at h1 ⊢
    have hji : j ≠ i := by omega
    rw [hgetFne j hji]
    exact M.hfresh3 j h1 h2
  · intro l hl j hj
    dsimp only at hj
    rw [hQF l hl] at hj
    by_cases h : l = lI
    · rw [if_pos h] at hj
      rcases List.mem_append.mp hj with hj | hj
      · exact (M.qfacts lI hlI4 j hj).1
      · simp only [List.mem_singleton] at hj
        subst hj
        exact hine2
    · rw [if_neg h] at hj
      exact (M.qfacts l hl j hj).1
  · intro l hl j hj
    dsimp only at hj ⊢
    rw [hQF l hl] at hj
    by_cases h : l = lI
    · rw [if_pos h] at hj
      rcases List.mem_append.mp hj with hj | hj
      · obtain ⟨-, hne, hr, -⟩ := M.qfacts lI hlI4 j hj
        rw [hgetFne j hne]
        exact hr
      · simp only [List.mem_singleton] at hj
        subst hj
        rw [hgetFi, hpFrem]
        exact hpos
    · rw [if_neg h] at hj
      obtain ⟨-, hne, hr, -⟩ := M.qfacts l hl j hj
      rw [hgetFne j hne]
      exact hr
  · intro l hl j hj
    dsimp only at hj ⊢
    rw [hQF l hl] at hj
    by_cases h : l = lI
    · rw [if_pos h] at hj
      rcases List.mem_append.mp hj with hj | hj
      · obtain ⟨-, hne, -, hlv, -⟩ := M.qfacts lI hlI4 j hj
        rw [hgetFne j hne, h]
        exact hlv
      · simp only [List.mem_singleton] at hj
        subst hj
        rw [hgetFi, hpFlvl, h]
    · rw [if_neg h] at hj
      obtain ⟨-, hne, -, hlv, -⟩ := M.qfacts l hl j hj
      rw [hgetFne j hne]
      exact hlv
  · intro l hl
    dsimp only
    rw [hQF l hl]
    by_cases h : l = lI
    · rw [if_pos h]
      refine List.nodup_append.mpr ⟨M.qnd lI hlI4, List.nodup_singleton _, ?_⟩
      intro j hj1 hj2
      simp only [List.mem_singleton] at hj2
      subst hj2
      exact (M.qfacts lI hlI4 j hj1).2.1 rfl
    · rw [if_neg h]
      exact M.qnd l hl
  · intro j hj hjrem
    dsimp only at hj hjrem ⊢
    by_cases hji : j = i
    · subst hji
      refine ⟨lI, hlI4, ?_⟩
      rw [hQF lI hlI4, if_pos rfl]
      exact List.mem_append_right _ (by simp)
    · rw [hgetFne j hji] at hjrem
      obtain ⟨l, hl, hmem⟩ := M.qall2 j hj hji hjrem
      refine ⟨l, hl, ?_⟩
      rw [hQF l hl]
      by_cases h : l = lI
      · rw [if_pos h]
        exact List.mem_append_left _ (h ▸ hmem)
      · rw [if_neg h]
        exact hmem
  · intro j hj
    by_cases hji : j = i
    · subst hji
      rw [hgetFi, hpFlvl]
      omega
    · rw [hgetFne j hji]
      by_cases h1 : j < st.idx
      · rw [M.hlvl3old j h1 hji]
        exact inv.level_le3 j hj
      · by_cases h2 : j < idx2
        · rw [M.hlvl3fresh j (by omega) h2 hji]
          omega
        · rw [M.hfresh3 j (by omega) hj, (hinit j hj).2.2]
          omega
  · intro s l hl
    dsimp only
    by_cases hs : s = p2.pid
    · subst hs
      exact hltF_le l hl
    · rw [hltF_ne s hs]
      exact inv.lt_le s l hl
  · intro l hl j hj
    dsimp only at hj ⊢
    rw [hQF l hl] at hj
    by_cases h : l = lI
    · rw [if_pos h] at hj
      rw [h]
      rcases List.mem_append.mp hj with hj | hj
      · obtain ⟨-, hne, -, -, hpne, hstrict, -⟩ := M.qfacts lI hlI4 j hj
        rw [hgetFne j hne, hltF_ne _ hpne]
        exact hstrict
      · simp only [List.mem_singleton] at hj
        subst hj
        rw [hgetFi, hpFpid]
        exact hltF_i
    · rw [if_neg h] at hj
      obtain ⟨-, hne, -, -, hpne, hstrict, -⟩ := M.qfacts l hl j hj
      rw [hgetFne j hne, hltF_ne _ hpne]
      exact hstrict
  · intro j h1 h2
    dsimp only at h1 ⊢
    have hji : j ≠ i := by omega
    rw [hltF_ne _ ?_]
    · exact inv.lt_fresh j (by
        have := M.hidx1
        have := M.hidx2
        omega) h2
    · rw [hp2pid0]
      exact fun he => hji (pid_inj procs0 hnd0 j i h2 hilen0 he)
  · intro l hl j hj m hm1 hm2
    dsimp only at hj ⊢
    rw [hQF l hl] at hj
    by_cases h : l = lI
    · rw [if_pos h] at hj
      rcases List.mem_append.mp hj with hj | hj
      · obtain ⟨-, hne, -, -, hpne, -, habove⟩ := M.qfacts lI hlI4 j hj
        rw [hgetFne j hne, hltF_ne _ hpne]
        exact habove m (by omega) hm2
      · simp only [List.mem_singleton] at hj
        subst hj
        rw [hgetFi, hpFpid]
        exact hltF_above m (by omega) hm2
    · rw [if_neg h] at hj
      obtain ⟨-, hne, -, -, hpne, -, habove⟩ := M.qfacts l hl j hj
      rw [hgetFne j hne, hltF_ne _ hpne]
      exact habove m hm1 hm2
  · intro j hj
    by_cases hji : j = i
    · subst hji
      rw [hgetFi, hpFrem, hpFbur, hrem2, hbur2]
      have h1 := M.hrem_st
      have h2 := M.hbur_st
      have h3 := inv.rem_le j hj
      omega
    · rw [hgetFne j hji]
      have h1 := M.hrem3 j hj hji
      have h2 := (M.hfrm j hj).2.2
      have h3 := inv.rem_le j hj
      have h4 := (inv.frame j hj).2.2
      omega
  · dsimp only
    have hcnd1 : ¬ (getIdx st.procs i).remaining = 0 := by omega
    have hcnd2 : ¬ p2.remaining = 0 := by omega
    simp only [decide_eq_true_eq, if_neg hcnd1, if_neg hcnd2] at hcnt_set
    rw [hcntF, inv.count]
    omega
  · dsimp only
    have hck := inv.clock
    have h1 := M.hrem_st
    have h2 := M.hirem
    have h3 := M.hrun_le
    omega
  · intro s q hsl
    dsimp only at hsl
    have hpair := Option.some_inj.mp hsl
    obtain ⟨h1, h2⟩ := Prod.mk.injEq _ _ _ _ ▸ hpair
    subst h1
    subst h2
    exact ⟨hGlast, M.hqidx4⟩
  · intro j hj
    dsimp only
    by_cases hji : j = i
    · subst hji
      rw [hgetFi, hpFcmp, hcmp2, M.hcmp_st]
      have := inv.cmpl_le j hj
      omega
    · rw [hgetFne j hji, M.hcmp3 j hj hji]
      have := inv.cmpl_le j hj
      omega
  · intro hall hpos0
    exfalso
    dsimp only at hall
    have := hall i hilen0
    rw [hgetFi, hpFrem] at this
    omega
  · intro hL
    dsimp only
    rw [hGbusy]
    have hB := inv.busy hL
    omega
  · intro hL
    refine ⟨hGchain hL, ?_⟩
    intro hnone
    dsimp only at hnone
    exact absurd hnone (by simp)

theorem mlfqDispatch_pres (quanta allotments : List Nat)
    (hallot : ∀ l, l < 4 → 0 < allotments.getD l 0)
    (procs0 : List Process)
    (hb : ∀ p ∈ procs0, 0 < p.burst)
    (hnd0 : (procs0.map (·.pid)).Nodup)
    (hinit : ∀ i, i < procs0.length →
      (getIdx procs0 i).remaining = (getIdx procs0 i).burst ∧
      (getIdx procs0 i).completion = 0 ∧ (getIdx procs0 i).queue_level = 0)
    (st : MlfqState) (inv : MlfqInv quanta allotments procs0 st)
    (procs1 : List Process) (idx1 : Nat) (q01 : List Nat) (inQ1 : List String)
    (ha : mlfqArrive st.procs st.time st.idx (st.queues.getD 0 []) st.inQueue =
      (procs1, idx1, q01, inQ1))
    (qidx : Nat)
    (hfind : (st.queues.set 0 q01).findIdx? (fun q => !q.isEmpty) = some qidx)
    (i : Nat) (restQ : List Nat)
    (hpop : (st.queues.set 0 q01).getD qidx [] = i :: restQ)
    (run : Nat)
    (hrundef : run = min (quanta.getD qidx 0)
      (min (getIdx procs1 i).remaining
        (allotments.getD qidx 0 - (st.levelTime (getIdx procs1 i).pid).getD qidx 0)))
    (p2 : Process)
    (hpid2 : p2.pid = (getIdx procs1 i).pid)
    (harr2 : p2.arrival = (getIdx procs1 i).arrival)
    (hbur2 : p2.burst = (getIdx procs1 i).burst)
    (hrem2 : p2.remaining = (getIdx procs1 i).remaining - run)
    (hcmp2 : p2.completion = (getIdx procs1 i).completion)
    (hlvl2 : p2.queue_level = (getIdx procs1 i).queue_level)
    (procs3 : List Process) (idx2 : Nat) (q02 : List Nat) (inQ2 : List String)
    (hbs : mlfqArrive (setIdx procs1 i p2) (st.time + run) idx1
      ((((st.queues.set 0 q01).set qidx restQ)).getD 0 [])
      (inQ1.erase (getIdx procs1 i).pid) = (procs3, idx2, q02, inQ2)) :
    MlfqInv quanta allotments procs0
      (if p2.remaining = 0 then
        { procs := setIdx procs3 i
            { p2 with completion := st.time + run
                      turnaround := ((st.time + run : Nat) : Int) - (p2.arrival : Int)
                      waiting := ((st.time + run : Nat) : Int) - (p2.arrival : Int) -
                        (p2.burst : Int) }
          time := st.time + run
          completed := st.completed + 1
          idx := idx2
          queues := ((st.queues.set 0 q01).set qidx restQ).set 0 q02
          inQueue := inQ2
          levelTime := fun s => if s = p2.pid then
              (st.levelTime p2.pid).set qidx
                ((st.levelTime (getIdx procs1 i).pid).getD qidx 0 + run)
            else st.levelTime s
          gantt := if st.lastPid ≠ some (p2.pid, qidx) then
              st.gantt ++ [(p2.pid ++ "(Q" ++ toString qidx ++ ")", run)]
            else extendLast st.gantt run
          lastPid := some (p2.pid, qidx) }
      else if allotments.getD qidx 0 ≤
          (st.levelTime (getIdx procs1 i).pid).getD qidx 0 + run then
        if qidx < 3 then
          { procs := setIdx procs3 i { p2 with queue_level := qidx + 1 }
            time := st.time + run
            completed := st.completed
            idx := idx2
            queues := ((((st.queues.set 0 q01).set qidx restQ).set 0 q02)).set (qidx + 1)
              (((((st.queues.set 0 q01).set qidx restQ).set 0 q02)).getD (qidx + 1) [] ++ [i])
            inQueue := addPid inQ2 p2.pid
            levelTime := fun s => if s = p2.pid then
                ((st.levelTime p2.pid).set qidx
                  ((st.levelTime (getIdx procs1 i).pid).getD qidx 0 + run)).set qidx 0
              else st.levelTime s
            gantt := if st.lastPid ≠ some (p2.pid, qidx) then
                st.gantt ++ [(p2.pid ++ "(Q" ++ toString qidx ++ ")", run)]
              else extendLast st.gantt run
            lastPid := some (p2.pid, qidx) }
        else
          { procs := procs3
            time := st.time + run
            completed := st.completed
            idx := idx2
            queues := ((((st.queues.set 0 q01).set qidx restQ).set 0 q02)).set qidx
              (((((st.queues.set 0 q01).set qidx restQ).set 0 q02)).getD qidx [] ++ [i])
            inQueue := addPid inQ2 p2.pid
            levelTime := fun s => if s = p2.pid then
                ((st.levelTime p2.pid).set qidx
                  ((st.levelTime (getIdx procs1 i).pid).getD qidx 0 + run)).set qidx 0
              else st.levelTime s
            gantt := if st.lastPid ≠ some (p2.pid, qidx) then
                st.gantt ++ [(p2.pid ++ "(Q" ++ toString qidx ++ ")", run)]
              else extendLast st.gantt run
            lastPid := some (p2.pid, qidx) }
      else
        { procs := procs3
          time := st.time + run
          completed := st.completed
          idx := idx2
          queues := ((((st.queues.set 0 q01).set qidx restQ).set 0 q02)).set qidx
            (((((st.queues.set 0 q01).set qidx restQ).set 0 q02)).getD qidx [] ++ [i])
          inQueue := addPid inQ2 p2.pid
          levelTime := fun s => if s = p2.pid then
              (st.levelTime p2.pid).set qidx
                ((st.levelTime (getIdx procs1 i).pid).getD qidx 0 + run)
            else st.levelTime s
          gantt := if st.lastPid ≠ some (p2.pid, qidx) then
              st.gantt ++ [(p2.pid ++ "(Q" ++ toString qidx ++ ")", run)]
            else extendLast st.gantt run
          lastPid := some (p2.pid, qidx) }) := by
  have M := mlfqMid_facts quanta allotments hallot procs0 hb hnd0 hinit st inv
    procs1 idx1 q01 inQ1 ha qidx hfind i restQ hpop run hrundef p2
    hpid2 harr2 hbur2 hrem2 hcmp2 hlvl2 procs3 idx2 q02 inQ2 hbs
  have hlen := inv.len
  have hilen0 := M.hilen
  have hilenst : i < st.procs.length := by omega
  have hltlen : (st.levelTime p2.pid).length = 4 := inv.ltlen _
  have hlt_le_q := inv.lt_le p2.pid qidx M.hqidx4
  have hrun_allot : run ≤ allotments.getD qidx 0 -
      (st.levelTime (getIdx procs1 i).pid).getD qidx 0 := by
    rw [hrundef]
    exact le_trans (min_le_right _ _) (min_le_right _ _)
  have hlt_lt := M.hlt_lt
  set G := if st.lastPid ≠ some (p2.pid, qidx) then
      st.gantt ++ [(p2.pid ++ "(Q" ++ toString qidx ++ ")", run)]
    else extendLast st.gantt run with hGdef
  have hGsum : sumDur G = st.time + run := by
    rw [hGdef]
    by_cases hm : st.lastPid ≠ some (p2.pid, qidx)
    · rw [if_pos hm, sumDur_append, inv.sumg]
      simp [sumDur]
    · rw [if_neg hm]
      push_neg at hm
      rw [sumDur_extendLast _ _ (lastLabel_some_ne_nil _ _ (inv.lastg _ _ hm).1), inv.sumg]
  have hGlast : lastLabel G = some (p2.pid ++ "(Q" ++ toString qidx ++ ")") := by
    rw [hGdef]
    by_cases hm : st.lastPid ≠ some (p2.pid, qidx)
    · rw [if_pos hm]
      exact lastLabel_concat _ _
    · rw [if_neg hm]
      push_neg at hm
      rw [lastLabel_extendLast]
      exact (inv.lastg _ _ hm).1
  have hGbusy : busyDur G = busyDur st.gantt + run := by
    rw [hGdef]
    by_cases hm : st.lastPid ≠ some (p2.pid, qidx)
    · rw [if_pos hm, busyDur_concat, if_neg (mlfqLabel_ne_idle p2.pid qidx M.hqidx4)]
    · rw [if_neg hm]
      push_neg at hm
      exact busyDur_extendLast _ _ _ (inv.lastg _ _ hm).1
        (mlfqLabel_ne_idle p2.pid qidx M.hqidx4)
  have hGchain : LabelsOk procs0 → chainOk G := by
    intro hL
    obtain ⟨c1, c3⟩ := inv.chain hL
    rw [hGdef]
    by_cases hm : st.lastPid ≠ some (p2.pid, qidx)
    · rw [if_pos hm, chainOk_concat_iff]
      refine ⟨c1, ?_⟩
      intro s hsl
      cases hlp : st.lastPid with
      | some pr =>
        obtain ⟨hlbl, hq4⟩ := inv.lastg pr.1 pr.2 (by rw [hlp])
        rw [hlbl] at hsl
        have hs0 : s = pr.1 ++ "(Q" ++ toString pr.2 ++ ")" :=
          (Option.some_inj.mp hsl).symm
        subst hs0
        intro he
        obtain ⟨he1, he2⟩ := mlfqLabel_inj _ _ _ _ hq4 M.hqidx4 he
        rw [hlp] at hm
        exact hm (by rw [← he1, ← he2])
      | none =>
        rcases c3 hlp with hnil | hrest2
        · rw [hnil] at hsl; simp [lastLabel] at hsl
        · have hsI : s = "IDLE" := by
            rw [hrest2.1] at hsl
            exact (Option.some_inj.mp hsl).symm
          subst hsI
          exact fun he => mlfqLabel_ne_idle p2.pid qidx M.hqidx4 he.symm
    · rw [if_neg hm]
      exact chainOk_extendLast _ _ c1
  by_cases hz : p2.remaining = 0
  · rw [if_pos hz]
    -- completion branch
    set p3 : Process :=
      { p2 with completion := st.time + run
                turnaround := ((st.time + run : Nat) : Int) - (p2.arrival : Int)
                waiting := ((st.time + run : Nat) : Int) - (p2.arrival : Int) -
                  (p2.burst : Int) } with hp3def
    have hp3rem : p3.remaining = p2.remaining := by rw [hp3def]
    have hp3pid : p3.pid = p2.pid := by rw [hp3def]
    have hp3arr : p3.arrival = p2.arrival := by rw [hp3def]
    have hp3bur : p3.burst = p2.burst := by rw [hp3def]
    have hp3cmp : p3.completion = st.time + run := by rw [hp3def]
    have hp3lvl : p3.queue_level = p2.queue_level := by rw [hp3def]
    have hilen3 : i < procs3.length := by rw [M.len3]; omega
    have hgetF : getIdx (setIdx procs3 i p3) i = p3 := getIdx_setIdx_self _ _ _ hilen3
    have hgetFne : ∀ j, j ≠ i → getIdx (setIdx procs3 i p3) j = getIdx procs3 j :=
      fun j hj => getIdx_setIdx_ne _ _ _ _ (fun h => hj h.symm)
    have hifrm : p2.pid = (getIdx procs0 i).pid ∧
        p2.arrival = (getIdx procs0 i).arrival ∧
        p2.burst = (getIdx procs0 i).burst := by
      have h := M.hfrm i hilen0
      rw [M.hp3i] at h
      exact h
    have hmapF : (setIdx procs3 i p3).map (·.remaining) =
        (setIdx st.procs i p2).map (·.remaining) := by
      refine map_eq_of_getIdx _ _ _
        (by rw [length_setIdx, length_setIdx, M.len3, hlen]) ?_
      intro j hj
      rw [length_setIdx] at hj
      by_cases hji : j = i
      · subst hji
        rw [hgetF, getIdx_setIdx_self _ _ _ hilenst]
      · rw [hgetFne j hji, getIdx_setIdx_ne _ _ _ _ (fun h => hji h.symm)]
        rw [M.hrem3 j (by omega) hji]
    have hmapFc : (setIdx procs3 i p3).map (fun p => decide (p.remaining = 0)) =
        (setIdx st.procs i p2).map (fun p => decide (p.remaining = 0)) := by
      refine map_eq_of_getIdx _ _ _
        (by rw [length_setIdx, length_setIdx, M.len3, hlen]) ?_
      intro j hj
      rw [length_setIdx] at hj
      by_cases hji : j = i
      · subst hji
        rw [hgetF, getIdx_setIdx_self _ _ _ hilenst]
      · rw [hgetFne j hji, getIdx_setIdx_ne _ _ _ _ (fun h => hji h.symm)]
        rw [M.hrem3 j (by omega) hji]
    have hsumF := sum_map_setIdx (·.remaining) st.procs i p2 hilenst
    have htotF : totalRemaining (setIdx procs3 i p3) + (getIdx st.procs i).remaining =
        totalRemaining st.procs + p2.remaining := by
      unfold totalRemaining
      rw [hmapF]
      exact hsumF
    have hcntF : (setIdx procs3 i p3).countP (fun p => decide (p.remaining = 0)) =
        (setIdx st.procs i p2).countP (fun p => decide (p.remaining = 0)) :=
      countP_rem_eq_of_map _ _ hmapFc
    have hcnt_set := count_map_setIdx (fun p => decide (p.remaining = 0))
      st.procs i p2 hilenst
    have hrem_st_pos : 0 < (getIdx st.procs i).remaining := by
      have := M.hirem
      have := M.hrem_st
      omega
    have hremtot := remaining_le_totalRemaining st.procs i hilenst
    have hrA := M.hrem_st
    have hrB := M.hirem
    have hrC := M.hrun_le
    refine
      { len := by dsimp only; rw [length_setIdx, M.len3]
        frame := ?_
        idx_le := M.hidx2le
        arrived := ?_
        fresh := ?_
        qlen4 := M.hQ2len
        qmem := fun l hl j hj => (M.qfacts l hl j hj).1
        qrem := ?_
        qlevel := ?_
        qndl := M.qnd
        qall := ?_
        level_le3 := ?_
        ltlen := ?_
        lt_le := ?_
        lt_strict := ?_
        lt_fresh := ?_
        lt_above := ?_
        rem_le := ?_
        count := ?_
        clock := ?_
        sumg := hGsum
        lastg := ?_
        cmpl_le := ?_
        cmpl_last := ?_
        busy := ?_
        chain := ?_ }
    · intro j hj
      dsimp only
      by_cases hji : j = i
      · subst hji
        rw [hgetF, hp3pid, hp3arr, hp3bur]
        exact ⟨hifrm.1, hifrm.2.1, hifrm.2.2⟩
      · rw [hgetFne j hji]
        exact M.hfrm j hj
    · intro j hj
      dsimp only at hj ⊢
      by_cases hji : j = i
      · subst hji
        rw [hgetF, hp3arr]
        have h := M.harrived2 j (by have := M.hiidx; have := M.hidx2; omega)
        rw [M.hp3i] at h
        rw [harr2] at h ⊢
        exact h
      · rw [hgetFne j hji]
        exact M.harrived2 j hj
    · intro j h1 h2
      dsimp only at h1 ⊢
      have hji : j ≠ i := by have := M.hiidx; have := M.hidx2; omega
      rw [hgetFne j hji]
      exact M.hfresh3 j h1 h2
    · intro l hl j hj
      dsimp only at hj ⊢
      obtain ⟨-, hne, hr, -⟩ := M.qfacts l hl j hj
      rw [hgetFne j hne]
      exact hr
    · intro l hl j hj
      dsimp only at hj ⊢
      obtain ⟨-, hne, -, hlv, -⟩ := M.qfacts l hl j hj
      rw [hgetFne j hne]
      exact hlv
    · intro j hj hjrem
      dsimp only at hj hjrem ⊢
      by_cases hji : j = i
      · subst hji
        rw [hgetF, hp3rem] at hjrem
        omega
      · rw [hgetFne j hji] at hjrem
        exact M.qall2 j hj hji hjrem
    · intro j hj
      dsimp only
      by_cases hji : j = i
      · subst hji
        rw [hgetF, hp3lvl, hlvl2, M.hlvli]
        have := M.hqidx4
        omega
      · rw [hgetFne j hji]
        by_cases h1 : j < st.idx
        · rw [M.hlvl3old j h1 hji]
          exact inv.level_le3 j hj
        · by_cases h2 : j < idx2
          · rw [M.hlvl3fresh j (by omega) h2 hji]
            omega
          · rw [M.hfresh3 j (by omega) hj, (hinit j hj).2.2]
            omega
    · intro s
      dsimp only
      by_cases hs : s = p2.pid
      · rw [if_pos hs, List.length_set]
        exact hltlen
      · rw [if_neg hs]
        exact inv.ltlen s
    · intro s l hl
      dsimp only
      by_cases hs : s = p2.pid
      · rw [if_pos hs]
        by_cases hq : l = qidx
        · subst hq
          rw [getD_set_self _ _ _ _ (by omega)]
          omega
        · rw [getD_set_of_ne _ _ _ _ _ (fun he => hq he.symm)]
          exact inv.lt_le p2.pid l hl
      · rw [if_neg hs]
        exact inv.lt_le s l hl
    · intro l hl j hj
      dsimp only at hj ⊢
      obtain ⟨-, hne, -, -, hpne, hstrict, -⟩ := M.qfacts l hl j hj
      rw [hgetFne j hne, if_neg hpne]
      exact hstrict
    · intro j h1 h2
      dsimp only at h1 ⊢
      have hji : j ≠ i := by have := M.hiidx; have := M.hidx2; omega
      rw [if_neg ?_]
      · exact inv.lt_fresh j (by have := M.hidx1; have := M.hidx2; omega) h2
      · rw [hifrm.1]
        exact fun he => hji (pid_inj procs0 hnd0 j i h2 hilen0 he)
    · intro l hl j hj m hm1 hm2
      dsimp only at hj ⊢
      obtain ⟨-, hne, -, -, hpne, -, habove⟩ := M.qfacts l hl j hj
      rw [hgetFne j hne, if_neg hpne]
      exact habove m hm1 hm2
    · intro j hj
      dsimp only
      by_cases hji : j = i
      · subst hji
        rw [hgetF, hp3rem, hp3bur, hrem2, hbur2]
        have h1 := M.hrem_st
        have h2 := M.hbur_st
        have h3 := inv.rem_le j hj
        omega
      · rw [hgetFne j hji]
        have h1 := M.hrem3 j hj hji
        have h2 := (M.hfrm j hj).2.2
        have h3 := inv.rem_le j hj
        have h4 := (inv.frame j hj).2.2
        omega
    · dsimp only
      have hcnd1 : ¬ (getIdx st.procs i).remaining = 0 := by omega
      have hcnd2 : p2.remaining = 0 := hz
      simp only [decide_eq_true_eq, if_neg hcnd1, if_pos hcnd2] at hcnt_set
      rw [hcntF, inv.count]
      omega
    · dsimp only
      have hck := inv.clock
      omega
    · intro s q hsl
      dsimp only at hsl
      have hpair := Option.some_inj.mp hsl
      obtain ⟨h1, h2⟩ := Prod.mk.injEq _ _ _ _ ▸ hpair
      subst h1
      subst h2
      exact ⟨hGlast, M.hqidx4⟩
    · intro j hj
      dsimp only
      by_cases hji : j = i
      · subst hji
        rw [hgetF, hp3cmp]
      · rw [hgetFne j hji, M.hcmp3 j hj hji]
        have := inv.cmpl_le j hj
        omega
    · intro hall hpos0
      dsimp only
      exact ⟨i, hilen0, by rw [hgetF, hp3cmp]⟩
    · intro hL
      dsimp only
      rw [hGbusy]
      have hB := inv.busy hL
      omega
    · intro hL
      refine ⟨hGchain hL, ?_⟩
      intro hnone
      dsimp only at hnone
      exact absurd hnone (by simp)
  · rw [if_neg hz]
    have hpos : 0 < p2.remaining := by omega
    by_cases hal : allotments.getD qidx 0 ≤
        (st.levelTime (getIdx procs1 i).pid).getD qidx 0 + run
    · rw [if_pos hal]
      by_cases hq3 : qidx < 3
      · rw [if_pos hq3]
        refine mlfqRequeue_inv quanta allotments hallot procs0 hnd0 hinit st inv
          procs1 i idx1 idx2 run p2 procs3 qidx _ M
          hpid2 harr2 hbur2 hrem2 hcmp2 hpos
          (qidx + 1) (by omega)
          { p2 with queue_level := qidx + 1 }
          rfl rfl rfl rfl rfl rfl
          (setIdx procs3 i { p2 with queue_level := qidx + 1 })
          (by rw [length_setIdx, M.len3])
          (getIdx_setIdx_self _ _ _ (by rw [M.len3]; omega))
          (fun j hj => getIdx_setIdx_ne _ _ _ _ (fun h => hj h.symm))
          _ (fun s hs => if_neg hs) ?_ ?_ ?_ ?_
          _ hGsum hGlast hGbusy hGchain _
        · intro s
          by_cases hs : s = p2.pid
          · rw [if_pos hs]
            simp only [List.length_set]
            exact hltlen
          · rw [if_neg hs]
            exact inv.ltlen s
        · intro l hl
          rw [if_pos rfl]
          by_cases hq : l = qidx
          · subst hq
            rw [getD_set_self _ _ _ _ (by rw [List.length_set]; omega)]
            omega
          · rw [getD_set_of_ne _ _ _ _ _ (fun he => hq he.symm),
              getD_set_of_ne _ _ _ _ _ (fun he => hq he.symm)]
            exact inv.lt_le p2.pid l hl
        · rw [if_pos rfl]
          rw [getD_set_of_ne _ _ _ _ _ (by omega),
            getD_set_of_ne _ _ _ _ _ (by omega)]
          have := M.hlt_above_i (qidx + 1) (by omega) (by omega)
          rw [hpid2]
          rw [this]
          exact hallot (qidx + 1) (by omega)
        · intro m hm1 hm2
          rw [if_pos rfl]
          rw [getD_set_of_ne _ _ _ _ _ (by omega),
            getD_set_of_ne _ _ _ _ _ (by omega)]
          rw [hpid2]
          exact M.hlt_above_i m (by omega) hm2
      · rw [if_neg hq3]
        have hq33 : qidx = 3 := by have := M.hqidx4; omega
        refine mlfqRequeue_inv quanta allotments hallot procs0 hnd0 hinit st inv
          procs1 i idx1 idx2 run p2 procs3 qidx _ M
          hpid2 harr2 hbur2 hrem2 hcmp2 hpos
          qidx M.hqidx4
          p2 rfl rfl rfl rfl rfl (by rw [hlvl2, M.hlvli])
          procs3 M.len3 M.hp3i (fun j hj => rfl)
          _ (fun s hs => if_neg hs) ?_ ?_ ?_ ?_
          _ hGsum hGlast hGbusy hGchain _
        · intro s
          by_cases hs : s = p2.pid
          · rw [if_pos hs]
            simp only [List.length_set]
            exact hltlen
          · rw [if_neg hs]
            exact inv.ltlen s
        · intro l hl
          rw [if_pos rfl]
          by_cases hq : l = qidx
          · subst hq
            rw [getD_set_self _ _ _ _ (by rw [List.length_set]; omega)]
            omega
          · rw [getD_set_of_ne _ _ _ _ _ (fun he => hq he.symm),
              getD_set_of_ne _ _ _ _ _ (fun he => hq he.symm)]
            exact inv.lt_le p2.pid l hl
        · rw [if_pos rfl]
          rw [getD_set_self _ _ _ _ (by rw [List.length_set]; omega)]
          exact hallot qidx M.hqidx4
        · intro m hm1 hm2
          rw [if_pos rfl]
          rw [getD_set_of_ne _ _ _ _ _ (by omega),
            getD_set_of_ne _ _ _ _ _ (by omega)]
          rw [hpid2]
          exact M.hlt_above_i m hm1 hm2
    · rw [if_neg hal]
      refine mlfqRequeue_inv quanta allotments hallot procs0 hnd0 hinit st inv
        procs1 i idx1 idx2 run p2 procs3 qidx _ M
        hpid2 harr2 hbur2 hrem2 hcmp2 hpos
        qidx M.hqidx4
        p2 rfl rfl rfl rfl rfl (by rw [hlvl2, M.hlvli])
        procs3 M.len3 M.hp3i (fun j hj => rfl)
        _ (fun s hs => if_neg hs) ?_ ?_ ?_ ?_
        _ hGsum hGlast hGbusy hGchain _
      · intro s
        by_cases hs : s = p2.pid
        · rw [if_pos hs]
          simp only [List.length_set]
          exact hltlen
        · rw [if_neg hs]
          exact inv.ltlen s
      · intro l hl
        rw [if_pos rfl]
        by_cases hq : l = qidx
        · subst hq
          rw [getD_set_self _ _ _ _ (by omega)]
          omega
        · rw [getD_set_of_ne _ _ _ _ _ (fun he => hq he.symm)]
          exact inv.lt_le p2.pid l hl
      · rw [if_pos rfl]
        rw [getD_set_self _ _ _ _ (by have := M.hqidx4; omega)]
        omega
      · intro m hm1 hm2
        rw [if_pos rfl]
        rw [getD_set_of_ne _ _ _ _ _ (by omega)]
        rw [hpid2]
        exact M.hlt_above_i m hm1 hm2

theorem findIdx?_getD_pred {α : Type} (p : α → Bool) (l : List α) (i : Nat) (d : α)
    (h : l.findIdx? p = some i) : i < l.length ∧ p (l.getD i d) = true := by
  rw [List.findIdx?_eq_some_iff_findIdx_eq] at h
  obtain ⟨h1, h2⟩ := h
  refine ⟨h1, ?_⟩
  rw [List.getD_eq_getElem _ _ h1]
  subst h2
  exact List.findIdx_getElem

theorem mlfqInv_pres (quanta allotments : List Nat)
    (hallot : ∀ l, l < 4 → 0 < allotments.getD l 0)
    (procs0 : List Process)
    (hb : ∀ p ∈ procs0, 0 < p.burst)
    (hnd0 : (procs0.map (·.pid)).Nodup)
    (hinit : ∀ i, i < procs0.length →
      (getIdx procs0 i).remaining = (getIdx procs0 i).burst ∧
      (getIdx procs0 i).completion = 0 ∧ (getIdx procs0 i).queue_level = 0)
    (st : MlfqState) (inv : MlfqInv quanta allotments procs0 st) :
    MlfqInv quanta allotments procs0 (mlfqBody quanta allotments st) := by
  have hlen := inv.len
  have hq4 := inv.qlen4
  rcases ha : mlfqArrive st.procs st.time st.idx (st.queues.getD 0 []) st.inQueue
    with ⟨procs1, idx1, q01, inQ1⟩
  obtain ⟨a1, a2, a3, a4, a5, ⟨addedA, haddA, hiffA, hndA⟩, a7, a8⟩ :=
    mlfqArrive_spec st.procs st.time st.idx (st.queues.getD 0 []) st.inQueue
      (by rw [hlen]; exact inv.idx_le) procs1 idx1 q01 inQ1 ha
  have hA : ∀ j, (getIdx procs1 j).pid = (getIdx st.procs j).pid ∧
      (getIdx procs1 j).arrival = (getIdx st.procs j).arrival ∧
      (getIdx procs1 j).burst = (getIdx st.procs j).burst ∧
      (getIdx procs1 j).remaining = (getIdx st.procs j).remaining ∧
      (getIdx procs1 j).completion = (getIdx st.procs j).completion := by
    intro j
    by_cases hj : st.idx ≤ j ∧ j < idx1
    · rw [a5 j hj.1 hj.2]
      exact ⟨rfl, rfl, rfl, rfl, rfl⟩
    · rw [a4 j (by omega)]
      exact ⟨rfl, rfl, rfl, rfl, rfl⟩
  have hQ0len : (st.queues.set 0 q01).length = 4 := by
    rw [List.length_set]; exact hq4
  have hBeq : totalBurst st.procs = totalBurst procs0 := by
    unfold totalBurst
    rw [map_eq_of_getIdx (·.burst) st.procs procs0 hlen (fun j hj => (inv.frame j hj).2.2)]
  have hRle : totalRemaining st.procs ≤ totalBurst procs0 := by
    rw [← hBeq]
    exact totalRemaining_le_totalBurst st.procs (fun j hj => inv.rem_le j (by omega))
  rcases hfind : (st.queues.set 0 q01).findIdx? (fun q => !q.isEmpty)
    with _ | qidx
  · have hempty : ∀ l, l < 4 → (st.queues.set 0 q01).getD l [] = [] := by
      intro l hl
      have hmem : (st.queues.set 0 q01).getD l [] ∈ st.queues.set 0 q01 := by
        rw [List.getD_eq_getElem _ _ (by omega)]
        exact List.getElem_mem _
      have := List.findIdx?_eq_none_iff.mp hfind _ hmem
      simpa using this
    have hq01nil : q01 = [] := by
      have := hempty 0 (by omega)
      rwa [getD_set_self _ _ _ _ (by omega)] at this
    have haddnil : addedA = [] :=
      (List.append_eq_nil.mp (hq01nil ▸ haddA.symm)).2
    have hidx1eq : idx1 = st.idx := by
      by_contra hne
      have hlt : st.idx < idx1 := by omega
      have : st.idx ∈ addedA := (hiffA st.idx).mpr ⟨le_refl _, hlt⟩
      rw [haddnil] at this
      simp at this
    have hemptyold : ∀ l, l < 4 → st.queues.getD l [] = [] := by
      intro l hl
      by_cases h0 : l = 0
      · subst h0
        exact (List.append_eq_nil.mp (hq01nil ▸ haddA.symm)).1
      · have := hempty l hl
        rwa [getD_set_of_ne _ _ _ _ _ (fun he => h0 he.symm)] at this
    have hnoneleft : ∀ j, j < st.idx → ¬ 0 < (getIdx st.procs j).remaining := by
      intro j hj hpos
      obtain ⟨l, hl, hmem⟩ := inv.qall j hj hpos
      rw [hemptyold l hl] at hmem
      simp at hmem
    have hAall : ∀ j, getIdx procs1 j = getIdx st.procs j := by
      intro j
      exact a4 j (by omega)
    have hmapr : procs1.map (·.remaining) = st.procs.map (·.remaining) :=
      map_eq_of_getIdx _ _ _ a1 (fun j _ => by rw [hAall j])
    have hmaprc : procs1.map (fun p => decide (p.remaining = 0)) =
        st.procs.map (fun p => decide (p.remaining = 0)) :=
      map_eq_of_getIdx _ _ _ a1 (fun j _ => by rw [hAall j])
    have htotA : totalRemaining procs1 = totalRemaining st.procs := by
      unfold totalRemaining
      rw [hmapr]
    have hcntA : procs1.countP (fun p => decide (p.remaining = 0)) =
        st.procs.countP (fun p => decide (p.remaining = 0)) :=
      countP_rem_eq_of_map _ _ hmaprc
    have hchain3 : st.lastPid = none →
        (lastLabel st.gantt = some "IDLE" ∧ st.idx < procs0.length ∧
          (getIdx st.procs st.idx).arrival ≤ st.time ∧
          0 < (getIdx st.procs st.idx).remaining) → False := by
      intro _ ⟨_, hixn, harr, hpos⟩
      rcases a7 with h7 | h7
      · omega
      · rw [hidx1eq] at h7
        exact h7 harr
    simp only [mlfqBody, ha, hfind]
    by_cases hidl : idx1 < procs1.length
    · have hidl0 : idx1 < procs0.length := by omega
      have hna : st.time < (getIdx procs1 idx1).arrival := by
        rcases a7 with h7 | h7
        · omega
        · rw [(hA idx1).2.1]
          omega
      have hnaA : (getIdx procs1 idx1).arrival ≤ maxArrival procs0 := by
        rw [(hA idx1).2.1, (inv.frame idx1 hidl0).2.1]
        exact arrival_le_maxArrival procs0 idx1 hidl0
      have hpos1 : 0 < (getIdx procs1 idx1).remaining := by
        rw [hAall idx1, inv.fresh idx1 (by omega) hidl0, (hinit idx1 hidl0).1]
        exact hb _ (getIdx_mem procs0 idx1 hidl0)
      rw [if_pos hidl]
      refine
        { len := by dsimp only; omega
          frame := ?_
          idx_le := by dsimp only; omega
          arrived := ?_
          fresh := ?_
          qlen4 := hQ0len
          qmem := fun l hl j hj => absurd hj (by rw [hempty l hl]; simp)
          qrem := fun l hl j hj => absurd hj (by rw [hempty l hl]; simp)
          qlevel := fun l hl j hj => absurd hj (by rw [hempty l hl]; simp)
          qndl := fun l hl => by rw [hempty l hl]; exact List.nodup_nil
          qall := ?_
          level_le3 := ?_
          ltlen := inv.ltlen
          lt_le := inv.lt_le
          lt_strict := fun l hl j hj => absurd hj (by rw [hempty l hl]; simp)
          lt_fresh := ?_
          lt_above := fun l hl j hj => absurd hj (by rw [hempty l hl]; simp)
          rem_le := ?_
          count := ?_
          clock := ?_
          sumg := ?_
          lastg := fun s q hs => by simp at hs
          cmpl_le := ?_
          cmpl_last := ?_
          busy := ?_
          chain := ?_ }
      · intro j hj
        dsimp only
        rw [hAall j]
        exact inv.frame j hj
      · intro j hj
        dsimp only at hj ⊢
        rw [hAall j]
        by_cases hji : j < st.idx
        · have := inv.arrived j hji
          omega
        · have := a8 j (by omega) hj
          omega
      · intro j h1 h2
        dsimp only at h1 ⊢
        rw [hAall j]
        exact inv.fresh j (by omega) h2
      · intro j hj hjrem
        dsimp only at hj hjrem ⊢
        rw [hAall j] at hjrem
        exact absurd hjrem (hnoneleft j (by omega))
      · intro j hj
        dsimp only
        rw [hAall j]
        exact inv.level_le3 j hj
      · intro j h1 h2
        dsimp only at h1 ⊢
        exact inv.lt_fresh j (by omega) h2
      · intro j hj
        dsimp only
        rw [hAall j]
        exact inv.rem_le j hj
      · dsimp only
        rw [hcntA]
        exact inv.count
      · dsimp only
        rw [htotA]
        omega
      · dsimp only
        rw [sumDur_append, inv.sumg]
        simp [sumDur]
        omega
      · intro j hj
        dsimp only
        rw [hAall j]
        have := inv.cmpl_le j hj
        omega
      · intro hall hpos0
        exfalso
        dsimp only at hall
        have h1 := hall idx1 hidl0
        rw [hAall idx1, inv.fresh idx1 (by omega) hidl0, (hinit idx1 hidl0).1] at h1
        have h2 := hb _ (getIdx_mem procs0 idx1 hidl0)
        omega
      · intro hL
        dsimp only
        rw [busyDur_concat, if_pos rfl, Nat.add_zero, htotA]
        exact inv.busy hL
      · intro hL
        obtain ⟨c1, c3⟩ := inv.chain hL
        refine ⟨?_, ?_⟩
        · dsimp only
          rw [chainOk_concat_iff]
          refine ⟨c1, ?_⟩
          intro s hs
          cases hlp : st.lastPid with
          | some pr =>
            obtain ⟨hlbl, hq4'⟩ := inv.lastg pr.1 pr.2 (by rw [hlp])
            rw [hlbl] at hs
            have : s = pr.1 ++ "(Q" ++ toString pr.2 ++ ")" :=
              (Option.some_inj.mp hs).symm
            subst this
            exact fun he => mlfqLabel_ne_idle pr.1 pr.2 hq4' he
          | none =>
            rcases c3 hlp with hnil | hrest
            · rw [hnil] at hs; simp [lastLabel] at hs
            · exact absurd hrest (by intro hr; exact hchain3 hlp hr)
        · intro _
          refine Or.inr ⟨lastLabel_concat _ _, hidl0, le_refl _, hpos1⟩
    · rw [if_neg hidl]
      refine
        { len := by dsimp only; omega
          frame := ?_
          idx_le := by dsimp only; omega
          arrived := ?_
          fresh := ?_
          qlen4 := hQ0len
          qmem := fun l hl j hj => absurd hj (by rw [hempty l hl]; simp)
          qrem := fun l hl j hj => absurd hj (by rw [hempty l hl]; simp)
          qlevel := fun l hl j hj => absurd hj (by rw [hempty l hl]; simp)
          qndl := fun l hl => by rw [hempty l hl]; exact List.nodup_nil
          qall := ?_
          level_le3 := ?_
          ltlen := inv.ltlen
          lt_le := inv.lt_le
          lt_strict := fun l hl j hj => absurd hj (by rw [hempty l hl]; simp)
          lt_fresh := ?_
          lt_above := fun l hl j hj => absurd hj (by rw [hempty l hl]; simp)
          rem_le := ?_
          count := ?_
          clock := ?_
          sumg := inv.sumg
          lastg := inv.lastg
          cmpl_le := ?_
          cmpl_last := ?_
          busy := ?_
          chain := ?_ }
      · intro j hj
        dsimp only
        rw [hAall j]
        exact inv.frame j hj
      · intro j hj
        dsimp only at hj ⊢
        rw [hAall j]
        by_cases hji : j < st.idx
        · exact inv.arrived j hji
        · exact a8 j (by omega) hj
      · intro j h1 h2
        dsimp only at h1 ⊢
        rw [hAall j]
        exact inv.fresh j (by omega) h2
      · intro j hj hjrem
        dsimp only at hj hjrem ⊢
        rw [hAall j] at hjrem
        exact absurd hjrem (hnoneleft j (by omega))
      · intro j hj
        dsimp only
        rw [hAall j]
        exact inv.level_le3 j hj
      · intro j h1 h2
        dsimp only at h1 ⊢
        exact inv.lt_fresh j (by omega) h2
      · intro j hj
        dsimp only
        rw [hAall j]
        exact inv.rem_le j hj
      · dsimp only
        rw [hcntA]
        exact inv.count
      · dsimp only
        rw [htotA]
        exact inv.clock
      · intro j hj
        dsimp only
        rw [hAall j]
        exact inv.cmpl_le j hj
      · intro hall hpos0
        dsimp only at hall ⊢
        obtain ⟨k, hk, hke⟩ := inv.cmpl_last
          (fun j hj => by have := hall j hj; rwa [hAall j] at this) hpos0
        exact ⟨k, hk, by rw [hAall k]; exact hke⟩
      · intro hL
        dsimp only
        rw [htotA]
        exact inv.busy hL
      · intro hL
        obtain ⟨c1, c3⟩ := inv.chain hL
        refine ⟨c1, ?_⟩
        intro hlp
        dsimp only at hlp ⊢
        rcases c3 hlp with hnil | hrest
        · exact Or.inl hnil
        · exact absurd hrest (by intro hr; exact hchain3 hlp hr)
  · rcases hpop : (st.queues.set 0 q01).getD qidx [] with _ | ⟨i, restQ⟩
    · exfalso
      have := (findIdx?_getD_pred _ _ _ [] hfind).2
      rw [hpop] at this
      simp at this
    · simp only [mlfqBody, ha, hfind, hpop]
      by_cases hstart : (getIdx procs1 i).start = -1
      · simp only [if_pos hstart]
        exact mlfqDispatch_pres quanta allotments hallot procs0 hb hnd0 hinit st inv
          procs1 idx1 q01 inQ1 ha qidx hfind i restQ hpop
          (min (quanta.getD qidx 0)
            (min (getIdx procs1 i).remaining
              (allotments.getD qidx 0 -
                (st.levelTime (getIdx procs1 i).pid).getD qidx 0))) rfl
          { getIdx procs1 i with
              remaining := (getIdx procs1 i).remaining -
                min (quanta.getD qidx 0)
                  (min (getIdx procs1 i).remaining
                    (allotments.getD qidx 0 -
                      (st.levelTime (getIdx procs1 i).pid).getD qidx 0))
              response := (st.time : Int) - ((getIdx procs1 i).arrival : Int)
              start := (st.time : Int) }
          rfl rfl rfl rfl rfl rfl
          _ _ _ _ rfl
      · simp only [if_neg hstart]
        exact mlfqDispatch_pres quanta allotments hallot procs0 hb hnd0 hinit st inv
          procs1 idx1 q01 inQ1 ha qidx hfind i restQ hpop
          (min (quanta.getD qidx 0)
            (min (getIdx procs1 i).remaining
              (allotments.getD qidx 0 -
                (st.levelTime (getIdx procs1 i).pid).getD qidx 0))) rfl
          { getIdx procs1 i with
              remaining := (getIdx procs1 i).remaining -
                min (quanta.getD qidx 0)
                  (min (getIdx procs1 i).remaining
                    (allotments.getD qidx 0 -
                      (st.levelTime (getIdx procs1 i).pid).getD qidx 0)) }
          rfl rfl rfl rfl rfl rfl
          _ _ _ _ rfl

theorem mlfqDispatch_measure (quanta allotments : List Nat)
    (hq : ∀ l, l < 4 → 0 < quanta.getD l 0)
    (hallot : ∀ l, l < 4 → 0 < allotments.getD l 0)
    (procs0 : List Process)
    (hb : ∀ p ∈ procs0, 0 < p.burst)
    (hnd0 : (procs0.map (·.pid)).Nodup)
    (hinit : ∀ i, i < procs0.length →
      (getIdx procs0 i).remaining = (getIdx procs0 i).burst ∧
      (getIdx procs0 i).completion = 0 ∧ (getIdx procs0 i).queue_level = 0)
    (st : MlfqState) (inv : MlfqInv quanta allotments procs0 st)
    (procs1 : List Process) (idx1 : Nat) (q01 : List Nat) (inQ1 : List String)
    (ha : mlfqArrive st.procs st.time st.idx (st.queues.getD 0 []) st.inQueue =
      (procs1, idx1, q01, inQ1))
    (qidx : Nat)
    (hfind : (st.queues.set 0 q01).findIdx? (fun q => !q.isEmpty) = some qidx)
    (i : Nat) (restQ : List Nat)
    (hpop : (st.queues.set 0 q01).getD qidx [] = i :: restQ)
    (run : Nat)
    (hrundef : run = min (quanta.getD qidx 0)
      (min (getIdx procs1 i).remaining
        (allotments.getD qidx 0 - (st.levelTime (getIdx procs1 i).pid).getD qidx 0)))
    (p2 : Process)
    (hpid2 : p2.pid = (getIdx procs1 i).pid)
    (harr2 : p2.arrival = (getIdx procs1 i).arrival)
    (hbur2 : p2.burst = (getIdx procs1 i).burst)
    (hrem2 : p2.remaining = (getIdx procs1 i).remaining - run)
    (hcmp2 : p2.completion = (getIdx procs1 i).completion)
    (hlvl2 : p2.queue_level = (getIdx procs1 i).queue_level)
    (procs3 : List Process) (idx2 : Nat) (q02 : List Nat) (inQ2 : List String)
    (hbs : mlfqArrive (setIdx procs1 i p2) (st.time + run) idx1
      ((((st.queues.set 0 q01).set qidx restQ)).getD 0 [])
      (inQ1.erase (getIdx procs1 i).pid) = (procs3, idx2, q02, inQ2))
    (st' : MlfqState)
    (hprocs' : st'.procs = procs3 ∨
      (∃ px : Process, px.remaining = p2.remaining ∧ st'.procs = setIdx procs3 i px))
    (hidx' : st'.idx = idx2) (htime' : st'.time = st.time + run) :
    totalRemaining st'.procs + (procs0.length - st'.idx) +
      (maxArrival procs0 - st'.time) <
    totalRemaining st.procs + (procs0.length - st.idx) +
      (maxArrival procs0 - st.time) := by
  have M := mlfqMid_facts quanta allotments hallot procs0 hb hnd0 hinit st inv
    procs1 idx1 q01 inQ1 ha qidx hfind i restQ hpop run hrundef p2
    hpid2 harr2 hbur2 hrem2 hcmp2 hlvl2 procs3 idx2 q02 inQ2 hbs
  have hlen := inv.len
  have hilenst : i < st.procs.length := by have := M.hilen; omega
  have hrunpos : 0 < run := by
    rw [hrundef]
    have h1 := hq qidx M.hqidx4
    have h2 := M.hirem
    have h3 := M.hlt_lt
    omega
  have hmap3 : procs3.map (·.remaining) = (setIdx st.procs i p2).map (·.remaining) := by
    refine map_eq_of_getIdx _ _ _ (by rw [M.len3, length_setIdx, hlen]) ?_
    intro j hj
    rw [length_setIdx] at hj
    by_cases hji : j = i
    · subst hji
      rw [M.hp3i, getIdx_setIdx_self _ _ _ hilenst]
    · rw [M.hrem3 j (by omega) hji, getIdx_setIdx_ne _ _ _ _ (fun h => hji h.symm)]
  have htot3 : totalRemaining procs3 + (getIdx st.procs i).remaining =
      totalRemaining st.procs + p2.remaining := by
    unfold totalRemaining
    rw [hmap3]
    exact sum_map_setIdx (·.remaining) st.procs i p2 hilenst
  have hremtot := remaining_le_totalRemaining st.procs i hilenst
  have hrA := M.hrem_st
  have hrB := M.hirem
  have hrC := M.hrun_le
  have hidxle : st.idx ≤ idx2 := le_trans M.hidx1 M.hidx2
  have htotF : totalRemaining st'.procs + run ≤ totalRemaining st.procs := by
    rcases hprocs' with h | ⟨px, hpx, h⟩
    · rw [h]
      omega
    · rw [h]
      have hs : (List.map (·.remaining) (setIdx procs3 i px)).sum +
          (getIdx procs3 i).remaining =
          (List.map (·.remaining) procs3).sum + px.remaining :=
        sum_map_setIdx (·.remaining) procs3 i px (by rw [M.len3]; exact M.hilen)
      have hrem3i : (getIdx procs3 i).remaining = p2.remaining := by rw [M.hp3i]
      unfold totalRemaining at htot3 ⊢
      omega
  rw [hidx', htime']
  omega

theorem mlfqMeasure (quanta allotments : List Nat)
    (hq : ∀ l, l < 4 → 0 < quanta.getD l 0)
    (hallot : ∀ l, l < 4 → 0 < allotments.getD l 0)
    (procs0 : List Process)
    (hb : ∀ p ∈ procs0, 0 < p.burst)
    (hnd0 : (procs0.map (·.pid)).Nodup)
    (hinit : ∀ i, i < procs0.length →
      (getIdx procs0 i).remaining = (getIdx procs0 i).burst ∧
      (getIdx procs0 i).completion = 0 ∧ (getIdx procs0 i).queue_level = 0)
    (st : MlfqState) (inv : MlfqInv quanta allotments procs0 st)
    (hndone : mlfqDone st = false) :
    totalRemaining (mlfqBody quanta allotments st).procs +
      (procs0.length - (mlfqBody quanta allotments st).idx) +
      (maxArrival procs0 - (mlfqBody quanta allotments st).time) <
    totalRemaining st.procs + (procs0.length - st.idx) +
      (maxArrival procs0 - st.time) := by
  have hlen := inv.len
  have hq4 := inv.qlen4
  have hcompl : st.completed < procs0.length := by
    simp only [mlfqDone, simDone, decide_eq_false_iff_not, not_le] at hndone
    omega
  rcases ha : mlfqArrive st.procs st.time st.idx (st.queues.getD 0 []) st.inQueue
    with ⟨procs1, idx1, q01, inQ1⟩
  obtain ⟨a1, a2, a3, a4, a5, ⟨addedA, haddA, hiffA, hndA⟩, a7, a8⟩ :=
    mlfqArrive_spec st.procs st.time st.idx (st.queues.getD 0 []) st.inQueue
      (by rw [hlen]; exact inv.idx_le) procs1 idx1 q01 inQ1 ha
  rcases hfind : (st.queues.set 0 q01).findIdx? (fun q => !q.isEmpty)
    with _ | qidx
  · have hempty : ∀ l, l < 4 → (st.queues.set 0 q01).getD l [] = [] := by
      intro l hl
      have hmem : (st.queues.set 0 q01).getD l [] ∈ st.queues.set 0 q01 := by
        rw [List.getD_eq_getElem _ _ (by rw [List.length_set]; omega)]
        exact List.getElem_mem _
      have := List.findIdx?_eq_none_iff.mp hfind _ hmem
      simpa using this
    have hq01nil : q01 = [] := by
      have := hempty 0 (by omega)
      rwa [getD_set_self _ _ _ _ (by omega)] at this
    have haddnil : addedA = [] :=
      (List.append_eq_nil.mp (hq01nil ▸ haddA.symm)).2
    have hidx1eq : idx1 = st.idx := by
      by_contra hne
      have hlt : st.idx < idx1 := by omega
      have : st.idx ∈ addedA := (hiffA st.idx).mpr ⟨le_refl _, hlt⟩
      rw [haddnil] at this
      simp at this
    have hemptyold : ∀ l, l < 4 → st.queues.getD l [] = [] := by
      intro l hl
      by_cases h0 : l = 0
      · subst h0
        exact (List.append_eq_nil.mp (hq01nil ▸ haddA.symm)).1
      · have := hempty l hl
        rwa [getD_set_of_ne _ _ _ _ _ (fun he => h0 he.symm)] at this
    have hnoneleft : ∀ j, j < st.idx → ¬ 0 < (getIdx st.procs j).remaining := by
      intro j hj hpos
      obtain ⟨l, hl, hmem⟩ := inv.qall j hj hpos
      rw [hemptyold l hl] at hmem
      simp at hmem
    have hAall : ∀ j, getIdx procs1 j = getIdx st.procs j := by
      intro j
      exact a4 j (by omega)
    have htotA : totalRemaining procs1 = totalRemaining st.procs := by
      unfold totalRemaining
      rw [map_eq_of_getIdx _ _ _ a1 (fun j _ => by rw [hAall j])]
    have hidl : idx1 < procs1.length := by
      by_contra hni
      have hex : ∃ p ∈ st.procs, ¬ (fun p => decide (p.remaining = 0)) p := by
        refine countP_lt_exists st.procs _ ?_
        rw [← inv.count]
        omega
      obtain ⟨p, hp, hpf⟩ := hex
      obtain ⟨j, hj, rfl⟩ := mem_getIdx st.procs p hp
      simp only [decide_eq_true_eq] at hpf
      exact hnoneleft j (by omega) (by omega)
    have hna : st.time < (getIdx procs1 idx1).arrival := by
      rcases a7 with h7 | h7
      · omega
      · rw [a4 idx1 (Or.inr (le_refl _))]
        omega
    have hnaA : (getIdx procs1 idx1).arrival ≤ maxArrival procs0 := by
      rw [a4 idx1 (Or.inr (le_refl _)), (inv.frame idx1 (by omega)).2.1]
      exact arrival_le_maxArrival procs0 idx1 (by omega)
    simp only [mlfqBody, ha, hfind, if_pos hidl]
    rw [htotA]
    omega
  · rcases hpop : (st.queues.set 0 q01).getD qidx [] with _ | ⟨i, restQ⟩
    · exfalso
      have := (findIdx?_getD_pred _ _ _ [] hfind).2
      rw [hpop] at this
      simp at this
    · simp only [mlfqBody, ha, hfind, hpop]
      by_cases hstart : (getIdx procs1 i).start = -1
      · simp only [if_pos hstart]
        refine mlfqDispatch_measure quanta allotments hq hallot procs0 hb hnd0 hinit st inv
          procs1 idx1 q01 inQ1 ha qidx hfind i restQ hpop
          (min (quanta.getD qidx 0)
            (min (getIdx procs1 i).remaining
              (allotments.getD qidx 0 -
                (st.levelTime (getIdx procs1 i).pid).getD qidx 0))) rfl
          ({
              pid := (getIdx procs1 i).pid,
              arrival := (getIdx procs1 i).arrival,
              burst := (getIdx procs1 i).burst,
              priority := (getIdx procs1 i).priority,
              remaining := (getIdx procs1 i).remaining -
                min (quanta.getD qidx 0)
                  (min (getIdx procs1 i).remaining
                    (allotments.getD qidx 0 -
                      (st.levelTime (getIdx procs1 i).pid).getD qidx 0)),
              completion := (getIdx procs1 i).completion,
              turnaround := (getIdx procs1 i).turnaround,
              waiting := (getIdx procs1 i).waiting,
              response := (st.time : Int) - ((getIdx procs1 i).arrival : Int),
              start := (st.time : Int),
              queue_level := (getIdx procs1 i).queue_level })
          rfl rfl rfl rfl rfl rfl
          ((mlfqArrive (setIdx procs1 i
            {
                pid := (getIdx procs1 i).pid,
                arrival := (getIdx procs1 i).arrival,
                burst := (getIdx procs1 i).burst,
                priority := (getIdx procs1 i).priority,
                remaining := (getIdx procs1 i).remaining -
                  min (quanta.getD qidx 0)
                    (min (getIdx procs1 i).remaining
                      (allotments.getD qidx 0 -
                        (st.levelTime (getIdx procs1 i).pid).getD qidx 0)),
                completion := (getIdx procs1 i).completion,
                turnaround := (getIdx procs1 i).turnaround,
                waiting := (getIdx procs1 i).waiting,
                response := (st.time : Int) - ((getIdx procs1 i).arrival : Int),
                start := (st.time : Int),
                queue_level := (getIdx procs1 i).queue_level })
            (st.time +
              min (quanta.getD qidx 0)
            (min (getIdx procs1 i).remaining
              (allotments.getD qidx 0 -
                (st.levelTime (getIdx procs1 i).pid).getD qidx 0)))
            idx1 (((st.queues.set 0 q01).set qidx restQ).getD 0 [])
            (inQ1.erase (getIdx procs1 i).pid)).1)
          ((mlfqArrive (setIdx procs1 i
            {
                pid := (getIdx procs1 i).pid,
                arrival := (getIdx procs1 i).arrival,
                burst := (getIdx procs1 i).burst,
                priority := (getIdx procs1 i).priority,
                remaining := (getIdx procs1 i).remaining -
                  min (quanta.getD qidx 0)
                    (min (getIdx procs1 i).remaining
                      (allotments.getD qidx 0 -
                        (st.levelTime (getIdx procs1 i).pid).getD qidx 0)),
                completion := (getIdx procs1 i).completion,
                turnaround := (getIdx procs1 i).turnaround,
                waiting := (getIdx procs1 i).waiting,
                response := (st.time : Int) - ((getIdx procs1 i).arrival : Int),
                start := (st.time : Int),
                queue_level := (getIdx procs1 i).queue_level })
            (st.time +
              min (quanta.getD qidx 0)
            (min (getIdx procs1 i).remaining
              (allotments.getD qidx 0 -
                (st.levelTime (getIdx procs1 i).pid).getD qidx 0)))
            idx1 (((st.queues.set 0 q01).set qidx restQ).getD 0 [])
            (inQ1.erase (getIdx procs1 i).pid)).2.1)
          ((mlfqArrive (setIdx procs1 i
            {
                pid := (getIdx procs1 i).pid,
                arrival := (getIdx procs1 i).arrival,
                burst := (getIdx procs1 i).burst,
                priority := (getIdx procs1 i).priority,
                remaining := (getIdx procs1 i).remaining -
                  min (quanta.getD qidx 0)
                    (min (getIdx procs1 i).remaining
                      (allotments.getD qidx 0 -
                        (st.levelTime (getIdx procs1 i).pid).getD qidx 0)),
                completion := (getIdx procs1 i).completion,
                turnaround := (getIdx procs1 i).turnaround,
                waiting := (getIdx procs1 i).waiting,
                response := (st.time : Int) - ((getIdx procs1 i).arrival : Int),
                start := (st.time : Int),
                queue_level := (getIdx procs1 i).queue_level })
            (st.time +
              min (quanta.getD qidx 0)
            (min (getIdx procs1 i).remaining
              (allotments.getD qidx 0 -
                (st.levelTime (getIdx procs1 i).pid).getD qidx 0)))
            idx1 (((st.queues.set 0 q01).set qidx restQ).getD 0 [])
            (inQ1.erase (getIdx procs1 i).pid)).2.2.1)
          ((mlfqArrive (setIdx procs1 i
            {
                pid := (getIdx procs1 i).pid,
                arrival := (getIdx procs1 i).arrival,
                burst := (getIdx procs1 i).burst,
                priority := (getIdx procs1 i).priority,
                remaining := (getIdx procs1 i).remaining -
                  min (quanta.getD qidx 0)
                    (min (getIdx procs1 i).remaining
                      (allotments.getD qidx 0 -
                        (st.levelTime (getIdx procs1 i).pid).getD qidx 0)),
                completion := (getIdx procs1 i).completion,
                turnaround := (getIdx procs1 i).turnaround,
                waiting := (getIdx procs1 i).waiting,
                response := (st.time : Int) - ((getIdx procs1 i).arrival : Int),
                start := (st.time : Int),
                queue_level := (getIdx procs1 i).queue_level })
            (st.time +
              min (quanta.getD qidx 0)
            (min (getIdx procs1 i).remaining
              (allotments.getD qidx 0 -
                (st.levelTime (getIdx procs1 i).pid).getD qidx 0)))
            idx1 (((st.queues.set 0 q01).set qidx restQ).getD 0 [])
            (inQ1.erase (getIdx procs1 i).pid)).2.2.2)
          rfl _ ?_ ?_ ?_
        · split
          · exact Or.inr
              ⟨{
                pid := (getIdx procs1 i).pid,
                arrival := (getIdx procs1 i).arrival,
                burst := (getIdx procs1 i).burst,
                priority := (getIdx procs1 i).priority,
                remaining := (getIdx procs1 i).remaining -
                  min (quanta.getD qidx 0)
                    (min (getIdx procs1 i).remaining
                      (allotments.getD qidx 0 -
                        (st.levelTime (getIdx procs1 i).pid).getD qidx 0)),
                completion := st.time +
                  min (quanta.getD qidx 0)
                    (min (getIdx procs1 i).remaining
                      (allotments.getD qidx 0 -
                        (st.levelTime (getIdx procs1 i).pid).getD qidx 0)),
                turnaround := ((st.time +
                  min (quanta.getD qidx 0)
                    (min (getIdx procs1 i).remaining
                      (allotments.getD qidx 0 -
                        (st.levelTime (getIdx procs1 i).pid).getD qidx 0)) : Nat) : Int) - ((getIdx procs1 i).arrival : Int),
                waiting := ((st.time +
                  min (quanta.getD qidx 0)
                    (min (getIdx procs1 i).remaining
                      (allotments.getD qidx 0 -
                        (st.levelTime (getIdx procs1 i).pid).getD qidx 0)) : Nat) : Int) - ((getIdx procs1 i).arrival : Int) - ((getIdx procs1 i).burst : Int),
                response := (st.time : Int) - ((getIdx procs1 i).arrival : Int),
                start := (st.time : Int),
                queue_level := (getIdx procs1 i).queue_level },
               rfl, rfl⟩
          · split
            · split
              · exact Or.inr
                  ⟨{
                pid := (getIdx procs1 i).pid,
                arrival := (getIdx procs1 i).arrival,
                burst := (getIdx procs1 i).burst,
                priority := (getIdx procs1 i).priority,
                remaining := (getIdx procs1 i).remaining -
                  min (quanta.getD qidx 0)
                    (min (getIdx procs1 i).remaining
                      (allotments.getD qidx 0 -
                        (st.levelTime (getIdx procs1 i).pid).getD qidx 0)),
                completion := (getIdx procs1 i).completion,
                turnaround := (getIdx procs1 i).turnaround,
                waiting := (getIdx procs1 i).waiting,
                response := (st.time : Int) - ((getIdx procs1 i).arrival : Int),
                start := (st.time : Int),
                queue_level := qidx + 1 },
                   rfl, rfl⟩
              · exact Or.inl rfl
            · exact Or.inl rfl
        · split
          · rfl
          · split
            · split
              · rfl
              · rfl
            · rfl
        · split
          · rfl
          · split
            · split
              · rfl
              · rfl
            · rfl
      · simp only [if_neg hstart]
        refine mlfqDispatch_measure quanta allotments hq hallot procs0 hb hnd0 hinit st inv
          procs1 idx1 q01 inQ1 ha qidx hfind i restQ hpop
          (min (quanta.getD qidx 0)
            (min (getIdx procs1 i).remaining
              (allotments.getD qidx 0 -
                (st.levelTime (getIdx procs1 i).pid).getD qidx 0))) rfl
          ({
              pid := (getIdx procs1 i).pid,
              arrival := (getIdx procs1 i).arrival,
              burst := (getIdx procs1 i).burst,
              priority := (getIdx procs1 i).priority,
              remaining := (getIdx procs1 i).remaining -
                min (quanta.getD qidx 0)
                  (min (getIdx procs1 i).remaining
                    (allotments.getD qidx 0 -
                      (st.levelTime (getIdx procs1 i).pid).getD qidx 0)),
              completion := (getIdx procs1 i).completion,
              turnaround := (getIdx procs1 i).turnaround,
              waiting := (getIdx procs1 i).waiting,
              response := (getIdx procs1 i).response,
              start := (getIdx procs1 i).start,
              queue_level := (getIdx procs1 i).queue_level })
          rfl rfl rfl rfl rfl rfl
          ((mlfqArrive (setIdx procs1 i
            {
                pid := (getIdx procs1 i).pid,
                arrival := (getIdx procs1 i).arrival,
                burst := (getIdx procs1 i).burst,
                priority := (getIdx procs1 i).priority,
                remaining := (getIdx procs1 i).remaining -
                  min (quanta.getD qidx 0)
                    (min (getIdx procs1 i).remaining
                      (allotments.getD qidx 0 -
                        (st.levelTime (getIdx procs1 i).pid).getD qidx 0)),
                completion := (getIdx procs1 i).completion,
                turnaround := (getIdx procs1 i).turnaround,
                waiting := (getIdx procs1 i).waiting,
                response := (getIdx procs1 i).response,
                start := (getIdx procs1 i).start,
                queue_level := (getIdx procs1 i).queue_level })
            (st.time +
              min (quanta.getD qidx 0)
            (min (getIdx procs1 i).remaining
              (allotments.getD qidx 0 -
                (st.levelTime (getIdx procs1 i).pid).getD qidx 0)))
            idx1 (((st.queues.set 0 q01).set qidx restQ).getD 0 [])
            (inQ1.erase (getIdx procs1 i).pid)).1)
          ((mlfqArrive (setIdx procs1 i
            {
                pid := (getIdx procs1 i).pid,
                arrival := (getIdx procs1 i).arrival,
                burst := (getIdx procs1 i).burst,
                priority := (getIdx procs1 i).priority,
                remaining := (getIdx procs1 i).remaining -
                  min (quanta.getD qidx 0)
                    (min (getIdx procs1 i).remaining
                      (allotments.getD qidx 0 -
                        (st.levelTime (getIdx procs1 i).pid).getD qidx 0)),
                completion := (getIdx procs1 i).completion,
                turnaround := (getIdx procs1 i).turnaround,
                waiting := (getIdx procs1 i).waiting,
                response := (getIdx procs1 i).response,
                start := (getIdx procs1 i).start,
                queue_level := (getIdx procs1 i).queue_level })
            (st.time +
              min (quanta.getD qidx 0)
            (min (getIdx procs1 i).remaining
              (allotments.getD qidx 0 -
                (st.levelTime (getIdx procs1 i).pid).getD qidx 0)))
            idx1 (((st.queues.set 0 q01).set qidx restQ).getD 0 [])
            (inQ1.erase (getIdx procs1 i).pid)).2.1)
          ((mlfqArrive (setIdx procs1 i
            {
                pid := (getIdx procs1 i).pid,
                arrival := (getIdx procs1 i).arrival,
                burst := (getIdx procs1 i).burst,
                priority := (getIdx procs1 i).priority,
                remaining := (getIdx procs1 i).remaining -
                  min (quanta.getD qidx 0)
                    (min (getIdx procs1 i).remaining
                      (allotments.getD qidx 0 -
                        (st.levelTime (getIdx procs1 i).pid).getD qidx 0)),
                completion := (getIdx procs1 i).completion,
                turnaround := (getIdx procs1 i).turnaround,
                waiting := (getIdx procs1 i).waiting,
                response := (getIdx procs1 i).response,
                start := (getIdx procs1 i).start,
                queue_level := (getIdx procs1 i).queue_level })
            (st.time +
              min (quanta.getD qidx 0)
            (min (getIdx procs1 i).remaining
              (allotments.getD qidx 0 -
                (st.levelTime (getIdx procs1 i).pid).getD qidx 0)))
            idx1 (((st.queues.set 0 q01).set qidx restQ).getD 0 [])
            (inQ1.erase (getIdx procs1 i).pid)).2.2.1)
          ((mlfqArrive (setIdx procs1 i
            {
                pid := (getIdx procs1 i).pid,
                arrival := (getIdx procs1 i).arrival,
                burst := (getIdx procs1 i).burst,
                priority := (getIdx procs1 i).priority,
                remaining := (getIdx procs1 i).remaining -
                  min (quanta.getD qidx 0)
                    (min (getIdx procs1 i).remaining
                      (allotments.getD qidx 0 -
                        (st.levelTime (getIdx procs1 i).pid).getD qidx 0)),
                completion := (getIdx procs1 i).completion,
                turnaround := (getIdx procs1 i).turnaround,
                waiting := (getIdx procs1 i).waiting,
                response := (getIdx procs1 i).response,
                start := (getIdx procs1 i).start,
                queue_level := (getIdx procs1 i).queue_level })
            (st.time +
              min (quanta.getD qidx 0)
            (min (getIdx procs1 i).remaining
              (allotments.getD qidx 0 -
                (st.levelTime (getIdx procs1 i).pid).getD qidx 0)))
            idx1 (((st.queues.set 0 q01).set qidx restQ).getD 0 [])
            (inQ1.erase (getIdx procs1 i).pid)).2.2.2)
          rfl _ ?_ ?_ ?_
        · split
          · exact Or.inr
              ⟨{
                pid := (getIdx procs1 i).pid,
                arrival := (getIdx procs1 i).arrival,
                burst := (getIdx procs1 i).burst,
                priority := (getIdx procs1 i).priority,
                remaining := (getIdx procs1 i).remaining -
                  min (quanta.getD qidx 0)
                    (min (getIdx procs1 i).remaining
                      (allotments.getD qidx 0 -
                        (st.levelTime (getIdx procs1 i).pid).getD qidx 0)),
                completion := st.time +
                  min (quanta.getD qidx 0)
                    (min (getIdx procs1 i).remaining
                      (allotments.getD qidx 0 -
                        (st.levelTime (getIdx procs1 i).pid).getD qidx 0)),
                turnaround := ((st.time +
                  min (quanta.getD qidx 0)
                    (min (getIdx procs1 i).remaining
                      (allotments.getD qidx 0 -
                        (st.levelTime (getIdx procs1 i).pid).getD qidx 0)) : Nat) : Int) - ((getIdx procs1 i).arrival : Int),
                waiting := ((st.time +
                  min (quanta.getD qidx 0)
                    (min (getIdx procs1 i).remaining
                      (allotments.getD qidx 0 -
                        (st.levelTime (getIdx procs1 i).pid).getD qidx 0)) : Nat) : Int) - ((getIdx procs1 i).arrival : Int) - ((getIdx procs1 i).burst : Int),
                response := (getIdx procs1 i).response,
                start := (getIdx procs1 i).start,
                queue_level := (getIdx procs1 i).queue_level },
               rfl, rfl⟩
          · split
            · split
              · exact Or.inr
                  ⟨{
                pid := (getIdx procs1 i).pid,
                arrival := (getIdx procs1 i).arrival,
                burst := (getIdx procs1 i).burst,
                priority := (getIdx procs1 i).priority,
                remaining := (getIdx procs1 i).remaining -
                  min (quanta.getD qidx 0)
                    (min (getIdx procs1 i).remaining
                      (allotments.getD qidx 0 -
                        (st.levelTime (getIdx procs1 i).pid).getD qidx 0)),
                completion := (getIdx procs1 i).completion,
                turnaround := (getIdx procs1 i).turnaround,
                waiting := (getIdx procs1 i).waiting,
                response := (getIdx procs1 i).response,
                start := (getIdx procs1 i).start,
                queue_level := qidx + 1 },
                   rfl, rfl⟩
              · exact Or.inl rfl
            · exact Or.inl rfl
        · split
          · rfl
          · split
            · split
              · rfl
              · rfl
            · rfl
        · split
          · rfl
          · split
            · split
              · rfl
              · rfl
            · rfl

theorem mlfq_loop_spec (l : List Process) (quanta allotments : List Nat)
    (hb : ∀ p ∈ l, 0 < p.burst) (hnd : (l.map (·.pid)).Nodup)
    (hq : ∀ lv, lv < 4 → 0 < quanta.getD lv 0)
    (hallot : ∀ lv, lv < 4 → 0 < allotments.getD lv 0) :
    ∃ st, simLoop mlfqDone (mlfqBody quanta allotments) (simFuel (copyProcs l))
        (mlfqInit (copyProcs l)) = some st ∧
      MlfqInv quanta allotments (copyProcs l) st ∧ mlfqDone st = true := by
  have hb0 := copyProcs_bursts l hb
  have hnd0 : ((copyProcs l).map (·.pid)).Nodup := by rw [copyProcs_pids]; exact hnd
  have hinitM : ∀ i, i < (copyProcs l).length →
      (getIdx (copyProcs l) i).remaining = (getIdx (copyProcs l) i).burst ∧
      (getIdx (copyProcs l) i).completion = 0 ∧
      (getIdx (copyProcs l) i).queue_level = 0 :=
    fun i hi => ⟨(copyProcs_init l i hi).1, (copyProcs_init l i hi).2,
      copyProcs_qlevel l i hi⟩
  obtain ⟨st, hst⟩ := simLoop_terminates mlfqDone (mlfqBody quanta allotments)
    (fun s => totalRemaining s.procs + ((copyProcs l).length - s.idx) +
      (maxArrival (copyProcs l) - s.time))
    (fun s hs => mlfqInv_pres quanta allotments hallot (copyProcs l) hb0 hnd0 hinitM s hs)
    (fun s hs hf => mlfqMeasure quanta allotments hq hallot (copyProcs l) hb0 hnd0 hinitM s hs hf)
    (simFuel (copyProcs l)) (mlfqInit (copyProcs l))
    (mlfqInv_init quanta allotments (copyProcs l) hb0 hinitM)
    (by
      simp only [mlfqInit, simFuel]
      have h1 := copyProcs_totalRemaining l
      have h2 := copyProcs_totalBurst l
      omega)
  obtain ⟨k, hk, hdone⟩ := simLoop_eq_iterate _ _ _ _ _ hst
  have hinv : MlfqInv quanta allotments (copyProcs l) st := by
    rw [hk]
    exact iterate_inv
      (fun s hs => mlfqInv_pres quanta allotments hallot (copyProcs l) hb0 hnd0 hinitM s hs)
      k _ (mlfqInv_init quanta allotments (copyProcs l) hb0 hinitM)
  exact ⟨st, hst, hinv, hdone⟩

theorem mlfqInv_done_facts (quanta allotments : List Nat) (procs0 : List Process)
    (st : MlfqState)
    (hinv : MlfqInv quanta allotments procs0 st) (hdone : mlfqDone st = true) :
    totalRemaining st.procs = 0 ∧ (∀ p ∈ st.procs, p.remaining = 0) := by
  have hcmp : st.procs.length ≤ st.completed := by
    simpa [mlfqDone, simDone] using hdone
  have hcount := hinv.count
  have hle := List.countP_le_length (fun p => decide (p.remaining = 0)) (l := st.procs)
  have hall : ∀ p ∈ st.procs, p.remaining = 0 := by
    have heq : st.procs.countP (fun p => decide (p.remaining = 0)) = st.procs.length := by
      omega
    have := List.countP_eq_length.mp heq
    intro p hp
    simpa using this p hp
  refine ⟨?_, hall⟩
  unfold totalRemaining
  apply List.sum_eq_zero
  intro x hx
  obtain ⟨p, hp, rfl⟩ := List.mem_map.mp hx
  exact hall p hp

theorem mlfq_final (l : List Process) (quanta allotments : List Nat)
    (hb : ∀ p ∈ l, 0 < p.burst) (hnd : (l.map (·.pid)).Nodup)
    (hq : ∀ lv, lv < 4 → 0 < quanta.getD lv 0)
    (hallot : ∀ lv, lv < 4 → 0 < allotments.getD lv 0) :
    ∃ r, mlfq l quanta allotments = some r ∧
      sumDur r.2 = maxCompletion r.1 ∧
      sumDur r.2 ≤ minArrival l + totalBurst l + arrivalSpan l ∧
      (LabelsOk l → chainOk r.2 ∧ sumDur r.2 = totalBurst l + idleDur r.2) := by
  obtain ⟨st, hst, hinv, hdone⟩ := mlfq_loop_spec l quanta allotments hb hnd hq hallot
  obtain ⟨hR0, hall⟩ := mlfqInv_done_facts _ _ _ _ hinv hdone
  refine ⟨(st.procs, st.gantt), ?_, ?_, ?_, ?_⟩
  · rw [mlfq, hst]; rfl
  · dsimp only
    rw [hinv.sumg]
    have hup : ∀ i, i < st.procs.length → (getIdx st.procs i).completion ≤ st.time :=
      fun i hi => hinv.cmpl_le i (by have := hinv.len; omega)
    by_cases hn : 0 < (copyProcs l).length
    · obtain ⟨i, hi, hieq⟩ := hinv.cmpl_last
        (by
          intro i hi
          have hm := getIdx_mem st.procs i (by have := hinv.len; omega)
          exact hall _ hm) hn
      have h1 : maxCompletion st.procs ≤ st.time := maxCompletion_le _ _ hup
      have h2 : st.time ≤ maxCompletion st.procs := by
        rw [← hieq]
        exact le_maxCompletion st.procs i (by have := hinv.len; omega)
      omega
    · have hlen0 : st.procs.length = 0 := by have := hinv.len; omega
      have ht0 : st.time = 0 := by
        have := hinv.clock
        have hB0 : totalBurst (copyProcs l) = 0 := by
          rcases List.length_eq_zero.mp (by omega : (copyProcs l).length = 0) with h
          rw [h]; rfl
        have hA0 : maxArrival (copyProcs l) = 0 := by
          rcases List.length_eq_zero.mp (by omega : (copyProcs l).length = 0) with h
          rw [h]; rfl
        omega
      rcases List.length_eq_zero.mp hlen0 with h
      rw [h, ht0]
      rfl
  · dsimp only
    rw [hinv.sumg]
    have hclock := hinv.clock
    have h2 := copyProcs_totalBurst l
    have h3 := copyProcs_maxArrival l
    have h4 := minArrival_le_maxArrival l
    unfold arrivalSpan
    omega
  · dsimp only
    intro hL
    have hL0 := copyProcs_labels l hL
    obtain ⟨c1, -⟩ := hinv.chain hL0
    refine ⟨c1, ?_⟩
    have hbusy := hinv.busy hL0
    have hpart := busyDur_add_idleDur st.gantt
    have hsg := hinv.sumg
    have h2 := copyProcs_totalBurst l
    omega

theorem mlfqLevel_core (quanta allotments : List Nat)
    (hq : ∀ l, l < 4 → 0 < quanta.getD l 0)
    (hallot : ∀ l, l < 4 → 0 < allotments.getD l 0)
    (procs0 : List Process)
    (hb : ∀ p ∈ procs0, 0 < p.burst)
    (hnd0 : (procs0.map (·.pid)).Nodup)
    (hinit : ∀ i, i < procs0.length →
      (getIdx procs0 i).remaining = (getIdx procs0 i).burst ∧
      (getIdx procs0 i).completion = 0 ∧ (getIdx procs0 i).queue_level = 0)
    (st : MlfqState) (inv : MlfqInv quanta allotments procs0 st)
    (procs1 : List Process) (idx1 : Nat) (q01 : List Nat) (inQ1 : List String)
    (ha : mlfqArrive st.procs st.time st.idx (st.queues.getD 0 []) st.inQueue =
      (procs1, idx1, q01, inQ1))
    (qidx : Nat)
    (hfind : (st.queues.set 0 q01).findIdx? (fun q => !q.isEmpty) = some qidx)
    (i : Nat) (restQ : List Nat)
    (hpop : (st.queues.set 0 q01).getD qidx [] = i :: restQ)
    (run : Nat)
    (hrundef : run = min (quanta.getD qidx 0)
      (min (getIdx procs1 i).remaining
        (allotments.getD qidx 0 - (st.levelTime (getIdx procs1 i).pid).getD qidx 0)))
    (p2 : Process)
    (hpid2 : p2.pid = (getIdx procs1 i).pid)
    (harr2 : p2.arrival = (getIdx procs1 i).arrival)
    (hbur2 : p2.burst = (getIdx procs1 i).burst)
    (hrem2 : p2.remaining = (getIdx procs1 i).remaining - run)
    (hcmp2 : p2.completion = (getIdx procs1 i).completion)
    (hlvl2 : p2.queue_level = (getIdx procs1 i).queue_level)
    (procs3 : List Process) (idx2 : Nat) (q02 : List Nat) (inQ2 : List String)
    (hbs : mlfqArrive (setIdx procs1 i p2) (st.time + run) idx1
      ((((st.queues.set 0 q01).set qidx restQ)).getD 0 [])
      (inQ1.erase (getIdx procs1 i).pid) = (procs3, idx2, q02, inQ2))
    (st' : MlfqState)
    (hpx : st'.procs = procs3 ∨
      (∃ px : Process, (px.queue_level = p2.queue_level ∨ px.queue_level = qidx + 1) ∧
        st'.procs = setIdx procs3 i px)) :
    ∀ j, j < procs0.length →
      (getIdx st.procs j).queue_level ≤ (getIdx st'.procs j).queue_level := by
  have M := mlfqMid_facts quanta allotments hallot procs0 hb hnd0 hinit st inv
    procs1 idx1 q01 inQ1 ha qidx hfind i restQ hpop run hrundef p2
    hpid2 harr2 hbur2 hrem2 hcmp2 hlvl2 procs3 idx2 q02 inQ2 hbs
  have hlen := inv.len
  obtain ⟨a1, a2, a3, a4, a5, -, -, -⟩ :=
    mlfqArrive_spec st.procs st.time st.idx (st.queues.getD 0 []) st.inQueue
      (by rw [hlen]; exact inv.idx_le) procs1 idx1 q01 inQ1 ha
  have hadm0 : ∀ j, st.idx ≤ j → j < procs0.length →
      (getIdx st.procs j).queue_level = 0 := by
    intro j h1 h2
    rw [inv.fresh j h1 h2]
    exact (hinit j h2).2.2
  have holdi : (getIdx st.procs i).queue_level ≤ qidx := by
    by_cases hi : i < st.idx
    · have he := a4 i (Or.inl hi)
      have h2 := M.hlvli
      rw [he] at h2
      omega
    · have := hadm0 i (by omega) M.hilen
      omega
  have hp3 : ∀ j, j < procs0.length →
      (getIdx st.procs j).queue_level ≤ (getIdx procs3 j).queue_level := by
    intro j hj
    by_cases hji : j = i
    · subst hji
      rw [M.hp3i, hlvl2, M.hlvli]
      exact holdi
    · by_cases hj2 : j < st.idx
      · exact le_of_eq (M.hlvl3old j hj2 hji).symm
      · by_cases hj3 : j < idx2
        · have e1 := M.hlvl3fresh j (by omega) hj3 hji
          have e2 := hadm0 j (by omega) hj
          omega
        · exact le_of_eq (by
            rw [inv.fresh j (by omega) hj,
              M.hfresh3 j (by omega) hj])
  intro j hj
  rcases hpx with h | ⟨px, hpxl, h⟩
  · rw [h]
    exact hp3 j hj
  · rw [h]
    by_cases hji : j = i
    · subst hji
      rw [getIdx_setIdx_self _ _ _ (by rw [M.len3]; exact M.hilen)]
      rcases hpxl with hl | hl
      · rw [hl, hlvl2, M.hlvli]
        exact holdi
      · rw [hl]
        omega
    · rw [getIdx_setIdx_ne _ _ _ _ (fun hh => hji hh.symm)]
      exact hp3 j hj

theorem mlfqLevel_mono (quanta allotments : List Nat)
    (hq : ∀ l, l < 4 → 0 < quanta.getD l 0)
    (hallot : ∀ l, l < 4 → 0 < allotments.getD l 0)
    (procs0 : List Process)
    (hb : ∀ p ∈ procs0, 0 < p.burst)
    (hnd0 : (procs0.map (·.pid)).Nodup)
    (hinit : ∀ i, i < procs0.length →
      (getIdx procs0 i).remaining = (getIdx procs0 i).burst ∧
      (getIdx procs0 i).completion = 0 ∧ (getIdx procs0 i).queue_level = 0)
    (st : MlfqState) (inv : MlfqInv quanta allotments procs0 st) :
    ∀ j, j < procs0.length →
      (getIdx st.procs j).queue_level ≤
      (getIdx (mlfqBody quanta allotments st).procs j).queue_level := by
  have hlen := inv.len
  have hq4 := inv.qlen4
  rcases ha : mlfqArrive st.procs st.time st.idx (st.queues.getD 0 []) st.inQueue
    with ⟨procs1, idx1, q01, inQ1⟩
  obtain ⟨a1, a2, a3, a4, a5, -, -, -⟩ :=
    mlfqArrive_spec st.procs st.time st.idx (st.queues.getD 0 []) st.inQueue
      (by rw [hlen]; exact inv.idx_le) procs1 idx1 q01 inQ1 ha
  have hadm0 : ∀ j, st.idx ≤ j → j < procs0.length →
      (getIdx st.procs j).queue_level = 0 := by
    intro j h1 h2
    rw [inv.fresh j h1 h2]
    exact (hinit j h2).2.2
  have hlvl1 : ∀ j, j < procs0.length →
      (getIdx st.procs j).queue_level ≤ (getIdx procs1 j).queue_level := by
    intro j hj
    by_cases hcase : j < st.idx ∨ idx1 ≤ j
    · exact le_of_eq (by rw [a4 j hcase])
    · push_neg at hcase
      have e := a5 j (by omega) (by omega)
      have e2 : (getIdx procs1 j).queue_level = 0 := by rw [e]
      rw [e2, hadm0 j (by omega) hj]
  intro j hj
  rcases hfind : (st.queues.set 0 q01).findIdx? (fun q => !q.isEmpty)
    with _ | qidx
  · simp only [mlfqBody, ha, hfind]
    split
    · exact hlvl1 j hj
    · exact hlvl1 j hj
  · rcases hpop : (st.queues.set 0 q01).getD qidx [] with _ | ⟨i, restQ⟩
    · exfalso
      have := (findIdx?_getD_pred _ _ _ [] hfind).2
      rw [hpop] at this
      simp at this
    · simp only [mlfqBody, ha, hfind, hpop]
      by_cases hstart : (getIdx procs1 i).start = -1
      · simp only [if_pos hstart]
        refine mlfqLevel_core quanta allotments hq hallot procs0 hb hnd0 hinit st inv
          procs1 idx1 q01 inQ1 ha qidx hfind i restQ hpop
          (min (quanta.getD qidx 0)
            (min (getIdx procs1 i).remaining
              (allotments.getD qidx 0 -
                (st.levelTime (getIdx procs1 i).pid).getD qidx 0))) rfl
          ({
              pid := (getIdx procs1 i).pid,
              arrival := (getIdx procs1 i).arrival,
              burst := (getIdx procs1 i).burst,
              priority := (getIdx procs1 i).priority,
              remaining := (getIdx procs1 i).remaining -
                min (quanta.getD qidx 0)
                  (min (getIdx procs1 i).remaining
                    (allotments.getD qidx 0 -
                      (st.levelTime (getIdx procs1 i).pid).getD qidx 0)),
              completion := (getIdx procs1 i).completion,
              turnaround := (getIdx procs1 i).turnaround,
              waiting := (getIdx procs1 i).waiting,
              response := (st.time : Int) - ((getIdx procs1 i).arrival : Int),
              start := (st.time : Int),
              queue_level := (getIdx procs1 i).queue_level })
          rfl rfl rfl rfl rfl rfl
          ((mlfqArrive (setIdx procs1 i
            {
                pid := (getIdx procs1 i).pid,
                arrival := (getIdx procs1 i).arrival,
                burst := (getIdx procs1 i).burst,
                priority := (getIdx procs1 i).priority,
                remaining := (getIdx procs1 i).remaining -
                  min (quanta.getD qidx 0)
                    (min (getIdx procs1 i).remaining
                      (allotments.getD qidx 0 -
                        (st.levelTime (getIdx procs1 i).pid).getD qidx 0)),
                completion := (getIdx procs1 i).completion,
                turnaround := (getIdx procs1 i).turnaround,
                waiting := (getIdx procs1 i).waiting,
                response := (st.time : Int) - ((getIdx procs1 i).arrival : Int),
                start := (st.time : Int),
                queue_level := (getIdx procs1 i).queue_level })
            (st.time +
              min (quanta.getD qidx 0)
            (min (getIdx procs1 i).remaining
              (allotments.getD qidx 0 -
                (st.levelTime (getIdx procs1 i).pid).getD qidx 0)))
            idx1 (((st.queues.set 0 q01).set qidx restQ).getD 0 [])
            (inQ1.erase (getIdx procs1 i).pid)).1)
          ((mlfqArrive (setIdx procs1 i
            {
                pid := (getIdx procs1 i).pid,
                arrival := (getIdx procs1 i).arrival,
                burst := (getIdx procs1 i).burst,
                priority := (getIdx procs1 i).priority,
                remaining := (getIdx procs1 i).remaining -
                  min (quanta.getD qidx 0)
                    (min (getIdx procs1 i).remaining
                      (allotments.getD qidx 0 -
                        (st.levelTime (getIdx procs1 i).pid).getD qidx 0)),
                completion := (getIdx procs1 i).completion,
                turnaround := (getIdx procs1 i).turnaround,
                waiting := (getIdx procs1 i).waiting,
                response := (st.time : Int) - ((getIdx procs1 i).arrival : Int),
                start := (st.time : Int),
                queue_level := (getIdx procs1 i).queue_level })
            (st.time +
              min (quanta.getD qidx 0)
            (min (getIdx procs1 i).remaining
              (allotments.getD qidx 0 -
                (st.levelTime (getIdx procs1 i).pid).getD qidx 0)))
            idx1 (((st.queues.set 0 q01).set qidx restQ).getD 0 [])
            (inQ1.erase (getIdx procs1 i).pid)).2.1)
          ((mlfqArrive (setIdx procs1 i
            {
                pid := (getIdx procs1 i).pid,
                arrival := (getIdx procs1 i).arrival,
                burst := (getIdx procs1 i).burst,
                priority := (getIdx procs1 i).priority,
                remaining := (getIdx procs1 i).remaining -
                  min (quanta.getD qidx 0)
                    (min (getIdx procs1 i).remaining
                      (allotments.getD qidx 0 -
                        (st.levelTime (getIdx procs1 i).pid).getD qidx 0)),
                completion := (getIdx procs1 i).completion,
                turnaround := (getIdx procs1 i).turnaround,
                waiting := (getIdx procs1 i).waiting,
                response := (st.time : Int) - ((getIdx procs1 i).arrival : Int),
                start := (st.time : Int),
                queue_level := (getIdx procs1 i).queue_level })
            (st.time +
              min (quanta.getD qidx 0)
            (min (getIdx procs1 i).remaining
              (allotments.getD qidx 0 -
                (st.levelTime (getIdx procs1 i).pid).getD qidx 0)))
            idx1 (((st.queues.set 0 q01).set qidx restQ).getD 0 [])
            (inQ1.erase (getIdx procs1 i).pid)).2.2.1)
          ((mlfqArrive (setIdx procs1 i
            {
                pid := (getIdx procs1 i).pid,
                arrival := (getIdx procs1 i).arrival,
                burst := (getIdx procs1 i).burst,
                priority := (getIdx procs1 i).priority,
                remaining := (getIdx procs1 i).remaining -
                  min (quanta.getD qidx 0)
                    (min (getIdx procs1 i).remaining
                      (allotments.getD qidx 0 -
                        (st.levelTime (getIdx procs1 i).pid).getD qidx 0)),
                completion := (getIdx procs1 i).completion,
                turnaround := (getIdx procs1 i).turnaround,
                waiting := (getIdx procs1 i).waiting,
                response := (st.time : Int) - ((getIdx procs1 i).arrival : Int),
                start := (st.time : Int),
                queue_level := (getIdx procs1 i).queue_level })
            (st.time +
              min (quanta.getD qidx 0)
            (min (getIdx procs1 i).remaining
              (allotments.getD qidx 0 -
                (st.levelTime (getIdx procs1 i).pid).getD qidx 0)))
            idx1 (((st.queues.set 0 q01).set qidx restQ).getD 0 [])
            (inQ1.erase (getIdx procs1 i).pid)).2.2.2)
          rfl _ ?_ j hj
        split
        · exact Or.inr
            ⟨{
                  pid := (getIdx procs1 i).pid,
                  arrival := (getIdx procs1 i).arrival,
                  burst := (getIdx procs1 i).burst,
                  priority := (getIdx procs1 i).priority,
                  remaining := (getIdx procs1 i).remaining -
                    min (quanta.getD qidx 0)
                      (min (getIdx procs1 i).remaining
                        (allotments.getD qidx 0 -
                          (st.levelTime (getIdx procs1 i).pid).getD qidx 0)),
                  completion := st.time +
                  min (quanta.getD qidx 0)
                    (min (getIdx procs1 i).remaining
                      (allotments.getD qidx 0 -
                        (st.levelTime (getIdx procs1 i).pid).getD qidx 0)),
                  turnaround := ((st.time +
                  min (quanta.getD qidx 0)
                    (min (getIdx procs1 i).remaining
                      (allotments.getD qidx 0 -
                        (st.levelTime (getIdx procs1 i).pid).getD qidx 0)) : Nat) : Int) - ((getIdx procs1 i).arrival : Int),
                  waiting := ((st.time +
                  min (quanta.getD qidx 0)
                    (min (getIdx procs1 i).remaining
                      (allotments.getD qidx 0 -
                        (st.levelTime (getIdx procs1 i).pid).getD qidx 0)) : Nat) : Int) - ((getIdx procs1 i).arrival : Int) - ((getIdx procs1 i).burst : Int),
                  response := (st.time : Int) - ((getIdx procs1 i).arrival : Int),
                  start := (st.time : Int),
                  queue_level := (getIdx procs1 i).queue_level },
             Or.inl rfl, rfl⟩
        · split
          · split
            · exact Or.inr
                ⟨{
                    pid := (getIdx procs1 i).pid,
                    arrival := (getIdx procs1 i).arrival,
                    burst := (getIdx procs1 i).burst,
                    priority := (getIdx procs1 i).priority,
                    remaining := (getIdx procs1 i).remaining -
                      min (quanta.getD qidx 0)
                        (min (getIdx procs1 i).remaining
                          (allotments.getD qidx 0 -
                            (st.levelTime (getIdx procs1 i).pid).getD qidx 0)),
                    completion := (getIdx procs1 i).completion,
                    turnaround := (getIdx procs1 i).turnaround,
                    waiting := (getIdx procs1 i).waiting,
                    response := (st.time : Int) - ((getIdx procs1 i).arrival : Int),
                    start := (st.time : Int),
                    queue_level := qidx + 1 },
                 Or.inr rfl, rfl⟩
            · exact Or.inl rfl
          · exact Or.inl rfl
      · simp only [if_neg hstart]
        refine mlfqLevel_core quanta allotments hq hallot procs0 hb hnd0 hinit st inv
          procs1 idx1 q01 inQ1 ha qidx hfind i restQ hpop
          (min (quanta.getD qidx 0)
            (min (getIdx procs1 i).remaining
              (allotments.getD qidx 0 -
                (st.levelTime (getIdx procs1 i).pid).getD qidx 0))) rfl
          ({
              pid := (getIdx procs1 i).pid,
              arrival := (getIdx procs1 i).arrival,
              burst := (getIdx procs1 i).burst,
              priority := (getIdx procs1 i).priority,
              remaining := (getIdx procs1 i).remaining -
                min (quanta.getD qidx 0)
                  (min (getIdx procs1 i).remaining
                    (allotments.getD qidx 0 -
                      (st.levelTime (getIdx procs1 i).pid).getD qidx 0)),
              completion := (getIdx procs1 i).completion,
              turnaround := (getIdx procs1 i).turnaround,
              waiting := (getIdx procs1 i).waiting,
              response := (getIdx procs1 i).response,
              start := (getIdx procs1 i).start,
              queue_level := (getIdx procs1 i).queue_level })
          rfl rfl rfl rfl rfl rfl
          ((mlfqArrive (setIdx procs1 i
            {
                pid := (getIdx procs1 i).pid,
                arrival := (getIdx procs1 i).arrival,
                burst := (getIdx procs1 i).burst,
                priority := (getIdx procs1 i).priority,
                remaining := (getIdx procs1 i).remaining -
                  min (quanta.getD qidx 0)
                    (min (getIdx procs1 i).remaining
                      (allotments.getD qidx 0 -
                        (st.levelTime (getIdx procs1 i).pid).getD qidx 0)),
                completion := (getIdx procs1 i).completion,
                turnaround := (getIdx procs1 i).turnaround,
                waiting := (getIdx procs1 i).waiting,
                response := (getIdx procs1 i).response,
                start := (getIdx procs1 i).start,
                queue_level := (getIdx procs1 i).queue_level })
            (st.time +
              min (quanta.getD qidx 0)
            (min (getIdx procs1 i).remaining
              (allotments.getD qidx 0 -
                (st.levelTime (getIdx procs1 i).pid).getD qidx 0)))
            idx1 (((st.queues.set 0 q01).set qidx restQ).getD 0 [])
            (inQ1.erase (getIdx procs1 i).pid)).1)
          ((mlfqArrive (setIdx procs1 i
            {
                pid := (getIdx procs1 i).pid,
                arrival := (getIdx procs1 i).arrival,
                burst := (getIdx procs1 i).burst,
                priority := (getIdx procs1 i).priority,
                remaining := (getIdx procs1 i).remaining -
                  min (quanta.getD qidx 0)
                    (min (getIdx procs1 i).remaining
                      (allotments.getD qidx 0 -
                        (st.levelTime (getIdx procs1 i).pid).getD qidx 0)),
                completion := (getIdx procs1 i).completion,
                turnaround := (getIdx procs1 i).turnaround,
                waiting := (getIdx procs1 i).waiting,
                response := (getIdx procs1 i).response,
                start := (getIdx procs1 i).start,
                queue_level := (getIdx procs1 i).queue_level })
            (st.time +
              min (quanta.getD qidx 0)
            (min (getIdx procs1 i).remaining
              (allotments.getD qidx 0 -
                (st.levelTime (getIdx procs1 i).pid).getD qidx 0)))
            idx1 (((st.queues.set 0 q01).set qidx restQ).getD 0 [])
            (inQ1.erase (getIdx procs1 i).pid)).2.1)
          ((mlfqArrive (setIdx procs1 i
            {
                pid := (getIdx procs1 i).pid,
                arrival := (getIdx procs1 i).arrival,
                burst := (getIdx procs1 i).burst,
                priority := (getIdx procs1 i).priority,
                remaining := (getIdx procs1 i).remaining -
                  min (quanta.getD qidx 0)
                    (min (getIdx procs1 i).remaining
                      (allotments.getD qidx 0 -
                        (st.levelTime (getIdx procs1 i).pid).getD qidx 0)),
                completion := (getIdx procs1 i).completion,
                turnaround := (getIdx procs1 i).turnaround,
                waiting := (getIdx procs1 i).waiting,
                response := (getIdx procs1 i).response,
                start := (getIdx procs1 i).start,
                queue_level := (getIdx procs1 i).queue_level })
            (st.time +
              min (quanta.getD qidx 0)
            (min (getIdx procs1 i).remaining
              (allotments.getD qidx 0 -
                (st.levelTime (getIdx procs1 i).pid).getD qidx 0)))
            idx1 (((st.queues.set 0 q01).set qidx restQ).getD 0 [])
            (inQ1.erase (getIdx procs1 i).pid)).2.2.1)
          ((mlfqArrive (setIdx procs1 i
            {
                pid := (getIdx procs1 i).pid,
                arrival := (getIdx procs1 i).arrival,
                burst := (getIdx procs1 i).burst,
                priority := (getIdx procs1 i).priority,
                remaining := (getIdx procs1 i).remaining -
                  min (quanta.getD qidx 0)
                    (min (getIdx procs1 i).remaining
                      (allotments.getD qidx 0 -
                        (st.levelTime (getIdx procs1 i).pid).getD qidx 0)),
                completion := (getIdx procs1 i).completion,
                turnaround := (getIdx procs1 i).turnaround,
                waiting := (getIdx procs1 i).waiting,
                response := (getIdx procs1 i).response,
                start := (getIdx procs1 i).start,
                queue_level := (getIdx procs1 i).queue_level })
            (st.time +
              min (quanta.getD qidx 0)
            (min (getIdx procs1 i).remaining
              (allotments.getD qidx 0 -
                (st.levelTime (getIdx procs1 i).pid).getD qidx 0)))
            idx1 (((st.queues.set 0 q01).set qidx restQ).getD 0 [])
            (inQ1.erase (getIdx procs1 i).pid)).2.2.2)
          rfl _ ?_ j hj
        split
        · exact Or.inr
            ⟨{
                  pid := (getIdx procs1 i).pid,
                  arrival := (getIdx procs1 i).arrival,
                  burst := (getIdx procs1 i).burst,
                  priority := (getIdx procs1 i).priority,
                  remaining := (getIdx procs1 i).remaining -
                    min (quanta.getD qidx 0)
                      (min (getIdx procs1 i).remaining
                        (allotments.getD qidx 0 -
                          (st.levelTime (getIdx procs1 i).pid).getD qidx 0)),
                  completion := st.time +
                  min (quanta.getD qidx 0)
                    (min (getIdx procs1 i).remaining
                      (allotments.getD qidx 0 -
                        (st.levelTime (getIdx procs1 i).pid).getD qidx 0)),
                  turnaround := ((st.time +
                  min (quanta.getD qidx 0)
                    (min (getIdx procs1 i).remaining
                      (allotments.getD qidx 0 -
                        (st.levelTime (getIdx procs1 i).pid).getD qidx 0)) : Nat) : Int) - ((getIdx procs1 i).arrival : Int),
                  waiting := ((st.time +
                  min (quanta.getD qidx 0)
                    (min (getIdx procs1 i).remaining
                      (allotments.getD qidx 0 -
                        (st.levelTime (getIdx procs1 i).pid).getD qidx 0)) : Nat) : Int) - ((getIdx procs1 i).arrival : Int) - ((getIdx procs1 i).burst : Int),
                  response := (getIdx procs1 i).response,
                  start := (getIdx procs1 i).start,
                  queue_level := (getIdx procs1 i).queue_level },
             Or.inl rfl, rfl⟩
        · split
          · split
            · exact Or.inr
                ⟨{
                    pid := (getIdx procs1 i).pid,
                    arrival := (getIdx procs1 i).arrival,
                    burst := (getIdx procs1 i).burst,
                    priority := (getIdx procs1 i).priority,
                    remaining := (getIdx procs1 i).remaining -
                      min (quanta.getD qidx 0)
                        (min (getIdx procs1 i).remaining
                          (allotments.getD qidx 0 -
                            (st.levelTime (getIdx procs1 i).pid).getD qidx 0)),
                    completion := (getIdx procs1 i).completion,
                    turnaround := (getIdx procs1 i).turnaround,
                    waiting := (getIdx procs1 i).waiting,
                    response := (getIdx procs1 i).response,
                    start := (getIdx procs1 i).start,
                    queue_level := qidx + 1 },
                 Or.inr rfl, rfl⟩
            · exact Or.inl rfl
          · exact Or.inl rfl

theorem maxArrival_cons (p : Process) (rest : List Process) :
    maxArrival (p :: rest) = max p.arrival (maxArrival rest) := rfl

theorem maxCompletion_cons (p : Process) (rest : List Process) :
    maxCompletion (p :: rest) = max p.completion (maxCompletion rest) := rfl

theorem perm_totalBurst {l1 l2 : List Process} (h : l1.Perm l2) :
    totalBurst l1 = totalBurst l2 := by
  unfold totalBurst
  exact (h.map (·.burst)).sum_eq

theorem perm_maxArrival {l1 l2 : List Process} (h : l1.Perm l2) :
    maxArrival l1 = maxArrival l2 := by
  unfold maxArrival
  have hlc : LeftCommutative (max : Nat → Nat → Nat) := ⟨fun a b c => max_left_comm a b c⟩
  exact @List.Perm.foldr_eq _ _ _ _ _ hlc (h.map (·.arrival)) 0

/-- Structural facts about the `fcfs` recursion: pids are preserved in
order, the final clock `t + sumDur` is the last completion time, it is
bounded by `max t maxArrival + totalBurst`, busy time equals total burst,
and the timeline chains correctly with every label either idle or a pid. -/
theorem fcfsRun_facts : ∀ (lst : List Process) (t : Nat),
    ((fcfsRun t lst).1.map (·.pid) = lst.map (·.pid)) ∧
    (lst ≠ [] → maxCompletion (fcfsRun t lst).1 = t + sumDur (fcfsRun t lst).2) ∧
    (t + sumDur (fcfsRun t lst).2 ≤ max t (maxArrival lst) + totalBurst lst) ∧
    ((∀ p ∈ lst, p.pid ≠ "IDLE") →
      busyDur (fcfsRun t lst).2 = totalBurst lst) ∧
    ((∀ p ∈ lst, p.pid ≠ "IDLE") → (lst.map (·.pid)).Nodup →
      chainOk (fcfsRun t lst).2 ∧
      ∀ e ∈ (fcfsRun t lst).2, e.1 = "IDLE" ∨ e.1 ∈ lst.map (·.pid))
  | [], t => by
    refine ⟨rfl, fun h => absurd rfl h, ?_, fun _ => rfl, fun _ _ => ⟨trivial, ?_⟩⟩
    · simp [fcfsRun, sumDur, totalBurst, Nat.le_max_left]
    · intro e he
      simp [fcfsRun] at he
  | p :: rest, t => by
    obtain ⟨ih1, ih2, ih3, ih4, ih5⟩ :=
      fcfsRun_facts rest ((if t < p.arrival then p.arrival else t) + p.burst)
    have hunf : fcfsRun t (p :: rest) =
        (({ p with start := ((if t < p.arrival then p.arrival else t : Nat) : Int)
                   response := ((if t < p.arrival then p.arrival else t : Nat) : Int) -
                     (p.arrival : Int)
                   completion := (if t < p.arrival then p.arrival else t) + p.burst
                   turnaround := (((if t < p.arrival then p.arrival else t) + p.burst : Nat) : Int) -
                     (p.arrival : Int)
                   waiting := ((((if t < p.arrival then p.arrival else t) + p.burst : Nat) : Int) -
                     (p.arrival : Int)) - (p.burst : Int)
                   remaining := 0 } ::
          (fcfsRun ((if t < p.arrival then p.arrival else t) + p.burst) rest).1),
          (if t < p.arrival then [(("IDLE" : String), p.arrival - t)] else []) ++
            [(p.pid, p.burst)] ++
            (fcfsRun ((if t < p.arrival then p.arrival else t) + p.burst) rest).2) := by
      rfl
    rw [hunf]
    set t1 : Nat := if t < p.arrival then p.arrival else t with ht1
    set r := fcfsRun (t1 + p.burst) rest with hr
    have hidle : sumDur (if t < p.arrival then [(("IDLE" : String), p.arrival - t)] else []) =
        t1 - t := by
      rw [ht1]
      split
      · simp [sumDur]
      · simp [sumDur]
    have ht1t : t ≤ t1 := by
      rw [ht1]; split <;> omega
    have ht1a : p.arrival ≤ t1 := by
      rw [ht1]; split <;> omega
    have hsum : sumDur ((if t < p.arrival then [(("IDLE" : String), p.arrival - t)] else []) ++
        [(p.pid, p.burst)] ++ r.2) = (t1 - t) + p.burst + sumDur r.2 := by
      rw [sumDur_append, sumDur_append, hidle]
      have hs1 : sumDur [(p.pid, p.burst)] = p.burst := by
        simp [sumDur]
      rw [hs1]
    have htb : totalBurst (p :: rest) = p.burst + totalBurst rest := by
      simp [totalBurst]
    refine ⟨?_, ?_, ?_, ?_, ?_⟩
    · simp only [List.map_cons, ih1]
    · intro _
      dsimp only
      rw [maxCompletion_cons, hsum]
      by_cases hrest : rest = []
      · subst hrest
        have : r = ([], []) := rfl
        rw [this]
        show max (t1 + p.burst) (maxCompletion []) = t + (t1 - t + p.burst + sumDur [])
        have hmc : maxCompletion ([] : List Process) = 0 := rfl
        have hs0 : sumDur ([] : List (String × Nat)) = 0 := rfl
        rw [hmc, hs0, Nat.max_eq_left (Nat.zero_le _)]
        omega
      · rw [ih2 hrest]
        have : t1 + p.burst ≤ t1 + p.burst + sumDur r.2 := by omega
        rw [max_eq_right this]
        omega
    · dsimp only
      rw [hsum, maxArrival_cons, htb]
      have hA1 : t ≤ max t (max p.arrival (maxArrival rest)) := Nat.le_max_left _ _
      have hA2 : p.arrival ≤ max t (max p.arrival (maxArrival rest)) :=
        le_trans (Nat.le_max_left _ _) (Nat.le_max_right _ _)
      have hA3 : maxArrival rest ≤ max t (max p.arrival (maxArrival rest)) :=
        le_trans (Nat.le_max_right _ _) (Nat.le_max_right _ _)
      have ht1le : t1 ≤ max t (max p.arrival (maxArrival rest)) := by
        rw [ht1]; split <;> omega
      have hB : max (t1 + p.burst) (maxArrival rest) ≤
          max t (max p.arrival (maxArrival rest)) + p.burst :=
        max_le (by omega) (by omega)
      have := ih3
      omega
    · intro hI
      dsimp only
      have hbapp : ∀ (a b : List (String × Nat)), busyDur (a ++ b) = busyDur a + busyDur b := by
        intro a b
        unfold busyDur
        rw [List.filter_append, List.map_append, List.sum_append]
      rw [hbapp, hbapp]
      have h1 : busyDur (if t < p.arrival then [(("IDLE" : String), p.arrival - t)] else []) = 0 := by
        split <;> simp [busyDur]
      have h2 : busyDur [(p.pid, p.burst)] = p.burst := by
        unfold busyDur
        rw [List.filter_cons]
        simp [hI p (List.mem_cons_self p rest)]
      rw [h1, h2, ih4 (fun q hq => hI q (List.mem_cons_of_mem p hq)), htb]
      omega
    · intro hI hnd
      have hndr : (rest.map (·.pid)).Nodup := by
        simp only [List.map_cons, List.nodup_cons] at hnd
        exact hnd.2
      have hpnotin : p.pid ∉ rest.map (·.pid) := by
        simp only [List.map_cons, List.nodup_cons] at hnd
        exact hnd.1
      obtain ⟨hc, hmem⟩ := ih5 (fun q hq => hI q (by simp [hq])) hndr
      have hseam : chainOk ((p.pid, p.burst) :: r.2) := by
        rcases hg : r.2 with _ | ⟨e, tl⟩
        · trivial
        · refine ⟨?_, by rw [← hg]; exact hc⟩
          intro hcontra
          have hce : p.pid = e.1 := hcontra
          rcases hmem e (by rw [hg]; simp) with h | h
          · exact hI p (List.mem_cons_self p rest) (by rw [hce, h])
          · exact hpnotin (by rw [hce]; exact h)
      constructor
      · dsimp only
        split
        · exact ⟨fun hh => hI p (List.mem_cons_self p rest) hh.symm, hseam⟩
        · exact hseam
      · intro e he
        dsimp only at he
        rw [List.mem_append, List.mem_append] at he
        rcases he with (he | he) | he
        · left
          revert he
          split
          · intro he
            simp at he
            rw [he]
          · intro he
            simp at he
        · right
          simp at he
          simp [he]
        · rcases hmem e he with h | h
          · exact Or.inl h
          · exact Or.inr (by simp only [List.map_cons]; exact List.mem_cons_of_mem _ h)

/-- Endpoint facts for `fcfs`: timeline total = last completion, bounded by
first-arrival offset + total burst + arrival span, and (for unambiguous
labels) a correctly chained timeline accounting busy time to bursts. -/
theorem fcfs_final (l : List Process)
    (hb : ∀ p ∈ l, 0 < p.burst) (hnd : (l.map (·.pid)).Nodup) :
    sumDur (fcfs l).2 = maxCompletion (fcfs l).1 ∧
    sumDur (fcfs l).2 ≤ minArrival l + totalBurst l + arrivalSpan l ∧
    (LabelsOk l → chainOk (fcfs l).2 ∧
      sumDur (fcfs l).2 = totalBurst l + idleDur (fcfs l).2) := by
  have hperm : (List.insertionSort arrivalPidLe l).Perm l :=
    List.perm_insertionSort arrivalPidLe l
  obtain ⟨h1, h2, h3, h4, h5⟩ := fcfsRun_facts (List.insertionSort arrivalPidLe l) 0
  have hBs := perm_totalBurst hperm
  have hAs := perm_maxArrival hperm
  refine ⟨?_, ?_, ?_⟩
  · by_cases hnil : List.insertionSort arrivalPidLe l = []
    · rw [fcfs, hnil]
      rfl
    · rw [fcfs, h2 hnil]
      omega
  · have h3' := h3
    rw [Nat.max_eq_right (Nat.zero_le _)] at h3'
    have hm := minArrival_le_maxArrival l
    unfold arrivalSpan
    rw [fcfs]
    omega
  · intro hL
    have hI : ∀ p ∈ List.insertionSort arrivalPidLe l, p.pid ≠ "IDLE" :=
      fun p hp => (hL p (hperm.mem_iff.mp hp)).1
    have hnds : ((List.insertionSort arrivalPidLe l).map (·.pid)).Nodup :=
      (hperm.map (·.pid)).nodup_iff.mpr hnd
    obtain ⟨hc, -⟩ := h5 hI hnds
    refine ⟨by rw [fcfs]; exact hc, ?_⟩
    have hbusy := h4 hI
    have hpart := busyDur_add_idleDur (fcfs l).2
    rw [fcfs] at hpart ⊢
    omega

theorem sjfArriveA_spec (procs : List Process) (time : Nat) :
    ∀ (k idx : Nat) (ready : List Nat) (idx' : Nat) (ready' : List Nat),
      sjfArriveA procs time k idx ready = (idx', ready') →
      procs.length ≤ idx + k → idx ≤ procs.length →
      idx ≤ idx' ∧ idx' ≤ procs.length ∧
      (∃ added, ready' = ready ++ added ∧
        (∀ j, j ∈ added ↔ idx ≤ j ∧ j < idx') ∧ added.Nodup) ∧
      (idx' = procs.length ∨ ¬ (getIdx procs idx').arrival ≤ time) ∧
      (∀ j, idx ≤ j → j < idx' → (getIdx procs j).arrival ≤ time) := by
  intro k
  induction k with
  | zero =>
    intro idx ready idx' ready' h hk hidx
    simp only [sjfArriveA] at h
    obtain ⟨rfl, rfl⟩ : idx = idx' ∧ ready = ready' :=
      ⟨congrArg Prod.fst h, congrArg Prod.snd h⟩
    refine ⟨le_refl _, hidx, ⟨[], by simp, fun j => iff_of_false (by simp) (by omega), List.nodup_nil⟩,
      Or.inl (by omega), fun j h1 h2 => absurd h2 (by omega)⟩
  | succ k ih =>
    intro idx ready idx' ready' h hk hidx
    rw [sjfArriveA] at h
    by_cases hc : idx < procs.length ∧ (getIdx procs idx).arrival ≤ time
    · rw [if_pos hc] at h
      obtain ⟨h1, h2, ⟨added, hadd, hiff, hnd⟩, h4, h5⟩ :=
        ih (idx + 1) (ready ++ [idx]) idx' ready' h (by omega) (by omega)
      refine ⟨by omega, h2, ⟨idx :: added, ?_, ?_, ?_⟩, h4, ?_⟩
      · rw [hadd]; simp
      · intro j
        simp only [List.mem_cons, hiff]
        omega
      · refine List.nodup_cons.mpr ⟨?_, hnd⟩
        intro hmem
        have := (hiff idx).mp hmem
        omega
      · intro j hj1 hj2
        rcases Nat.eq_or_lt_of_le hj1 with rfl | hj1
        · exact hc.2
        · exact h5 j hj1 hj2
    · rw [if_neg hc] at h
      obtain ⟨rfl, rfl⟩ : idx = idx' ∧ ready = ready' :=
        ⟨congrArg Prod.fst h, congrArg Prod.snd h⟩
      refine ⟨le_refl _, hidx, ⟨[], by simp, fun j => iff_of_false (by simp) (by omega), List.nodup_nil⟩,
        ?_, fun j h1 h2 => absurd h2 (by omega)⟩
      by_cases hlt : idx < procs.length
      · exact Or.inr (fun harr => hc ⟨hlt, harr⟩)
      · exact Or.inl (by omega)

theorem sjfArrive_spec (procs : List Process) (time : Nat)
    (idx : Nat) (ready : List Nat) (hidx : idx ≤ procs.length)
    (idx' : Nat) (ready' : List Nat)
    (h : sjfArrive procs time idx ready = (idx', ready')) :
    idx ≤ idx' ∧ idx' ≤ procs.length ∧
    (∃ added, ready' = ready ++ added ∧
      (∀ j, j ∈ added ↔ idx ≤ j ∧ j < idx') ∧ added.Nodup) ∧
    (idx' = procs.length ∨ ¬ (getIdx procs idx').arrival ≤ time) ∧
    (∀ j, idx ≤ j → j < idx' → (getIdx procs j).arrival ≤ time) :=
  sjfArriveA_spec procs time (procs.length - idx) idx ready idx' ready' h
    (by omega) hidx

/-- Invariant of the `sjf` while-loop, relative to the initial (copied and
sorted) process list `procs0`.  `sjf` runs each dispatched process to
completion, so a record is either untouched (`remaining = burst`) or
finished (`remaining = 0`). -/
structure SjfInv (procs0 : List Process) (st : SjfState) : Prop where
  len : st.procs.length = procs0.length
  frame : ∀ i, i < procs0.length →
    (getIdx st.procs i).pid = (getIdx procs0 i).pid ∧
    (getIdx st.procs i).arrival = (getIdx procs0 i).arrival ∧
    (getIdx st.procs i).burst = (getIdx procs0 i).burst
  idx_le : st.idx ≤ procs0.length
  arrived : ∀ i, i < st.idx → (getIdx st.procs i).arrival ≤ st.time
  fresh : ∀ i, st.idx ≤ i → i < procs0.length → getIdx st.procs i = getIdx procs0 i
  rdy_lt : ∀ i ∈ st.ready, i < st.idx
  rdy_nd : st.ready.Nodup
  rdy_arr : ∀ i ∈ st.ready, (getIdx st.procs i).arrival ≤ st.time
  rdy_rb : ∀ i ∈ st.ready,
    (getIdx st.procs i).remaining = (getIdx st.procs i).burst
  rdy_all : ∀ i, i < st.idx → 0 < (getIdx st.procs i).remaining → i ∈ st.ready
  rem_le : ∀ i, i < procs0.length →
    (getIdx st.procs i).remaining ≤ (getIdx st.procs i).burst
  count : st.completed = st.procs.countP (fun p => decide (p.remaining = 0))
  clock : st.time + totalRemaining st.procs ≤ maxArrival procs0 + totalBurst procs0
  sumg : sumDur st.gantt = st.time
  cmpl_le : ∀ i, i < procs0.length → (getIdx st.procs i).completion ≤ st.time
  cmpl_last : (∀ i, i < procs0.length → (getIdx st.procs i).remaining = 0) →
    0 < procs0.length →
    ∃ i, i < procs0.length ∧ (getIdx st.procs i).completion = st.time
  busy : LabelsOk procs0 →
    busyDur st.gantt + totalRemaining st.procs = totalBurst procs0
  chain : LabelsOk procs0 →
    chainOk st.gantt ∧
    (∀ s, lastLabel st.gantt = some s → s = "IDLE" ∨
      ∃ j, j < procs0.length ∧ (getIdx st.procs j).pid = s ∧
        (getIdx st.procs j).remaining = 0) ∧
    (lastLabel st.gantt = some "IDLE" → st.idx < procs0.length ∧
      (getIdx st.procs st.idx).arrival ≤ st.time ∧
      0 < (getIdx st.procs st.idx).remaining)

theorem sjfInv_init (procs0 : List Process)
    (hb : ∀ p ∈ procs0, 0 < p.burst)
    (hinit : ∀ i, i < procs0.length →
      (getIdx procs0 i).remaining = (getIdx procs0 i).burst ∧
      (getIdx procs0 i).completion = 0) :
    SjfInv procs0 (sjfInit procs0) := by
  have hRB : totalRemaining procs0 = totalBurst procs0 := by
    unfold totalRemaining totalBurst
    refine congrArg List.sum (List.map_congr_left ?_)
    intro p hp
    obtain ⟨i, hi, rfl⟩ := mem_getIdx procs0 p hp
    exact (hinit i hi).1
  refine
    { len := rfl
      frame := fun i _ => ⟨rfl, rfl, rfl⟩
      idx_le := Nat.zero_le _
      arrived := fun i hi => absurd hi (by simp [sjfInit])
      fresh := fun i _ _ => rfl
      rdy_lt := fun i hi => absurd hi (by simp [sjfInit])
      rdy_nd := List.nodup_nil
      rdy_arr := fun i hi => absurd hi (by simp [sjfInit])
      rdy_rb := fun i hi => absurd hi (by simp [sjfInit])
      rdy_all := fun i hi _ => absurd hi (by simp [sjfInit])
      rem_le := fun i hi => le_of_eq (hinit i hi).1
      count := ?_
      clock := by simp [sjfInit]; omega
      sumg := rfl
      cmpl_le := fun i hi => le_of_eq (hinit i hi).2
      cmpl_last := fun _ hpos => ⟨0, hpos, (hinit 0 hpos).2⟩
      busy := fun _ => by simp [sjfInit, busyDur]; omega
      chain := fun _ => ⟨trivial, fun s hs => by simp [sjfInit, lastLabel] at hs,
        fun hs => by simp [sjfInit, lastLabel] at hs⟩ }
  show (0 : Nat) = procs0.countP (fun p => decide (p.remaining = 0))
  symm
  rw [List.countP_eq_zero]
  intro p hp
  obtain ⟨i, hi, rfl⟩ := mem_getIdx procs0 p hp
  have h1 := (hinit i hi).1
  have h2 := hb _ (getIdx_mem procs0 i hi)
  simp only [decide_eq_true_eq]
  omega

theorem sjfInv_pres (procs0 : List Process)
    (hb : ∀ p ∈ procs0, 0 < p.burst)
    (hnd0 : (procs0.map (·.pid)).Nodup)
    (hinit : ∀ i, i < procs0.length →
      (getIdx procs0 i).remaining = (getIdx procs0 i).burst ∧
      (getIdx procs0 i).completion = 0)
    (st : SjfState) (inv : SjfInv procs0 st) : SjfInv procs0 (sjfBody st) := by
  have hlen := inv.len
  have hpideq : st.procs.map (·.pid) = procs0.map (·.pid) :=
    map_eq_of_getIdx _ _ _ hlen (fun j hj => (inv.frame j hj).1)
  have hpids : (st.procs.map (·.pid)).Nodup := by rw [hpideq]; exact hnd0
  have hb' : ∀ j, j < procs0.length → 0 < (getIdx st.procs j).burst := by
    intro j hj
    rw [(inv.frame j hj).2.2]
    exact hb _ (getIdx_mem procs0 j hj)
  have hBeq : totalBurst st.procs = totalBurst procs0 := by
    unfold totalBurst
    rw [map_eq_of_getIdx (·.burst) st.procs procs0 hlen (fun i hi => (inv.frame i hi).2.2)]
  have hRle : totalRemaining st.procs ≤ totalBurst procs0 := by
    rw [← hBeq]
    exact totalRemaining_le_totalBurst st.procs
      (fun i hi => inv.rem_le i (by omega))
  rcases ha : sjfArrive st.procs st.time st.idx st.ready with ⟨idx1, ready1⟩
  obtain ⟨s1, s2, ⟨added, haddeq, hiff, handnd⟩, s7, s8⟩ :=
    sjfArrive_spec st.procs st.time st.idx st.ready
      (by rw [hlen]; exact inv.idx_le) idx1 ready1 ha
  have hr1lt : ∀ j ∈ ready1, j < idx1 := by
    intro j hj
    rw [haddeq] at hj
    rcases List.mem_append.mp hj with hj | hj
    · have := inv.rdy_lt j hj; omega
    · exact ((hiff j).mp hj).2
  have hr1arr : ∀ j ∈ ready1, (getIdx st.procs j).arrival ≤ st.time := by
    intro j hj
    rw [haddeq] at hj
    rcases List.mem_append.mp hj with hj | hj
    · exact inv.rdy_arr j hj
    · obtain ⟨hj1, hj2⟩ := (hiff j).mp hj
      exact s8 j hj1 hj2
  have hr1rb : ∀ j ∈ ready1,
      (getIdx st.procs j).remaining = (getIdx st.procs j).burst := by
    intro j hj
    rw [haddeq] at hj
    rcases List.mem_append.mp hj with hj | hj
    · exact inv.rdy_rb j hj
    · obtain ⟨hj1, hj2⟩ := (hiff j).mp hj
      rw [inv.fresh j hj1 (by omega)]
      exact (hinit j (by omega)).1
  have hr1nd : ready1.Nodup := by
    rw [haddeq]
    refine List.nodup_append.mpr ⟨inv.rdy_nd, handnd, ?_⟩
    intro j hj1 hj2
    have h1 := inv.rdy_lt j hj1
    have h2 := ((hiff j).mp hj2).1
    omega
  have hr1compl : ∀ j, j < idx1 → 0 < (getIdx st.procs j).remaining →
      j ∈ ready1 := by
    intro j hj hjrem
    rw [haddeq]
    by_cases hjidx : j < st.idx
    · exact List.mem_append_left _ (inv.rdy_all j hjidx hjrem)
    · exact List.mem_append_right _ ((hiff j).mpr ⟨by omega, hj⟩)
  rcases hrd : ready1 with _ | ⟨i0, r0⟩
  · -- the post-scan ready list is empty
    subst hrd
    have hnoneleft : ∀ j, j < idx1 → ¬ 0 < (getIdx st.procs j).remaining := by
      intro j hj hpos
      have := hr1compl j hj hpos
      simp at this
    have hchain3 : LabelsOk procs0 → lastLabel st.gantt = some "IDLE" → False := by
      intro hL hlbl
      obtain ⟨-, -, c3⟩ := inv.chain hL
      obtain ⟨hixn, harr, hpos⟩ := c3 hlbl
      have hlt1 : st.idx < idx1 := by
        rcases s7 with h7 | h7
        · omega
        · rcases Nat.eq_or_lt_of_le s1 with he | hlt
          · rw [← he] at h7; exact absurd harr h7
          · exact hlt
      exact hnoneleft st.idx hlt1 hpos
    by_cases hidl : idx1 < st.procs.length
    · have hna : st.time < (getIdx st.procs idx1).arrival := by
        rcases s7 with h7 | h7
        · omega
        · omega
      have hnaA : (getIdx st.procs idx1).arrival ≤ maxArrival procs0 := by
        rw [(inv.frame idx1 (by omega)).2.1]
        exact arrival_le_maxArrival procs0 idx1 (by omega)
      have hpos1 : 0 < (getIdx st.procs idx1).remaining := by
        rw [inv.fresh idx1 (by omega) (by omega), (hinit idx1 (by omega)).1]
        exact hb _ (getIdx_mem procs0 idx1 (by omega))
      simp only [sjfBody, ha, hidl, if_true]
      refine
        { len := hlen
          frame := inv.frame
          idx_le := ?ple
          arrived := ?parr
          fresh := ?pfr
          rdy_lt := ?prlt
          rdy_nd := List.nodup_nil
          rdy_arr := ?prarr
          rdy_rb := ?prrb
          rdy_all := ?prall
          rem_le := inv.rem_le
          count := inv.count
          clock := ?pclock
          sumg := ?psumg
          cmpl_le := ?pcle
          cmpl_last := ?pclast
          busy := ?pbusy
          chain := ?pchain }
      case ple => dsimp only; omega
      case parr =>
        intro i hi
        dsimp only at hi ⊢
        by_cases hii : i < st.idx
        · exact le_trans (inv.arrived i hii) (by omega)
        · exact le_trans (s8 i (by omega) hi) (by omega)
      case pfr =>
        intro i hi1 hi2
        dsimp only at hi1 ⊢
        exact inv.fresh i (by omega) hi2
      case prlt => intro i hi; simp at hi
      case prarr => intro i hi; simp at hi
      case prrb => intro i hi; simp at hi
      case prall =>
        intro i hi hpos
        exact absurd hpos (hnoneleft i (by dsimp only at hi; omega))
      case pclock => dsimp only; omega
      case psumg =>
        dsimp only
        rw [sumDur_append, inv.sumg]
        simp [sumDur]
        omega
      case pcle =>
        intro i hi
        exact le_trans (inv.cmpl_le i hi) (by dsimp only; omega)
      case pclast =>
        intro hall hpos0
        dsimp only at hall
        exact absurd (hall idx1 (by omega)) (by omega)
      case pbusy =>
        intro hL
        dsimp only
        rw [busyDur_concat, if_pos rfl, Nat.add_zero]
        exact inv.busy hL
      case pchain =>
        intro hL
        obtain ⟨c1, c2, -⟩ := inv.chain hL
        refine ⟨?_, ?_, ?_⟩
        · rw [chainOk_concat_iff]
          refine ⟨c1, ?_⟩
          intro s hs hcontra
          subst hcontra
          exact hchain3 hL hs
        · intro s hs
          dsimp only at hs
          rw [lastLabel_concat] at hs
          exact Or.inl (Option.some_inj.mp hs).symm
        · intro _
          dsimp only
          refine ⟨by omega, le_refl _, hpos1⟩
    · simp only [sjfBody, ha, hidl, if_false]
      refine
        { len := hlen
          frame := inv.frame
          idx_le := ?ple
          arrived := ?parr
          fresh := ?pfr
          rdy_lt := ?prlt
          rdy_nd := List.nodup_nil
          rdy_arr := ?prarr
          rdy_rb := ?prrb
          rdy_all := ?prall
          rem_le := inv.rem_le
          count := inv.count
          clock := inv.clock
          sumg := inv.sumg
          cmpl_le := inv.cmpl_le
          cmpl_last := inv.cmpl_last
          busy := inv.busy
          chain := ?pchain }
      case ple => dsimp only; omega
      case parr =>
        intro i hi
        dsimp only at hi
        by_cases hii : i < st.idx
        · exact inv.arrived i hii
        · exact s8 i (by omega) hi
      case pfr =>
        intro i hi1 hi2
        dsimp only at hi1
        exact inv.fresh i (by omega) hi2
      case prlt => intro i hi; simp at hi
      case prarr => intro i hi; simp at hi
      case prrb => intro i hi; simp at hi
      case prall =>
        intro i hi hpos
        exact absurd hpos (hnoneleft i (by dsimp only at hi; omega))
      case pchain =>
        intro hL
        obtain ⟨c1, c2, -⟩ := inv.chain hL
        refine ⟨c1, c2, ?_⟩
        intro hlbl
        exact absurd hlbl (fun hl => hchain3 hL hl)
  · -- dispatch the head of the sorted ready list, running it to completion
    subst hrd
    simp only [sjfBody, ha]
    have hsne : List.insertionSort (sjfReadyLe st.procs) (i0 :: r0) ≠ [] :=
      insertionSort_ne_nil _ _ (by simp)
    rcases hsort : List.insertionSort (sjfReadyLe st.procs) (i0 :: r0) with _ | ⟨i, tl⟩
    · exact absurd hsort hsne
    have hheads : (List.insertionSort (sjfReadyLe st.procs) (i0 :: r0)).headD 0 = i := by
      rw [hsort]; rfl
    have htails : (List.insertionSort (sjfReadyLe st.procs) (i0 :: r0)).tail = tl := by
      rw [hsort]; rfl
    simp only [List.headD_cons, List.tail_cons]
    have hsortnd : (List.insertionSort (sjfReadyLe st.procs) (i0 :: r0)).Nodup :=
      ((List.perm_insertionSort (sjfReadyLe st.procs) (i0 :: r0)).nodup_iff).mpr hr1nd
    have hitl : i ∉ tl := by
      rw [hsort] at hsortnd
      exact (List.nodup_cons.mp hsortnd).1
    have htlnd : tl.Nodup := by
      rw [hsort] at hsortnd
      exact (List.nodup_cons.mp hsortnd).2
    have hmemtl : ∀ j ∈ tl, j ∈ i0 :: r0 := by
      intro j hj
      have : j ∈ List.insertionSort (sjfReadyLe st.procs) (i0 :: r0) := by
        rw [hsort]; exact List.mem_cons_of_mem _ hj
      exact (List.mem_insertionSort _).mp this
    have hiF : i ∈ i0 :: r0 := by
      have : i ∈ List.insertionSort (sjfReadyLe st.procs) (i0 :: r0) := by
        rw [hsort]; exact List.mem_cons_self _ _
      exact (List.mem_insertionSort _).mp this
    have hiidx : i < idx1 := hr1lt i hiF
    have hilen : i < st.procs.length := by omega
    have hilen0 : i < procs0.length := by omega
    have hiarr : (getIdx st.procs i).arrival ≤ st.time := hr1arr i hiF
    have hirb : (getIdx st.procs i).remaining = (getIdx st.procs i).burst :=
      hr1rb i hiF
    have hirem : 0 < (getIdx st.procs i).remaining := by
      rw [hirb]; exact hb' i hilen0
    have hremtot : (getIdx st.procs i).remaining ≤ totalRemaining st.procs :=
      remaining_le_totalRemaining st.procs i hilen
    have hnl : ¬ st.time < (getIdx st.procs i).arrival := by omega
    simp only [if_neg hnl, List.append_nil]
    have hpidIdle : LabelsOk procs0 → (getIdx st.procs i).pid ≠ "IDLE" := by
      intro hL
      rw [(inv.frame i hilen0).1]
      exact (hL _ (getIdx_mem procs0 i hilen0)).1
    have hget1 : getIdx (setIdx st.procs i
        { getIdx st.procs i with
            start := (st.time : Int)
            response := (st.time : Int) - ((getIdx st.procs i).arrival : Int)
            completion := st.time + (getIdx st.procs i).burst
            turnaround := ((st.time + (getIdx st.procs i).burst : Nat) : Int) -
              ((getIdx st.procs i).arrival : Int)
            waiting := (((st.time + (getIdx st.procs i).burst : Nat) : Int) -
              ((getIdx st.procs i).arrival : Int)) - ((getIdx st.procs i).burst : Int)
            remaining := 0 }) i =
        { getIdx st.procs i with
            start := (st.time : Int)
            response := (st.time : Int) - ((getIdx st.procs i).arrival : Int)
            completion := st.time + (getIdx st.procs i).burst
            turnaround := ((st.time + (getIdx st.procs i).burst : Nat) : Int) -
              ((getIdx st.procs i).arrival : Int)
            waiting := (((st.time + (getIdx st.procs i).burst : Nat) : Int) -
              ((getIdx st.procs i).arrival : Int)) - ((getIdx st.procs i).burst : Int)
            remaining := 0 } :=
      getIdx_setIdx_self _ _ _ hilen
    refine
      { len := by dsimp only; simp only [setIdx, List.length_set]; omega
        frame := ?pframe
        idx_le := by dsimp only; omega
        arrived := ?parr
        fresh := ?pfr
        rdy_lt := ?prlt
        rdy_nd := htlnd
        rdy_arr := ?prarr
        rdy_rb := ?prrb
        rdy_all := ?prall
        rem_le := ?prem
        count := ?pcount
        clock := ?pclock
        sumg := ?psumg
        cmpl_le := ?pcle
        cmpl_last := ?pclast
        busy := ?pbusy
        chain := ?pchain }
    case pframe =>
      intro j hj
      dsimp only
      by_cases hji : j = i
      · subst hji
        rw [hget1]
        exact inv.frame j hj
      · rw [getIdx_setIdx_ne _ _ _ _ (fun h => hji h.symm)]
        exact inv.frame j hj
    case parr =>
      intro j hj
      dsimp only at hj ⊢
      by_cases hji : j = i
      · subst hji
        rw [hget1]
        show (getIdx st.procs j).arrival ≤ st.time + (getIdx st.procs j).burst
        omega
      · rw [getIdx_setIdx_ne _ _ _ _ (fun h => hji h.symm)]
        by_cases hjidx : j < st.idx
        · have := inv.arrived j hjidx; omega
        · have := s8 j (by omega) (by omega); omega
    case pfr =>
      intro j hj1 hj2
      dsimp only at hj1 ⊢
      have hji : j ≠ i := by omega
      rw [getIdx_setIdx_ne _ _ _ _ (fun h => hji h.symm)]
      exact inv.fresh j (by omega) hj2
    case prlt =>
      intro j hj
      dsimp only at hj ⊢
      exact hr1lt j (hmemtl j hj)
    case prarr =>
      intro j hj
      dsimp only at hj ⊢
      have hji : j ≠ i := fun h => hitl (h ▸ hj)
      rw [getIdx_setIdx_ne _ _ _ _ (fun h => hji h.symm)]
      exact le_trans (hr1arr j (hmemtl j hj)) (by omega)
    case prrb =>
      intro j hj
      dsimp only at hj ⊢
      have hji : j ≠ i := fun h => hitl (h ▸ hj)
      rw [getIdx_setIdx_ne _ _ _ _ (fun h => hji h.symm)]
      exact hr1rb j (hmemtl j hj)
    case prall =>
      intro j hj hjrem
      dsimp only at hj hjrem ⊢
      by_cases hji : j = i
      · subst hji
        rw [hget1] at hjrem
        exact absurd hjrem (by simp)
      · rw [getIdx_setIdx_ne _ _ _ _ (fun h => hji h.symm)] at hjrem
        have hjm : j ∈ i0 :: r0 := hr1compl j hj hjrem
        have : j ∈ List.insertionSort (sjfReadyLe st.procs) (i0 :: r0) :=
          (List.mem_insertionSort _).mpr hjm
        rw [hsort] at this
        rcases List.mem_cons.mp this with h | h
        · exact absurd h hji
        · exact h
    case prem =>
      intro j hj
      dsimp only
      by_cases hji : j = i
      · subst hji
        rw [hget1]
        show (0 : Nat) ≤ (getIdx st.procs j).burst
        exact Nat.zero_le _
      · rw [getIdx_setIdx_ne _ _ _ _ (fun h => hji h.symm)]
        exact inv.rem_le j hj
    case pcount =>
      dsimp only
      have hc := count_map_setIdx (fun p => decide (p.remaining = 0)) st.procs i
        { getIdx st.procs i with
            start := (st.time : Int)
            response := (st.time : Int) - ((getIdx st.procs i).arrival : Int)
            completion := st.time + (getIdx st.procs i).burst
            turnaround := ((st.time + (getIdx st.procs i).burst : Nat) : Int) -
              ((getIdx st.procs i).arrival : Int)
            waiting := (((st.time + (getIdx st.procs i).burst : Nat) : Int) -
              ((getIdx st.procs i).arrival : Int)) - ((getIdx st.procs i).burst : Int)
            remaining := 0 } hilen
      have hcnd1 : ¬ (getIdx st.procs i).remaining = 0 := by omega
      simp only [decide_eq_true_eq, if_neg hcnd1, eq_self_iff_true, if_true,
        Nat.add_zero] at hc
      rw [inv.count]
      omega
    case pclock =>
      dsimp only
      have hc1 := sum_map_setIdx (·.remaining) st.procs i
        { getIdx st.procs i with
            start := (st.time : Int)
            response := (st.time : Int) - ((getIdx st.procs i).arrival : Int)
            completion := st.time + (getIdx st.procs i).burst
            turnaround := ((st.time + (getIdx st.procs i).burst : Nat) : Int) -
              ((getIdx st.procs i).arrival : Int)
            waiting := (((st.time + (getIdx st.procs i).burst : Nat) : Int) -
              ((getIdx st.procs i).arrival : Int)) - ((getIdx st.procs i).burst : Int)
            remaining := 0 } hilen
      simp only at hc1
      have hck := inv.clock
      simp only [totalRemaining] at hck hc1 ⊢
      omega
    case psumg =>
      dsimp only
      rw [sumDur_append, inv.sumg]
      simp [sumDur]
    case pcle =>
      intro j hj
      dsimp only
      by_cases hji : j = i
      · subst hji
        rw [hget1]
      · rw [getIdx_setIdx_ne _ _ _ _ (fun h => hji h.symm)]
        have := inv.cmpl_le j hj
        omega
    case pclast =>
      intro hall hpos0
      dsimp only
      exact ⟨i, hilen0, by rw [hget1]⟩
    case pbusy =>
      intro hL
      dsimp only
      rw [busyDur_concat, if_neg (hpidIdle hL)]
      have hB := inv.busy hL
      have hc1 := sum_map_setIdx (·.remaining) st.procs i
        { getIdx st.procs i with
            start := (st.time : Int)
            response := (st.time : Int) - ((getIdx st.procs i).arrival : Int)
            completion := st.time + (getIdx st.procs i).burst
            turnaround := ((st.time + (getIdx st.procs i).burst : Nat) : Int) -
              ((getIdx st.procs i).arrival : Int)
            waiting := (((st.time + (getIdx st.procs i).burst : Nat) : Int) -
              ((getIdx st.procs i).arrival : Int)) - ((getIdx st.procs i).burst : Int)
            remaining := 0 } hilen
      simp only at hc1
      simp only [totalRemaining] at hB hc1 ⊢
      omega
    case pchain =>
      intro hL
      obtain ⟨c1, c2, -⟩ := inv.chain hL
      refine ⟨?_, ?_, ?_⟩
      · rw [chainOk_concat_iff]
        refine ⟨c1, ?_⟩
        intro s hs hcontra
        subst hcontra
        rcases c2 _ hs with hI | ⟨j, hj, hjpid, hjrem⟩
        · exact hpidIdle hL hI
        · have hji : j = i := pid_inj st.procs hpids j i (by omega) hilen hjpid
          subst hji
          omega
      · intro s hs
        dsimp only at hs
        rw [lastLabel_concat] at hs
        refine Or.inr ⟨i, hilen0, ?_, ?_⟩
        · rw [hget1]
          show (getIdx st.procs i).pid = s
          exact (Option.some_inj.mp hs)
        · rw [hget1]
      · intro hs
        dsimp only at hs
        rw [lastLabel_concat] at hs
        exact absurd (Option.some_inj.mp hs) (fun h => hpidIdle hL h)

theorem sjfMeasure (procs0 : List Process)
    (hb : ∀ p ∈ procs0, 0 < p.burst)
    (hnd0 : (procs0.map (·.pid)).Nodup)
    (hinit : ∀ i, i < procs0.length →
      (getIdx procs0 i).remaining = (getIdx procs0 i).burst ∧
      (getIdx procs0 i).completion = 0)
    (st : SjfState) (inv : SjfInv procs0 st) (hndone : sjfDone st = false) :
    totalRemaining (sjfBody st).procs + (procs0.length - (sjfBody st).idx) +
      (maxArrival procs0 - (sjfBody st).time) <
    totalRemaining st.procs + (procs0.length - st.idx) +
      (maxArrival procs0 - st.time) := by
  have hlen := inv.len
  have hcompl : st.completed < procs0.length := by
    simp only [sjfDone, simDone, decide_eq_false_iff_not, not_le] at hndone
    omega
  rcases ha : sjfArrive st.procs st.time st.idx st.ready with ⟨idx1, ready1⟩
  obtain ⟨s1, s2, ⟨added, haddeq, hiff, handnd⟩, s7, s8⟩ :=
    sjfArrive_spec st.procs st.time st.idx st.ready
      (by rw [hlen]; exact inv.idx_le) idx1 ready1 ha
  rcases hrd : ready1 with _ | ⟨i0, r0⟩
  · subst hrd
    obtain ⟨hre, hae⟩ := List.append_eq_nil.mp haddeq.symm
    have hcount := inv.count
    have hex : ∃ p ∈ st.procs, ¬ (fun p => decide (p.remaining = 0)) p := by
      refine countP_lt_exists st.procs _ ?_
      omega
    obtain ⟨p, hp, hpf⟩ := hex
    obtain ⟨j, hj, rfl⟩ := mem_getIdx st.procs p hp
    simp only [decide_eq_true_eq] at hpf
    have hjrem : 0 < (getIdx st.procs j).remaining := by omega
    have hjnot : ¬ j < idx1 := by
      intro hjlt
      by_cases hjidx : j < st.idx
      · have := inv.rdy_all j hjidx hjrem
        rw [hre] at this
        simp at this
      · have := (hiff j).mpr ⟨by omega, hjlt⟩
        rw [hae] at this
        simp at this
    have hidl : idx1 < st.procs.length := by omega
    have hna : st.time < (getIdx st.procs idx1).arrival := by
      rcases s7 with h7 | h7
      · omega
      · omega
    have hnaA : (getIdx st.procs idx1).arrival ≤ maxArrival procs0 := by
      rw [(inv.frame idx1 (by omega)).2.1]
      exact arrival_le_maxArrival procs0 idx1 (by omega)
    simp only [sjfBody, ha, hidl, if_true]
    omega
  · subst hrd
    simp only [sjfBody, ha]
    have hsne : List.insertionSort (sjfReadyLe st.procs) (i0 :: r0) ≠ [] :=
      insertionSort_ne_nil _ _ (by simp)
    rcases hsort : List.insertionSort (sjfReadyLe st.procs) (i0 :: r0) with _ | ⟨i, tl⟩
    · exact absurd hsort hsne
    have hheads : (List.insertionSort (sjfReadyLe st.procs) (i0 :: r0)).headD 0 = i := by
      rw [hsort]; rfl
    simp only [List.headD_cons]
    have hiF : i ∈ i0 :: r0 := by
      have : i ∈ List.insertionSort (sjfReadyLe st.procs) (i0 :: r0) := by
        rw [hsort]; exact List.mem_cons_self _ _
      exact (List.mem_insertionSort _).mp this
    have hiidx : i < idx1 := by
      have hj := hiF
      rw [haddeq] at hj
      rcases List.mem_append.mp hj with hj | hj
      · have := inv.rdy_lt i hj; omega
      · exact ((hiff i).mp hj).2
    have hilen : i < st.procs.length := by omega
    have hilen0 : i < procs0.length := by omega
    have hirem : 0 < (getIdx st.procs i).remaining := by
      have hj := hiF
      rw [haddeq] at hj
      rcases List.mem_append.mp hj with hj | hj
      · rw [inv.rdy_rb i hj, (inv.frame i hilen0).2.2]
        exact hb _ (getIdx_mem procs0 i hilen0)
      · obtain ⟨hj1, hj2⟩ := (hiff i).mp hj
        rw [inv.fresh i hj1 hilen0, (hinit i hilen0).1]
        exact hb _ (getIdx_mem procs0 i hilen0)
    have hiarr : (getIdx st.procs i).arrival ≤ st.time := by
      have hj := hiF
      rw [haddeq] at hj
      rcases List.mem_append.mp hj with hj | hj
      · exact inv.rdy_arr i hj
      · obtain ⟨hj1, hj2⟩ := (hiff i).mp hj
        exact s8 i hj1 hj2
    have hnl : ¬ st.time < (getIdx st.procs i).arrival := by omega
    simp only [if_neg hnl]
    have hremtot : (getIdx st.procs i).remaining ≤ totalRemaining st.procs :=
      remaining_le_totalRemaining st.procs i hilen
    have hc1 := sum_map_setIdx (·.remaining) st.procs i
      { getIdx st.procs i with
          start := (st.time : Int)
          response := (st.time : Int) - ((getIdx st.procs i).arrival : Int)
          completion := st.time + (getIdx st.procs i).burst
          turnaround := ((st.time + (getIdx st.procs i).burst : Nat) : Int) -
            ((getIdx st.procs i).arrival : Int)
          waiting := (((st.time + (getIdx st.procs i).burst : Nat) : Int) -
            ((getIdx st.procs i).arrival : Int)) - ((getIdx st.procs i).burst : Int)
          remaining := 0 } hilen
    simp only at hc1
    simp only [totalRemaining] at hremtot hc1 ⊢
    omega

theorem sjf_loop_spec (l : List Process)
    (hb : ∀ p ∈ l, 0 < p.burst) (hnd : (l.map (·.pid)).Nodup) :
    ∃ st, simLoop sjfDone sjfBody
        (simFuel (List.insertionSort sjfProcLe (copyProcs l)))
        (sjfInit (List.insertionSort sjfProcLe (copyProcs l))) = some st ∧
      SjfInv (List.insertionSort sjfProcLe (copyProcs l)) st ∧ sjfDone st = true := by
  have hperm : (List.insertionSort sjfProcLe (copyProcs l)).Perm (copyProcs l) :=
    List.perm_insertionSort _ _
  have hmemcp : ∀ p ∈ copyProcs l,
      0 < p.burst ∧ p.remaining = p.burst ∧ p.completion = 0 := by
    intro p hp
    obtain ⟨q, hq, rfl⟩ := List.mem_map.mp hp
    exact ⟨hb q hq, rfl, rfl⟩
  have hb0 : ∀ p ∈ List.insertionSort sjfProcLe (copyProcs l), 0 < p.burst :=
    fun p hp => (hmemcp p (hperm.mem_iff.mp hp)).1
  have hnd0 : ((List.insertionSort sjfProcLe (copyProcs l)).map (·.pid)).Nodup := by
    refine (hperm.map (·.pid)).nodup_iff.mpr ?_
    rw [copyProcs_pids]
    exact hnd
  have hinit0 : ∀ i, i < (List.insertionSort sjfProcLe (copyProcs l)).length →
      (getIdx (List.insertionSort sjfProcLe (copyProcs l)) i).remaining =
        (getIdx (List.insertionSort sjfProcLe (copyProcs l)) i).burst ∧
      (getIdx (List.insertionSort sjfProcLe (copyProcs l)) i).completion = 0 := by
    intro i hi
    have hm := getIdx_mem _ i hi
    exact ⟨(hmemcp _ (hperm.mem_iff.mp hm)).2.1, (hmemcp _ (hperm.mem_iff.mp hm)).2.2⟩
  obtain ⟨st, hst⟩ := simLoop_terminates sjfDone sjfBody
    (fun s => totalRemaining s.procs +
      ((List.insertionSort sjfProcLe (copyProcs l)).length - s.idx) +
      (maxArrival (List.insertionSort sjfProcLe (copyProcs l)) - s.time))
    (fun s hs => sjfInv_pres _ hb0 hnd0 hinit0 s hs)
    (fun s hs hf => sjfMeasure _ hb0 hnd0 hinit0 s hs hf)
    (simFuel (List.insertionSort sjfProcLe (copyProcs l)))
    (sjfInit (List.insertionSort sjfProcLe (copyProcs l)))
    (sjfInv_init _ hb0 hinit0)
    (by
      simp only [sjfInit, simFuel]
      have h1 : totalRemaining (List.insertionSort sjfProcLe (copyProcs l)) =
          totalBurst (List.insertionSort sjfProcLe (copyProcs l)) := by
        unfold totalRemaining totalBurst
        refine congrArg List.sum (List.map_congr_left ?_)
        intro p hp
        exact (hmemcp p (hperm.mem_iff.mp hp)).2.1
      omega)
  obtain ⟨k, hk, hdone⟩ := simLoop_eq_iterate _ _ _ _ _ hst
  have hinv : SjfInv (List.insertionSort sjfProcLe (copyProcs l)) st := by
    rw [hk]
    exact iterate_inv (fun s hs => sjfInv_pres _ hb0 hnd0 hinit0 s hs) k _
      (sjfInv_init _ hb0 hinit0)
  exact ⟨st, hst, hinv, hdone⟩

theorem sjfInv_done_facts (procs0 : List Process) (st : SjfState)
    (hinv : SjfInv procs0 st) (hdone : sjfDone st = true) :
    totalRemaining st.procs = 0 ∧ (∀ p ∈ st.procs, p.remaining = 0) := by
  have hcmp : st.procs.length ≤ st.completed := by
    simpa [sjfDone, simDone] using hdone
  have hcount := hinv.count
  have hle := List.countP_le_length (fun p => decide (p.remaining = 0)) (l := st.procs)
  have hall : ∀ p ∈ st.procs, p.remaining = 0 := by
    have heq : st.procs.countP (fun p => decide (p.remaining = 0)) = st.procs.length := by
      omega
    have := List.countP_eq_length.mp heq
    intro p hp
    simpa using this p hp
  refine ⟨?_, hall⟩
  unfold totalRemaining
  apply List.sum_eq_zero
  intro x hx
  obtain ⟨p, hp, rfl⟩ := List.mem_map.mp hx
  exact hall p hp

theorem sjf_final (l : List Process)
    (hb : ∀ p ∈ l, 0 < p.burst) (hnd : (l.map (·.pid)).Nodup) :
    ∃ r, sjf l = some r ∧
      sumDur r.2 = maxCompletion r.1 ∧
      sumDur r.2 ≤ minArrival l + totalBurst l + arrivalSpan l ∧
      (LabelsOk l → chainOk r.2 ∧ sumDur r.2 = totalBurst l + idleDur r.2) := by
  obtain ⟨st, hst, hinv, hdone⟩ := sjf_loop_spec l hb hnd
  obtain ⟨hR0, hall⟩ := sjfInv_done_facts _ _ hinv hdone
  have hperm : (List.insertionSort sjfProcLe (copyProcs l)).Perm (copyProcs l) :=
    List.perm_insertionSort _ _
  have hBs : totalBurst (List.insertionSort sjfProcLe (copyProcs l)) = totalBurst l :=
    (perm_totalBurst hperm).trans (copyProcs_totalBurst l)
  have hAs : maxArrival (List.insertionSort sjfProcLe (copyProcs l)) = maxArrival l :=
    (perm_maxArrival hperm).trans (copyProcs_maxArrival l)
  refine ⟨(st.procs, st.gantt), ?_, ?_, ?_, ?_⟩
  · rw [sjf, hst]; rfl
  · dsimp only
    rw [hinv.sumg]
    have hup : ∀ i, i < st.procs.length → (getIdx st.procs i).completion ≤ st.time :=
      fun i hi => hinv.cmpl_le i (by have := hinv.len; omega)
    by_cases hn : 0 < (List.insertionSort sjfProcLe (copyProcs l)).length
    · obtain ⟨i, hi, hieq⟩ := hinv.cmpl_last
        (by
          intro i hi
          have hm := getIdx_mem st.procs i (by have := hinv.len; omega)
          exact hall _ hm) hn
      have h1 : maxCompletion st.procs ≤ st.time := maxCompletion_le _ _ hup
      have h2 : st.time ≤ maxCompletion st.procs := by
        rw [← hieq]
        exact le_maxCompletion st.procs i (by have := hinv.len; omega)
      omega
    · have hlen0 : st.procs.length = 0 := by have := hinv.len; omega
      have ht0 : st.time = 0 := by
        have := hinv.clock
        have hB0 : totalBurst (List.insertionSort sjfProcLe (copyProcs l)) = 0 := by
          rcases List.length_eq_zero.mp
            (by omega : (List.insertionSort sjfProcLe (copyProcs l)).length = 0) with h
          rw [h]; rfl
        have hA0 : maxArrival (List.insertionSort sjfProcLe (copyProcs l)) = 0 := by
          rcases List.length_eq_zero.mp
            (by omega : (List.insertionSort sjfProcLe (copyProcs l)).length = 0) with h
          rw [h]; rfl
        omega
      rcases List.length_eq_zero.mp hlen0 with h
      rw [h, ht0]
      rfl
  · dsimp only
    rw [hinv.sumg]
    have hclock := hinv.clock
    have h4 := minArrival_le_maxArrival l
    unfold arrivalSpan
    omega
  · dsimp only
    intro hL
    have hL0 : LabelsOk (List.insertionSort sjfProcLe (copyProcs l)) :=
      fun p hp => copyProcs_labels l hL p (hperm.mem_iff.mp hp)
    obtain ⟨c1, -, -⟩ := hinv.chain hL0
    refine ⟨c1, ?_⟩
    have hbusy := hinv.busy hL0
    have hpart := busyDur_add_idleDur st.gantt
    have hsg := hinv.sumg
    omega

/-! ## Claim theorems: concrete scenarios and boundary behaviour -/

/-- C1 (counterexample): on `P1(0,5)`, `P2(1,3)` with quantum 2, Round-Robin
does not return the claimed combination of that timeline with
`P2.completion = 6`: the timeline is as claimed but `P2` finishes at 7
(its last unit runs in the interval 6..7). -/
theorem C1_counterexample :
    ¬ ((round_robin [mkProcess "P1" 0 5 0, mkProcess "P2" 1 3 0] 2).map
        (fun r => (r.2, r.1.map fun p => (p.pid, p.completion))) =
      some ([("P1", 2), ("P2", 2), ("P1", 2), ("P2", 1), ("P1", 1)],
        [("P1", 8), ("P2", 6)])) := by decide

/-- C1 (amended): the Round-Robin scenario `P1(0,5)`, `P2(1,3)`, quantum 2
returns exactly the claimed timeline, with final `P1.completion = 8` and
`P2.completion = 7`. -/
theorem C1_amended :
    (round_robin [mkProcess "P1" 0 5 0, mkProcess "P2" 1 3 0] 2).map
        (fun r => (r.2, r.1.map fun p => (p.pid, p.completion))) =
      some ([("P1", 2), ("P2", 2), ("P1", 2), ("P2", 1), ("P1", 1)],
        [("P1", 8), ("P2", 7)]) := by decide

/-- C2 (counterexample): `fcfs` does not operate on a private copy: after
`fcfs` returns, the caller's record (shared with the sorted working list
and mutated in place) is changed. -/
theorem C2_counterexample :
    fcfsCallerAfter [mkProcess "P1" 0 5 0] ≠ [mkProcess "P1" 0 5 0] := by decide

/-- C2 (amended): `sjf`, `srtf`, `round_robin` and `mlfq` operate on fresh
private copies, leaving every caller record unchanged, but `fcfs` mutates
the caller's records in place (on `[P1(0,5)]` the caller's record ends with
`remaining = 0` and its final metrics filled in). -/
theorem C2_amended :
    (∀ l, sjfCallerAfter l = l) ∧ (∀ l, srtfCallerAfter l = l) ∧
    (∀ l q, rrCallerAfter l q = l) ∧ (∀ l qa al, mlfqCallerAfter l qa al = l) ∧
    fcfsCallerAfter [mkProcess "P1" 0 5 0] =
      [{ mkProcess "P1" 0 5 0 with
          remaining := 0
          completion := 5
          turnaround := 5
          waiting := 0
          response := 0
          start := 0 }] :=
  ⟨fun _ => rfl, fun _ => rfl, fun _ _ => rfl, fun _ _ _ => rfl, by decide⟩

/-- C3 (counterexample): for the valid single-process workload `P1(1,1)`,
the final clock (sum of timeline durations, equal to the last completion
time) is 2, which exceeds the claimed bound `totalBurst + arrivalSpan = 1`:
the bound forgets the offset up to the first arrival. -/
theorem C3_counterexample :
    sumDur (fcfs [mkProcess "P1" 1 1 0]).2 = 2 ∧
    maxCompletion (fcfs [mkProcess "P1" 1 1 0]).1 = 2 ∧
    ¬ (sumDur (fcfs [mkProcess "P1" 1 1 0]).2 ≤
        totalBurst [mkProcess "P1" 1 1 0] + arrivalSpan [mkProcess "P1" 1 1 0]) := by
  decide

/-- C9: a parsed `burst ≤ 0` is rejected at the `add_process` boundary:
the process list is left unchanged (so no run can ever see such a process)
and the invalid-burst message is reported. -/
theorem C9_invalid_burst_rejected (processes : List Process) (pid : String)
    (arrival : Nat) (burst : Int) (h : burst ≤ 0) :
    add_process processes pid arrival burst =
      (processes, " Execution time must be greater than 0! ") := by
  simp only [add_process, if_pos h]

/-- Witness for C9 at the concrete input `burst = 0`. -/
theorem C9_witness :
    add_process [mkProcess "P1" 0 5 0] "P2" 1 0 =
      ([mkProcess "P1" 0 5 0], " Execution time must be greater than 0! ") :=
  C9_invalid_burst_rejected [mkProcess "P1" 0 5 0] "P2" 1 0 (by decide)

/-- C8: on the finalized non-empty record list of a run (every record was
dispatched, so no `response` sentinel remains), the aggregator returns the
arithmetic means of waiting, turnaround and response. -/
theorem C8_metrics_aggregator (procs : List Process) (hne : procs ≠ [])
    (hstart : ∀ p ∈ procs, p.response ≠ -1) :
    update_metrics procs =
      some (arithMean (procs.map (·.waiting)), arithMean (procs.map (·.turnaround)),
        arithMean (procs.map (·.response))) := by
  have hlen : procs.length ≠ 0 := by
    intro h
    exact hne (List.length_eq_zero.mp h)
  have hfilter : procs.filter (fun p => p.response ≠ -1) = procs := by
    rw [List.filter_eq_self]
    intro p hp
    simpa using hstart p hp
  simp only [update_metrics, if_neg hlen, hfilter, arithMean, List.length_map]

/-- Witness for C8 at a concrete two-process record list. -/
theorem C8_witness :
    update_metrics
        [{ mkProcess "P1" 0 5 0 with waiting := 3, turnaround := 8, response := 0 },
         { mkProcess "P2" 1 3 0 with waiting := 1, turnaround := 4, response := 1 }] =
      some
        (arithMean [3, 1], arithMean [8, 4], arithMean [0, 1]) :=
  C8_metrics_aggregator _ (by decide) (by decide)

/-- **C5.** Round-Robin queue discipline: at every reachable state of the
`round_robin` loop no process occurs in the ready queue twice (the queue's
pid sequence is duplicate-free), and whenever the dispatched process `i`
still has remaining work after its slice (`min quantum remaining <
remaining`), it is re-queued strictly last: the next queue is `qpre ++ [i]`
where `qpre` contains every process that arrived strictly within the slice
window `(clock_before, clock_before + run]` and is still unfinished. -/
theorem C5_rr_queue_discipline (l : List Process) (q : Nat)
    (hv : ValidInput l) (hq : 0 < q) (k : Nat) (st : RRState)
    (hst : st = (rrBody q)^[k] (rrInit (copyProcs l))) :
    (st.queue.map (fun i => (getIdx st.procs i).pid)).Nodup ∧
    ∀ idx' i rest inQ',
      rrArrive st.procs st.time st.idx st.queue st.inQueue = (idx', i :: rest, inQ') →
      min q (getIdx st.procs i).remaining < (getIdx st.procs i).remaining →
      ∃ qpre, (rrBody q st).queue = qpre ++ [i] ∧ i ∉ qpre ∧
        ∀ j, j < (copyProcs l).length →
          st.time < (getIdx st.procs j).arrival →
          (getIdx st.procs j).arrival ≤ st.time + min q (getIdx st.procs i).remaining →
          0 < (getIdx st.procs j).remaining → j ∈ qpre := by
  have hb0 := copyProcs_bursts l hv.1
  have hnd0 : ((copyProcs l).map (·.pid)).Nodup := by
    rw [copyProcs_pids]; exact hv.2
  have hinit := copyProcs_init l
  have inv : RRInv (copyProcs l) st := by
    rw [hst]
    exact iterate_inv (fun s hs => rrInv_pres (copyProcs l) q hb0 hnd0 hinit s hs) k _
      (rrInv_init (copyProcs l) hb0 hinit)
  have hlen := inv.len
  have hpids : (st.procs.map (·.pid)).Nodup := by
    rw [map_eq_of_getIdx (·.pid) st.procs (copyProcs l) hlen (fun j hj => (inv.frame j hj).1)]
    exact hnd0
  constructor
  · refine List.Nodup.map_on ?_ inv.qnd
    intro x hx y hy hxy
    exact pid_inj st.procs hpids x y (by rw [hlen]; exact inv.qlen x hx)
      (by rw [hlen]; exact inv.qlen y hy) hxy
  · intro idx' i rest inQ' ha hrem
    by_cases hstart : (getIdx st.procs i).start = -1
    · simp only [rrBody, ha, if_pos hstart]
      exact rrRequeue_shape (copyProcs l) st hnd0 inv idx' i rest inQ' ha
        (min q (getIdx st.procs i).remaining)
        { getIdx st.procs i with
            remaining := (getIdx st.procs i).remaining - min q (getIdx st.procs i).remaining
            response := (st.time : Int) - ((getIdx st.procs i).arrival : Int)
            start := (st.time : Int) }
        _ rfl rfl (by dsimp only; omega) _ _
    · simp only [rrBody, ha, if_neg hstart]
      exact rrRequeue_shape (copyProcs l) st hnd0 inv idx' i rest inQ' ha
        (min q (getIdx st.procs i).remaining)
        { getIdx st.procs i with
            remaining := (getIdx st.procs i).remaining - min q (getIdx st.procs i).remaining }
        _ rfl rfl (by dsimp only; omega) _ _

/-- Witness for C5 at a concrete input: two processes, quantum 2; after
P1's first slice the newly arrived P2 sits in the queue ahead of the
re-queued P1. -/
theorem C5_witness :
    ∃ qpre,
      (rrBody 2 (rrInit (copyProcs
        [mkProcess "P1" 0 5 0, mkProcess "P2" 1 3 0]))).queue = qpre ++ [0] ∧
      0 ∉ qpre ∧ 1 ∈ qpre := by
  have h := (C5_rr_queue_discipline [mkProcess "P1" 0 5 0, mkProcess "P2" 1 3 0] 2
    (by decide) (by decide) 0
    (rrInit (copyProcs [mkProcess "P1" 0 5 0, mkProcess "P2" 1 3 0])) rfl).2
    1 0 [] ["P1"] (by decide) (by decide)
  obtain ⟨qpre, h1, h2, h3⟩ := h
  exact ⟨qpre, h1, h2, h3 1 (by decide) (by decide) (by decide) (by decide)⟩

/-- **C6.** SRTF minimum-choice: at every reachable state of the `srtf` loop
on an arrival-sorted valid input, when the filtered ready list is nonempty
the process dispatched for the next unit (the head of the sorted ready list,
whose pid the body records in `lastPid`) is itself ready, and among ALL
ready processes (arrived, unfinished) it has the minimum
`(remaining, arrival, pid)` key; in particular no ready process has a
strictly smaller remaining time. -/
theorem C6_srtf_min_choice (l : List Process) (hv : ValidInput l)
    (hs : ArrivalSorted l)
    (k : Nat) (st : SrtfState) (hst : st = srtfBody^[k] (srtfInit (copyProcs l)))
    (idx1 : Nat) (ready1 : List Nat)
    (ha : srtfArrive st.procs st.time st.idx st.ready = (idx1, ready1))
    (i0 : Nat) (r0 : List Nat)
    (hf : ready1.filter (fun j => decide (0 < (getIdx st.procs j).remaining ∧
      (getIdx st.procs j).arrival ≤ st.time)) = i0 :: r0) :
    (srtfBody st).lastPid = some ((getIdx st.procs
      ((List.insertionSort (srtfLe st.procs) (i0 :: r0)).headD 0)).pid) ∧
    (getIdx st.procs
      ((List.insertionSort (srtfLe st.procs) (i0 :: r0)).headD 0)).arrival ≤ st.time ∧
    0 < (getIdx st.procs
      ((List.insertionSort (srtfLe st.procs) (i0 :: r0)).headD 0)).remaining ∧
    ∀ j, j < (copyProcs l).length → (getIdx st.procs j).arrival ≤ st.time →
      0 < (getIdx st.procs j).remaining →
      srtfLe st.procs ((List.insertionSort (srtfLe st.procs) (i0 :: r0)).headD 0) j ∧
      (getIdx st.procs
        ((List.insertionSort (srtfLe st.procs) (i0 :: r0)).headD 0)).remaining ≤
        (getIdx st.procs j).remaining := by
  have hb0 := copyProcs_bursts l hv.1
  have hnd0 : ((copyProcs l).map (·.pid)).Nodup := by
    rw [copyProcs_pids]; exact hv.2
  have hinit := copyProcs_init l
  have hsort0 := copyProcs_arrivalSorted l hs
  have inv : SrtfInv (copyProcs l) st := by
    rw [hst]
    exact iterate_inv (fun s hs0 => srtfInv_pres (copyProcs l) hb0 hnd0 hinit s hs0) k _
      (srtfInv_init (copyProcs l) hb0 hinit)
  have hlen := inv.len
  obtain ⟨s1, s2, ⟨added, haddeq, hiff, handnd⟩, s7, s8⟩ :=
    srtfArrive_spec st.procs st.time st.idx st.ready
      (by rw [hlen]; exact inv.idx_le) idx1 ready1 ha
  have hFmem : ∀ j ∈ i0 :: r0, 0 < (getIdx st.procs j).remaining ∧
      (getIdx st.procs j).arrival ≤ st.time ∧ j ∈ ready1 := by
    intro j hj
    rw [← hf] at hj
    have hm := List.mem_filter.mp hj
    have := hm.2
    simp only [decide_eq_true_eq] at this
    exact ⟨this.1, this.2, hm.1⟩
  have hr1lt : ∀ j ∈ ready1, j < idx1 := by
    intro j hj
    rw [haddeq] at hj
    rcases List.mem_append.mp hj with hj | hj
    · have := inv.rdy_lt j hj; omega
    · exact ((hiff j).mp hj).2
  have hFcompl : ∀ j, j < idx1 → 0 < (getIdx st.procs j).remaining →
      j ∈ i0 :: r0 := by
    intro j hj hjrem
    rw [← hf]
    refine List.mem_filter.mpr ⟨?_, ?_⟩
    · rw [haddeq]
      by_cases hjidx : j < st.idx
      · exact List.mem_append_left _ (inv.rdy_all j hjidx hjrem)
      · exact List.mem_append_right _ ((hiff j).mpr ⟨by omega, hj⟩)
    · simp only [decide_eq_true_eq]
      refine ⟨hjrem, ?_⟩
      by_cases hjidx : j < st.idx
      · exact inv.arrived j hjidx
      · exact s8 j (by omega) hj
  have hsne : List.insertionSort (srtfLe st.procs) (i0 :: r0) ≠ [] :=
    insertionSort_ne_nil _ _ (by simp)
  have hi_sorted :
      (List.insertionSort (srtfLe st.procs) (i0 :: r0)).headD 0 ∈
        List.insertionSort (srtfLe st.procs) (i0 :: r0) := by
    cases hsort : List.insertionSort (srtfLe st.procs) (i0 :: r0) with
    | nil => exact absurd hsort hsne
    | cons a t =>
      rw [List.headD_cons]
      exact List.mem_cons_self a t
  have hiF : (List.insertionSort (srtfLe st.procs) (i0 :: r0)).headD 0 ∈ i0 :: r0 :=
    (List.mem_insertionSort _).mp hi_sorted
  obtain ⟨hirem, hiarr, hir1⟩ := hFmem _ hiF
  -- completeness: on a sorted input every arrived unfinished process sits
  -- below the scan index, hence in the filtered ready list
  have hready : ∀ j, j < (copyProcs l).length → (getIdx st.procs j).arrival ≤ st.time →
      0 < (getIdx st.procs j).remaining → j ∈ i0 :: r0 := by
    intro j hj hjarr hjrem
    have hjidx : j < idx1 := by
      by_contra hge
      rcases s7 with h7 | h7
      · omega
      · have hmono := arrivalSorted_getIdx (copyProcs l) hsort0 idx1 j (by omega) hj
        rw [← (inv.frame idx1 (by omega)).2.1, ← (inv.frame j hj).2.1] at hmono
        omega
    exact hFcompl j hjidx hjrem
  refine ⟨?_, hiarr, hirem, ?_⟩
  · simp only [srtfBody, ha, hf]
    by_cases hstart :
        (getIdx st.procs
          ((List.insertionSort (srtfLe st.procs) (i0 :: r0)).headD 0)).start = -1
    · simp only [if_pos hstart]
    · simp only [if_neg hstart]
  · intro j hj hjarr hjrem
    have hjF := hready j hj hjarr hjrem
    have hmin := headD_insertionSort_min (srtfLe st.procs) (i0 :: r0) 0 j hjF
    refine ⟨hmin, ?_⟩
    unfold srtfLe at hmin
    rw [Prod.Lex.le_iff] at hmin
    rcases hmin with hlt | ⟨heq, -⟩
    · exact le_of_lt hlt
    · exact le_of_eq heq

/-- Witness for C6 at a concrete input: at the initial state only P1 has
arrived, and the body dispatches it. -/
theorem C6_witness :
    (srtfBody (srtfInit (copyProcs
      [mkProcess "P1" 0 5 0, mkProcess "P2" 1 3 0]))).lastPid = some "P1" := by
  have h := C6_srtf_min_choice [mkProcess "P1" 0 5 0, mkProcess "P2" 1 3 0]
    (by decide) (by decide) 0
    (srtfInit (copyProcs [mkProcess "P1" 0 5 0, mkProcess "P2" 1 3 0])) rfl
    1 [0] (by decide) 0 [] (by decide)
  rw [h.1]
  rfl

/-- **C7.** MLFQ allotment bound and demotion monotonicity: at every
reachable state of the `mlfq` loop (positive quanta and allotments, valid
input), the accumulated per-level run time `levelTimeUsed[p][L]` never
exceeds `allotments[L]` for any pid and level; and one further loop step
never decreases any process's queue level (levels only demote), each level
staying clamped at 3. -/
theorem C7_mlfq_allotment_demotion (l : List Process) (quanta allotments : List Nat)
    (hv : ValidInput l)
    (hq : ∀ lv, lv < 4 → 0 < quanta.getD lv 0)
    (hallot : ∀ lv, lv < 4 → 0 < allotments.getD lv 0)
    (k : Nat) (st : MlfqState)
    (hst : st = (mlfqBody quanta allotments)^[k] (mlfqInit (copyProcs l))) :
    (∀ s L, L < 4 → (st.levelTime s).getD L 0 ≤ allotments.getD L 0) ∧
    (∀ j, j < (copyProcs l).length →
      (getIdx st.procs j).queue_level ≤
        (getIdx (mlfqBody quanta allotments st).procs j).queue_level ∧
      (getIdx st.procs j).queue_level ≤ 3) := by
  have hb0 := copyProcs_bursts l hv.1
  have hnd0 : ((copyProcs l).map (·.pid)).Nodup := by
    rw [copyProcs_pids]; exact hv.2
  have hinitM : ∀ i, i < (copyProcs l).length →
      (getIdx (copyProcs l) i).remaining = (getIdx (copyProcs l) i).burst ∧
      (getIdx (copyProcs l) i).completion = 0 ∧
      (getIdx (copyProcs l) i).queue_level = 0 :=
    fun i hi => ⟨(copyProcs_init l i hi).1, (copyProcs_init l i hi).2,
      copyProcs_qlevel l i hi⟩
  have inv : MlfqInv quanta allotments (copyProcs l) st := by
    rw [hst]
    exact iterate_inv
      (fun s hs => mlfqInv_pres quanta allotments hallot (copyProcs l) hb0 hnd0 hinitM s hs)
      k _ (mlfqInv_init quanta allotments (copyProcs l) hb0 hinitM)
  refine ⟨fun s L hL => inv.lt_le s L hL, fun j hj => ⟨?_, inv.level_le3 j hj⟩⟩
  exact mlfqLevel_mono quanta allotments hq hallot (copyProcs l) hb0 hnd0 hinitM st inv j hj

theorem C7_witness :
    ((((mlfqBody [1, 2, 4, 8] [2, 4, 6, 8])^[1]
        (mlfqInit (copyProcs [mkProcess "P1" 0 2 0]))).levelTime "P1").getD 0 0 ≤
      ([2, 4, 6, 8] : List Nat).getD 0 0) ∧
    (getIdx (((mlfqBody [1, 2, 4, 8] [2, 4, 6, 8])^[1]
        (mlfqInit (copyProcs [mkProcess "P1" 0 2 0]))).procs) 0).queue_level ≤ 3 := by
  have h := C7_mlfq_allotment_demotion [mkProcess "P1" 0 2 0] [1, 2, 4, 8] [2, 4, 6, 8]
    (by decide) (by decide) (by decide) 1
    ((mlfqBody [1, 2, 4, 8] [2, 4, 6, 8])^[1]
      (mlfqInit (copyProcs [mkProcess "P1" 0 2 0]))) rfl
  exact ⟨h.1 "P1" 0 (by decide), (h.2 0 (by decide)).2⟩

/-- **C3** (amended): for every valid input and every policy, the final
clock — the sum of the timeline durations — is bounded by the first
arrival offset plus the sum of all bursts plus the span between the first
and last arrival.  (The claimed bound without the `minArrival` offset is
refuted by `C3_counterexample`.) -/
theorem C3_amended (l : List Process) (hv : ValidInput l) (q : Nat) (hq : 0 < q)
    (quanta allotments : List Nat)
    (hqa : ∀ lv, lv < 4 → 0 < quanta.getD lv 0)
    (hal : ∀ lv, lv < 4 → 0 < allotments.getD lv 0) :
    sumDur (fcfs l).2 ≤ minArrival l + totalBurst l + arrivalSpan l ∧
    (∃ r, sjf l = some r ∧
      sumDur r.2 ≤ minArrival l + totalBurst l + arrivalSpan l) ∧
    (∃ r, srtf l = some r ∧
      sumDur r.2 ≤ minArrival l + totalBurst l + arrivalSpan l) ∧
    (∃ r, round_robin l q = some r ∧
      sumDur r.2 ≤ minArrival l + totalBurst l + arrivalSpan l) ∧
    (∃ r, mlfq l quanta allotments = some r ∧
      sumDur r.2 ≤ minArrival l + totalBurst l + arrivalSpan l) := by
  obtain ⟨-, hf, -⟩ := fcfs_final l hv.1 hv.2
  obtain ⟨r1, h1, -, hb1, -⟩ := sjf_final l hv.1 hv.2
  obtain ⟨r2, h2, -, hb2, -⟩ := srtf_final l hv.1 hv.2
  obtain ⟨r3, h3, -, hb3, -⟩ := rr_final l q hv.1 hv.2 hq
  obtain ⟨r4, h4, -, hb4, -⟩ := mlfq_final l quanta allotments hv.1 hv.2 hqa hal
  exact ⟨hf, ⟨r1, h1, hb1⟩, ⟨r2, h2, hb2⟩, ⟨r3, h3, hb3⟩, ⟨r4, h4, hb4⟩⟩

theorem C3_witness :
    sumDur (fcfs [mkProcess "P1" 1 1 0]).2 ≤
      minArrival [mkProcess "P1" 1 1 0] + totalBurst [mkProcess "P1" 1 1 0] +
        arrivalSpan [mkProcess "P1" 1 1 0] ∧
    (∃ r, sjf [mkProcess "P1" 1 1 0] = some r ∧
      sumDur r.2 ≤ minArrival [mkProcess "P1" 1 1 0] +
        totalBurst [mkProcess "P1" 1 1 0] + arrivalSpan [mkProcess "P1" 1 1 0]) ∧
    (∃ r, srtf [mkProcess "P1" 1 1 0] = some r ∧
      sumDur r.2 ≤ minArrival [mkProcess "P1" 1 1 0] +
        totalBurst [mkProcess "P1" 1 1 0] + arrivalSpan [mkProcess "P1" 1 1 0]) ∧
    (∃ r, round_robin [mkProcess "P1" 1 1 0] 2 = some r ∧
      sumDur r.2 ≤ minArrival [mkProcess "P1" 1 1 0] +
        totalBurst [mkProcess "P1" 1 1 0] + arrivalSpan [mkProcess "P1" 1 1 0]) ∧
    (∃ r, mlfq [mkProcess "P1" 1 1 0] [1, 2, 4, 8] [2, 4, 6, 8] = some r ∧
      sumDur r.2 ≤ minArrival [mkProcess "P1" 1 1 0] +
        totalBurst [mkProcess "P1" 1 1 0] + arrivalSpan [mkProcess "P1" 1 1 0]) :=
  C3_amended [mkProcess "P1" 1 1 0] (by decide) 2 (by decide)
    [1, 2, 4, 8] [2, 4, 6, 8] (by decide) (by decide)

/-- C4 (counterexample): for the valid single-process workload whose pid is
the reserved label `"IDLE"`, the fcfs timeline is `[("IDLE",5),("IDLE",1)]`:
two adjacent entries share the same occupant label, and the duration total
(6) differs from `totalBurst + idleDur = 1 + 6 = 7` because the process's
busy time is misclassified as idle time.  The claim fails on valid inputs
whose pids collide with the idle marker. -/
theorem C4_counterexample :
    ValidInput [mkProcess "IDLE" 5 1 0] ∧
    (fcfs [mkProcess "IDLE" 5 1 0]).2 = [("IDLE", 5), ("IDLE", 1)] ∧
    ¬ chainOk (fcfs [mkProcess "IDLE" 5 1 0]).2 ∧
    ¬ (sumDur (fcfs [mkProcess "IDLE" 5 1 0]).2 =
        totalBurst [mkProcess "IDLE" 5 1 0] +
          idleDur (fcfs [mkProcess "IDLE" 5 1 0]).2) := by
  decide

/-- **C4** (amended): for every valid input with unambiguous labels
(no pid equal to the idle marker or containing `'('`), every policy
produces a timeline whose duration total equals the completion time of the
last-finishing process, equals total burst plus total idle time, and in
which no two adjacent entries carry the same occupant label. -/
theorem C4_amended (l : List Process) (hv : ValidInput l) (hL : LabelsOk l)
    (q : Nat) (hq : 0 < q)
    (quanta allotments : List Nat)
    (hqa : ∀ lv, lv < 4 → 0 < quanta.getD lv 0)
    (hal : ∀ lv, lv < 4 → 0 < allotments.getD lv 0) :
    (sumDur (fcfs l).2 = maxCompletion (fcfs l).1 ∧
      sumDur (fcfs l).2 = totalBurst l + idleDur (fcfs l).2 ∧
      chainOk (fcfs l).2) ∧
    (∃ r, sjf l = some r ∧ sumDur r.2 = maxCompletion r.1 ∧
      sumDur r.2 = totalBurst l + idleDur r.2 ∧ chainOk r.2) ∧
    (∃ r, srtf l = some r ∧ sumDur r.2 = maxCompletion r.1 ∧
      sumDur r.2 = totalBurst l + idleDur r.2 ∧ chainOk r.2) ∧
    (∃ r, round_robin l q = some r ∧ sumDur r.2 = maxCompletion r.1 ∧
      sumDur r.2 = totalBurst l + idleDur r.2 ∧ chainOk r.2) ∧
    (∃ r, mlfq l quanta allotments = some r ∧ sumDur r.2 = maxCompletion r.1 ∧
      sumDur r.2 = totalBurst l + idleDur r.2 ∧ chainOk r.2) := by
  obtain ⟨hfe, -, hfl⟩ := fcfs_final l hv.1 hv.2
  obtain ⟨hfc, hfb⟩ := hfl hL
  obtain ⟨r1, h1, he1, -, hl1⟩ := sjf_final l hv.1 hv.2
  obtain ⟨hc1, hb1⟩ := hl1 hL
  obtain ⟨r2, h2, he2, -, hl2⟩ := srtf_final l hv.1 hv.2
  obtain ⟨hc2, hb2⟩ := hl2 hL
  obtain ⟨r3, h3, he3, -, hl3⟩ := rr_final l q hv.1 hv.2 hq
  obtain ⟨hc3, hb3⟩ := hl3 hL
  obtain ⟨r4, h4, he4, -, hl4⟩ := mlfq_final l quanta allotments hv.1 hv.2 hqa hal
  obtain ⟨hc4, hb4⟩ := hl4 hL
  exact ⟨⟨hfe, hfb, hfc⟩, ⟨r1, h1, he1, hb1, hc1⟩, ⟨r2, h2, he2, hb2, hc2⟩,
    ⟨r3, h3, he3, hb3, hc3⟩, ⟨r4, h4, he4, hb4, hc4⟩⟩

theorem C4_witness :
    (sumDur (fcfs [mkProcess "P1" 0 2 0]).2 = maxCompletion (fcfs [mkProcess "P1" 0 2 0]).1 ∧
      sumDur (fcfs [mkProcess "P1" 0 2 0]).2 =
        totalBurst [mkProcess "P1" 0 2 0] + idleDur (fcfs [mkProcess "P1" 0 2 0]).2 ∧
      chainOk (fcfs [mkProcess "P1" 0 2 0]).2) ∧
    (∃ r, sjf [mkProcess "P1" 0 2 0] = some r ∧ sumDur r.2 = maxCompletion r.1 ∧
      sumDur r.2 = totalBurst [mkProcess "P1" 0 2 0] + idleDur r.2 ∧ chainOk r.2) ∧
    (∃ r, srtf [mkProcess "P1" 0 2 0] = some r ∧ sumDur r.2 = maxCompletion r.1 ∧
      sumDur r.2 = totalBurst [mkProcess "P1" 0 2 0] + idleDur r.2 ∧ chainOk r.2) ∧
    (∃ r, round_robin [mkProcess "P1" 0 2 0] 2 = some r ∧
      sumDur r.2 = maxCompletion r.1 ∧
      sumDur r.2 = totalBurst [mkProcess "P1" 0 2 0] + idleDur r.2 ∧ chainOk r.2) ∧
    (∃ r, mlfq [mkProcess "P1" 0 2 0] [1, 2, 4, 8] [2, 4, 6, 8] = some r ∧
      sumDur r.2 = maxCompletion r.1 ∧
      sumDur r.2 = totalBurst [mkProcess "P1" 0 2 0] + idleDur r.2 ∧ chainOk r.2) :=
  C4_amended [mkProcess "P1" 0 2 0] (by decide) (by decide) 2 (by decide)
    [1, 2, 4, 8] [2, 4, 6, 8] (by decide) (by decide)

/-- **C10.** The forward arrival scans of `srtf`, `round_robin` and `mlfq`
assume arrival-sorted input: on a sorted valid workload, at every reachable
loop state the scan performed at the next decision point admits every
process whose arrival is at or before the current clock (no arrived process
is left beyond the scan index); on the non-sorted workload
`[P1(1,1), P2(0,1)]`, `srtf`'s initial scan admits nothing even though P2
has arrived, and the run records a spurious leading idle interval of length
1, completing P2 at 2. -/
theorem C10_sorted_admission (l : List Process) (hv : ValidInput l)
    (hs : ArrivalSorted l) (q : Nat) (hq : 0 < q)
    (quanta allotments : List Nat)
    (hqa : ∀ lv, lv < 4 → 0 < quanta.getD lv 0)
    (hal : ∀ lv, lv < 4 → 0 < allotments.getD lv 0) :
    (∀ k st, st = srtfBody^[k] (srtfInit (copyProcs l)) →
      ∀ j, j < (copyProcs l).length → (getIdx st.procs j).arrival ≤ st.time →
        j < (srtfArrive st.procs st.time st.idx st.ready).1) ∧
    (∀ k st, st = (rrBody q)^[k] (rrInit (copyProcs l)) →
      ∀ j, j < (copyProcs l).length → (getIdx st.procs j).arrival ≤ st.time →
        j < (rrArrive st.procs st.time st.idx st.queue st.inQueue).1) ∧
    (∀ k st, st = (mlfqBody quanta allotments)^[k] (mlfqInit (copyProcs l)) →
      ∀ j, j < (copyProcs l).length → (getIdx st.procs j).arrival ≤ st.time →
        j < (mlfqArrive st.procs st.time st.idx (st.queues.getD 0 []) st.inQueue).2.1) ∧
    (srtfArrive (copyProcs [mkProcess "P1" 1 1 0, mkProcess "P2" 0 1 0]) 0 0 []).1 = 0 ∧
    (getIdx (copyProcs [mkProcess "P1" 1 1 0, mkProcess "P2" 0 1 0]) 1).arrival = 0 ∧
    (srtf [mkProcess "P1" 1 1 0, mkProcess "P2" 0 1 0]).map
        (fun r => (r.2, r.1.map fun p => (p.pid, p.completion))) =
      some ([("IDLE", 1), ("P2", 1), ("P1", 1)], [("P1", 3), ("P2", 2)]) := by
  have hb0 := copyProcs_bursts l hv.1
  have hnd0 : ((copyProcs l).map (·.pid)).Nodup := by
    rw [copyProcs_pids]; exact hv.2
  have hinit0 := copyProcs_init l
  have hinitM : ∀ i, i < (copyProcs l).length →
      (getIdx (copyProcs l) i).remaining = (getIdx (copyProcs l) i).burst ∧
      (getIdx (copyProcs l) i).completion = 0 ∧
      (getIdx (copyProcs l) i).queue_level = 0 :=
    fun i hi => ⟨(copyProcs_init l i hi).1, (copyProcs_init l i hi).2,
      copyProcs_qlevel l i hi⟩
  have hsort := copyProcs_arrivalSorted l hs
  refine ⟨?_, ?_, ?_, by decide, by decide, by decide⟩
  · intro k st hst j hj harr
    have inv : SrtfInv (copyProcs l) st := by
      rw [hst]
      exact iterate_inv (fun s hs' => srtfInv_pres (copyProcs l) hb0 hnd0 hinit0 s hs') k _
        (srtfInv_init (copyProcs l) hb0 hinit0)
    have hlen := inv.len
    rcases hsc : srtfArrive st.procs st.time st.idx st.ready with ⟨idx1, ready1⟩
    obtain ⟨s1, s2, -, s7, -⟩ :=
      srtfArrive_spec st.procs st.time st.idx st.ready
        (by rw [hlen]; exact inv.idx_le) idx1 ready1 hsc
    show j < idx1
    by_contra hge
    push_neg at hge
    rcases s7 with h7 | h7
    · omega
    · apply h7
      have h1 : (getIdx (copyProcs l) idx1).arrival ≤ (getIdx (copyProcs l) j).arrival :=
        arrivalSorted_getIdx (copyProcs l) hsort idx1 j hge hj
      have e1 := (inv.frame idx1 (by omega)).2.1
      have e2 := (inv.frame j hj).2.1
      omega
  · intro k st hst j hj harr
    have inv : RRInv (copyProcs l) st := by
      rw [hst]
      exact iterate_inv (fun s hs' => rrInv_pres (copyProcs l) q hb0 hnd0 hinit0 s hs') k _
        (rrInv_init (copyProcs l) hb0 hinit0)
    have hlen := inv.len
    have hpids : (st.procs.map (·.pid)).Nodup := by
      rw [map_eq_of_getIdx (·.pid) st.procs (copyProcs l) hlen
        (fun i hi => (inv.frame i hi).1)]
      exact hnd0
    rcases hsc : rrArrive st.procs st.time st.idx st.queue st.inQueue
      with ⟨idx1, q1, inQ1⟩
    obtain ⟨t1, t2, -, -, -, -, t7, -, -⟩ :=
      rrArrive_spec st.procs st.time hpids st.idx st.queue st.inQueue
        (by rw [hlen]; exact inv.idx_le) inv.coh inv.qnd
        (fun i hi => by rw [hlen]; exact inv.qlen i hi) idx1 q1 inQ1 hsc
    show j < idx1
    by_contra hge
    push_neg at hge
    rcases t7 with h7 | h7
    · omega
    · apply h7
      have h1 : (getIdx (copyProcs l) idx1).arrival ≤ (getIdx (copyProcs l) j).arrival :=
        arrivalSorted_getIdx (copyProcs l) hsort idx1 j hge hj
      have e1 := (inv.frame idx1 (by omega)).2.1
      have e2 := (inv.frame j hj).2.1
      omega
  · intro k st hst j hj harr
    have inv : MlfqInv quanta allotments (copyProcs l) st := by
      rw [hst]
      exact iterate_inv
        (fun s hs' => mlfqInv_pres quanta allotments hal (copyProcs l) hb0 hnd0 hinitM s hs')
        k _ (mlfqInv_init quanta allotments (copyProcs l) hb0 hinitM)
    have hlen := inv.len
    rcases hsc : mlfqArrive st.procs st.time st.idx (st.queues.getD 0 []) st.inQueue
      with ⟨procs1, idx1, q01, inQ1⟩
    obtain ⟨a1, a2, a3, -, -, -, a7, -⟩ :=
      mlfqArrive_spec st.procs st.time st.idx (st.queues.getD 0 []) st.inQueue
        (by rw [hlen]; exact inv.idx_le) procs1 idx1 q01 inQ1 hsc
    show j < idx1
    by_contra hge
    push_neg at hge
    rcases a7 with h7 | h7
    · omega
    · apply h7
      have h1 : (getIdx (copyProcs l) idx1).arrival ≤ (getIdx (copyProcs l) j).arrival :=
        arrivalSorted_getIdx (copyProcs l) hsort idx1 j hge hj
      have e1 := (inv.frame idx1 (by omega)).2.1
      have e2 := (inv.frame j hj).2.1
      omega

theorem C10_witness :
    (∀ k st, st = srtfBody^[k] (srtfInit (copyProcs [mkProcess "P1" 0 1 0])) →
      ∀ j, j < (copyProcs [mkProcess "P1" 0 1 0]).length →
        (getIdx st.procs j).arrival ≤ st.time →
        j < (srtfArrive st.procs st.time st.idx st.ready).1) ∧
    (srtf [mkProcess "P1" 1 1 0, mkProcess "P2" 0 1 0]).map
        (fun r => (r.2, r.1.map fun p => (p.pid, p.completion))) =
      some ([("IDLE", 1), ("P2", 1), ("P1", 1)], [("P1", 3), ("P2", 2)]) := by
  have h := C10_sorted_admission [mkProcess "P1" 0 1 0] (by decide) (by decide)
    2 (by decide) [1, 2, 4, 8] [2, 4, 6, 8] (by decide) (by decide)
  exact ⟨h.1, h.2.2.2.2.2⟩
